import Mathlib

/-!
# mpfr_sub1: magnitude subtraction with correct rounding

A shallow embedding of `src/sub1.c` (and of `src/int_ceil_log2.c`).

* A limb array is a `List Nat`, least significant limb first, so that `p[i]` of the C code
  is the `i`-th element of the list.  Limbs are natural numbers below `2 ^ BITS_PER_MP_LIMB`;
  every limb operation of the C code that can wrap is reduced modulo `2 ^ BITS_PER_MP_LIMB`.
* `BITS_PER_MP_LIMB`, `__gmpfr_emin` and `__gmpfr_emax` are not fixed by `src/`; they are the
  fields of `Env`.
* Exponents (`mp_exp_t`) and limb counts (`mp_size_t`) are unbounded integers: the library keeps
  exponents and precisions far enough from the ends of `long` for the sums of `sub1.c` not to wrap.
* The pointer equality tests `ap == bp`, `ap == cp` only protect the operands from being
  overwritten; operands are immutable values here, so the defensive copies are the identity.
-/

namespace MPFR

/-! ## Data model -/

/-- Modelled from the spec: the rounding modes (section 3, "Rounding mode"); the enumeration
`mp_rnd_t` is declared in a header that is not part of `src/`.  `sub1.c` names `GMP_RNDN`,
`GMP_RNDZ` and `GMP_RNDD`; every mode that is neither to-nearest nor toward-zero for the sign
at hand is treated by the code as rounding away from zero. -/
inductive mp_rnd_t where
  | GMP_RNDN
  | GMP_RNDZ
  | GMP_RNDU
  | GMP_RNDD
  | GMP_RNDA
  deriving DecidableEq, Repr

open mp_rnd_t

/-- The exponent field of a number: one of the three tags of the singular values, or the
exponent of a regular value. -/
inductive mpfr_exp where
  | MPFR_EXP_ZERO
  | MPFR_EXP_NAN
  | MPFR_EXP_INF
  | regular (e : Int)
  deriving DecidableEq, Repr

open mpfr_exp

/-- The number structure: precision in bits, sign (`1` or `-1`), exponent field, limbs of the
significand (least significant first).  A regular number has the value
`sign * (limbs as an integer) * 2 ^ (exponent - BITS_PER_MP_LIMB * number of limbs)`. -/
structure mpfr where
  _mpfr_prec : Nat
  _mpfr_sign : Int
  _mpfr_exp : mpfr_exp
  _mpfr_d : List Nat
  deriving DecidableEq, Repr

/-- The constants that `src/` takes from the build and from the process-wide state. -/
structure Env where
  BITS_PER_MP_LIMB : Nat
  __gmpfr_emin : Int
  __gmpfr_emax : Int
  deriving DecidableEq, Repr

def MPFR_SIGN_POS : Int := 1

def MPFR_SIGN_NEG : Int := -1

def MPFR_PREC (x : mpfr) : Nat := x._mpfr_prec

def MPFR_SIGN (x : mpfr) : Int := x._mpfr_sign

def MPFR_MANT (x : mpfr) : List Nat := x._mpfr_d

/-- The exponent of a regular number (the C macro asserts that the number is regular). -/
def MPFR_GET_EXP (x : mpfr) : Int :=
  match x._mpfr_exp with
  | regular e => e
  | _ => 0

def MPFR_IS_NEG (x : mpfr) : Bool := decide (MPFR_SIGN x < 0)

def MPFR_INT_SIGN (x : mpfr) : Int := if MPFR_SIGN x < 0 then -1 else 1

/-- Number of limbs of the significand: `(prec - 1) / BITS_PER_MP_LIMB + 1`. -/
def MPFR_LIMB_SIZE (w : Nat) (x : mpfr) : Nat := (MPFR_PREC x - 1) / w + 1

def MPFR_LIMB_ONE : Nat := 1

def MPFR_LIMB_HIGHBIT (w : Nat) : Nat := MPFR_LIMB_ONE <<< (w - 1)

def MPFR_LIMB_MASK (s : Nat) : Nat := (MPFR_LIMB_ONE <<< s) - 1

def MP_LIMB_T_MAX (w : Nat) : Nat := 2 ^ w - 1

/-- `MPFR_UNSIGNED_MINUS_MODULO (s, p)`: `s = (-p) mod BITS_PER_MP_LIMB`. -/
def MPFR_UNSIGNED_MINUS_MODULO (w p : Nat) : Nat := (w - p % w) % w

def MPFR_IS_RNDUTEST_OR_RNDDNOTTEST (rnd : mp_rnd_t) (test : Bool) : Bool :=
  (decide (rnd = GMP_RNDU) && test) || (decide (rnd = GMP_RNDD) && !test)

def MPFR_IS_LIKE_RNDZ (rnd : mp_rnd_t) (neg : Bool) : Bool :=
  decide (rnd = GMP_RNDZ) || MPFR_IS_RNDUTEST_OR_RNDDNOTTEST rnd neg

/-- Modelled from the spec: the tag by which the "even" rounding of the fast path reports a
tie; the constant itself is defined in a header that is not part of `src/`.  It only has to
differ from the ordinary ternary values `0`, `1` and `-1`. -/
def MPFR_EVEN_INEX : Int := 2

/-! ## Limb arrays -/

/-- The integer held by a limb array. -/
def limb_value (w : Nat) : List Nat → Nat
  | [] => 0
  | x :: xs => x + 2 ^ w * limb_value w xs

/-- The `n` limbs of the integer `x` (reduced modulo `2 ^ (w * n)`). -/
def limbs_of (w : Nat) : Nat → Nat → List Nat
  | 0, _ => []
  | n + 1, x => x % 2 ^ w :: limbs_of w n (x / 2 ^ w)

/-- The region `{p + off, n}` of a limb array. -/
def MPN (p : List Nat) (off n : Nat) : List Nat := (p.drop off).take n

/-- The array `p` after the limbs `r` have been stored at `p + off`. -/
def MPN_STORE (p : List Nat) (off : Nat) (r : List Nat) : List Nat :=
  p.take off ++ r ++ p.drop (off + r.length)

def MPN_ZERO (n : Nat) : List Nat := List.replicate n 0

/-- GMP `mpn_sub_n`: the `n` low limbs of `{s1, n} - {s2, n}` and the borrow. -/
def mpn_sub_n (w : Nat) (s1 s2 : List Nat) (n : Nat) : List Nat × Nat :=
  (limbs_of w n (limb_value w (s1.take n) + 2 ^ (w * n) - limb_value w (s2.take n)),
   if limb_value w (s1.take n) < limb_value w (s2.take n) then 1 else 0)

/-- GMP `mpn_sub_1`: the `n` low limbs of `{s1, n} - l` and the borrow. -/
def mpn_sub_1 (w : Nat) (s1 : List Nat) (n : Nat) (l : Nat) : List Nat × Nat :=
  (limbs_of w n (limb_value w (s1.take n) + 2 ^ (w * n) - l % 2 ^ (w * n)),
   if limb_value w (s1.take n) < l then 1 else 0)

/-- GMP `mpn_add_1`: the `n` low limbs of `{s1, n} + l` and the carry. -/
def mpn_add_1 (w : Nat) (s1 : List Nat) (n : Nat) (l : Nat) : List Nat × Nat :=
  (limbs_of w n (limb_value w (s1.take n) + l),
   if limb_value w (s1.take n) + l < 2 ^ (w * n) then 0 else 1)

/-- GMP `mpn_rshift`: `{sp, n}` shifted right by `cnt` bits (`0 < cnt < w`), and the bits
shifted out, returned in the high bits of a limb. -/
def mpn_rshift (w : Nat) (sp : List Nat) (n cnt : Nat) : List Nat × Nat :=
  (limbs_of w n (limb_value w (sp.take n) >>> cnt),
   (sp.getD 0 0 <<< (w - cnt)) % 2 ^ w)

/-- Number of bits of `x` when `x < 2 ^ n`: the least `k` with `x < 2 ^ k`. -/
def nbits : Nat → Nat → Nat
  | 0, _ => 0
  | n + 1, x => if x < 2 ^ n then nbits n x else n + 1

/-! ## Collaborators of `mpfr_sub1` that are not part of `src/` -/

/-- The exponent of the unit of the limb array of `x`: a regular `x` has the magnitude
`limb_value (MPFR_MANT x) * 2 ^ MPFR_UNIT_EXP x`. -/
def MPFR_UNIT_EXP (w : Nat) (x : mpfr) : Int :=
  MPFR_GET_EXP x - ((MPFR_LIMB_SIZE w x * w : Nat) : Int)

/-- The magnitude `|x|` of a regular number, counted in units of `2 ^ g` (for `g` at most
`MPFR_UNIT_EXP x`). -/
def mpfr_abs_in (w : Nat) (x : mpfr) (g : Int) : Nat :=
  limb_value w (MPFR_MANT x) * 2 ^ (MPFR_UNIT_EXP w x - g).toNat

/-- The finer of the units of the limb arrays of `b` and `c`. -/
def common_unit (w : Nat) (b c : mpfr) : Int := min (MPFR_UNIT_EXP w b) (MPFR_UNIT_EXP w c)

/-- Modelled from the spec: `mpfr_cmp2`, which is only called in `src/sub1.c`.  It returns the
sign of `|b| - |c|` and, when the magnitudes differ, the cancellation count: the number of
leading bits by which the difference is shifted relative to the larger operand, that is
`EXP (max (|b|, |c|)) - EXP (| |b| - |c| |)`.  Both magnitudes are written as integers over the
unit `2 ^ g` of the finer of the two limb arrays. -/
def mpfr_cmp2 (w : Nat) (b c : mpfr) : Int × Nat :=
  let g : Int := common_unit w b c
  let B : Nat := mpfr_abs_in w b g
  let C : Nat := mpfr_abs_in w c g
  let n : Nat := (max (MPFR_GET_EXP b) (MPFR_GET_EXP c) - g).toNat
  if B = C then (0, 0)
  else if C < B then (1, (MPFR_GET_EXP b - (g + (nbits n (B - C) : Nat))).toNat)
  else (-1, (MPFR_GET_EXP c - (g + (nbits n (C - B) : Nat))).toNat)

/-- Modelled from the spec: `mpfr_powerof2_raw` (not part of `src/`): the significand is the
minimal normalized form, top bit set and every other bit zero. -/
def mpfr_powerof2_raw (w : Nat) (x : mpfr) : Bool :=
  decide (MPFR_MANT x = MPN_ZERO (MPFR_LIMB_SIZE w x - 1) ++ [MPFR_LIMB_HIGHBIT w])

/-- Modelled from the spec: `mpfr_setmax` (not part of `src/`): the largest significand of the
precision of `x`, with exponent `e`. -/
def mpfr_setmax (w : Nat) (x : mpfr) (e : Int) : mpfr :=
  { x with
    _mpfr_exp := regular e
    _mpfr_d := ((MP_LIMB_T_MAX w <<< MPFR_UNSIGNED_MINUS_MODULO w (MPFR_PREC x)) % 2 ^ w) ::
      List.replicate (MPFR_LIMB_SIZE w x - 1) (MP_LIMB_T_MAX w) }

/-- Modelled from the spec: `mpfr_setmin` (not part of `src/`): the minimal normalized
significand, with exponent `e`. -/
def mpfr_setmin (w : Nat) (x : mpfr) (e : Int) : mpfr :=
  { x with
    _mpfr_exp := regular e
    _mpfr_d := MPN_ZERO (MPFR_LIMB_SIZE w x - 1) ++ [MPFR_LIMB_HIGHBIT w] }

/-- Modelled from the spec: `mpfr_overflow` (not part of `src/`), the overflow outcome of the
exponent range policy (section 4.6): the largest finite number when the mode rounds toward
zero for this sign, a signed infinity otherwise; the ternary value has the sign of
`result - exact`. -/
def mpfr_overflow (env : Env) (x : mpfr) (rnd_mode : mp_rnd_t) (sign : Int) : mpfr × Int :=
  if MPFR_IS_LIKE_RNDZ rnd_mode (decide (sign < 0)) then
    ({ mpfr_setmax env.BITS_PER_MP_LIMB x env.__gmpfr_emax with _mpfr_sign := sign },
      if sign > 0 then -1 else 1)
  else
    ({ x with _mpfr_exp := MPFR_EXP_INF, _mpfr_sign := sign }, if sign > 0 then 1 else -1)

/-- Modelled from the spec: `mpfr_underflow` (not part of `src/`), the underflow outcome of the
exponent range policy (section 4.6): a signed zero when the mode rounds toward zero for this
sign, the smallest positive magnitude with that sign otherwise. -/
def mpfr_underflow (env : Env) (x : mpfr) (rnd_mode : mp_rnd_t) (sign : Int) : mpfr × Int :=
  if MPFR_IS_LIKE_RNDZ rnd_mode (decide (sign < 0)) then
    ({ x with _mpfr_exp := MPFR_EXP_ZERO, _mpfr_sign := sign }, if sign > 0 then -1 else 1)
  else
    ({ mpfr_setmin env.BITS_PER_MP_LIMB x env.__gmpfr_emin with _mpfr_sign := sign },
      if sign > 0 then 1 else -1)

/-- Modelled from the spec: `mpfr_nexttozero` (not part of `src/`): steps a number one unit in
the last place toward zero.  A regular power of two moves to the largest significand of the
exponent below, or to zero when it already has the exponent `__gmpfr_emin`. -/
def mpfr_nexttozero (env : Env) (x : mpfr) : mpfr :=
  let w := env.BITS_PER_MP_LIMB
  match x._mpfr_exp with
  | MPFR_EXP_INF => mpfr_setmax w x env.__gmpfr_emax
  | MPFR_EXP_ZERO => mpfr_setmin w { x with _mpfr_sign := - x._mpfr_sign } env.__gmpfr_emin
  | MPFR_EXP_NAN => x
  | regular e =>
    let xn := MPFR_LIMB_SIZE w x
    let sh := MPFR_UNSIGNED_MINUS_MODULO w (MPFR_PREC x)
    let xp := (mpn_sub_1 w (MPFR_MANT x) xn (MPFR_LIMB_ONE <<< sh)).1
    if xp.getD (xn - 1) 0 >>> (w - 1) = 0 then
      if e = env.__gmpfr_emin then { x with _mpfr_d := xp, _mpfr_exp := MPFR_EXP_ZERO }
      else mpfr_setmax w x (e - 1)
    else { x with _mpfr_d := xp }

/-- Modelled from the spec: the macro `MPFR_RNDRAW_EVEN` (defined in a header that is not part
of `src/`): rounds the significand `{srcp, sprec}` to `destprec` bits in the direction `rnd`
for a number of sign `sign`, "using an even rounding rule that also tracks whether this
truncation was itself exact" (section 4.1).  Returns the limbs of the destination, the ternary
value (`0` exact, `-sign` truncated, `sign` rounded away, `-MPFR_EVEN_INEX * sign` a tie
truncated to the even neighbour, `MPFR_EVEN_INEX * sign` a tie rounded away to the even
neighbour) and whether adding one unit carried out of the top limb, which is when the macro
runs the overflow handler of its caller. -/
def MPFR_RNDRAW_EVEN (w destprec : Nat) (srcp : List Nat) (sprec : Nat) (rnd : mp_rnd_t)
    (sign : Int) : List Nat × Int × Bool :=
  let srcs := (sprec + w - 1) / w
  let dests := (destprec + w - 1) / w
  if sprec ≤ destprec then
    (MPN_ZERO (dests - srcs) ++ MPN srcp 0 srcs, 0, false)
  else
    let sh := MPFR_UNSIGNED_MINUS_MODULO w destprec
    let sp := MPN srcp (srcs - dests) dests
    let ulp := MPFR_LIMB_ONE <<< sh
    -- the bits of the source below the destination precision: rounding bit and sticky bits
    let low := limb_value w (MPN srcp 0 (srcs - dests))
      + 2 ^ (w * (srcs - dests)) * (sp.getD 0 0 &&& (ulp - 1))
    let half := 2 ^ (w * (srcs - dests) + sh - 1)
    let rb := low / half
    let sb := low % half
    let trunc := MPN_STORE sp 0 [sp.getD 0 0 - (sp.getD 0 0 &&& (ulp - 1))]
    let add := mpn_add_1 w sp dests ulp
    let addp := if add.2 ≠ 0 then MPN_ZERO (dests - 1) ++ [MPFR_LIMB_HIGHBIT w] else add.1
    let addoneulp := MPN_STORE addp 0 [addp.getD 0 0 - (addp.getD 0 0 &&& (ulp - 1))]
    if rnd = GMP_RNDN then
      if rb = 0 then (trunc, if low ≠ 0 then -sign else 0, false)
      else if sb = 0 then
        if sp.getD 0 0 &&& ulp = 0 then (trunc, -MPFR_EVEN_INEX * sign, false)
        else (addoneulp, MPFR_EVEN_INEX * sign, decide (add.2 ≠ 0))
      else (addoneulp, sign, decide (add.2 ≠ 0))
    else if MPFR_IS_LIKE_RNDZ rnd (decide (sign < 0)) ∨ low = 0 then
      (trunc, if low ≠ 0 then -sign else 0, false)
    else (addoneulp, sign, decide (add.2 ≠ 0))

/-! ## `mpfr_sub1` (src/sub1.c) -/

/-- The targets of the `goto`s of the rounding stage (lines 306-471); `truncate` carries the
value assigned to `inexact` before the jump. -/
inductive Jump where
  | sub_one_ulp
  | add_one_ulp
  | truncate (inexact : Int)
  deriving DecidableEq, Repr

/-- Lines 95-99: `MPFR_SET_EXP (a, MPFR_GET_EXP (b))`, then `MPFR_RNDRAW_EVEN` with the
overflow handler `if (++MPFR_EXP (a) > __gmpfr_emax) inexact = mpfr_overflow (...)`, which
the macro runs when adding one unit carried out of the top limb.  Returns the destination and
`inexact`. -/
def sub1_small_round (env : Env) (a b : mpfr) (rnd_mode : mp_rnd_t) : mpfr × Int :=
  let w := env.BITS_PER_MP_LIMB
  let r := MPFR_RNDRAW_EVEN w (MPFR_PREC a) (MPFR_MANT b) (MPFR_PREC b) rnd_mode (MPFR_SIGN a)
  if r.2.2 then
    if MPFR_GET_EXP b + 1 > env.__gmpfr_emax then
      mpfr_overflow env { a with _mpfr_exp := regular (MPFR_GET_EXP b + 1), _mpfr_d := r.1 }
        rnd_mode (MPFR_SIGN a)
    else ({ a with _mpfr_exp := regular (MPFR_GET_EXP b + 1), _mpfr_d := r.1 }, r.2.1)
  else ({ a with _mpfr_exp := regular (MPFR_GET_EXP b), _mpfr_d := r.1 }, r.2.1)

/-- Lines 101-141: the correction of the rounding of `b` alone for the part `c` that was
ignored. -/
def sub1_small_adjust (env : Env) (a : mpfr) (inexact : Int) (rnd_mode : mp_rnd_t) :
    mpfr × Int :=
  if inexact = 0 then
    if MPFR_IS_LIKE_RNDZ rnd_mode (MPFR_IS_NEG a) then
      (mpfr_nexttozero env a, - MPFR_INT_SIGN (mpfr_nexttozero env a))
    else (a, MPFR_INT_SIGN a)
  else if inexact = MPFR_EVEN_INEX * MPFR_INT_SIGN a then
    (mpfr_nexttozero env a, - MPFR_INT_SIGN (mpfr_nexttozero env a))
  else (a, inexact)

/-- Lines 83-142: `c` is too small to overlap the destination.  `a` already carries the sign
of the result; `b` is the operand of larger magnitude. -/
def sub1_small (env : Env) (a b : mpfr) (rnd_mode : mp_rnd_t) : mpfr × Int :=
  sub1_small_adjust env (sub1_small_round env a b rnd_mode).1
    (sub1_small_round env a b rnd_mode).2 rnd_mode

/-- Lines 169-180: the shift of `c`.  `diff_exp` and `cancel` are `unsigned long` (64 bits),
`UINT_MAX` is `2 ^ 32 - 1`; the second formula goes through an `int`. -/
def sub1_shift_c (w : Nat) (diff_exp : Int) (cancel : Nat) : Int :=
  if (2 ^ 32 - 1) % w = w - 1 ∧ (2 ^ 32 - 1) % w > 0 then
    ((diff_exp - (cancel : Int)) % 2 ^ 64) % (w : Int)
  else
    let s : Int := ((diff_exp - ((cancel % w : Nat) : Int)) % 2 ^ 64 + 2 ^ 31) % 2 ^ 32 - 2 ^ 31
    Int.tmod (s + w) w

/-- Line 174 alone: `shift_c = (diff_exp - cancel) % BITS_PER_MP_LIMB`, computed on
`unsigned long` (64 bits), so that the difference is reduced modulo `2 ^ 64` first. -/
def sub1_shift_c_unsigned (w : Nat) (diff_exp : Int) (cancel : Nat) : Int :=
  ((diff_exp - (cancel : Int)) % 2 ^ 64) % (w : Int)

/-- Lines 177-178 alone: `shift_c = diff_exp - (cancel % BITS_PER_MP_LIMB)`, an `unsigned long`
stored into an `int` (32 bits, two's complement), then
`shift_c = (shift_c + BITS_PER_MP_LIMB) % BITS_PER_MP_LIMB` on `int`, where `%` truncates
toward zero. -/
def sub1_shift_c_fallback (w : Nat) (diff_exp : Int) (cancel : Nat) : Int :=
  let s : Int := ((diff_exp - ((cancel % w : Nat) : Int)) % 2 ^ 64 + 2 ^ 31) % 2 ^ 32 - 2 ^ 31
  Int.tmod (s + w) w

/-- Lines 235-249: copy `high(b)` into `a`. -/
def sub1_copy_high_b (an cancel1 : Nat) (bp : List Nat) (bn : Nat) : List Nat :=
  if an + cancel1 ≤ bn then MPN bp (bn - (an + cancel1)) an
  else if cancel1 < bn then MPN_ZERO (an + cancel1 - bn) ++ MPN bp 0 (bn - cancel1)
  else MPN_ZERO an

/-- Lines 255-292: subtract `high(c)` from the window `ap`. -/
def sub1_sub_high_c (w an : Nat) (cancel2 : Int) (ap cp : List Nat) (cn : Int) : List Nat :=
  if (an : Int) + cancel2 > 0 then
    if cancel2 ≥ 0 then
      if (an : Int) + cancel2 ≤ cn then
        (mpn_sub_n w ap (MPN cp (cn - (an + cancel2)).toNat an) an).1
      else
        let off := ((an : Int) + cancel2 - cn).toNat
        if cn > cancel2 then
          MPN_STORE ap off (mpn_sub_n w (MPN ap off (cn - cancel2).toNat) cp (cn - cancel2).toNat).1
        else ap
    else
      let r : List Nat × Nat :=
        if (an : Int) + cancel2 ≤ cn then
          let s := mpn_sub_n w ap (MPN cp (cn - (an + cancel2)).toNat (an + cancel2).toNat)
            (an + cancel2).toNat
          (MPN_STORE ap 0 s.1, s.2)
        else
          let off := ((an : Int) + cancel2 - cn).toNat
          let s := mpn_sub_n w (MPN ap off cn.toNat) cp cn.toNat
          (MPN_STORE ap off s.1, s.2)
      let off2 := ((an : Int) + cancel2).toNat
      MPN_STORE r.1 off2 (mpn_sub_1 w (MPN r.1 off2 (-cancel2).toNat) (-cancel2).toNat r.2).1
  else ap

/-- Lines 456-471: the code after the loop on the low limbs (the even rounding rule). -/
def sub1_even_rule (rnd_mode : mp_rnd_t) (sh : Nat) (ap : List Nat) (down is_exact : Bool) :
    Jump :=
  if rnd_mode = GMP_RNDN ∧ is_exact = false then
    if (ap.getD 0 0 >>> sh) &&& 1 ≠ 0 then
      if down then Jump.sub_one_ulp else Jump.add_one_ulp
    else Jump.truncate (if down then 1 else -1)
  else Jump.truncate 0

/-- Lines 351-471: the loop on the low limbs of `b` and `c`, followed by the even rounding
rule.  The first argument bounds the number of iterations that remain; the loop runs
`max bn cn` times at most, since every iteration decrements whichever of `bn`, `cn` is
positive, and the call in `sub1_round` passes exactly that bound. -/
def sub1_loop (w : Nat) (rnd_mode : mp_rnd_t) (sh : Nat) (ap bp cp : List Nat) (cn0 : Int) :
    Nat → Int → Int → Nat → Bool → Bool → Jump
  | 0, _, _, _, down, is_exact => sub1_even_rule rnd_mode sh ap down is_exact
  | fuel + 1, bn, cn, k, down, is_exact =>
    if bn > 0 ∨ cn > 0 then
      -- get next limbs
      let bb0 : Nat := if bn > 0 then bp.getD (bn - 1).toNat 0 else 0
      let bn1 : Int := if bn > 0 then bn - 1 else bn
      let cc0 : Nat := if cn > 0 ∧ cn ≤ cn0 then cp.getD (cn - 1).toNat 0 else 0
      let cn1 : Int := if cn > 0 then cn - 1 else cn
      -- down is set when low(b) < low(c)
      let down1 : Bool := if down = false then decide (bb0 < cc0) else down
      let special : Bool := decide (rnd_mode = GMP_RNDN) && decide (sh = 0) && decide (k = 0)
      let half := MPFR_LIMB_HIGHBIT w
      let is_exact1 : Bool := if special then decide (bb0 = cc0) else is_exact
      let bb : Nat :=
        if special then
          if down1 then (if cc0 ≥ half then bb0 else (bb0 + half) % 2 ^ w)
          else (if cc0 < half then bb0 else (bb0 + 2 ^ w - half) % 2 ^ w)
        else bb0
      let cc : Nat :=
        if special then
          if down1 then (if cc0 ≥ half then (cc0 + 2 ^ w - half) % 2 ^ w else cc0)
          else (if cc0 < half then (cc0 + half) % 2 ^ w else cc0)
        else cc0
      if bb < cc then
        if rnd_mode = GMP_RNDZ then Jump.sub_one_ulp
        else if rnd_mode ≠ GMP_RNDN then Jump.truncate 1
        else if is_exact1 ∧ sh = 0 then
          if k ≠ 0 then Jump.truncate 1
          else sub1_loop w rnd_mode sh ap bp cp cn0 fuel bn1 cn1 1 down1 is_exact1
        else if down1 ∧ sh = 0 then Jump.sub_one_ulp
        else Jump.truncate (if is_exact1 then 1 else -1)
      else if bb > cc then
        if rnd_mode = GMP_RNDZ then Jump.truncate (-1)
        else if rnd_mode ≠ GMP_RNDN then Jump.add_one_ulp
        else if is_exact1 then Jump.truncate (-1)
        else if down1 then Jump.truncate 1
        else Jump.add_one_ulp
      else sub1_loop w rnd_mode sh ap bp cp cn0 fuel bn1 cn1 1 down1 is_exact1
    else sub1_even_rule rnd_mode sh ap down is_exact

/-- Lines 487-493: the label `truncate`; returns the window, `inexact` and `add_exp`. -/
def sub1_truncate (w an : Nat) (ap : List Nat) (inexact : Int) (add_exp : Nat) :
    List Nat × Int × Nat :=
  if ap.getD (an - 1) 0 >>> (w - 1) = 0 then
    -- case 1 - epsilon
    (MPN_STORE ap (an - 1) [MPFR_LIMB_HIGHBIT w], inexact, 1)
  else (ap, inexact, add_exp)

/-- Lines 473-493: the labels `sub_one_ulp`, `add_one_ulp` and `truncate`; returns the window,
`inexact` and `add_exp`. -/
def sub1_labels (w an sh : Nat) (ap : List Nat) : Jump → List Nat × Int × Nat
  | Jump.sub_one_ulp => ((mpn_sub_1 w ap an (MPFR_LIMB_ONE <<< sh)).1, -1, 0)
  | Jump.add_one_ulp =>
    let r := mpn_add_1 w ap an (MPFR_LIMB_ONE <<< sh)
    if r.2 ≠ 0 then
      -- result is a power of 2: 11111111111111 + 1 = 1000000000000000
      sub1_truncate w an (MPN_STORE r.1 (an - 1) [MPFR_LIMB_HIGHBIT w]) 1 1
    else sub1_truncate w an r.1 1 0
  | Jump.truncate inexact => sub1_truncate w an ap inexact 0

/-- Lines 495-537: the label `end_of_sub`.  `a` holds the sign of the result, `ap` is the
rounded window, `rnd_mode` the mode after the reduction of line 326.  In the branch
`cancel != 0` the unsigned update `cancel -= add_exp` cannot wrap (`add_exp` is 0 or 1). -/
def sub1_end_of_sub (env : Env) (a b : mpfr) (cancel : Nat) (rnd_mode : mp_rnd_t)
    (ap : List Nat) (inexact : Int) (add_exp : Nat) : mpfr × Int :=
  let w := env.BITS_PER_MP_LIMB
  let a1 : mpfr := { a with _mpfr_d := ap }
  if cancel ≠ 0 then
    let exp_a : Int := MPFR_GET_EXP b - ((cancel - add_exp : Nat) : Int)
    if exp_a < env.__gmpfr_emin then
      let rnd1 : mp_rnd_t :=
        if rnd_mode = GMP_RNDN ∧
            (exp_a < env.__gmpfr_emin - 1 ∨ (inexact ≥ 0 ∧ mpfr_powerof2_raw w a1 = true))
        then GMP_RNDZ else rnd_mode
      mpfr_underflow env a1 rnd1 (MPFR_SIGN a1)
    else ({ a1 with _mpfr_exp := regular exp_a }, inexact * MPFR_INT_SIGN a1)
  else
    let exp_b : Int := MPFR_GET_EXP b
    if add_exp ≠ 0 ∧ exp_b = env.__gmpfr_emax then
      mpfr_overflow env a1 rnd_mode (MPFR_SIGN a1)
    else ({ a1 with _mpfr_exp := regular (exp_b + add_exp) }, inexact * MPFR_INT_SIGN a1)

/-- Lines 146-150: `shift_b`, the right shift that aligns `b` with the result. -/
def sub1_shift_b (w cancel : Nat) : Nat := MPFR_UNSIGNED_MINUS_MODULO w cancel

/-- Line 150: `cancel1 = (cancel + shift_b) / BITS_PER_MP_LIMB`. -/
def sub1_cancel1 (w cancel : Nat) : Nat := (cancel + sub1_shift_b w cancel) / w

/-- Lines 153-167: the limbs `bp` of `b` aligned with the result. -/
def sub1_bp (w : Nat) (b : mpfr) (cancel : Nat) : List Nat :=
  if sub1_shift_b w cancel = 0 then MPFR_MANT b
  else (mpn_rshift w (MPFR_MANT b) (MPFR_LIMB_SIZE w b) (sub1_shift_b w cancel)).2 ::
    (mpn_rshift w (MPFR_MANT b) (MPFR_LIMB_SIZE w b) (sub1_shift_b w cancel)).1

/-- Lines 148-167: the number `bn` of limbs of `bp`. -/
def sub1_bn (w : Nat) (b : mpfr) (cancel : Nat) : Nat :=
  if sub1_shift_b w cancel = 0 then MPFR_LIMB_SIZE w b else MPFR_LIMB_SIZE w b + 1

/-- Lines 144 and 172-180: `shift_c` for the operands `b` and `c`. -/
def sub1_shift_c_of (w : Nat) (b c : mpfr) (cancel : Nat) : Nat :=
  (sub1_shift_c w (MPFR_GET_EXP b - MPFR_GET_EXP c) cancel).toNat

/-- Lines 182-196: the limbs `cp` of `c` aligned with the result. -/
def sub1_cp (w : Nat) (b c : mpfr) (cancel : Nat) : List Nat :=
  if sub1_shift_c_of w b c cancel = 0 then MPFR_MANT c
  else (mpn_rshift w (MPFR_MANT c) (MPFR_LIMB_SIZE w c) (sub1_shift_c_of w b c cancel)).2 ::
    (mpn_rshift w (MPFR_MANT c) (MPFR_LIMB_SIZE w c) (sub1_shift_c_of w b c cancel)).1

/-- Lines 171-196: the number `cn` of limbs of `cp`. -/
def sub1_cn (w : Nat) (b c : mpfr) (cancel : Nat) : Int :=
  if sub1_shift_c_of w b c cancel = 0 then MPFR_LIMB_SIZE w c else MPFR_LIMB_SIZE w c + 1

/-- Line 210: `cancel2 = (long int) (cancel - (diff_exp - shift_c)) / BITS_PER_MP_LIMB`. -/
def sub1_cancel2 (w : Nat) (b c : mpfr) (cancel : Nat) : Int :=
  Int.tdiv ((cancel : Int) - (MPFR_GET_EXP b - MPFR_GET_EXP c - sub1_shift_c_of w b c cancel)) w

/-- Lines 230-292: the window `ap[0..an-1]` holding `high(b) - high(c)`. -/
def sub1_high (w : Nat) (a b c : mpfr) (cancel : Nat) : List Nat :=
  sub1_sub_high_c w (MPFR_LIMB_SIZE w a) (sub1_cancel2 w b c cancel)
    (sub1_copy_high_b (MPFR_LIMB_SIZE w a) (sub1_cancel1 w cancel) (sub1_bp w b cancel)
      (sub1_bn w b cancel))
    (sub1_cp w b c cancel) (sub1_cn w b c cancel)

/-- Line 301: `sh`, the number of unused low bits of `ap[0]`. -/
def sub1_sh (w : Nat) (a : mpfr) : Nat := MPFR_LIMB_SIZE w a * w - MPFR_PREC a

/-- Line 303: `carry = ap[0] & MPFR_LIMB_MASK (sh)`. -/
def sub1_carry (w : Nat) (a b c : mpfr) (cancel : Nat) : Nat :=
  (sub1_high w a b c cancel).getD 0 0 &&& MPFR_LIMB_MASK (sub1_sh w a)

/-- Line 304: the window after `ap[0] -= carry`. -/
def sub1_masked (w : Nat) (a b c : mpfr) (cancel : Nat) : List Nat :=
  MPN_STORE (sub1_high w a b c cancel) 0
    [(sub1_high w a b c cancel).getD 0 0 - sub1_carry w a b c cancel]

/-- Lines 323-326: in a directed mode, `rnd_mode` is set to `GMP_RNDZ` iff the mode rounds
toward zero for the sign of the result. -/
def sub1_rnd_mode (a : mpfr) (rnd_mode0 : mp_rnd_t) : mp_rnd_t :=
  if rnd_mode0 ≠ GMP_RNDN ∧ MPFR_IS_RNDUTEST_OR_RNDDNOTTEST rnd_mode0 (MPFR_IS_NEG a) = true
  then GMP_RNDZ else rnd_mode0

/-- Lines 340-471: the loop on the low limbs started from the state that lines 306-344 leave:
`is_exact` and `down` as set under round-to-nearest with `sh > 0`, `bn -= an + cancel1`,
`cn0 = cn`, `cn -= an + cancel2`. -/
def sub1_low (w : Nat) (a b c : mpfr) (cancel : Nat) (rnd_mode0 : mp_rnd_t) : Jump :=
  let sh := sub1_sh w a
  let carry := sub1_carry w a b c cancel
  let is_exact : Bool := if rnd_mode0 = GMP_RNDN ∧ sh ≠ 0 then decide (carry = 0) else true
  let down : Bool :=
    if rnd_mode0 = GMP_RNDN ∧ sh ≠ 0 then decide (carry < MPFR_LIMB_ONE <<< (sh - 1)) else false
  let bnl : Int := (sub1_bn w b cancel : Int) - ((MPFR_LIMB_SIZE w a : Int) + sub1_cancel1 w cancel)
  let cnl : Int := sub1_cn w b c cancel - ((MPFR_LIMB_SIZE w a : Int) + sub1_cancel2 w b c cancel)
  sub1_loop w (sub1_rnd_mode a rnd_mode0) sh (sub1_masked w a b c cancel) (sub1_bp w b cancel)
    (sub1_cp w b c cancel) (sub1_cn w b c cancel) (max bnl cnl).toNat bnl cnl 0 down is_exact

/-- Lines 306-471: the rounding decision, as the label that the code jumps to. -/
def sub1_jump (w : Nat) (a b c : mpfr) (cancel : Nat) (rnd_mode0 : mp_rnd_t) : Jump :=
  let sh := sub1_sh w a
  let carry := sub1_carry w a b c cancel
  if rnd_mode0 = GMP_RNDN then
    if sh ≠ 0 ∧ carry > MPFR_LIMB_ONE <<< (sh - 1) then Jump.add_one_ulp
    else if sh ≠ 0 ∧ 0 < carry ∧ carry < MPFR_LIMB_ONE <<< (sh - 1) then Jump.truncate (-1)
    else sub1_low w a b c cancel rnd_mode0
  else if carry ≠ 0 then
    if sub1_rnd_mode a rnd_mode0 = GMP_RNDZ then Jump.truncate (-1) else Jump.add_one_ulp
  else sub1_low w a b c cancel rnd_mode0

/-- Lines 144-537: the general path.  `a` already carries the sign of the result, `b` is the
operand of larger magnitude, `cancel` the count stored by `mpfr_cmp2`. -/
def sub1_general (env : Env) (a b c : mpfr) (cancel : Nat) (rnd_mode0 : mp_rnd_t) : mpfr × Int :=
  let w := env.BITS_PER_MP_LIMB
  let r := sub1_labels w (MPFR_LIMB_SIZE w a) (sub1_sh w a) (sub1_masked w a b c cancel)
    (sub1_jump w a b c cancel rnd_mode0)
  sub1_end_of_sub env a b cancel (sub1_rnd_mode a rnd_mode0) r.1 r.2.1 r.2.2

/-- Lines 83-537: the code after the swap.  `a` carries the sign of the result, `|b| > |c|`
and `cancel` is the count stored by `mpfr_cmp2`. -/
def sub1_ordered (env : Env) (a b c : mpfr) (cancel : Nat) (rnd_mode : mp_rnd_t) : mpfr × Int :=
  if MPFR_GET_EXP c ≤ MPFR_GET_EXP b - ((max (MPFR_PREC a) (MPFR_PREC b) : Nat) : Int) - 2
  then sub1_small env a b rnd_mode
  else sub1_general env a b c cancel rnd_mode

/-- Lines 31-538: `mpfr_sub1 (a, b, c, rnd_mode)`; returns the destination and the ternary
value.  Of the destination passed in, only the precision is read. -/
def mpfr_sub1 (env : Env) (a b c : mpfr) (rnd_mode : mp_rnd_t) : mpfr × Int :=
  let w := env.BITS_PER_MP_LIMB
  let cmp := mpfr_cmp2 w b c
  if cmp.1 = 0 then
    ({ a with
        _mpfr_sign := if rnd_mode = GMP_RNDD then MPFR_SIGN_NEG else MPFR_SIGN_POS
        _mpfr_exp := MPFR_EXP_ZERO }, 0)
  else if cmp.1 < 0 then
    -- lines 74-79: MPFR_SET_OPPOSITE_SIGN (a, b); swap b and c so that |b| > |c|
    sub1_ordered env { a with _mpfr_sign := - MPFR_SIGN b } c b cmp.2 rnd_mode
  else
    -- line 81: MPFR_SET_SAME_SIGN (a, b)
    sub1_ordered env { a with _mpfr_sign := MPFR_SIGN b } b c cmp.2 rnd_mode

/-! ## `__gmpfr_int_ceil_log2` (src/int_ceil_log2.c) -/

/-- Modelled from the spec: `count_leading_zeros` (a macro of `longlong.h`, which is not part
of `src/`), "a leading-zero-count primitive over a single word" (section 6): the number of
zero bits above the most significant set bit of the limb `x`, found by scanning the `w` bits
of the limb from the top. -/
def count_leading_zeros : Nat → Nat → Nat
  | 0, _ => 0
  | w + 1, x => if x / 2 ^ w % 2 = 1 then 0 else count_leading_zeros w x + 1

/-- Lines 25-41: `__gmpfr_int_ceil_log2 (n)`.  `MPFR_ASSERTN` ends the program when its
condition fails: the result is then `none`.  The assertion of line 37 fails when `n - 1` does
not fit in a limb. -/
def __gmpfr_int_ceil_log2 (w : Nat) (n : Nat) : Option Nat :=
  if n = 1 then some 0
  else if ¬ (n > 1) then none
  else
    let limb := (n - 1) % 2 ^ w
    if limb ≠ n - 1 then none
    else some (w - count_leading_zeros w limb)

/-! ## Well-formed inputs -/

/-- A regular number at rest (section 3 of the specification): the exponent field holds an
exponent, the sign is `1` or `-1`, the limb array has `MPFR_LIMB_SIZE` limbs, each below
`2 ^ w`, the most significant bit of the top limb is set, and the bits of the lowest limb
beyond the precision are zero. -/
def mpfr_regular (w : Nat) (x : mpfr) : Prop :=
  x._mpfr_exp = regular (MPFR_GET_EXP x) ∧
  (MPFR_SIGN x = MPFR_SIGN_POS ∨ MPFR_SIGN x = MPFR_SIGN_NEG) ∧
  1 ≤ MPFR_PREC x ∧
  (MPFR_MANT x).length = MPFR_LIMB_SIZE w x ∧
  (∀ l ∈ MPFR_MANT x, l < 2 ^ w) ∧
  (MPFR_MANT x).getD (MPFR_LIMB_SIZE w x - 1) 0 >>> (w - 1) = 1 ∧
  (MPFR_MANT x).getD 0 0 &&& MPFR_LIMB_MASK (MPFR_LIMB_SIZE w x * w - MPFR_PREC x) = 0

instance (w : Nat) (x : mpfr) : Decidable (mpfr_regular w x) := by
  unfold mpfr_regular; infer_instance

/-- The limb widths for which the first formula for `shift_c` (line 174) is selected or both
formulas give zero: the positive divisors of `2 ^ 32`, among them 32 and 64. -/
def limb_width_ok (w : Nat) : Prop := 0 < w ∧ w ∣ 2 ^ 32

instance (w : Nat) : Decidable (limb_width_ok w) := by
  unfold limb_width_ok; infer_instance

/-! ## The specification: exact difference and correct rounding

These definitions follow the words of the specification (sections 6 and 8), not the code.
Magnitudes are integers over the unit `2 ^ common_unit b c`. -/

/-- Sign of an integer: `-1`, `0` or `1`. -/
def int_sign (x : Int) : Int := if x < 0 then -1 else if 0 < x then 1 else 0

/-- The magnitude `| |b| - |c| |` of the exact difference, in units of `2 ^ common_unit b c`. -/
def exact_abs_diff (w : Nat) (b c : mpfr) : Nat :=
  if mpfr_abs_in w c (common_unit w b c) < mpfr_abs_in w b (common_unit w b c)
  then mpfr_abs_in w b (common_unit w b c) - mpfr_abs_in w c (common_unit w b c)
  else mpfr_abs_in w c (common_unit w b c) - mpfr_abs_in w b (common_unit w b c)

/-- The sign of the exact difference `sign(b) * (|b| - |c|)` when it is not zero. -/
def exact_sign (w : Nat) (b c : mpfr) : Int :=
  if mpfr_abs_in w c (common_unit w b c) < mpfr_abs_in w b (common_unit w b c)
  then MPFR_SIGN b else - MPFR_SIGN b

/-- A bound on the number of bits of the magnitudes of `b` and `c` over the common unit. -/
def exact_bits_bound (w : Nat) (b c : mpfr) : Nat :=
  (max (MPFR_GET_EXP b) (MPFR_GET_EXP c) - common_unit w b c).toNat

/-- The exponent of the exact difference: `2 ^ (e - 1) ≤ | |b| - |c| | < 2 ^ e`. -/
def exact_exp (w : Nat) (b c : mpfr) : Int :=
  common_unit w b c + (nbits (exact_bits_bound w b c) (exact_abs_diff w b c) : Nat)

/-- The number of bits of the exact difference over the common unit. -/
def exact_bits (w : Nat) (b c : mpfr) : Nat :=
  nbits (exact_bits_bound w b c) (exact_abs_diff w b c)

/-- The exact difference is representable at the precision `p`: it has at most `p` bits, or
its bits below the leading `p` ones are all zero. -/
def representable_at (p w : Nat) (b c : mpfr) : Prop :=
  exact_abs_diff w b c % 2 ^ (exact_bits w b c - p) = 0

instance (p w : Nat) (b c : mpfr) : Decidable (representable_at p w b c) := by
  unfold representable_at; infer_instance

/-- The significand of `p` bits of an exact difference that is representable at the
precision `p`. -/
def exact_significand (p w : Nat) (b c : mpfr) : Nat :=
  exact_abs_diff w b c * 2 ^ (p - exact_bits w b c) / 2 ^ (exact_bits w b c - p)

/-- The exact difference lies exactly halfway between two consecutive numbers representable at
the precision `p`: below its leading `p` bits it has a one followed by zeros. -/
def halfway_at (p w : Nat) (b c : mpfr) : Prop :=
  2 * (exact_abs_diff w b c % 2 ^ (exact_bits w b c - p)) = 2 ^ (exact_bits w b c - p)

instance (p w : Nat) (b c : mpfr) : Decidable (halfway_at p w b c) := by
  unfold halfway_at; infer_instance

/-- The direction of a rounding on magnitudes. -/
inductive round_dir where
  | nearest
  | toward_zero
  | away
  deriving DecidableEq, Repr

/-- The direction on magnitudes that a rounding mode requires for a result of the given sign. -/
def dir_of_mode (rnd : mp_rnd_t) (neg : Bool) : round_dir :=
  match rnd with
  | GMP_RNDN => round_dir.nearest
  | GMP_RNDZ => round_dir.toward_zero
  | GMP_RNDU => if neg then round_dir.toward_zero else round_dir.away
  | GMP_RNDD => if neg then round_dir.away else round_dir.toward_zero
  | GMP_RNDA => round_dir.away

/-- Correct rounding of the positive integer `D` of `L` bits to `p` bits: the significand `M`
(`2 ^ (p - 1) ≤ M < 2 ^ p`), the number `L'` of bits of the rounded integer (the value is
`M * 2 ^ (L' - p)`), and the sign of `rounded - D`.  Under `nearest` a tie goes to the even
significand. -/
def round_to_prec (p : Nat) (dir : round_dir) (L D : Nat) : Nat × Nat × Int :=
  if L ≤ p then (D * 2 ^ (p - L), L, 0)
  else
    let q := D / 2 ^ (L - p)
    let r := D % 2 ^ (L - p)
    let half := 2 ^ (L - p - 1)
    let up : Bool :=
      match dir with
      | round_dir.away => decide (r ≠ 0)
      | round_dir.toward_zero => false
      | round_dir.nearest => decide (half < r) || (decide (r = half) && decide (q % 2 = 1))
    let M := if up then q + 1 else q
    let t : Int := if r = 0 then 0 else if up then 1 else -1
    if M = 2 ^ p then (2 ^ (p - 1), L + 1, t) else (M, L, t)

/-- What the specification requires of the destination: a kind, a sign and, for a regular
result, an exponent and a significand of `p` bits. -/
inductive spec_value where
  | zero (sign : Int)
  | inf (sign : Int)
  | regular (sign : Int) (e : Int) (M : Nat)
  deriving DecidableEq, Repr

/-- The correctly rounded value of `sign(b) * (|b| - |c|)` at precision `p`, with the outcome of
the exponent range policy when the rounded exponent lies outside `[emin, emax]`: on overflow the
largest finite number when rounding toward zero and an infinity otherwise; on underflow zero
when rounding toward zero, the smallest magnitude `2 ^ (emin - 1)` when rounding away, and
under `nearest` zero exactly when the exact magnitude is at most `2 ^ (emin - 2)`. -/
def correctly_rounded (env : Env) (p : Nat) (b c : mpfr) (rnd : mp_rnd_t) : spec_value :=
  let w := env.BITS_PER_MP_LIMB
  let D := exact_abs_diff w b c
  if D = 0 then spec_value.zero (if rnd = GMP_RNDD then -1 else 1)
  else
    let s := exact_sign w b c
    let dir := dir_of_mode rnd (decide (s < 0))
    let L := nbits (exact_bits_bound w b c) D
    let r := round_to_prec p dir L D
    let e : Int := common_unit w b c + (r.2.1 : Int)
    if env.__gmpfr_emax < e then
      if dir = round_dir.toward_zero then spec_value.regular s env.__gmpfr_emax (2 ^ p - 1)
      else spec_value.inf s
    else if e < env.__gmpfr_emin then
      let h : Int := env.__gmpfr_emin - 2 - common_unit w b c
      let to_zero : Bool :=
        match dir with
        | round_dir.toward_zero => true
        | round_dir.away => false
        | round_dir.nearest => if 0 ≤ h then decide (D ≤ 2 ^ h.toNat) else decide (D * 2 ^ (-h).toNat ≤ 1)
      if to_zero then spec_value.zero s else spec_value.regular s env.__gmpfr_emin (2 ^ (p - 1))
    else spec_value.regular s e r.1

/-- The destination read as a value of the specification: kind, sign, and for a regular
number the exponent and the significand of `MPFR_PREC` bits (the limb array without the unused
low bits). -/
def spec_value_of (w : Nat) (x : mpfr) : spec_value :=
  match x._mpfr_exp with
  | MPFR_EXP_ZERO => spec_value.zero (MPFR_SIGN x)
  | MPFR_EXP_INF => spec_value.inf (MPFR_SIGN x)
  | MPFR_EXP_NAN => spec_value.inf 0
  | regular e =>
    spec_value.regular (MPFR_SIGN x) e
      (limb_value w (MPFR_MANT x) / 2 ^ (MPFR_LIMB_SIZE w x * w - MPFR_PREC x))

/-- Sign of `destination - s * (|b| - |c|)` for a sign `s`: both numbers are written as
integers over a unit that divides the unit of the destination and the common unit of the
operands.  An infinity compares by its sign, a zero by the sign of `- s * (|b| - |c|)`. -/
def sign_dest_minus (w : Nat) (s : Int) (b c dest : mpfr) : Int :=
  let g0 := common_unit w b c
  match dest._mpfr_exp with
  | MPFR_EXP_NAN => 0
  | MPFR_EXP_INF => if MPFR_SIGN dest < 0 then -1 else 1
  | MPFR_EXP_ZERO =>
    int_sign (- (s * ((mpfr_abs_in w b g0 : Int) - (mpfr_abs_in w c g0 : Int))))
  | regular _ =>
    let g := min g0 (MPFR_UNIT_EXP w dest)
    int_sign (MPFR_SIGN dest * (mpfr_abs_in w dest g : Int)
      - s * ((mpfr_abs_in w b g : Int) - (mpfr_abs_in w c g : Int)))

/-- Sign of `destination - exact`, where `exact = sign(b) * (|b| - |c|)`. -/
def sign_dest_minus_exact (w : Nat) (b c dest : mpfr) : Int :=
  sign_dest_minus w (MPFR_SIGN b) b c dest

/-- What the loop on the low limbs decides, outside of its first iteration under
round-to-nearest with `sh = 0`, as a function of the comparison `o` of the low part of `b`
with the low part of `c` (the limbs not yet examined, read as integers). -/
def sub1_loop_decision (rnd_mode : mp_rnd_t) (sh : Nat) (ap : List Nat) (down is_exact : Bool)
    (o : Ordering) : Jump :=
  match o with
  | Ordering.lt =>
    if rnd_mode = GMP_RNDZ then Jump.sub_one_ulp
    else if rnd_mode ≠ GMP_RNDN then Jump.truncate 1
    else if is_exact = true ∧ sh = 0 then Jump.truncate 1
    else if sh = 0 then Jump.sub_one_ulp
    else Jump.truncate (if is_exact then 1 else -1)
  | Ordering.gt =>
    if rnd_mode = GMP_RNDZ then Jump.truncate (-1)
    else if rnd_mode ≠ GMP_RNDN then Jump.add_one_ulp
    else if is_exact then Jump.truncate (-1)
    else if down then Jump.truncate 1
    else Jump.add_one_ulp
  | Ordering.eq => sub1_even_rule rnd_mode sh ap down is_exact

/-- What the loop on the low limbs decides under round-to-nearest with `sh = 0`, as a function
of the first pair of low limbs `bb0`, `cc0` and of the comparison `o` of the low parts below
them.  The case `bb0 = cc0 + half` with `o = lt` jumps to `sub_one_ulp` (through
`sub1_loop_decision` with `down` set at `k = 1`). -/
def sub1_loop_decision0 (w : Nat) (ap : List Nat) (bb0 cc0 : Nat) (o : Ordering) : Jump :=
  if bb0 < cc0 then
    if bb0 + MPFR_LIMB_HIGHBIT w < cc0 then Jump.sub_one_ulp
    else if cc0 < bb0 + MPFR_LIMB_HIGHBIT w then Jump.truncate 1
    else sub1_loop_decision GMP_RNDN 0 ap true false o
  else if bb0 = cc0 then sub1_loop_decision GMP_RNDN 0 ap false true o
  else
    if bb0 < cc0 + MPFR_LIMB_HIGHBIT w then Jump.truncate (-1)
    else if cc0 + MPFR_LIMB_HIGHBIT w < bb0 then Jump.add_one_ulp
    else sub1_loop_decision GMP_RNDN 0 ap false false o

/-- The low part of a limb array: the `n` limbs below index `n`, as an integer in units of the
lowest of `t` limbs (`n ≤ t`), so that its most significant limb is the limb `t - 1`. -/
def low_part (w : Nat) (p : List Nat) (n t : Nat) : Nat :=
  limb_value w p % 2 ^ (w * n) * 2 ^ (w * (t - n))

/-- The part of the integer `V` of a limb array at and above the limb of index `k`; for a
negative `k` the array is extended by `-k` zero limbs below. -/
def high_part (w : Nat) (V : Nat) (k : Int) : Nat :=
  if 0 ≤ k then V / 2 ^ (w * k.toNat) else V * 2 ^ (w * (-k).toNat)

/-- Lines 340-342: the number of limbs of `bp` below the window, `bn - (an + cancel1)`. -/
def sub1_bnl (w : Nat) (a b : mpfr) (cancel : Nat) : Int :=
  (sub1_bn w b cancel : Int) - ((MPFR_LIMB_SIZE w a : Int) + sub1_cancel1 w cancel)

/-- Lines 340-344: the number of limbs of `cp` below the window, `cn - (an + cancel2)`. -/
def sub1_cnl (w : Nat) (a b c : mpfr) (cancel : Nat) : Int :=
  sub1_cn w b c cancel - ((MPFR_LIMB_SIZE w a : Int) + sub1_cancel2 w b c cancel)

/-- The number of iterations of the loop on the low limbs. -/
def sub1_m (w : Nat) (a b c : mpfr) (cancel : Nat) : Nat :=
  (max (sub1_bnl w a b cancel) (sub1_cnl w a b c cancel)).toNat

/-- The magnitude of `b` in units of the lowest limb that the loop examines: the window
`ap[0..an-1]` holds the limbs `m .. m + an - 1` of this integer. -/
def sub1_Bs (w : Nat) (a b c : mpfr) (cancel : Nat) : Nat :=
  limb_value w (sub1_bp w b cancel)
    * 2 ^ (w * ((sub1_m w a b c cancel : Int) - sub1_bnl w a b cancel).toNat)

/-- The magnitude of `c` in the same units as `sub1_Bs`. -/
def sub1_Cs (w : Nat) (a b c : mpfr) (cancel : Nat) : Nat :=
  limb_value w (sub1_cp w b c cancel)
    * 2 ^ (w * ((sub1_m w a b c cancel : Int) - sub1_cnl w a b c cancel).toNat)

/-- The low part of `b`: the limbs of `sub1_Bs` below the window, which the loop examines. -/
def sub1_LB (w : Nat) (a b c : mpfr) (cancel : Nat) : Nat :=
  sub1_Bs w a b c cancel % 2 ^ (w * sub1_m w a b c cancel)

/-- The low part of `c`: the limbs of `sub1_Cs` below the window, which the loop examines. -/
def sub1_LC (w : Nat) (a b c : mpfr) (cancel : Nat) : Nat :=
  sub1_Cs w a b c cancel % 2 ^ (w * sub1_m w a b c cancel)

/-- The exact difference `|b| - |c|` in units of the lowest limb that the loop examines. -/
def sub1_X (w : Nat) (a b c : mpfr) (cancel : Nat) : Nat :=
  sub1_Bs w a b c cancel - sub1_Cs w a b c cancel

/-- One unit in the last place of the window, in units of the lowest limb that the loop
examines. -/
def sub1_quantum (w : Nat) (a b c : mpfr) (cancel : Nat) : Nat :=
  2 ^ sub1_sh w a * 2 ^ (w * sub1_m w a b c cancel)

/-- Lines 300-493: the window, `inexact` and `add_exp` on arrival at `end_of_sub`. -/
def sub1_rounded (w : Nat) (a b c : mpfr) (cancel : Nat) (rnd_mode0 : mp_rnd_t) :
    List Nat × Int × Nat :=
  sub1_labels w (MPFR_LIMB_SIZE w a) (sub1_sh w a) (sub1_masked w a b c cancel)
    (sub1_jump w a b c cancel rnd_mode0)

/-- The truncated window value: the value of the window after line 304 (`ap[0] -= carry`), in
units of the lowest limb of the window.  When the subtraction of `high(c)` has wrapped the
window to zero (the case `1 - epsilon` of line 489) the window stands for
`2 ^ (an * BITS_PER_MP_LIMB)`. -/
def sub1_window_value (w : Nat) (a b c : mpfr) (cancel : Nat) : Nat :=
  if limb_value w (sub1_masked w a b c cancel) = 0 then 2 ^ (w * MPFR_LIMB_SIZE w a)
  else limb_value w (sub1_masked w a b c cancel)

/-- The magnitude that the rounding stage hands to `end_of_sub`, in units of the lowest limb
of the window: the rounded window, doubled when `add_exp = 1`. -/
def sub1_rounded_value (w : Nat) (a b c : mpfr) (cancel : Nat) (rnd_mode0 : mp_rnd_t) : Nat :=
  limb_value w (sub1_rounded w a b c cancel rnd_mode0).1
    * 2 ^ (sub1_rounded w a b c cancel rnd_mode0).2.2

/-- The unit over which the fast path compares `b` with its rounding: the finer of the unit
of the limb array of `b` and the unit of the destination at the exponent of `b`. -/
def sub1_small_unit (w : Nat) (a b : mpfr) : Int :=
  min (MPFR_UNIT_EXP w b) (MPFR_GET_EXP b - ((MPFR_LIMB_SIZE w a * w : Nat) : Int))

/-- The magnitude of the outcome `R` of `MPFR_RNDRAW_EVEN` over the unit `sub1_small_unit`;
with a carry the exponent is `EXP (b) + 1`. -/
def rndraw_abs (w : Nat) (a b : mpfr) (R : List Nat × Int × Bool) : Nat :=
  limb_value w R.1 * 2 ^ (if R.2.2 then 1 else 0)
    * 2 ^ (MPFR_GET_EXP b - ((MPFR_LIMB_SIZE w a * w : Nat) : Int) - sub1_small_unit w a b).toNat

/-- What the proofs use of the outcome `R` of `MPFR_RNDRAW_EVEN` on the significand of `b`
for a result of sign `s`: a normalized significand of the precision of `a`; a carry only when
the mode does not round toward zero; and the ternary value against the position of the
rounded magnitude relative to `|b|`, a tie rounded away lying half a unit of the destination
above `|b|`. -/
def rndraw_ok (w : Nat) (a b : mpfr) (rnd : mp_rnd_t) (s : Int) (R : List Nat × Int × Bool) :
    Prop :=
  R.1.length = MPFR_LIMB_SIZE w a ∧ (∀ x ∈ R.1, x < 2 ^ w) ∧
  2 ^ (w * MPFR_LIMB_SIZE w a - 1) ≤ limb_value w R.1 ∧
  limb_value w R.1 % 2 ^ sub1_sh w a = 0 ∧
  (R.2.2 = true → MPFR_IS_LIKE_RNDZ rnd (decide (s < 0)) = false) ∧
  ((R.2.1 = 0 ∧ R.2.2 = false ∧ rndraw_abs w a b R = mpfr_abs_in w b (sub1_small_unit w a b)) ∨
   ((R.2.1 = - s ∨ R.2.1 = - (MPFR_EVEN_INEX * s)) ∧ R.2.2 = false ∧
      rndraw_abs w a b R < mpfr_abs_in w b (sub1_small_unit w a b)) ∨
   (R.2.1 = s ∧ mpfr_abs_in w b (sub1_small_unit w a b) < rndraw_abs w a b R) ∨
   (R.2.1 = MPFR_EVEN_INEX * s ∧
      mpfr_abs_in w b (sub1_small_unit w a b) < rndraw_abs w a b R ∧
      2 * (rndraw_abs w a b R - mpfr_abs_in w b (sub1_small_unit w a b))
        = 2 ^ (MPFR_GET_EXP b - (MPFR_PREC a : Int) - sub1_small_unit w a b).toNat ∧
      (R.2.2 = false →
        2 ^ (w * MPFR_LIMB_SIZE w a - 1) + 2 ^ sub1_sh w a ≤ limb_value w R.1)))

/-- What the proofs use of the label that the rounding stage jumps to, in terms of the part
`rho` of the exact difference below the masked window (in units of the lowest limb examined),
the value `q` of one unit of the window in those units and the parity `odd` of the window:
`truncate` carries the sign of `- rho`; an exact difference is truncated with `inexact = 0`;
under round-to-nearest a tie goes to the even neighbour; `add_one_ulp` is only reached from
below; rounding toward zero never adds. -/
def sub1_jump_spec (j : Jump) (rho q : Int) (odd nearest toward_zero : Prop) : Prop :=
  (∀ i, j = Jump.truncate i → int_sign i = int_sign (- rho)) ∧
  (rho = 0 → j = Jump.truncate 0) ∧
  (nearest → 2 * rho = q → (odd → j = Jump.add_one_ulp) ∧ (¬ odd → j = Jump.truncate (-1))) ∧
  (nearest → 2 * rho = - q → (odd → j = Jump.sub_one_ulp) ∧ (¬ odd → j = Jump.truncate 1)) ∧
  (j = Jump.add_one_ulp → 0 < rho) ∧
  (toward_zero → (j = Jump.sub_one_ulp ∧ rho < 0) ∨ (∃ i, j = Jump.truncate i ∧ 0 ≤ rho))

/-- The exponent of the unit of `sub1_Bs` and `sub1_Cs`: the window ends at the exponent
`EXP (b) - cancel` and there are `sub1_m + an` limbs below that. -/
def sub1_unit (w : Nat) (a b c : mpfr) (cancel : Nat) : Int :=
  MPFR_GET_EXP b - (cancel : Int)
    - ((w * (sub1_m w a b c cancel + MPFR_LIMB_SIZE w a) : Nat) : Int)

/-- Lines 74-79: the operand that the code calls `b` from line 83 on, the one of larger
magnitude. -/
def sub1_larger (w : Nat) (b c : mpfr) : mpfr := if (mpfr_cmp2 w b c).1 < 0 then c else b

/-- Lines 74-79: the operand that the code calls `c` from line 83 on. -/
def sub1_smaller (w : Nat) (b c : mpfr) : mpfr := if (mpfr_cmp2 w b c).1 < 0 then b else c

/-- Lines 77 and 81: the destination once it carries the sign of the result. -/
def sub1_signed (w : Nat) (a b c : mpfr) : mpfr :=
  { a with _mpfr_sign := if (mpfr_cmp2 w b c).1 < 0 then - MPFR_SIGN b else MPFR_SIGN b }

/-- A rounding carry would raise the exponent of the result above `__gmpfr_emax`, for the
operands in order (`b` of larger magnitude, `a` carrying the sign of the result): `EXP (b)` is
`__gmpfr_emax` and either, on the fast path, the rounding of `b` alone carries into a new top
bit, or, on the general path, `cancel = 0` and `add_exp = 1` on arrival at `end_of_sub`. -/
def sub1_carry_past_emax (env : Env) (a b c : mpfr) (rnd_mode : mp_rnd_t) : Prop :=
  MPFR_GET_EXP b = env.__gmpfr_emax ∧
  if MPFR_GET_EXP c ≤ MPFR_GET_EXP b - ((max (MPFR_PREC a) (MPFR_PREC b) : Nat) : Int) - 2 then
    (MPFR_RNDRAW_EVEN env.BITS_PER_MP_LIMB (MPFR_PREC a) (MPFR_MANT b) (MPFR_PREC b) rnd_mode
      (MPFR_SIGN a)).2.2 = true
  else
    (mpfr_cmp2 env.BITS_PER_MP_LIMB b c).2 = 0 ∧
    (sub1_rounded env.BITS_PER_MP_LIMB a b c (mpfr_cmp2 env.BITS_PER_MP_LIMB b c).2
      rnd_mode).2.2 = 1

instance (env : Env) (a b c : mpfr) (rnd_mode : mp_rnd_t) :
    Decidable (sub1_carry_past_emax env a b c rnd_mode) := by
  unfold sub1_carry_past_emax; infer_instance

/-- The values that the code assigns to `inexact` before a jump to `truncate`: -1, 0 or 1. -/
def truncate_inexact_ok (j : Jump) : Prop :=
  ∀ i, j = Jump.truncate i → i = -1 ∨ i = 0 ∨ i = 1

/-! ## The limb accesses of the general path -/

/-- The limb arrays of the general path: the window `ap` of `an` limbs, and the arrays `bp`
and `cp` that hold `b` and `c` aligned with the result. -/
inductive limb_array where
  | ap
  | bp
  | cp
  deriving DecidableEq, Repr

/-- An access to `length` consecutive limbs of `array`, the first at the index `offset`.
Offset and length are signed integers, as the code computes them. -/
structure limb_access where
  array : limb_array
  offset : Int
  length : Int
  deriving DecidableEq, Repr

/-- The access lies inside its array, of `an`, `bn` or `cn` limbs, with a non-negative offset
and a non-negative length. -/
def limb_access_ok (an bn cn : Nat) (x : limb_access) : Prop :=
  0 ≤ x.offset ∧ 0 ≤ x.length ∧
  x.offset + x.length ≤
    (match x.array with
     | limb_array.ap => (an : Int)
     | limb_array.bp => (bn : Int)
     | limb_array.cp => (cn : Int))

instance (an bn cn : Nat) (x : limb_access) : Decidable (limb_access_ok an bn cn x) := by
  unfold limb_access_ok; infer_instance

/-- Lines 235-249: the limb ranges that the copy of `high(b)` touches: for each `MPN_COPY` the
destination in `ap` and the source in `bp`, for each `MPN_ZERO` the destination. -/
def sub1_copy_high_b_accesses (an cancel1 bn : Nat) : List limb_access :=
  if an + cancel1 ≤ bn then
    [⟨limb_array.ap, 0, an⟩, ⟨limb_array.bp, (bn : Int) - ((an : Int) + cancel1), an⟩]
  else if cancel1 < bn then
    [⟨limb_array.ap, 0, (an : Int) + cancel1 - bn⟩,
     ⟨limb_array.ap, (an : Int) + cancel1 - bn, (bn : Int) - cancel1⟩,
     ⟨limb_array.bp, 0, (bn : Int) - cancel1⟩]
  else [⟨limb_array.ap, 0, an⟩]

/-- Lines 255-292: the limb ranges that the subtraction of `high(c)` touches: for each
`mpn_sub_n` the range of `ap` (source and destination) and the range of `cp`, for `mpn_sub_1`
the range of `ap`. -/
def sub1_sub_high_c_accesses (an : Nat) (cancel2 : Int) (cn : Int) : List limb_access :=
  if (an : Int) + cancel2 > 0 then
    if cancel2 ≥ 0 then
      if (an : Int) + cancel2 ≤ cn then
        [⟨limb_array.ap, 0, an⟩, ⟨limb_array.cp, cn - ((an : Int) + cancel2), an⟩]
      else if cn > cancel2 then
        [⟨limb_array.ap, (an : Int) + cancel2 - cn, cn - cancel2⟩,
         ⟨limb_array.cp, 0, cn - cancel2⟩]
      else []
    else
      (if (an : Int) + cancel2 ≤ cn then
        [⟨limb_array.ap, 0, (an : Int) + cancel2⟩,
         ⟨limb_array.cp, cn - ((an : Int) + cancel2), (an : Int) + cancel2⟩]
      else
        [⟨limb_array.ap, (an : Int) + cancel2 - cn, cn⟩, ⟨limb_array.cp, 0, cn⟩])
      ++ [⟨limb_array.ap, (an : Int) + cancel2, - cancel2⟩]
  else []

/-- Lines 351-471 once more, the loop on the low limbs with the reads it makes: `bp[--bn]`
is recorded as a read of the index `bn - 1` when `bn > 0`, and `cp[cn]` after `cn--` as a read
of the index `cn - 1` when `cn > 0` and `cn ≤ cn0`.  The second component is the label that
the loop jumps to. -/
def sub1_loop_trace (w : Nat) (rnd_mode : mp_rnd_t) (sh : Nat) (ap bp cp : List Nat) (cn0 : Int) :
    Nat → Int → Int → Nat → Bool → Bool → List limb_access × Jump
  | 0, _, _, _, down, is_exact => ([], sub1_even_rule rnd_mode sh ap down is_exact)
  | fuel + 1, bn, cn, k, down, is_exact =>
    if bn > 0 ∨ cn > 0 then
      let reads : List limb_access :=
        (if bn > 0 then [⟨limb_array.bp, bn - 1, 1⟩] else [])
          ++ (if cn > 0 ∧ cn ≤ cn0 then [⟨limb_array.cp, cn - 1, 1⟩] else [])
      -- get next limbs
      let bb0 : Nat := if bn > 0 then bp.getD (bn - 1).toNat 0 else 0
      let bn1 : Int := if bn > 0 then bn - 1 else bn
      let cc0 : Nat := if cn > 0 ∧ cn ≤ cn0 then cp.getD (cn - 1).toNat 0 else 0
      let cn1 : Int := if cn > 0 then cn - 1 else cn
      -- down is set when low(b) < low(c)
      let down1 : Bool := if down = false then decide (bb0 < cc0) else down
      let special : Bool := decide (rnd_mode = GMP_RNDN) && decide (sh = 0) && decide (k = 0)
      let half := MPFR_LIMB_HIGHBIT w
      let is_exact1 : Bool := if special then decide (bb0 = cc0) else is_exact
      let bb : Nat :=
        if special then
          if down1 then (if cc0 ≥ half then bb0 else (bb0 + half) % 2 ^ w)
          else (if cc0 < half then bb0 else (bb0 + 2 ^ w - half) % 2 ^ w)
        else bb0
      let cc : Nat :=
        if special then
          if down1 then (if cc0 ≥ half then (cc0 + 2 ^ w - half) % 2 ^ w else cc0)
          else (if cc0 < half then (cc0 + half) % 2 ^ w else cc0)
        else cc0
      let next := sub1_loop_trace w rnd_mode sh ap bp cp cn0 fuel bn1 cn1 1 down1 is_exact1
      if bb < cc then
        if rnd_mode = GMP_RNDZ then (reads, Jump.sub_one_ulp)
        else if rnd_mode ≠ GMP_RNDN then (reads, Jump.truncate 1)
        else if is_exact1 ∧ sh = 0 then
          if k ≠ 0 then (reads, Jump.truncate 1)
          else (reads ++ next.1, next.2)
        else if down1 ∧ sh = 0 then (reads, Jump.sub_one_ulp)
        else (reads, Jump.truncate (if is_exact1 then 1 else -1))
      else if bb > cc then
        if rnd_mode = GMP_RNDZ then (reads, Jump.truncate (-1))
        else if rnd_mode ≠ GMP_RNDN then (reads, Jump.add_one_ulp)
        else if is_exact1 then (reads, Jump.truncate (-1))
        else if down1 then (reads, Jump.truncate 1)
        else (reads, Jump.add_one_ulp)
      else (reads ++ next.1, next.2)
    else ([], sub1_even_rule rnd_mode sh ap down is_exact)

/-- Lines 340-471: the loop on the low limbs with its reads, started from the state of
`sub1_low`. -/
def sub1_low_trace (w : Nat) (a b c : mpfr) (cancel : Nat) (rnd_mode0 : mp_rnd_t) :
    List limb_access × Jump :=
  let sh := sub1_sh w a
  let carry := sub1_carry w a b c cancel
  let is_exact : Bool := if rnd_mode0 = GMP_RNDN ∧ sh ≠ 0 then decide (carry = 0) else true
  let down : Bool :=
    if rnd_mode0 = GMP_RNDN ∧ sh ≠ 0 then decide (carry < MPFR_LIMB_ONE <<< (sh - 1)) else false
  let bnl : Int := (sub1_bn w b cancel : Int) - ((MPFR_LIMB_SIZE w a : Int) + sub1_cancel1 w cancel)
  let cnl : Int := sub1_cn w b c cancel - ((MPFR_LIMB_SIZE w a : Int) + sub1_cancel2 w b c cancel)
  sub1_loop_trace w (sub1_rnd_mode a rnd_mode0) sh (sub1_masked w a b c cancel)
    (sub1_bp w b cancel) (sub1_cp w b c cancel) (sub1_cn w b c cancel) (max bnl cnl).toNat bnl cnl
    0 down is_exact

/-- Lines 235-292 and 340-358: the limb accesses of the general path before the rounding
labels: the copy of `high(b)`, the subtraction of `high(c)` and the reads of the loop on the
low limbs. -/
def sub1_accesses (w : Nat) (a b c : mpfr) (cancel : Nat) (rnd_mode0 : mp_rnd_t) :
    List limb_access :=
  sub1_copy_high_b_accesses (MPFR_LIMB_SIZE w a) (sub1_cancel1 w cancel) (sub1_bn w b cancel)
    ++ sub1_sub_high_c_accesses (MPFR_LIMB_SIZE w a) (sub1_cancel2 w b c cancel)
      (sub1_cn w b c cancel)
    ++ (sub1_low_trace w a b c cancel rnd_mode0).1

/-! ## Concrete inputs -/

/-- A 64-bit build with the default exponent range of the library. -/
def env64 : Env :=
  { BITS_PER_MP_LIMB := 64, __gmpfr_emin := 1 - 2 ^ 62, __gmpfr_emax := 2 ^ 62 - 1 }

/-- A destination of precision `p` (one limb of 64 bits), not yet assigned. -/
def dest64 (p : Nat) : mpfr :=
  { _mpfr_prec := p, _mpfr_sign := 1, _mpfr_exp := MPFR_EXP_NAN, _mpfr_d := [0] }

/-- The number `1.0` at precision 2: `0.10b * 2 ^ 1`. -/
def one_prec2 : mpfr :=
  { _mpfr_prec := 2, _mpfr_sign := 1, _mpfr_exp := regular 1, _mpfr_d := [2 ^ 63] }

/-- The number `0.5` at precision 2: `0.10b * 2 ^ 0`. -/
def half_prec2 : mpfr :=
  { _mpfr_prec := 2, _mpfr_sign := 1, _mpfr_exp := regular 0, _mpfr_d := [2 ^ 63] }

/-- The number `1.0` at precision 1: `0.1b * 2 ^ 1`. -/
def one_prec1 : mpfr :=
  { _mpfr_prec := 1, _mpfr_sign := 1, _mpfr_exp := regular 1, _mpfr_d := [2 ^ 63] }

/-- The number `0.25` at precision 1: `0.1b * 2 ^ (-1)`. -/
def quarter_prec1 : mpfr :=
  { _mpfr_prec := 1, _mpfr_sign := 1, _mpfr_exp := regular (-1), _mpfr_d := [2 ^ 63] }

/-- The number `1.5` at precision 2: `0.11b * 2 ^ 1`. -/
def three_halves_prec2 : mpfr :=
  { _mpfr_prec := 2, _mpfr_sign := 1, _mpfr_exp := regular 1, _mpfr_d := [3 * 2 ^ 62] }

/-- The number `0.25` at precision 2: `0.10b * 2 ^ (-1)`. -/
def quarter_prec2 : mpfr :=
  { _mpfr_prec := 2, _mpfr_sign := 1, _mpfr_exp := regular (-1), _mpfr_d := [2 ^ 63] }

/-- The operand `b = 1/2 + 2 ^ (-65)` at precision 192 (three limbs of 64 bits). -/
def tie_breaker_b : mpfr :=
  { _mpfr_prec := 192, _mpfr_sign := 1, _mpfr_exp := regular 0, _mpfr_d := [0, 2 ^ 63, 2 ^ 63] }

/-- The operand `c = 2 ^ (-129)` at precision 2. -/
def tie_breaker_c : mpfr :=
  { _mpfr_prec := 2, _mpfr_sign := 1, _mpfr_exp := regular (-128), _mpfr_d := [2 ^ 63] }

/-- The operand `b = 0.111b * 2 ^ emax` at precision 3, for the `emax` of `env64`. -/
def overflow_tie_b : mpfr :=
  { _mpfr_prec := 3, _mpfr_sign := 1, _mpfr_exp := regular (2 ^ 62 - 1), _mpfr_d := [7 * 2 ^ 61] }

/-- The operand `c = 0.10b * 2 ^ (emax - 5)` at precision 2. -/
def overflow_tie_c : mpfr :=
  { _mpfr_prec := 2, _mpfr_sign := 1, _mpfr_exp := regular (2 ^ 62 - 6), _mpfr_d := [2 ^ 63] }

/-- The number `2 ^ (-11)` at precision 2: `0.10b * 2 ^ (-10)`. -/
def tiny_prec2 : mpfr :=
  { _mpfr_prec := 2, _mpfr_sign := 1, _mpfr_exp := regular (-10), _mpfr_d := [2 ^ 63] }

/-- The number `0.11b * 2 ^ emin` at precision 2, for the `emin` of `env64`. -/
def underflow_b2 : mpfr :=
  { _mpfr_prec := 2, _mpfr_sign := 1, _mpfr_exp := regular (1 - 2 ^ 62), _mpfr_d := [3 * 2 ^ 62] }

/-- The number `0.10b * 2 ^ emin` at precision 2. -/
def underflow_c2 : mpfr :=
  { _mpfr_prec := 2, _mpfr_sign := 1, _mpfr_exp := regular (1 - 2 ^ 62), _mpfr_d := [2 ^ 63] }

/-- The number `0.111b * 2 ^ emin` at precision 3. -/
def underflow_b3 : mpfr :=
  { _mpfr_prec := 3, _mpfr_sign := 1, _mpfr_exp := regular (1 - 2 ^ 62), _mpfr_d := [7 * 2 ^ 61] }

/-- The number `0.100b * 2 ^ emin` at precision 3. -/
def underflow_c3 : mpfr :=
  { _mpfr_prec := 3, _mpfr_sign := 1, _mpfr_exp := regular (1 - 2 ^ 62), _mpfr_d := [2 ^ 63] }

/-- The number `1.5` at precision 64: `0.11b * 2 ^ 1`. -/
def three_halves_prec64 : mpfr :=
  { _mpfr_prec := 64, _mpfr_sign := 1, _mpfr_exp := regular 1, _mpfr_d := [3 * 2 ^ 62] }

/-- The number `2 ^ (-64)` at precision 2: `0.10b * 2 ^ (-63)`; it is half a unit in the last
place of a 64-bit number in `[1, 2)`. -/
def below_window_c : mpfr :=
  { _mpfr_prec := 2, _mpfr_sign := 1, _mpfr_exp := regular (-63), _mpfr_d := [2 ^ 63] }

/-- The number `1 + 2 ^ (-10)` at precision 64. -/
def one_and_bit_prec64 : mpfr :=
  { _mpfr_prec := 64, _mpfr_sign := 1, _mpfr_exp := regular 1, _mpfr_d := [2 ^ 63 + 2 ^ 53] }

/-- The number `2 ^ (-3) + 2 ^ (-70)` at precision 68 (two limbs): its lower set bit lies
below a window of one limb that ends at the exponent 1. -/
def straddling_c : mpfr :=
  { _mpfr_prec := 68, _mpfr_sign := 1, _mpfr_exp := regular (-2), _mpfr_d := [2 ^ 60, 2 ^ 63] }

/-- The number `1.625` at precision 4: `0.1101b * 2 ^ 1`. -/
def thirteen_eighths_prec4 : mpfr :=
  { _mpfr_prec := 4, _mpfr_sign := 1, _mpfr_exp := regular 1, _mpfr_d := [13 * 2 ^ 60] }

/-- The number `1.375` at precision 4: `0.1011b * 2 ^ 1`. -/
def eleven_eighths_prec4 : mpfr :=
  { _mpfr_prec := 4, _mpfr_sign := 1, _mpfr_exp := regular 1, _mpfr_d := [11 * 2 ^ 60] }

/-- The number `1.0` at precision 64: `0.10...0b * 2 ^ 1`. -/
def one_prec64 : mpfr :=
  { _mpfr_prec := 64, _mpfr_sign := 1, _mpfr_exp := regular 1, _mpfr_d := [2 ^ 63] }

/-- The number `2 ^ (-65)` at precision 2: `0.10b * 2 ^ (-64)`, half a unit in the last place
of the 64-bit numbers just below `1.0`. -/
def half_ulp_below_one : mpfr :=
  { _mpfr_prec := 2, _mpfr_sign := 1, _mpfr_exp := regular (-64), _mpfr_d := [2 ^ 63] }

/-! # Theorems -/

/-! ## Claim C3: equal magnitudes -/

/-- C3: for regular operands `b` and `c` with `|b| = |c|`, `mpfr_cmp2` returns 0 and
`mpfr_sub1` sets the destination to zero and returns 0; the zero is negative exactly when the
mode is round-toward-negative-infinity and positive under every other mode. -/
theorem sub1_equal_magnitudes (env : Env) (a b c : mpfr) (rnd_mode : mp_rnd_t)
    (_hb : mpfr_regular env.BITS_PER_MP_LIMB b) (_hc : mpfr_regular env.BITS_PER_MP_LIMB c)
    (h : mpfr_abs_in env.BITS_PER_MP_LIMB b (common_unit env.BITS_PER_MP_LIMB b c)
       = mpfr_abs_in env.BITS_PER_MP_LIMB c (common_unit env.BITS_PER_MP_LIMB b c)) :
    (mpfr_cmp2 env.BITS_PER_MP_LIMB b c).1 = 0 ∧
    (mpfr_sub1 env a b c rnd_mode).2 = 0 ∧
    (mpfr_sub1 env a b c rnd_mode).1._mpfr_exp = MPFR_EXP_ZERO ∧
    ((mpfr_sub1 env a b c rnd_mode).1._mpfr_sign = MPFR_SIGN_NEG ↔ rnd_mode = GMP_RNDD) ∧
    (rnd_mode ≠ GMP_RNDD → (mpfr_sub1 env a b c rnd_mode).1._mpfr_sign = MPFR_SIGN_POS) := by
  have hcmp : (mpfr_cmp2 env.BITS_PER_MP_LIMB b c).1 = 0 := by
    simp [mpfr_cmp2, h]
  refine ⟨hcmp, ?_⟩
  have hres : mpfr_sub1 env a b c rnd_mode =
      ({ a with
          _mpfr_sign := if rnd_mode = GMP_RNDD then MPFR_SIGN_NEG else MPFR_SIGN_POS
          _mpfr_exp := MPFR_EXP_ZERO }, 0) := by
    simp only [mpfr_sub1, hcmp, if_true]
  rw [hres]
  refine ⟨rfl, rfl, ?_, ?_⟩
  · by_cases hr : rnd_mode = GMP_RNDD <;> simp [hr, MPFR_SIGN_NEG, MPFR_SIGN_POS]
  · intro hr; simp [hr]

/-- Witness of C3: `1.0 - 1.0` at precision 2 under round-toward-negative-infinity. -/
theorem sub1_equal_magnitudes_witness :
    (mpfr_cmp2 64 one_prec2 one_prec2).1 = 0 ∧
    (mpfr_sub1 env64 (dest64 2) one_prec2 one_prec2 GMP_RNDD).2 = 0 ∧
    (mpfr_sub1 env64 (dest64 2) one_prec2 one_prec2 GMP_RNDD).1._mpfr_exp = MPFR_EXP_ZERO ∧
    ((mpfr_sub1 env64 (dest64 2) one_prec2 one_prec2 GMP_RNDD).1._mpfr_sign = MPFR_SIGN_NEG
      ↔ GMP_RNDD = GMP_RNDD) ∧
    (GMP_RNDD ≠ GMP_RNDD →
      (mpfr_sub1 env64 (dest64 2) one_prec2 one_prec2 GMP_RNDD).1._mpfr_sign = MPFR_SIGN_POS) :=
  sub1_equal_magnitudes env64 (dest64 2) one_prec2 one_prec2 GMP_RNDD
    (by decide) (by decide) (by decide)

/-! ## Claim C4: the sign of the result -/

theorem mpfr_overflow_sign (env : Env) (x : mpfr) (rnd : mp_rnd_t) (s : Int) :
    (mpfr_overflow env x rnd s).1._mpfr_sign = s := by
  unfold mpfr_overflow; split <;> rfl

theorem mpfr_overflow_tern (env : Env) (x : mpfr) (rnd : mp_rnd_t) (s : Int) :
    (mpfr_overflow env x rnd s).2 = 1 ∨ (mpfr_overflow env x rnd s).2 = -1 := by
  unfold mpfr_overflow; split <;> split <;> simp

theorem mpfr_underflow_sign (env : Env) (x : mpfr) (rnd : mp_rnd_t) (s : Int) :
    (mpfr_underflow env x rnd s).1._mpfr_sign = s := by
  unfold mpfr_underflow; split <;> rfl

theorem mpfr_nexttozero_sign (env : Env) (x : mpfr) (e : Int) (h : x._mpfr_exp = regular e) :
    (mpfr_nexttozero env x)._mpfr_sign = x._mpfr_sign := by
  unfold mpfr_nexttozero
  simp only [h]
  split
  · split <;> rfl
  · rfl

theorem MPFR_INT_SIGN_cases (x : mpfr) : MPFR_INT_SIGN x = 1 ∨ MPFR_INT_SIGN x = -1 := by
  unfold MPFR_INT_SIGN; split <;> simp

/-- After the rounding of `b` alone the destination has the sign it had, and either it is
regular or the overflow handler ran and `inexact` is `1` or `-1`. -/
theorem sub1_small_round_spec (env : Env) (a b : mpfr) (rnd : mp_rnd_t) :
    (sub1_small_round env a b rnd).1._mpfr_sign = a._mpfr_sign ∧
    ((∃ e, (sub1_small_round env a b rnd).1._mpfr_exp = regular e) ∨
      (sub1_small_round env a b rnd).2 = 1 ∨ (sub1_small_round env a b rnd).2 = -1) := by
  unfold sub1_small_round
  simp only []
  split
  · split
    · exact ⟨mpfr_overflow_sign _ _ _ _, Or.inr (mpfr_overflow_tern _ _ _ _)⟩
    · exact ⟨rfl, Or.inl ⟨_, rfl⟩⟩
  · exact ⟨rfl, Or.inl ⟨_, rfl⟩⟩

theorem sub1_small_adjust_sign (env : Env) (a : mpfr) (inexact : Int) (rnd : mp_rnd_t)
    (h : (∃ e, a._mpfr_exp = regular e) ∨ inexact = 1 ∨ inexact = -1) :
    (sub1_small_adjust env a inexact rnd).1._mpfr_sign = a._mpfr_sign := by
  unfold sub1_small_adjust
  rcases h with ⟨e, he⟩ | h
  · split
    · split
      · exact mpfr_nexttozero_sign env a e he
      · rfl
    · split
      · exact mpfr_nexttozero_sign env a e he
      · rfl
  · have h0 : inexact ≠ 0 := by rcases h with h | h <;> omega
    have h2 : inexact ≠ MPFR_EVEN_INEX * MPFR_INT_SIGN a := by
      unfold MPFR_EVEN_INEX
      rcases MPFR_INT_SIGN_cases a with hs | hs <;> rw [hs] <;> rcases h with h | h <;> omega
    simp [h0, h2]

theorem sub1_small_sign (env : Env) (a b : mpfr) (rnd : mp_rnd_t) :
    (sub1_small env a b rnd).1._mpfr_sign = a._mpfr_sign := by
  unfold sub1_small
  rw [sub1_small_adjust_sign env _ _ rnd (sub1_small_round_spec env a b rnd).2]
  exact (sub1_small_round_spec env a b rnd).1

theorem sub1_end_of_sub_sign (env : Env) (a b : mpfr) (cancel : Nat) (rnd : mp_rnd_t)
    (ap : List Nat) (inexact : Int) (add_exp : Nat) :
    (sub1_end_of_sub env a b cancel rnd ap inexact add_exp).1._mpfr_sign = a._mpfr_sign := by
  unfold sub1_end_of_sub
  simp only []
  split
  · split
    · exact mpfr_underflow_sign _ _ _ _
    · rfl
  · split
    · exact mpfr_overflow_sign _ _ _ _
    · rfl

theorem sub1_general_sign (env : Env) (a b c : mpfr) (cancel : Nat) (rnd : mp_rnd_t) :
    (sub1_general env a b c cancel rnd).1._mpfr_sign = a._mpfr_sign := by
  unfold sub1_general
  exact sub1_end_of_sub_sign _ _ _ _ _ _ _ _

theorem mpfr_cmp2_sign_pos (w : Nat) (b c : mpfr)
    (h : mpfr_abs_in w c (common_unit w b c) < mpfr_abs_in w b (common_unit w b c)) :
    (mpfr_cmp2 w b c).1 = 1 := by
  unfold mpfr_cmp2
  simp only []
  rw [if_neg (by omega), if_pos h]

theorem mpfr_cmp2_sign_neg (w : Nat) (b c : mpfr)
    (h : mpfr_abs_in w b (common_unit w b c) < mpfr_abs_in w c (common_unit w b c)) :
    (mpfr_cmp2 w b c).1 = -1 := by
  unfold mpfr_cmp2
  simp only []
  rw [if_neg (by omega), if_neg (by omega)]

theorem sub1_ordered_sign (env : Env) (a b c : mpfr) (cancel : Nat) (rnd : mp_rnd_t) :
    (sub1_ordered env a b c cancel rnd).1._mpfr_sign = a._mpfr_sign := by
  unfold sub1_ordered
  split
  · exact sub1_small_sign _ _ _ _
  · exact sub1_general_sign _ _ _ _ _ _

/-- C4: for regular operands with `|b| ≠ |c|` and every rounding mode, the sign that
`mpfr_sub1` gives the destination is the sign of `b` when `|b| > |c|` and the opposite of the
sign of `b` when `|b| < |c|`; the statement is about every exit of `mpfr_sub1` (fast path,
general path, overflow and underflow), whatever the kind of the result. -/
theorem sub1_result_sign (env : Env) (a b c : mpfr) (rnd_mode : mp_rnd_t)
    (_hb : mpfr_regular env.BITS_PER_MP_LIMB b) (_hc : mpfr_regular env.BITS_PER_MP_LIMB c)
    (h : mpfr_abs_in env.BITS_PER_MP_LIMB b (common_unit env.BITS_PER_MP_LIMB b c)
       ≠ mpfr_abs_in env.BITS_PER_MP_LIMB c (common_unit env.BITS_PER_MP_LIMB b c)) :
    (mpfr_sub1 env a b c rnd_mode).1._mpfr_sign =
      if mpfr_abs_in env.BITS_PER_MP_LIMB c (common_unit env.BITS_PER_MP_LIMB b c)
          < mpfr_abs_in env.BITS_PER_MP_LIMB b (common_unit env.BITS_PER_MP_LIMB b c)
      then MPFR_SIGN b else - MPFR_SIGN b := by
  by_cases hlt : mpfr_abs_in env.BITS_PER_MP_LIMB c (common_unit env.BITS_PER_MP_LIMB b c)
          < mpfr_abs_in env.BITS_PER_MP_LIMB b (common_unit env.BITS_PER_MP_LIMB b c)
  · have hc := mpfr_cmp2_sign_pos _ b c hlt
    rw [if_pos hlt]
    unfold mpfr_sub1
    simp only [hc]
    norm_num
    rw [sub1_ordered_sign]
  · have hc := mpfr_cmp2_sign_neg env.BITS_PER_MP_LIMB b c (by omega)
    rw [if_neg hlt]
    unfold mpfr_sub1
    simp only [hc]
    norm_num
    rw [sub1_ordered_sign]

/-- Witness of C4: `0.5 - 1.0` at precision 2. -/
theorem sub1_result_sign_witness :
    mpfr_abs_in 64 half_prec2 (common_unit 64 half_prec2 one_prec2)
      ≠ mpfr_abs_in 64 one_prec2 (common_unit 64 half_prec2 one_prec2) ∧
    (mpfr_sub1 env64 (dest64 2) half_prec2 one_prec2 GMP_RNDN).1._mpfr_sign =
      if mpfr_abs_in 64 one_prec2 (common_unit 64 half_prec2 one_prec2)
          < mpfr_abs_in 64 half_prec2 (common_unit 64 half_prec2 one_prec2)
      then MPFR_SIGN half_prec2 else - MPFR_SIGN half_prec2 :=
  ⟨by decide, sub1_result_sign env64 (dest64 2) half_prec2 one_prec2 GMP_RNDN
    (by decide) (by decide) (by decide)⟩

/-! ## Claim C6: the exponent range -/

theorem mpfr_overflow_range (env : Env) (x : mpfr) (rnd : mp_rnd_t) (s : Int) (e : Int)
    (hle : env.__gmpfr_emin ≤ env.__gmpfr_emax)
    (he : (mpfr_overflow env x rnd s).1._mpfr_exp = regular e) :
    env.__gmpfr_emin ≤ e ∧ e ≤ env.__gmpfr_emax := by
  unfold mpfr_overflow at he
  split at he
  · simp only [mpfr_setmax, regular.injEq] at he
    omega
  · simp at he

theorem mpfr_underflow_range (env : Env) (x : mpfr) (rnd : mp_rnd_t) (s : Int) (e : Int)
    (hle : env.__gmpfr_emin ≤ env.__gmpfr_emax)
    (he : (mpfr_underflow env x rnd s).1._mpfr_exp = regular e) :
    env.__gmpfr_emin ≤ e ∧ e ≤ env.__gmpfr_emax := by
  unfold mpfr_underflow at he
  split at he
  · simp at he
  · simp only [mpfr_setmin, regular.injEq] at he
    omega

theorem mpfr_nexttozero_range (env : Env) (x : mpfr)
    (hle : env.__gmpfr_emin ≤ env.__gmpfr_emax)
    (hx : ∀ e, x._mpfr_exp = regular e → env.__gmpfr_emin ≤ e ∧ e ≤ env.__gmpfr_emax)
    (e : Int) (he : (mpfr_nexttozero env x)._mpfr_exp = regular e) :
    env.__gmpfr_emin ≤ e ∧ e ≤ env.__gmpfr_emax := by
  unfold mpfr_nexttozero at he
  simp only [] at he
  split at he
  · simp only [mpfr_setmax, regular.injEq] at he; omega
  · simp only [mpfr_setmin, regular.injEq] at he; omega
  · rename_i h; rw [h] at he; simp at he
  · rename_i e0 h0
    have := hx e0 h0
    split at he
    · split at he
      · simp at he
      · simp only [mpfr_setmax, regular.injEq] at he; omega
    · simp only [h0, regular.injEq] at he; omega

theorem sub1_small_round_range (env : Env) (a b : mpfr) (rnd : mp_rnd_t)
    (hb : env.__gmpfr_emin ≤ MPFR_GET_EXP b ∧ MPFR_GET_EXP b ≤ env.__gmpfr_emax)
    (e : Int) (he : (sub1_small_round env a b rnd).1._mpfr_exp = regular e) :
    env.__gmpfr_emin ≤ e ∧ e ≤ env.__gmpfr_emax := by
  unfold sub1_small_round at he
  simp only [] at he
  split at he
  · split at he
    · exact mpfr_overflow_range env _ _ _ e (by omega) he
    · simp only [regular.injEq] at he; omega
  · simp only [regular.injEq] at he; omega

theorem sub1_small_adjust_range (env : Env) (a : mpfr) (inexact : Int) (rnd : mp_rnd_t)
    (hle : env.__gmpfr_emin ≤ env.__gmpfr_emax)
    (hx : ∀ e, a._mpfr_exp = regular e → env.__gmpfr_emin ≤ e ∧ e ≤ env.__gmpfr_emax)
    (e : Int) (he : (sub1_small_adjust env a inexact rnd).1._mpfr_exp = regular e) :
    env.__gmpfr_emin ≤ e ∧ e ≤ env.__gmpfr_emax := by
  unfold sub1_small_adjust at he
  split at he
  · split at he
    · exact mpfr_nexttozero_range env a hle hx e he
    · exact hx e he
  · split at he
    · exact mpfr_nexttozero_range env a hle hx e he
    · exact hx e he

theorem sub1_small_range (env : Env) (a b : mpfr) (rnd : mp_rnd_t)
    (hb : env.__gmpfr_emin ≤ MPFR_GET_EXP b ∧ MPFR_GET_EXP b ≤ env.__gmpfr_emax)
    (e : Int) (he : (sub1_small env a b rnd).1._mpfr_exp = regular e) :
    env.__gmpfr_emin ≤ e ∧ e ≤ env.__gmpfr_emax := by
  unfold sub1_small at he
  exact sub1_small_adjust_range env _ _ rnd (by omega)
    (fun e0 h0 => sub1_small_round_range env a b rnd hb e0 h0) e he

theorem sub1_truncate_add_exp (w an : Nat) (ap : List Nat) (inexact : Int) (add_exp : Nat)
    (h : add_exp ≤ 1) : (sub1_truncate w an ap inexact add_exp).2.2 ≤ 1 := by
  unfold sub1_truncate; split <;> simp [h]

theorem sub1_labels_add_exp (w an sh : Nat) (ap : List Nat) (j : Jump) :
    (sub1_labels w an sh ap j).2.2 ≤ 1 := by
  cases j with
  | sub_one_ulp => simp [sub1_labels]
  | add_one_ulp =>
    simp only [sub1_labels]
    split <;> exact sub1_truncate_add_exp _ _ _ _ _ (by omega)
  | truncate i => exact sub1_truncate_add_exp _ _ _ _ _ (by omega)

theorem sub1_end_of_sub_range (env : Env) (a b : mpfr) (cancel : Nat) (rnd : mp_rnd_t)
    (ap : List Nat) (inexact : Int) (add_exp : Nat) (hadd : add_exp ≤ 1)
    (hb : env.__gmpfr_emin ≤ MPFR_GET_EXP b ∧ MPFR_GET_EXP b ≤ env.__gmpfr_emax)
    (e : Int) (he : (sub1_end_of_sub env a b cancel rnd ap inexact add_exp).1._mpfr_exp = regular e) :
    env.__gmpfr_emin ≤ e ∧ e ≤ env.__gmpfr_emax := by
  unfold sub1_end_of_sub at he
  simp only [] at he
  split at he
  · split at he
    · exact mpfr_underflow_range env _ _ _ e (by omega) he
    · simp only [regular.injEq] at he; omega
  · split at he
    · exact mpfr_overflow_range env _ _ _ e (by omega) he
    · rename_i h1 h2
      simp only [regular.injEq] at he
      have : add_exp = 0 ∨ add_exp = 1 := by omega
      rcases this with h0 | h0
      · subst h0; simp at he; omega
      · subst h0
        simp only [ne_eq, one_ne_zero, not_false_eq_true, true_and] at h2
        push_cast at he
        omega

theorem sub1_general_range (env : Env) (a b c : mpfr) (cancel : Nat) (rnd : mp_rnd_t)
    (hb : env.__gmpfr_emin ≤ MPFR_GET_EXP b ∧ MPFR_GET_EXP b ≤ env.__gmpfr_emax)
    (e : Int) (he : (sub1_general env a b c cancel rnd).1._mpfr_exp = regular e) :
    env.__gmpfr_emin ≤ e ∧ e ≤ env.__gmpfr_emax := by
  unfold sub1_general at he
  exact sub1_end_of_sub_range env _ _ _ _ _ _ _ (sub1_labels_add_exp _ _ _ _ _) hb e he

theorem sub1_ordered_range (env : Env) (a b c : mpfr) (cancel : Nat) (rnd : mp_rnd_t)
    (hb : env.__gmpfr_emin ≤ MPFR_GET_EXP b ∧ MPFR_GET_EXP b ≤ env.__gmpfr_emax)
    (e : Int) (he : (sub1_ordered env a b c cancel rnd).1._mpfr_exp = regular e) :
    env.__gmpfr_emin ≤ e ∧ e ≤ env.__gmpfr_emax := by
  unfold sub1_ordered at he
  split at he
  · exact sub1_small_range env _ _ rnd hb e he
  · exact sub1_general_range env _ _ _ _ rnd hb e he

/-- C6: for regular operands whose exponents lie in `[emin, emax]`, if the destination is a
regular number on return then its exponent lies in `[emin, emax]`; this covers the branch
`cancel != 0`, which does not test `emax`. -/
theorem sub1_result_in_range (env : Env) (a b c : mpfr) (rnd_mode : mp_rnd_t)
    (_hb : mpfr_regular env.BITS_PER_MP_LIMB b) (_hc : mpfr_regular env.BITS_PER_MP_LIMB c)
    (hbe : env.__gmpfr_emin ≤ MPFR_GET_EXP b ∧ MPFR_GET_EXP b ≤ env.__gmpfr_emax)
    (hce : env.__gmpfr_emin ≤ MPFR_GET_EXP c ∧ MPFR_GET_EXP c ≤ env.__gmpfr_emax)
    (e : Int) (he : (mpfr_sub1 env a b c rnd_mode).1._mpfr_exp = regular e) :
    env.__gmpfr_emin ≤ e ∧ e ≤ env.__gmpfr_emax := by
  unfold mpfr_sub1 at he
  simp only [] at he
  split at he
  · simp at he
  · split at he
    · exact sub1_ordered_range env _ _ _ _ rnd_mode hce e he
    · exact sub1_ordered_range env _ _ _ _ rnd_mode hbe e he

/-- Witness of C6: `1.0 - 0.5` at precision 2 has the exponent 0. -/
theorem sub1_result_in_range_witness :
    (mpfr_sub1 env64 (dest64 2) one_prec2 half_prec2 GMP_RNDN).1._mpfr_exp = regular 0 ∧
    env64.__gmpfr_emin ≤ 0 ∧ (0 : Int) ≤ env64.__gmpfr_emax :=
  ⟨by decide, sub1_result_in_range env64 (dest64 2) one_prec2 half_prec2 GMP_RNDN
    (by decide) (by decide) (by decide) (by decide) 0 (by decide)⟩

/-! ## Claim C9: anti-symmetry -/

theorem mpfr_cmp2_swap (w : Nat) (b c : mpfr) :
    mpfr_cmp2 w c b = (- (mpfr_cmp2 w b c).1, (mpfr_cmp2 w b c).2) := by
  unfold mpfr_cmp2
  have hg : common_unit w c b = common_unit w b c := by unfold common_unit; exact min_comm _ _
  have hm : max (MPFR_GET_EXP c) (MPFR_GET_EXP b) = max (MPFR_GET_EXP b) (MPFR_GET_EXP c) :=
    max_comm _ _
  simp only [hg, hm]
  by_cases h1 : mpfr_abs_in w b (common_unit w b c) = mpfr_abs_in w c (common_unit w b c)
  · simp [h1]
  · by_cases h2 : mpfr_abs_in w c (common_unit w b c) < mpfr_abs_in w b (common_unit w b c)
    · have h3 : ¬ mpfr_abs_in w b (common_unit w b c) < mpfr_abs_in w c (common_unit w b c) := by omega
      have h4 : ¬ mpfr_abs_in w c (common_unit w b c) = mpfr_abs_in w b (common_unit w b c) := by omega
      simp [h1, h2, h3, h4]
    · have h3 : mpfr_abs_in w b (common_unit w b c) < mpfr_abs_in w c (common_unit w b c) := by omega
      have h4 : ¬ mpfr_abs_in w c (common_unit w b c) = mpfr_abs_in w b (common_unit w b c) := by omega
      simp [h1, h2, h3, h4]

/-- C1 at a failing input: `b = 1/2 + 2 ^ (-65)`, `c = 2 ^ (-129)`, destination precision 64,
round-to-nearest.  The exact difference `1/2 + 2 ^ (-65) - 2 ^ (-129)` rounds to `1/2`
(significand `2 ^ 63`); `mpfr_sub1` stores the significand `2 ^ 63 - 1` with exponent 0. -/
theorem sub1_not_correctly_rounded :
    mpfr_regular 64 tie_breaker_b ∧ mpfr_regular 64 tie_breaker_c ∧
    mpfr_sub1 env64 (dest64 64) tie_breaker_b tie_breaker_c GMP_RNDN =
      ({ _mpfr_prec := 64, _mpfr_sign := 1, _mpfr_exp := regular 0, _mpfr_d := [2 ^ 63 - 1] }, -1) ∧
    spec_value_of 64 (mpfr_sub1 env64 (dest64 64) tie_breaker_b tie_breaker_c GMP_RNDN).1
      = spec_value.regular 1 0 (2 ^ 63 - 1) ∧
    correctly_rounded env64 64 tie_breaker_b tie_breaker_c GMP_RNDN
      = spec_value.regular 1 0 (2 ^ 63) := by
  decide

/-! ## Claim C5: the result is normalized -/

/-- C5 at a failing input (the one of C1): the destination is a regular number with exponent
0 whose top limb `ap[an-1] = 2 ^ 63 - 1` has its most significant bit clear, so that the final
assertion `ap[an-1] > ~ap[an-1]` fails: the exit through `sub_one_ulp` does not pass the
top-bit test of the label `truncate`. -/
theorem sub1_not_normalized :
    mpfr_regular 64 tie_breaker_b ∧ mpfr_regular 64 tie_breaker_c ∧
    (mpfr_sub1 env64 (dest64 64) tie_breaker_b tie_breaker_c GMP_RNDN).1._mpfr_exp = regular 0 ∧
    (MPFR_MANT (mpfr_sub1 env64 (dest64 64) tie_breaker_b tie_breaker_c GMP_RNDN).1).getD
      (MPFR_LIMB_SIZE 64 (dest64 64) - 1) 0 >>> (64 - 1) = 0 := by
  decide

/-! ## Claim C10: the fast path -/

/-- C10 at a failing input: `b = 0.111b * 2 ^ emax` at precision 3, `c = 0.10b * 2 ^ (emax - 5)`,
destination precision 2, round-to-nearest.  The fast path is taken; rounding `b` alone is a tie
resolved to the even neighbour away from zero (the macro reports `MPFR_EVEN_INEX * sign` and a
carry), which is condition (ii) of the claim, but the destination is the infinity that the
overflow handler stored, not that value stepped toward zero: the step would give the largest
finite number `0.11b * 2 ^ emax`, which is the correctly rounded difference. -/
theorem sub1_small_overflow_before_correction :
    mpfr_regular 64 overflow_tie_b ∧ mpfr_regular 64 overflow_tie_c ∧
    (mpfr_cmp2 64 overflow_tie_b overflow_tie_c).1 = 1 ∧
    MPFR_GET_EXP overflow_tie_c ≤ MPFR_GET_EXP overflow_tie_b
      - ((max (MPFR_PREC (dest64 2)) (MPFR_PREC overflow_tie_b) : Nat) : Int) - 2 ∧
    MPFR_RNDRAW_EVEN 64 2 (MPFR_MANT overflow_tie_b) 3 GMP_RNDN 1
      = ([2 ^ 63], MPFR_EVEN_INEX * 1, true) ∧
    spec_value_of 64 (mpfr_sub1 env64 (dest64 2) overflow_tie_b overflow_tie_c GMP_RNDN).1
      = spec_value.inf 1 ∧
    (mpfr_sub1 env64 (dest64 2) overflow_tie_b overflow_tie_c GMP_RNDN).2 = 1 ∧
    spec_value_of 64
        (mpfr_nexttozero env64 (mpfr_sub1 env64 (dest64 2) overflow_tie_b overflow_tie_c GMP_RNDN).1)
      = spec_value.regular 1 (2 ^ 62 - 1) 3 ∧
    correctly_rounded env64 2 overflow_tie_b overflow_tie_c GMP_RNDN
      = spec_value.regular 1 (2 ^ 62 - 1) 3 := by
  decide

/-! ## Limb arrays as integers -/

theorem limb_value_append (w : Nat) (l1 l2 : List Nat) :
    limb_value w (l1 ++ l2) = limb_value w l1 + 2 ^ (w * l1.length) * limb_value w l2 := by
  induction l1 with
  | nil => simp [limb_value]
  | cons x xs ih =>
    show x + 2 ^ w * limb_value w (xs ++ l2)
      = (x + 2 ^ w * limb_value w xs) + 2 ^ (w * (xs.length + 1)) * limb_value w l2
    rw [ih, Nat.mul_succ, Nat.pow_add]
    ring

theorem limb_value_lt (w : Nat) (l : List Nat) (h : ∀ x ∈ l, x < 2 ^ w) :
    limb_value w l < 2 ^ (w * l.length) := by
  induction l with
  | nil => simp [limb_value]
  | cons x xs ih =>
    have hx : x < 2 ^ w := h x (List.mem_cons_self _ _)
    have hxs := ih (fun y hy => h y (List.mem_cons_of_mem _ hy))
    simp only [limb_value, List.length_cons]
    rw [Nat.mul_succ, Nat.pow_add]
    have : 2 ^ w * limb_value w xs + 2 ^ w ≤ 2 ^ w * 2 ^ (w * xs.length) := by
      have : limb_value w xs + 1 ≤ 2 ^ (w * xs.length) := hxs
      calc 2 ^ w * limb_value w xs + 2 ^ w = 2 ^ w * (limb_value w xs + 1) := by ring
        _ ≤ 2 ^ w * 2 ^ (w * xs.length) := Nat.mul_le_mul_left _ this
    rw [Nat.mul_comm (2 ^ (w * xs.length))]
    omega

theorem limb_value_replicate_zero (w n : Nat) : limb_value w (List.replicate n 0) = 0 := by
  induction n with
  | zero => rfl
  | succ n ih => simp [List.replicate_succ, limb_value, ih]

theorem limb_value_take (w : Nat) (l : List Nat) (k : Nat) (h : ∀ x ∈ l, x < 2 ^ w) :
    limb_value w (l.take k) = limb_value w l % 2 ^ (w * k) := by
  induction l generalizing k with
  | nil => simp [limb_value]
  | cons x xs ih =>
    cases k with
    | zero => simp [limb_value, Nat.mod_one]
    | succ k =>
      have hx : x < 2 ^ w := h x (List.mem_cons_self _ _)
      have hxs := ih k (fun y hy => h y (List.mem_cons_of_mem _ hy))
      simp only [List.take_succ_cons, limb_value, hxs]
      rw [Nat.mul_succ, Nat.pow_add, Nat.mul_comm (2 ^ (w * k)) (2 ^ w)]
      rw [Nat.add_comm x, Nat.add_comm x]
      rw [Nat.mod_mul, Nat.mul_add_mod, Nat.mod_eq_of_lt hx, Nat.mul_add_div (Nat.two_pow_pos _),
        Nat.div_eq_of_lt hx, Nat.add_zero, Nat.add_comm]

theorem limb_value_drop (w : Nat) (l : List Nat) (k : Nat) (h : ∀ x ∈ l, x < 2 ^ w) :
    limb_value w (l.drop k) = limb_value w l / 2 ^ (w * k) := by
  induction l generalizing k with
  | nil => simp [limb_value]
  | cons x xs ih =>
    cases k with
    | zero => simp
    | succ k =>
      have hx : x < 2 ^ w := h x (List.mem_cons_self _ _)
      have hxs := ih k (fun y hy => h y (List.mem_cons_of_mem _ hy))
      simp only [List.drop_succ_cons, limb_value, hxs]
      rw [Nat.mul_succ, Nat.pow_add, Nat.mul_comm (2 ^ (w * k)) (2 ^ w), ← Nat.div_div_eq_div_mul]
      rw [Nat.add_comm x, Nat.mul_add_div (Nat.two_pow_pos _), Nat.div_eq_of_lt hx, Nat.add_zero]

theorem limbs_of_length (w n x : Nat) : (limbs_of w n x).length = n := by
  induction n generalizing x with
  | zero => rfl
  | succ n ih => simp [limbs_of, ih]

theorem limbs_of_lt (w n x : Nat) : ∀ y ∈ limbs_of w n x, y < 2 ^ w := by
  induction n generalizing x with
  | zero => simp [limbs_of]
  | succ n ih =>
    intro y hy
    simp only [limbs_of, List.mem_cons] at hy
    rcases hy with h | h
    · rw [h]; exact Nat.mod_lt _ (Nat.two_pow_pos _)
    · exact ih _ y h

theorem limb_value_limbs_of (w n x : Nat) : limb_value w (limbs_of w n x) = x % 2 ^ (w * n) := by
  induction n generalizing x with
  | zero => simp [limbs_of, limb_value, Nat.mod_one]
  | succ n ih =>
    simp only [limbs_of, limb_value, ih]
    rw [Nat.mul_succ, Nat.pow_add, Nat.mul_comm (2 ^ (w * n)) (2 ^ w), Nat.mod_mul]

theorem limb_getD (w : Nat) (l : List Nat) (i : Nat) (h : ∀ x ∈ l, x < 2 ^ w) :
    l.getD i 0 = limb_value w l / 2 ^ (w * i) % 2 ^ w := by
  induction l generalizing i with
  | nil => simp [limb_value]
  | cons x xs ih =>
    have hx : x < 2 ^ w := h x (List.mem_cons_self _ _)
    cases i with
    | zero =>
      simp only [List.getD_cons_zero, limb_value, Nat.mul_zero, Nat.pow_zero, Nat.div_one]
      rw [Nat.add_comm, Nat.mul_add_mod, Nat.mod_eq_of_lt hx]
    | succ i =>
      have hxs := ih i (fun y hy => h y (List.mem_cons_of_mem _ hy))
      simp only [List.getD_cons_succ, limb_value, hxs]
      rw [Nat.mul_succ, Nat.pow_add, Nat.mul_comm (2 ^ (w * i)) (2 ^ w), ← Nat.div_div_eq_div_mul]
      rw [Nat.add_comm x, Nat.mul_add_div (Nat.two_pow_pos _), Nat.div_eq_of_lt hx, Nat.add_zero]

/-! ## The loop on the low limbs -/

theorem pow_mul_succ_split (w n : Nat) (hn : 0 < n) :
    2 ^ (w * n) = 2 ^ (w * (n - 1)) * 2 ^ w := by
  rw [← Nat.pow_add, ← Nat.mul_succ]
  congr 2
  omega

/-- The low part of `n > 0` limbs is its top limb followed by the low part of `n - 1` limbs. -/
theorem low_part_step (w : Nat) (p : List Nat) (n t : Nat) (hn : 0 < n) (hnt : n ≤ t)
    (hp : ∀ x ∈ p, x < 2 ^ w) :
    low_part w p n t = p.getD (n - 1) 0 * 2 ^ (w * (t - 1)) + low_part w p (n - 1) (t - 1) := by
  unfold low_part
  rw [limb_getD w p (n - 1) hp, pow_mul_succ_split w n hn, Nat.mod_mul]
  have h1 : t - 1 - (n - 1) = t - n := by omega
  have h2 : 2 ^ (w * (t - 1)) = 2 ^ (w * (n - 1)) * 2 ^ (w * (t - n)) := by
    rw [← Nat.pow_add, ← Nat.mul_add]; congr 2; omega
  rw [h1, h2]
  ring

theorem low_part_lt (w : Nat) (p : List Nat) (n t : Nat) (hnt : n ≤ t) :
    low_part w p n t < 2 ^ (w * t) := by
  unfold low_part
  have h2 : 2 ^ (w * t) = 2 ^ (w * n) * 2 ^ (w * (t - n)) := by
    rw [← Nat.pow_add, ← Nat.mul_add]; congr 2; omega
  rw [h2]
  exact Nat.mul_lt_mul_of_lt_of_le (Nat.mod_lt _ (Nat.two_pow_pos _)) (Nat.le_refl _)
    (Nat.two_pow_pos _)

theorem low_part_zero (w : Nat) (p : List Nat) (t : Nat) : low_part w p 0 t = 0 := by
  unfold low_part; simp [Nat.mod_one]

/-- Comparison of two numbers written as a top limb and a rest below `Q`. -/
theorem compare_top_rest (Q b c lb lc : Nat) (hb : lb < Q) (hc : lc < Q) :
    compare (b * Q + lb) (c * Q + lc) =
      if b < c then Ordering.lt else if c < b then Ordering.gt else compare lb lc := by
  by_cases h1 : b < c
  · rw [if_pos h1, Nat.compare_eq_lt]
    have : (b + 1) * Q ≤ c * Q := Nat.mul_le_mul_right _ h1
    have h2 : (b + 1) * Q = b * Q + Q := by ring
    omega
  · rw [if_neg h1]
    by_cases h2 : c < b
    · rw [if_pos h2, Nat.compare_eq_gt]
      have : (c + 1) * Q ≤ b * Q := Nat.mul_le_mul_right _ h2
      have h3 : (c + 1) * Q = c * Q + Q := by ring
      omega
    · rw [if_neg h2]
      have : b = c := by omega
      subst this
      rcases Nat.lt_trichotomy lb lc with h | h | h
      · rw [Nat.compare_eq_lt.mpr h, Nat.compare_eq_lt]; omega
      · rw [h, Nat.compare_eq_eq.mpr rfl, Nat.compare_eq_eq.mpr rfl]
      · rw [Nat.compare_eq_gt.mpr h, Nat.compare_eq_gt]; omega

/-- Outside of the special first iteration, the loop decides by the comparison of the low
parts of `b` and `c`. -/
theorem sub1_loop_eq_decision (w : Nat) (rnd : mp_rnd_t) (sh : Nat) (ap bp cp : List Nat)
    (cn0 : Int) (hbp : ∀ x ∈ bp, x < 2 ^ w) (hcp : ∀ x ∈ cp, x < 2 ^ w)
    (hcn0 : (cp.length : Int) ≤ cn0) (fuel : Nat) :
    ∀ (bn cn : Int) (k : Nat) (down is_exact : Bool),
      max bn cn ≤ (fuel : Int) → ¬ (rnd = GMP_RNDN ∧ sh = 0 ∧ k = 0) →
      sub1_loop w rnd sh ap bp cp cn0 fuel bn cn k down is_exact =
        sub1_loop_decision rnd sh ap down is_exact
          (compare (low_part w bp bn.toNat (max bn cn).toNat)
            (low_part w cp cn.toNat (max bn cn).toNat)) := by
  induction fuel with
  | zero =>
    intro bn cn k down is_exact hf _
    have hb : bn.toNat = 0 := by omega
    have hc : cn.toNat = 0 := by omega
    simp only [sub1_loop, hb, hc, low_part_zero, Nat.compare_eq_eq.mpr rfl, sub1_loop_decision]
  | succ n ih =>
    intro bn cn k down is_exact hf hns
    rw [sub1_loop]
    by_cases hpos : bn > 0 ∨ cn > 0
    · rw [if_pos hpos]
      have hsp : (decide (rnd = GMP_RNDN) && decide (sh = 0) && decide (k = 0)) = false := by
        rw [Bool.eq_false_iff]; intro h
        simp only [Bool.and_eq_true, decide_eq_true_eq] at h
        exact hns ⟨h.1.1, h.1.2, h.2⟩
      simp only [hsp, Bool.false_eq_true, if_false]
      -- the limbs read by this iteration
      set bb0 : Nat := if bn > 0 then bp.getD (bn - 1).toNat 0 else 0 with hbb0
      set cc0 : Nat := if cn > 0 ∧ cn ≤ cn0 then cp.getD (cn - 1).toNat 0 else 0 with hcc0
      set bn1 : Int := if bn > 0 then bn - 1 else bn with hbn1
      set cn1 : Int := if cn > 0 then cn - 1 else cn with hcn1
      set t := (max bn cn).toNat with ht
      have ht1 : 1 ≤ t := by omega
      have hcc0' : cc0 = if cn > 0 then cp.getD (cn - 1).toNat 0 else 0 := by
        rw [hcc0]
        by_cases h1 : cn > 0
        · by_cases h2 : cn ≤ cn0
          · simp [h1, h2]
          · rw [if_neg (by tauto), if_pos h1]
            symm
            apply List.getD_eq_default
            omega
        · simp [h1]
      have hB : low_part w bp bn.toNat t = bb0 * 2 ^ (w * (t - 1)) + low_part w bp bn1.toNat (t - 1) := by
        by_cases h1 : bn > 0
        · rw [low_part_step w bp bn.toNat t (by omega) (by omega) hbp, hbb0, hbn1, if_pos h1, if_pos h1]
          congr 3 <;> omega
        · rw [hbb0, hbn1, if_neg h1, if_neg h1]
          have : bn.toNat = 0 := by omega
          rw [this, low_part_zero, low_part_zero]; simp
      have hC : low_part w cp cn.toNat t = cc0 * 2 ^ (w * (t - 1)) + low_part w cp cn1.toNat (t - 1) := by
        by_cases h1 : cn > 0
        · rw [low_part_step w cp cn.toNat t (by omega) (by omega) hcp, hcc0', hcn1, if_pos h1, if_pos h1]
          congr 3 <;> omega
        · rw [hcc0', hcn1, if_neg h1, if_neg h1]
          have : cn.toNat = 0 := by omega
          rw [this, low_part_zero, low_part_zero]; simp
      have ht' : (max bn1 cn1).toNat = t - 1 := by
        rw [hbn1, hcn1]; split <;> split <;> omega
      have hf' : max bn1 cn1 ≤ (n : Int) := by
        rw [hbn1, hcn1]; split <;> split <;> omega
      have hlb : low_part w bp bn1.toNat (t - 1) < 2 ^ (w * (t - 1)) :=
        low_part_lt w bp _ _ (by rw [← ht']; omega)
      have hlc : low_part w cp cn1.toNat (t - 1) < 2 ^ (w * (t - 1)) :=
        low_part_lt w cp _ _ (by rw [← ht']; omega)
      rw [hB, hC, compare_top_rest _ _ _ _ _ hlb hlc]
      have hrec := ih bn1 cn1 1 (if down = false then decide (bb0 < cc0) else down) is_exact hf'
        (by simp)
      rw [ht'] at hrec
      by_cases h1 : bb0 < cc0
      · rw [if_pos h1, if_pos h1]
        simp only [sub1_loop_decision, h1, decide_True]
        have hd : (if down = false then true else down) = true := by cases down <;> rfl
        rw [hd]
        by_cases hz : rnd = GMP_RNDZ
        · simp [hz]
        · by_cases hn : rnd = GMP_RNDN
          · have hk : sh = 0 → k ≠ 0 := fun hs hk => hns ⟨hn, hs, hk⟩
            simp only [hz, hn, if_false, ne_eq, not_true_eq_false, true_and]
            by_cases he : is_exact = true ∧ sh = 0
            · rw [if_pos he, if_pos he, if_pos (hk he.2)]
            · rw [if_neg he, if_neg he]
          · simp [hz, hn]
      · rw [if_neg h1, if_neg h1]
        have hd : (if down = false then decide (bb0 < cc0) else down) = down := by
          cases down <;> simp [h1]
        by_cases h2 : cc0 < bb0
        · have h2' : bb0 > cc0 := h2
          rw [if_pos h2', if_pos h2]
          simp only [sub1_loop_decision, hd]
        · have h2' : ¬ bb0 > cc0 := h2
          rw [if_neg h2', if_neg h2, hrec, hd]
    · rw [if_neg hpos]
      have hb : bn.toNat = 0 := by omega
      have hc : cn.toNat = 0 := by omega
      simp only [hb, hc, low_part_zero, Nat.compare_eq_eq.mpr rfl, sub1_loop_decision]

theorem highbit_eq (w : Nat) : MPFR_LIMB_HIGHBIT w = 2 ^ (w - 1) := by
  unfold MPFR_LIMB_HIGHBIT MPFR_LIMB_ONE
  rw [Nat.shiftLeft_eq, Nat.one_mul]

theorem two_highbit (w : Nat) (hw : 0 < w) : 2 ^ w = 2 * MPFR_LIMB_HIGHBIT w := by
  rw [highbit_eq, ← Nat.pow_succ']
  congr 1; omega

theorem getD_lt (w : Nat) (p : List Nat) (i : Nat) (hp : ∀ x ∈ p, x < 2 ^ w) :
    p.getD i 0 < 2 ^ w := by
  rw [limb_getD w p i hp]
  exact Nat.mod_lt _ (Nat.two_pow_pos _)

/-- The first iteration of the loop under round-to-nearest with `sh = 0`. -/
theorem sub1_loop_first (w : Nat) (hw : 0 < w) (ap bp cp : List Nat)
    (cn0 : Int) (hbp : ∀ x ∈ bp, x < 2 ^ w) (hcp : ∀ x ∈ cp, x < 2 ^ w)
    (hcn0 : (cp.length : Int) ≤ cn0) (fuel : Nat) (bn cn : Int)
    (hf : max bn cn ≤ (fuel : Int)) (hpos : bn > 0 ∨ cn > 0) :
    sub1_loop w GMP_RNDN 0 ap bp cp cn0 fuel bn cn 0 false true =
      sub1_loop_decision0 w ap
        (if bn > 0 then bp.getD (bn - 1).toNat 0 else 0)
        (if cn > 0 then cp.getD (cn - 1).toNat 0 else 0)
        (compare (low_part w bp (bn - 1).toNat ((max bn cn).toNat - 1))
          (low_part w cp (cn - 1).toNat ((max bn cn).toNat - 1))) := by
  cases fuel with
  | zero => omega
  | succ n =>
    rw [sub1_loop, if_pos hpos]
    set bb0 : Nat := if bn > 0 then bp.getD (bn - 1).toNat 0 else 0 with hbb0
    set cc0 : Nat := if cn > 0 ∧ cn ≤ cn0 then cp.getD (cn - 1).toNat 0 else 0 with hcc0
    set bn1 : Int := if bn > 0 then bn - 1 else bn with hbn1
    set cn1 : Int := if cn > 0 then cn - 1 else cn with hcn1
    have hcc0' : (if cn > 0 then cp.getD (cn - 1).toNat 0 else 0) = cc0 := by
      rw [hcc0]
      by_cases h1 : cn > 0
      · by_cases h2 : cn ≤ cn0
        · simp [h1, h2]
        · rw [if_pos h1, if_neg (show ¬ (cn > 0 ∧ cn ≤ cn0) by tauto)]
          apply List.getD_eq_default
          omega
      · simp [h1]
    rw [hcc0']
    have hbb_lt : bb0 < 2 ^ w := by
      rw [hbb0]; split
      · exact getD_lt w bp _ hbp
      · exact Nat.two_pow_pos _
    have hcc_lt : cc0 < 2 ^ w := by
      rw [hcc0]; split
      · exact getD_lt w cp _ hcp
      · exact Nat.two_pow_pos _
    have h2w := two_highbit w hw
    have ht' : (max bn1 cn1).toNat = (max bn cn).toNat - 1 := by
      rw [hbn1, hcn1]; split <;> split <;> omega
    have hf' : max bn1 cn1 ≤ (n : Int) := by
      rw [hbn1, hcn1]; split <;> split <;> omega
    have hb1 : bn1.toNat = (bn - 1).toNat := by rw [hbn1]; split <;> omega
    have hc1 : cn1.toNat = (cn - 1).toNat := by rw [hcn1]; split <;> omega
    have hrec := fun (down is_exact : Bool) =>
      sub1_loop_eq_decision w GMP_RNDN 0 ap bp cp cn0 hbp hcp hcn0 n bn1 cn1 1 down is_exact hf'
        (by simp)
    have eb1 : (bn - 1).toNat = bn.toNat - 1 := by omega
    have ec1 : (cn - 1).toNat = cn.toNat - 1 := by omega
    simp only [ht', hb1, hc1, eb1, ec1] at hrec
    simp only [decide_True, Bool.and_self, if_true, Bool.true_and, eb1, ec1]
    unfold sub1_loop_decision0
    generalize MPFR_LIMB_HIGHBIT w = half at h2w ⊢
    by_cases h1 : bb0 < cc0
    · simp only [h1, decide_True, if_true]
      have hne : ¬ bb0 = cc0 := by omega
      simp only [hne, decide_False]
      by_cases h2 : cc0 ≥ half
      · have e1 : (cc0 + 2 ^ w - half) % 2 ^ w = cc0 - half := by
          rw [show cc0 + 2 ^ w - half = (cc0 - half) + 2 ^ w by omega, Nat.add_mod_right,
            Nat.mod_eq_of_lt (by omega)]
        simp only [h2, if_true, e1]
        by_cases h3 : bb0 + half < cc0
        · have h3' : bb0 < cc0 - half := by omega
          simp [h3, h3']
        · by_cases h4 : cc0 < bb0 + half
          · have h3' : ¬ bb0 < cc0 - half := by omega
            have h4' : bb0 > cc0 - half := by omega
            simp [h3, h4, h3', h4']
          · have h3' : ¬ bb0 < cc0 - half := by omega
            have h4' : ¬ bb0 > cc0 - half := by omega
            simp only [h3, h4, h3', h4', if_false]
            exact hrec true false
      · have e1 : (bb0 + half) % 2 ^ w = bb0 + half := Nat.mod_eq_of_lt (by omega)
        simp only [h2, if_false, e1]
        by_cases h3 : bb0 + half < cc0
        · simp [h3]
        · by_cases h4 : cc0 < bb0 + half
          · have h4' : bb0 + half > cc0 := h4
            simp [h3, h4']
          · have h4' : ¬ bb0 + half > cc0 := h4
            simp only [h3, h4, h4', if_false]
            exact hrec true false
    · have hpos_half : 0 < half := by
        rcases Nat.eq_zero_or_pos half with h | h
        · rw [h] at h2w; have := Nat.two_pow_pos w; omega
        · exact h
      by_cases h2 : cc0 < half
      · have e1 : (cc0 + half) % 2 ^ w = cc0 + half := Nat.mod_eq_of_lt (by omega)
        by_cases he : bb0 = cc0
        · rw [← hrec false true]
          have h5 : cc0 < cc0 + half := by omega
          simp [h1, h2, e1, he, h5]
        · by_cases h3 : bb0 < cc0 + half
          · simp [h1, h2, e1, he, h3]
          · by_cases h4 : cc0 + half < bb0
            · simp [h1, h2, e1, he, h3, h4]
            · rw [← hrec false false]
              simp [h1, h2, e1, he, h3, h4]
      · have e1 : (bb0 + 2 ^ w - half) % 2 ^ w = bb0 - half := by
          rw [show bb0 + 2 ^ w - half = (bb0 - half) + 2 ^ w by omega, Nat.add_mod_right,
            Nat.mod_eq_of_lt (by omega)]
        by_cases he : bb0 = cc0
        · rw [← hrec false true]
          have h5 : cc0 - half < cc0 := by omega
          have e1' : (cc0 + 2 ^ w - half) % 2 ^ w = cc0 - half := by rw [← he]; exact e1
          simp [h1, h2, e1', he, h5]
        · by_cases h3 : bb0 < cc0 + half
          · have h3' : bb0 - half < cc0 := by omega
            simp [h1, h2, e1, he, h3, h3']
          · by_cases h4 : cc0 + half < bb0
            · have h3' : ¬ bb0 - half < cc0 := by omega
              have h4' : cc0 < bb0 - half := by omega
              simp [h1, h2, e1, he, h3, h4, h3', h4']
            · have h3' : ¬ bb0 - half < cc0 := by omega
              have h4' : ¬ cc0 < bb0 - half := by omega
              rw [← hrec false false]
              simp [h1, h2, e1, he, h3, h4, h3', h4']

/-! ## Regular numbers -/

theorem mul_pred_add (w n : Nat) (hn : 0 < n) : w * n = w * (n - 1) + w := by
  have hn1 : n = (n - 1) + 1 := by omega
  conv_lhs => rw [hn1]
  rw [Nat.mul_succ]

theorem limb_size_pos (w : Nat) (x : mpfr) : 0 < MPFR_LIMB_SIZE w x := by
  unfold MPFR_LIMB_SIZE; exact Nat.succ_pos _

theorem prec_le_limbs (w : Nat) (hw : 0 < w) (x : mpfr) :
    MPFR_PREC x ≤ MPFR_LIMB_SIZE w x * w := by
  unfold MPFR_LIMB_SIZE
  have h := Nat.div_add_mod (MPFR_PREC x - 1) w
  have h2 := Nat.mod_lt (MPFR_PREC x - 1) hw
  rw [Nat.add_mul, Nat.one_mul, Nat.mul_comm]
  omega

theorem limbs_lt_prec_add (w : Nat) (_hw : 0 < w) (x : mpfr) (hp : 1 ≤ MPFR_PREC x) :
    MPFR_LIMB_SIZE w x * w < MPFR_PREC x + w := by
  unfold MPFR_LIMB_SIZE
  have h := Nat.div_add_mod (MPFR_PREC x - 1) w
  rw [Nat.add_mul, Nat.one_mul, Nat.mul_comm]
  omega

/-- The significand of a regular number is below `2 ^ (w * n)`. -/
theorem regular_lt (w : Nat) (x : mpfr) (h : mpfr_regular w x) :
    limb_value w (MPFR_MANT x) < 2 ^ (w * MPFR_LIMB_SIZE w x) := by
  have := limb_value_lt w (MPFR_MANT x) h.2.2.2.2.1
  rw [h.2.2.2.1] at this
  exact this

/-- The significand of a regular number has its top bit set. -/
theorem regular_ge (w : Nat) (hw : 0 < w) (x : mpfr) (h : mpfr_regular w x) :
    2 ^ (w * MPFR_LIMB_SIZE w x - 1) ≤ limb_value w (MPFR_MANT x) := by
  obtain ⟨_, _, _, hlen, hwf, htop, _⟩ := h
  have hn := limb_size_pos w x
  rw [limb_getD w _ _ hwf, Nat.shiftRight_eq_div_pow] at htop
  set M := limb_value w (MPFR_MANT x) with hM
  set n := MPFR_LIMB_SIZE w x with hn'
  have hlt : M < 2 ^ (w * n) := by
    have := limb_value_lt w (MPFR_MANT x) hwf
    rw [hlen] at this; exact this
  have hsplit : 2 ^ (w * n) = 2 ^ (w * (n - 1)) * 2 ^ w := pow_mul_succ_split w n hn
  have hq : M / 2 ^ (w * (n - 1)) < 2 ^ w := by
    rw [Nat.div_lt_iff_lt_mul (Nat.two_pow_pos _), Nat.mul_comm, ← hsplit]; exact hlt
  rw [Nat.mod_eq_of_lt hq] at htop
  have h1 : 2 ^ (w - 1) ≤ M / 2 ^ (w * (n - 1)) := by
    by_contra hc
    have hlt2 : M / 2 ^ (w * (n - 1)) < 2 ^ (w - 1) := Nat.lt_of_not_le hc
    have := Nat.div_eq_of_lt hlt2
    omega
  have h2 : 2 ^ (w - 1) * 2 ^ (w * (n - 1)) ≤ M :=
    (Nat.le_div_iff_mul_le (Nat.two_pow_pos _)).mp h1
  have h3 : 2 ^ (w * n - 1) = 2 ^ (w - 1) * 2 ^ (w * (n - 1)) := by
    rw [← Nat.pow_add]; congr 1
    have := mul_pred_add w n hn
    omega
  rw [h3]; exact h2

/-- The bits of the significand of a regular number beyond its precision are zero. -/
theorem regular_low_bits (w : Nat) (hw : 0 < w) (x : mpfr) (h : mpfr_regular w x) :
    limb_value w (MPFR_MANT x) % 2 ^ (MPFR_LIMB_SIZE w x * w - MPFR_PREC x) = 0 := by
  obtain ⟨_, _, hp, hlen, hwf, _, hlow⟩ := h
  unfold MPFR_LIMB_MASK MPFR_LIMB_ONE at hlow
  rw [Nat.shiftLeft_eq, Nat.one_mul, Nat.and_pow_two_sub_one_eq_mod, limb_getD w _ _ hwf] at hlow
  simp only [Nat.mul_zero, Nat.pow_zero, Nat.div_one] at hlow
  have hsh : MPFR_LIMB_SIZE w x * w - MPFR_PREC x ≤ w := by
    have := limbs_lt_prec_add w hw x hp; omega
  rw [Nat.mod_mod_of_dvd _ (Nat.pow_dvd_pow 2 hsh)] at hlow
  exact hlow

/-! ## Alignment -/

theorem shift_b_lt (w cancel : Nat) (hw : 0 < w) : sub1_shift_b w cancel < w := by
  unfold sub1_shift_b MPFR_UNSIGNED_MINUS_MODULO
  exact Nat.mod_lt _ hw

theorem cancel1_mul (w cancel : Nat) (hw : 0 < w) :
    sub1_cancel1 w cancel * w = cancel + sub1_shift_b w cancel := by
  unfold sub1_cancel1 sub1_shift_b MPFR_UNSIGNED_MINUS_MODULO
  have h1 := Nat.div_add_mod cancel w
  have h2 := Nat.mod_lt cancel hw
  by_cases h0 : cancel % w = 0
  · rw [h0, Nat.sub_zero, Nat.mod_self, Nat.add_zero]
    exact Nat.div_mul_cancel (Nat.dvd_of_mod_eq_zero h0)
  · rw [Nat.mod_eq_of_lt (by omega)]
    apply Nat.div_mul_cancel
    apply Nat.dvd_of_mod_eq_zero
    have : cancel + (w - cancel % w) = (cancel / w + 1) * w := by
      rw [Nat.add_mul, Nat.one_mul, Nat.mul_comm]; omega
    rw [this, Nat.mul_mod_left]

theorem shift_c_eq (w : Nat) (hw : limb_width_ok w) (d : Int) (cancel : Nat) :
    sub1_shift_c w d cancel = (d - (cancel : Int)) % (w : Int) := by
  obtain ⟨hpos, hdvd⟩ := hw
  unfold sub1_shift_c
  by_cases h1 : w = 1
  · subst h1
    simp [Int.tmod_one, Int.emod_one]
  · have h2 : (2 ^ 32 - 1) % w = w - 1 := by
      obtain ⟨q, hq⟩ := hdvd
      have hq1 : 1 ≤ q := by
        rcases Nat.eq_zero_or_pos q with h | h
        · rw [h] at hq; simp at hq
        · exact h
      have : 2 ^ 32 - 1 = (w - 1) + w * (q - 1) := by
        have := mul_pred_add w q hq1
        omega
      rw [this, Nat.add_mul_mod_self_left, Nat.mod_eq_of_lt (by omega)]
    rw [if_pos ⟨h2, by omega⟩]
    apply Int.emod_emod_of_dvd
    have : (2 : Int) ^ 64 = ((2 ^ 32 : Nat) : Int) * ((2 ^ 32 : Nat) : Int) := by norm_num
    rw [this]
    exact Dvd.dvd.mul_right (Int.natCast_dvd_natCast.mpr hdvd) _

/-! ## Regions of limb arrays -/

theorem wf_take (w : Nat) (p : List Nat) (n : Nat) (hp : ∀ x ∈ p, x < 2 ^ w) :
    ∀ x ∈ p.take n, x < 2 ^ w := fun x hx => hp x (List.mem_of_mem_take hx)

theorem wf_drop (w : Nat) (p : List Nat) (n : Nat) (hp : ∀ x ∈ p, x < 2 ^ w) :
    ∀ x ∈ p.drop n, x < 2 ^ w := fun x hx => hp x (List.mem_of_mem_drop hx)

theorem wf_append (w : Nat) (p q : List Nat) (hp : ∀ x ∈ p, x < 2 ^ w)
    (hq : ∀ x ∈ q, x < 2 ^ w) : ∀ x ∈ p ++ q, x < 2 ^ w := by
  intro x hx
  rcases List.mem_append.mp hx with h | h
  · exact hp x h
  · exact hq x h

theorem wf_zero (w n : Nat) : ∀ x ∈ MPN_ZERO n, x < 2 ^ w := by
  intro x hx
  unfold MPN_ZERO at hx
  rw [(List.mem_replicate.mp hx).2]
  exact Nat.two_pow_pos _

theorem wf_MPN (w : Nat) (p : List Nat) (off n : Nat) (hp : ∀ x ∈ p, x < 2 ^ w) :
    ∀ x ∈ MPN p off n, x < 2 ^ w := wf_take w _ n (wf_drop w p off hp)

theorem MPN_value (w : Nat) (p : List Nat) (off n : Nat) (hp : ∀ x ∈ p, x < 2 ^ w) :
    limb_value w (MPN p off n) = limb_value w p / 2 ^ (w * off) % 2 ^ (w * n) := by
  unfold MPN
  rw [limb_value_take w _ n (wf_drop w p off hp), limb_value_drop w p off hp]

theorem MPN_length (p : List Nat) (off n : Nat) (h : off + n ≤ p.length) :
    (MPN p off n).length = n := by
  unfold MPN
  rw [List.length_take, List.length_drop]
  omega

theorem wf_MPN_STORE (w : Nat) (p : List Nat) (off : Nat) (r : List Nat)
    (hp : ∀ x ∈ p, x < 2 ^ w) (hr : ∀ x ∈ r, x < 2 ^ w) :
    ∀ x ∈ MPN_STORE p off r, x < 2 ^ w :=
  wf_append w _ _ (wf_append w _ _ (wf_take w p off hp) hr) (wf_drop w p _ hp)

theorem MPN_STORE_length (p : List Nat) (off : Nat) (r : List Nat) (h : off + r.length ≤ p.length) :
    (MPN_STORE p off r).length = p.length := by
  unfold MPN_STORE
  simp only [List.length_append, List.length_take, List.length_drop]
  omega

theorem MPN_STORE_value (w : Nat) (p : List Nat) (off : Nat) (r : List Nat)
    (hp : ∀ x ∈ p, x < 2 ^ w) (h : off + r.length ≤ p.length) :
    limb_value w (MPN_STORE p off r) =
      limb_value w p % 2 ^ (w * off) + 2 ^ (w * off) * limb_value w r
        + 2 ^ (w * (off + r.length)) * (limb_value w p / 2 ^ (w * (off + r.length))) := by
  unfold MPN_STORE
  rw [limb_value_append, limb_value_append, limb_value_take w p off hp, limb_value_drop w p _ hp]
  simp only [List.length_append, List.length_take]
  rw [Nat.min_eq_left (by omega)]

/-- An integer is its low part below `2 ^ k` plus its high part. -/
theorem mod_add_div_pow (x k : Nat) : x = x % 2 ^ k + 2 ^ k * (x / 2 ^ k) :=
  (Nat.mod_add_div x (2 ^ k)).symm

theorem pow_mul_add (w a b : Nat) : 2 ^ (w * (a + b)) = 2 ^ (w * a) * 2 ^ (w * b) := by
  rw [Nat.mul_add, Nat.pow_add]

theorem high_part_eq (w V : Nat) (k : Int) (m : Nat) (hk : k ≤ (m : Int)) :
    V * 2 ^ (w * ((m : Int) - k).toNat) / 2 ^ (w * m) = high_part w V k := by
  unfold high_part
  by_cases h0 : 0 ≤ k
  · rw [if_pos h0]
    have hm : 2 ^ (w * m) = 2 ^ (w * ((m : Int) - k).toNat) * 2 ^ (w * k.toNat) := by
      rw [← pow_mul_add]; congr 2; omega
    rw [hm]
    have hX := Nat.two_pow_pos (w * ((m : Int) - k).toNat)
    generalize 2 ^ (w * ((m : Int) - k).toNat) = X at hX ⊢
    rw [Nat.mul_comm V X]
    exact Nat.mul_div_mul_left _ _ hX
  · rw [if_neg h0]
    have e : ((m : Int) - k).toNat = m + (-k).toNat := by omega
    rw [e, pow_mul_add]
    have hX := Nat.two_pow_pos (w * m)
    generalize 2 ^ (w * m) = X at hX ⊢
    generalize 2 ^ (w * (-k).toNat) = Y
    rw [show V * (X * Y) = X * (V * Y) by ring]
    exact Nat.mul_div_cancel_left _ hX

theorem low_part_eq (w : Nat) (p : List Nat) (k : Int) (m : Nat) (hk : k ≤ (m : Int)) :
    limb_value w p * 2 ^ (w * ((m : Int) - k).toNat) % 2 ^ (w * m) = low_part w p k.toNat m := by
  unfold low_part
  by_cases h0 : 0 ≤ k
  · have e2 : m - k.toNat = ((m : Int) - k).toNat := by omega
    have hm : 2 ^ (w * m) = 2 ^ (w * k.toNat) * 2 ^ (w * ((m : Int) - k).toNat) := by
      rw [← pow_mul_add]; congr 2; omega
    rw [hm, e2, Nat.mul_mod_mul_right]
  · have e : ((m : Int) - k).toNat = m + (-k).toNat := by omega
    have e2 : k.toNat = 0 := by omega
    rw [e, e2, pow_mul_add, Nat.mul_zero, Nat.pow_zero, Nat.mod_one, Nat.zero_mul]
    generalize 2 ^ (w * m) = X
    generalize 2 ^ (w * (-k).toNat) = Y
    rw [show limb_value w p * (X * Y) = X * (limb_value w p * Y) by ring]
    exact Nat.mul_mod_right _ _

/-! ## The window `high(b) - high(c)` -/

/-- Lines 235-249: the window after the copy of `high(b)`. -/
theorem sub1_copy_high_b_spec (w an cancel1 : Nat) (bp : List Nat) (bn : Nat)
    (hbp : ∀ x ∈ bp, x < 2 ^ w) (hlen : bp.length = bn) :
    (sub1_copy_high_b an cancel1 bp bn).length = an ∧
    (∀ x ∈ sub1_copy_high_b an cancel1 bp bn, x < 2 ^ w) ∧
    limb_value w (sub1_copy_high_b an cancel1 bp bn) =
      high_part w (limb_value w bp) ((bn : Int) - an - cancel1) % 2 ^ (w * an) := by
  unfold sub1_copy_high_b high_part
  by_cases h1 : an + cancel1 ≤ bn
  · rw [if_pos h1, if_pos (show (0 : Int) ≤ (bn : Int) - an - cancel1 by omega)]
    refine ⟨MPN_length _ _ _ (by omega), wf_MPN w _ _ _ hbp, ?_⟩
    rw [MPN_value w _ _ _ hbp]
    have e : ((bn : Int) - an - cancel1).toNat = bn - (an + cancel1) := by omega
    rw [e]
  · rw [if_neg h1, if_neg (show ¬ (0 : Int) ≤ (bn : Int) - an - cancel1 by omega)]
    by_cases h2 : cancel1 < bn
    · rw [if_pos h2]
      refine ⟨?_, wf_append w _ _ (wf_zero w _) (wf_MPN w _ _ _ hbp), ?_⟩
      · rw [List.length_append, MPN_length _ _ _ (by omega)]
        unfold MPN_ZERO; rw [List.length_replicate]; omega
      · rw [limb_value_append, MPN_value w _ _ _ hbp]
        unfold MPN_ZERO
        rw [limb_value_replicate_zero, List.length_replicate, Nat.zero_add, Nat.mul_zero,
          Nat.pow_zero, Nat.div_one]
        have e1 : (-((bn : Int) - an - cancel1)).toNat = an + cancel1 - bn := by omega
        have hT : 2 ^ (w * an) = 2 ^ (w * (bn - cancel1)) * 2 ^ (w * (an + cancel1 - bn)) := by
          rw [← pow_mul_add]; congr 2; omega
        rw [e1, hT, Nat.mul_mod_mul_right, Nat.mul_comm]
    · rw [if_neg h2]
      refine ⟨by unfold MPN_ZERO; rw [List.length_replicate], wf_zero w _, ?_⟩
      unfold MPN_ZERO
      rw [limb_value_replicate_zero]
      have e1 : (-((bn : Int) - an - cancel1)).toNat = an + ((cancel1 - bn)) := by omega
      rw [e1, pow_mul_add, ← Nat.mul_assoc, Nat.mul_comm _ (2 ^ (w * an)), Nat.mul_assoc,
        Nat.mul_mod_right]

/-- `mpn_sub_n` on a region of the window: the value of the window after the store, with the
borrow out of the region. -/
theorem sub_n_at_value (w : Nat) (ap s2 : List Nat) (off len : Nat)
    (hap : ∀ x ∈ ap, x < 2 ^ w) (hs2 : ∀ x ∈ s2, x < 2 ^ w) (h : off + len ≤ ap.length) :
    ((limb_value w (MPN_STORE ap off (mpn_sub_n w (MPN ap off len) s2 len).1) : Nat) : Int) =
        (limb_value w ap : Int) - ((2 ^ (w * off) : Nat) : Int) * (limb_value w (s2.take len) : Int)
          + ((mpn_sub_n w (MPN ap off len) s2 len).2 : Int) * ((2 ^ (w * (off + len)) : Nat) : Int) ∧
    (mpn_sub_n w (MPN ap off len) s2 len).2 ≤ 1 ∧
    (MPN_STORE ap off (mpn_sub_n w (MPN ap off len) s2 len).1).length = ap.length ∧
    (∀ x ∈ MPN_STORE ap off (mpn_sub_n w (MPN ap off len) s2 len).1, x < 2 ^ w) := by
  have hl : (mpn_sub_n w (MPN ap off len) s2 len).1.length = len := by
    unfold mpn_sub_n; exact limbs_of_length _ _ _
  have hwf : ∀ x ∈ (mpn_sub_n w (MPN ap off len) s2 len).1, x < 2 ^ w := by
    unfold mpn_sub_n; exact limbs_of_lt _ _ _
  refine ⟨?_, ?_, MPN_STORE_length _ _ _ (by omega), wf_MPN_STORE w _ _ _ hap hwf⟩
  · rw [MPN_STORE_value w ap off _ hap (by omega), hl]
    unfold mpn_sub_n
    simp only [limb_value_limbs_of]
    have hx : (MPN ap off len).take len = MPN ap off len := by
      apply List.take_of_length_le
      rw [MPN_length _ _ _ h]
    rw [hx, MPN_value w _ _ _ hap]
    set A := limb_value w ap with hA
    set y := limb_value w (s2.take len) with hy
    have hylt : y < 2 ^ (w * len) := by
      have := limb_value_lt w (s2.take len) (wf_take w _ _ hs2)
      have hle : (s2.take len).length ≤ len := by rw [List.length_take]; omega
      exact Nat.lt_of_lt_of_le this (Nat.pow_le_pow_right (by norm_num) (Nat.mul_le_mul_left _ hle))
    set x := A / 2 ^ (w * off) % 2 ^ (w * len) with hx'
    have hxlt : x < 2 ^ (w * len) := Nat.mod_lt _ (Nat.two_pow_pos _)
    have hA1 : A = A % 2 ^ (w * off) + 2 ^ (w * off) * (x + 2 ^ (w * len) * (A / 2 ^ (w * (off + len)))) := by
      have h1 := mod_add_div_pow A (w * off)
      have h2 := mod_add_div_pow (A / 2 ^ (w * off)) (w * len)
      rw [Nat.div_div_eq_div_mul, ← pow_mul_add] at h2
      rw [← h2]; exact h1
    generalize A % 2 ^ (w * off) = lo at hA1 ⊢
    generalize A / 2 ^ (w * (off + len)) = hi at hA1 ⊢
    rw [pow_mul_add]
    generalize 2 ^ (w * off) = Po at hA1 ⊢
    generalize 2 ^ (w * len) = Pl at hA1 hylt hxlt ⊢
    by_cases hb : x < y
    · rw [if_pos hb]
      have e : (x + Pl - y) % Pl = x + Pl - y := Nat.mod_eq_of_lt (by omega)
      rw [e, hA1]
      push_cast
      rw [Nat.cast_sub (by omega)]
      push_cast
      ring
    · rw [if_neg hb]
      have e : (x + Pl - y) % Pl = x - y := by
        rw [show x + Pl - y = (x - y) + Pl by omega, Nat.add_mod_right, Nat.mod_eq_of_lt (by omega)]
      rw [e, hA1]
      push_cast
      rw [Nat.cast_sub (by omega)]
      ring
  · unfold mpn_sub_n; simp only []; split <;> omega

/-- The arithmetic of a subtraction modulo `Pl` inside a number, with the borrow out. -/
theorem sub_mod_borrow (x y Pl : Nat) (hx : x < Pl) (hy : y < Pl) :
    (((x + Pl - y) % Pl : Nat) : Int) = (x : Int) - y + ((if x < y then 1 else 0 : Nat) : Int) * Pl := by
  by_cases hb : x < y
  · rw [if_pos hb, Nat.mod_eq_of_lt (by omega)]
    push_cast [Nat.cast_sub (show y ≤ x + Pl by omega)]
    ring
  · rw [if_neg hb, show x + Pl - y = (x - y) + Pl by omega, Nat.add_mod_right,
      Nat.mod_eq_of_lt (by omega)]
    push_cast [Nat.cast_sub (show y ≤ x by omega)]
    ring

/-- Value of `mpn_sub_n`: the difference of the two regions plus the borrow. -/
theorem sub_n_value (w : Nat) (s1 s2 : List Nat) (n : Nat)
    (h1 : ∀ x ∈ s1, x < 2 ^ w) (h2 : ∀ x ∈ s2, x < 2 ^ w) :
    ((limb_value w (mpn_sub_n w s1 s2 n).1 : Nat) : Int) =
      (limb_value w (s1.take n) : Int) - (limb_value w (s2.take n) : Int)
        + ((mpn_sub_n w s1 s2 n).2 : Int) * ((2 ^ (w * n) : Nat) : Int) := by
  unfold mpn_sub_n
  simp only [limb_value_limbs_of]
  have hlt : ∀ s : List Nat, (∀ x ∈ s, x < 2 ^ w) → limb_value w (s.take n) < 2 ^ (w * n) := by
    intro s hs
    have := limb_value_lt w (s.take n) (wf_take w _ _ hs)
    have hle : (s.take n).length ≤ n := by rw [List.length_take]; omega
    exact Nat.lt_of_lt_of_le this (Nat.pow_le_pow_right (by norm_num) (Nat.mul_le_mul_left _ hle))
  exact sub_mod_borrow _ _ _ (hlt s1 h1) (hlt s2 h2)

theorem mpn_sub_n_MPN0 (w : Nat) (ap s2 : List Nat) (n : Nat) :
    mpn_sub_n w ap s2 n = mpn_sub_n w (MPN ap 0 n) s2 n := by
  unfold mpn_sub_n MPN
  simp [List.take_take]

/-- Value of `mpn_sub_1` applied to the region `{ap + off, len}`, stored back. -/
theorem sub_1_at_value (w : Nat) (ap : List Nat) (off len l : Nat)
    (hap : ∀ x ∈ ap, x < 2 ^ w) (h : off + len ≤ ap.length) (hl : l < 2 ^ (w * len)) :
    ((limb_value w (MPN_STORE ap off (mpn_sub_1 w (MPN ap off len) len l).1) : Nat) : Int) =
        (limb_value w ap : Int) - ((2 ^ (w * off) : Nat) : Int) * (l : Int)
          + ((mpn_sub_1 w (MPN ap off len) len l).2 : Int) * ((2 ^ (w * (off + len)) : Nat) : Int) ∧
    (MPN_STORE ap off (mpn_sub_1 w (MPN ap off len) len l).1).length = ap.length ∧
    (∀ x ∈ MPN_STORE ap off (mpn_sub_1 w (MPN ap off len) len l).1, x < 2 ^ w) := by
  have hl1 : (mpn_sub_1 w (MPN ap off len) len l).1.length = len := by
    unfold mpn_sub_1; exact limbs_of_length _ _ _
  have hwf : ∀ x ∈ (mpn_sub_1 w (MPN ap off len) len l).1, x < 2 ^ w := by
    unfold mpn_sub_1; exact limbs_of_lt _ _ _
  refine ⟨?_, MPN_STORE_length _ _ _ (by omega), wf_MPN_STORE w _ _ _ hap hwf⟩
  rw [MPN_STORE_value w ap off _ hap (by omega), hl1]
  unfold mpn_sub_1
  simp only [limb_value_limbs_of]
  have hx : (MPN ap off len).take len = MPN ap off len := by
    apply List.take_of_length_le
    rw [MPN_length _ _ _ h]
  rw [hx, MPN_value w _ _ _ hap, Nat.mod_eq_of_lt hl]
  set A := limb_value w ap with hA
  set x := A / 2 ^ (w * off) % 2 ^ (w * len) with hx'
  have hxlt : x < 2 ^ (w * len) := Nat.mod_lt _ (Nat.two_pow_pos _)
  have hA1 : A = A % 2 ^ (w * off) + 2 ^ (w * off) * (x + 2 ^ (w * len) * (A / 2 ^ (w * (off + len)))) := by
    have h1 := mod_add_div_pow A (w * off)
    have h2 := mod_add_div_pow (A / 2 ^ (w * off)) (w * len)
    rw [Nat.div_div_eq_div_mul, ← pow_mul_add] at h2
    rw [← h2]; exact h1
  have hs := sub_mod_borrow x l (2 ^ (w * len)) hxlt hl
  generalize A % 2 ^ (w * off) = lo at hA1 ⊢
  generalize A / 2 ^ (w * (off + len)) = hi at hA1 ⊢
  rw [pow_mul_add]
  generalize 2 ^ (w * off) = Po at hA1 ⊢
  generalize 2 ^ (w * len) = Pl at hA1 hl hxlt hs ⊢
  generalize (x + Pl - l) % Pl = r at hs ⊢
  have hA2 : (A : Int) = lo + Po * (x + Pl * hi) := by exact_mod_cast hA1
  push_cast
  rw [hA2]
  push_cast at hs
  rw [hs]
  ring

theorem take_len_value_lt (w : Nat) (s : List Nat) (n : Nat) (hs : ∀ x ∈ s, x < 2 ^ w) :
    limb_value w (s.take n) < 2 ^ (w * n) := by
  have := limb_value_lt w (s.take n) (wf_take w _ _ hs)
  have hle : (s.take n).length ≤ n := by rw [List.length_take]; omega
  exact Nat.lt_of_lt_of_le this (Nat.pow_le_pow_right (by norm_num) (Nat.mul_le_mul_left _ hle))

/-- Lines 255-292: the window after the subtraction of `high(c)`, modulo `2 ^ (w * an)`. -/
theorem sub1_sub_high_c_spec (w an : Nat) (hw : 0 < w) (cancel2 : Int) (ap cp : List Nat) (cn : Nat)
    (hap : ∀ x ∈ ap, x < 2 ^ w) (hcp : ∀ x ∈ cp, x < 2 ^ w)
    (hlen : ap.length = an) (hcl : cp.length = cn) :
    (sub1_sub_high_c w an cancel2 ap cp cn).length = an ∧
    (∀ x ∈ sub1_sub_high_c w an cancel2 ap cp cn, x < 2 ^ w) ∧
    ∃ k : Int, ((limb_value w (sub1_sub_high_c w an cancel2 ap cp cn) : Nat) : Int) =
      (limb_value w ap : Int) - (high_part w (limb_value w cp) ((cn : Int) - an - cancel2) : Nat)
        + k * ((2 ^ (w * an) : Nat) : Int) := by
  have hCv : limb_value w cp < 2 ^ (w * cn) := by
    have := limb_value_lt w cp hcp; rwa [hcl] at this
  unfold sub1_sub_high_c
  by_cases h1 : (an : Int) + cancel2 > 0
  · rw [if_pos h1]
    by_cases h2 : cancel2 ≥ 0
    · rw [if_pos h2]
      by_cases h3 : (an : Int) + cancel2 ≤ cn
      · -- case 1
        rw [if_pos h3]
        refine ⟨by unfold mpn_sub_n; exact limbs_of_length _ _ _,
          by unfold mpn_sub_n; exact limbs_of_lt _ _ _, ?_⟩
        have hv := sub_n_value w ap (MPN cp ((cn : Int) - (an + cancel2)).toNat an) an hap
          (wf_MPN w _ _ _ hcp)
        have ht1 : ap.take an = ap := List.take_of_length_le (by omega)
        have ht2 : (MPN cp ((cn : Int) - (an + cancel2)).toNat an).take an
            = MPN cp ((cn : Int) - (an + cancel2)).toNat an := by
          unfold MPN; rw [List.take_take]; simp
        rw [ht1, ht2, MPN_value w _ _ _ hcp] at hv
        have hk : high_part w (limb_value w cp) ((cn : Int) - an - cancel2)
            = limb_value w cp / 2 ^ (w * ((cn : Int) - (an + cancel2)).toNat) := by
          unfold high_part
          rw [if_pos (by omega)]
          congr 3; omega
        rw [hk, hv]
        have hd := mod_add_div_pow (limb_value w cp / 2 ^ (w * ((cn : Int) - (an + cancel2)).toNat)) (w * an)
        generalize limb_value w cp / 2 ^ (w * ((cn : Int) - (an + cancel2)).toNat) = Hc at hd ⊢
        generalize Hc % 2 ^ (w * an) = s at hd ⊢
        generalize Hc / 2 ^ (w * an) = q at hd
        refine ⟨(mpn_sub_n w ap (MPN cp ((cn : Int) - (an + cancel2)).toNat an) an).2 + q, ?_⟩
        have hd2 : (Hc : Int) = s + ((2 ^ (w * an) : Nat) : Int) * q := by exact_mod_cast hd
        rw [hd2]; ring
      · rw [if_neg h3]
        simp only []
        by_cases h4 : (cn : Int) > cancel2
        · -- case 2
          rw [if_pos h4]
          obtain ⟨off, hoff⟩ : ∃ off : Nat, ((an : Int) + cancel2 - cn).toNat = off := ⟨_, rfl⟩
          obtain ⟨len, hlen2⟩ : ∃ len : Nat, ((cn : Int) - cancel2).toNat = len := ⟨_, rfl⟩
          rw [hoff, hlen2]
          have hol : off + len = an := by omega
          have hv := sub_n_at_value w ap cp off len hap hcp (by omega)
          refine ⟨by rw [hv.2.2.1, hlen], hv.2.2.2, ?_⟩
          rw [hv.1, hol, limb_value_take w cp len hcp]
          have hk : high_part w (limb_value w cp) ((cn : Int) - an - cancel2)
              = limb_value w cp * 2 ^ (w * off) := by
            unfold high_part
            rw [if_neg (by omega)]
            congr 3; omega
          rw [hk]
          have hd := mod_add_div_pow (limb_value w cp) (w * len)
          have hT : 2 ^ (w * an) = 2 ^ (w * off) * 2 ^ (w * len) := by
            rw [← pow_mul_add, hol]
          rw [hT]
          generalize limb_value w cp = Cv at hd ⊢
          generalize Cv % 2 ^ (w * len) = s at hd ⊢
          generalize Cv / 2 ^ (w * len) = q at hd
          refine ⟨(mpn_sub_n w (MPN ap off len) cp len).2 + q, ?_⟩
          have hd2 : (Cv : Int) = s + (2 : Int) ^ (w * len) * q := by exact_mod_cast hd
          push_cast
          rw [hd2]; ring
        · -- case 3
          rw [if_neg h4]
          refine ⟨hlen, hap, ?_⟩
          obtain ⟨j, hj⟩ : ∃ j : Nat, (cancel2 - (cn : Int)).toNat = j := ⟨_, rfl⟩
          have hk : high_part w (limb_value w cp) ((cn : Int) - an - cancel2)
              = limb_value w cp * (2 ^ (w * j) * 2 ^ (w * an)) := by
            unfold high_part
            rw [if_neg (by omega), ← pow_mul_add]
            congr 3; omega
          rw [hk]
          refine ⟨limb_value w cp * 2 ^ (w * j), ?_⟩
          push_cast; ring
    · rw [if_neg h2]
      simp only []
      obtain ⟨off2, hoff2⟩ : ∃ off2 : Nat, ((an : Int) + cancel2).toNat = off2 := ⟨_, rfl⟩
      obtain ⟨len2, hlen2⟩ : ∃ len2 : Nat, (-cancel2).toNat = len2 := ⟨_, rfl⟩
      rw [hoff2, hlen2]
      have hol : off2 + len2 = an := by omega
      have hlen2pos : 0 < len2 := by omega
      have hone : (1 : Nat) < 2 ^ (w * len2) := by
        apply Nat.one_lt_two_pow
        exact Nat.ne_of_gt (Nat.mul_pos hw hlen2pos)
      by_cases h3 : (an : Int) + cancel2 ≤ cn
      · -- case 5
        rw [if_pos h3]
        simp only []
        obtain ⟨j, hj⟩ : ∃ j : Nat, ((cn : Int) - (an + cancel2)).toNat = j := ⟨_, rfl⟩
        rw [hj, mpn_sub_n_MPN0]
        have hv := sub_n_at_value w ap (MPN cp j off2) 0 off2 hap (wf_MPN w _ _ _ hcp) (by omega)
        have hb1 := hv.2.1
        generalize (mpn_sub_n w (MPN ap 0 off2) (MPN cp j off2) off2).2 = b1 at hv hb1 ⊢
        generalize MPN_STORE ap 0 (mpn_sub_n w (MPN ap 0 off2) (MPN cp j off2) off2).1 = R at hv ⊢
        have hv2 := sub_1_at_value w R off2 len2 b1 hv.2.2.2 (by rw [hv.2.2.1]; omega) (by omega)
        refine ⟨by rw [hv2.2.1, hv.2.2.1, hlen], hv2.2.2, ?_⟩
        rw [hv2.1, hv.1, hol]
        have ht2 : (MPN cp j off2).take off2 = MPN cp j off2 := by
          unfold MPN; rw [List.take_take]; simp
        rw [ht2, MPN_value w _ _ _ hcp]
        have hk : high_part w (limb_value w cp) ((cn : Int) - an - cancel2)
            = limb_value w cp / 2 ^ (w * j) := by
          unfold high_part
          rw [if_pos (by omega)]
          congr 3; omega
        have hsm : limb_value w cp / 2 ^ (w * j) % 2 ^ (w * off2) = limb_value w cp / 2 ^ (w * j) := by
          apply Nat.mod_eq_of_lt
          rw [Nat.div_lt_iff_lt_mul (Nat.two_pow_pos _), ← pow_mul_add]
          have : off2 + j = cn := by omega
          rw [this]; exact hCv
        rw [hk, hsm]
        refine ⟨(mpn_sub_1 w (MPN R off2 len2) len2 b1).2, ?_⟩
        simp only [Nat.zero_add, Nat.mul_zero, pow_zero]
        push_cast; ring
      · -- case 6
        rw [if_neg h3]
        simp only []
        obtain ⟨off, hoff⟩ : ∃ off : Nat, ((an : Int) + cancel2 - cn).toNat = off := ⟨_, rfl⟩
        rw [hoff, Int.toNat_ofNat]
        have hoc : off + cn = off2 := by omega
        have hv := sub_n_at_value w ap cp off cn hap hcp (by omega)
        have hb1 := hv.2.1
        generalize (mpn_sub_n w (MPN ap off cn) cp cn).2 = b1 at hv hb1 ⊢
        generalize MPN_STORE ap off (mpn_sub_n w (MPN ap off cn) cp cn).1 = R at hv ⊢
        have hv2 := sub_1_at_value w R off2 len2 b1 hv.2.2.2 (by rw [hv.2.2.1]; omega) (by omega)
        refine ⟨by rw [hv2.2.1, hv.2.2.1, hlen], hv2.2.2, ?_⟩
        rw [hv2.1, hv.1, hol, hoc]
        have ht2 : cp.take cn = cp := List.take_of_length_le (by omega)
        rw [ht2]
        have hk : high_part w (limb_value w cp) ((cn : Int) - an - cancel2)
            = limb_value w cp * 2 ^ (w * off) := by
          unfold high_part
          rw [if_neg (by omega)]
          congr 3; omega
        rw [hk]
        refine ⟨(mpn_sub_1 w (MPN R off2 len2) len2 b1).2, ?_⟩
        push_cast; ring
  · -- case 4
    rw [if_neg h1]
    refine ⟨hlen, hap, 0, ?_⟩
    have hk : high_part w (limb_value w cp) ((cn : Int) - an - cancel2) = 0 := by
      unfold high_part
      rw [if_pos (by omega)]
      apply Nat.div_eq_of_lt
      refine Nat.lt_of_lt_of_le hCv (Nat.pow_le_pow_right (by norm_num) (Nat.mul_le_mul_left _ ?_))
      omega
    rw [hk]; simp

/-! ## The aligned operands -/

/-- Value of the limbs that `mpn_rshift` returns, with the limb of the bits shifted out
below them: the source shifted left by `w - cnt` bits. -/
theorem rshift_value (w : Nat) (sp : List Nat) (n cnt : Nat) (hsp : ∀ x ∈ sp, x < 2 ^ w)
    (hlen : sp.length = n) (_hn : 0 < n) (hc : cnt < w) :
    limb_value w ((mpn_rshift w sp n cnt).2 :: (mpn_rshift w sp n cnt).1)
      = limb_value w sp * 2 ^ (w - cnt) := by
  unfold mpn_rshift
  simp only [limb_value, limb_value_limbs_of]
  have ht : sp.take n = sp := List.take_of_length_le (by omega)
  rw [ht, limb_getD w sp 0 hsp]
  simp only [Nat.mul_zero, pow_zero, Nat.div_one, Nat.shiftLeft_eq, Nat.shiftRight_eq_div_pow]
  set V := limb_value w sp with hV
  have hVlt : V < 2 ^ (w * n) := by
    have := limb_value_lt w sp hsp; rwa [hlen] at this
  have h1 : V / 2 ^ cnt % 2 ^ (w * n) = V / 2 ^ cnt :=
    Nat.mod_eq_of_lt (Nat.lt_of_le_of_lt (Nat.div_le_self _ _) hVlt)
  have hw : 2 ^ w = 2 ^ cnt * 2 ^ (w - cnt) := by
    rw [← pow_add]; congr 1; omega
  have h2 : V % 2 ^ w * 2 ^ (w - cnt) % 2 ^ w = V % 2 ^ cnt * 2 ^ (w - cnt) := by
    have e : V % 2 ^ w * 2 ^ (w - cnt) % 2 ^ w
        = V % 2 ^ w * 2 ^ (w - cnt) % (2 ^ cnt * 2 ^ (w - cnt)) := by rw [← hw]
    rw [e, Nat.mul_mod_mul_right, Nat.mod_mod_of_dvd _ (pow_dvd_pow 2 (Nat.le_of_lt hc))]
  rw [h1, h2]
  have h3 := mod_add_div_pow V cnt
  conv_rhs => rw [h3]
  rw [hw]; ring

theorem rshift_wf (w : Nat) (sp : List Nat) (n cnt : Nat) :
    ∀ x ∈ (mpn_rshift w sp n cnt).2 :: (mpn_rshift w sp n cnt).1, x < 2 ^ w := by
  intro x hx
  rcases List.mem_cons.mp hx with h | h
  · rw [h]; unfold mpn_rshift; exact Nat.mod_lt _ (Nat.two_pow_pos _)
  · unfold mpn_rshift at h; exact limbs_of_lt _ _ _ x h

theorem rshift_length (w : Nat) (sp : List Nat) (n cnt : Nat) :
    ((mpn_rshift w sp n cnt).2 :: (mpn_rshift w sp n cnt).1).length = n + 1 := by
  unfold mpn_rshift; simp [limbs_of_length]

/-- Lines 153-167: `bp` has `bn` limbs and holds the significand of `b` shifted left by
`w - shift_b` bits when `shift_b` is not zero. -/
theorem sub1_bp_spec (w : Nat) (hw : 0 < w) (b : mpfr) (hb : mpfr_regular w b) (cancel : Nat) :
    (sub1_bp w b cancel).length = sub1_bn w b cancel ∧
    (∀ x ∈ sub1_bp w b cancel, x < 2 ^ w) ∧
    limb_value w (sub1_bp w b cancel) = limb_value w (MPFR_MANT b)
      * 2 ^ (w * sub1_bn w b cancel - w * MPFR_LIMB_SIZE w b - sub1_shift_b w cancel) := by
  obtain ⟨_, _, _, hl, hwf, _, _⟩ := hb
  unfold sub1_bp sub1_bn
  by_cases h : sub1_shift_b w cancel = 0
  · simp only [h, if_true]
    refine ⟨hl, hwf, ?_⟩
    simp
  · simp only [h, if_false]
    refine ⟨by rw [rshift_length], rshift_wf _ _ _ _, ?_⟩
    rw [rshift_value w _ _ _ hwf hl (limb_size_pos w b) (shift_b_lt w cancel hw)]
    congr 2
    rw [Nat.mul_add, Nat.mul_one]; omega

theorem shift_c_of_lt (w : Nat) (hw : limb_width_ok w) (b c : mpfr) (cancel : Nat) :
    sub1_shift_c_of w b c cancel < w ∧
    ((sub1_shift_c_of w b c cancel : Nat) : Int)
      = (MPFR_GET_EXP b - MPFR_GET_EXP c - (cancel : Int)) % (w : Int) := by
  unfold sub1_shift_c_of
  rw [shift_c_eq w hw]
  have hw0 : (0 : Int) < w := by exact_mod_cast hw.1
  have h1 := Int.emod_nonneg (MPFR_GET_EXP b - MPFR_GET_EXP c - (cancel : Int)) (ne_of_gt hw0)
  have h2 := Int.emod_lt_of_pos (MPFR_GET_EXP b - MPFR_GET_EXP c - (cancel : Int)) hw0
  constructor
  · omega
  · omega

/-- Lines 182-196: `cp` has `cn` limbs and holds the significand of `c` shifted left by
`w - shift_c` bits when `shift_c` is not zero. -/
theorem sub1_cp_spec (w : Nat) (hw : limb_width_ok w) (b c : mpfr) (hc : mpfr_regular w c)
    (cancel : Nat) :
    ((sub1_cp w b c cancel).length : Int) = sub1_cn w b c cancel ∧
    (∀ x ∈ sub1_cp w b c cancel, x < 2 ^ w) ∧
    limb_value w (sub1_cp w b c cancel) = limb_value w (MPFR_MANT c)
      * 2 ^ (w * (sub1_cp w b c cancel).length - w * MPFR_LIMB_SIZE w c
          - sub1_shift_c_of w b c cancel) := by
  obtain ⟨_, _, _, hl, hwf, _, _⟩ := hc
  unfold sub1_cp sub1_cn
  by_cases h : sub1_shift_c_of w b c cancel = 0
  · simp only [h, if_true]
    refine ⟨by rw [hl], hwf, ?_⟩
    rw [hl]; simp
  · simp only [h, if_false]
    refine ⟨by rw [rshift_length]; push_cast; rfl, rshift_wf _ _ _ _, ?_⟩
    rw [rshift_value w _ _ _ hwf hl (limb_size_pos w c) (shift_c_of_lt w hw b c cancel).1,
      rshift_length]
    congr 2
    rw [Nat.mul_add, Nat.mul_one]; omega

/-- Line 210: the division by the limb width is exact. -/
theorem cancel2_mul (w : Nat) (hw : limb_width_ok w) (b c : mpfr) (cancel : Nat) :
    sub1_cancel2 w b c cancel * (w : Int)
      = (cancel : Int) - (MPFR_GET_EXP b - MPFR_GET_EXP c - sub1_shift_c_of w b c cancel) := by
  unfold sub1_cancel2
  apply Int.tdiv_mul_cancel
  rw [(shift_c_of_lt w hw b c cancel).2]
  have := Int.emod_add_ediv (MPFR_GET_EXP b - MPFR_GET_EXP c - (cancel : Int)) (w : Int)
  refine ⟨- ((MPFR_GET_EXP b - MPFR_GET_EXP c - (cancel : Int)) / (w : Int)), ?_⟩
  linarith

/-! ## Units: the operands over the unit of the loop on the low limbs -/

theorem abs_in_scale (w : Nat) (x : mpfr) (g g' : Int) (h1 : g' ≤ g) (h2 : g ≤ MPFR_UNIT_EXP w x) :
    mpfr_abs_in w x g' = mpfr_abs_in w x g * 2 ^ (g - g').toNat := by
  unfold mpfr_abs_in
  rw [Nat.mul_assoc, ← pow_add]
  congr 2; omega

theorem sub1_m_ge (w : Nat) (a b c : mpfr) (cancel : Nat) :
    sub1_bnl w a b cancel ≤ (sub1_m w a b c cancel : Int) ∧
    sub1_cnl w a b c cancel ≤ (sub1_m w a b c cancel : Int) := by
  unfold sub1_m
  constructor <;> omega

theorem sub1_bn_cases (w : Nat) (b : mpfr) (cancel : Nat) (hw : 0 < w) :
    (sub1_shift_b w cancel = 0 ∧ sub1_bn w b cancel = MPFR_LIMB_SIZE w b) ∨
    (0 < sub1_shift_b w cancel ∧ sub1_shift_b w cancel < w ∧
      sub1_bn w b cancel = MPFR_LIMB_SIZE w b + 1) := by
  unfold sub1_bn
  have := shift_b_lt w cancel hw
  by_cases h : sub1_shift_b w cancel = 0
  · left; simp [h]
  · right; simp [h]; omega

/-- The integer `sub1_Bs` is the magnitude of `b` over the unit `2 ^ sub1_unit`. -/
theorem sub1_Bs_eq (w : Nat) (hw : 0 < w) (a b c : mpfr) (hb : mpfr_regular w b) (cancel : Nat) :
    sub1_unit w a b c cancel ≤ MPFR_UNIT_EXP w b ∧
    sub1_Bs w a b c cancel = mpfr_abs_in w b (sub1_unit w a b c cancel) := by
  have hm := (sub1_m_ge w a b c cancel).1
  have hc1 := cancel1_mul w cancel hw
  have hbn := sub1_bn_cases w b cancel hw
  unfold sub1_Bs mpfr_abs_in
  rw [(sub1_bp_spec w hw b hb cancel).2.2, Nat.mul_assoc, ← pow_add]
  unfold sub1_bnl at hm ⊢
  unfold sub1_unit MPFR_UNIT_EXP
  obtain ⟨jb, hjb⟩ : ∃ jb : Nat, ((sub1_m w a b c cancel : Int)
      - ((sub1_bn w b cancel : Int) - ((MPFR_LIMB_SIZE w a : Int) + sub1_cancel1 w cancel))).toNat = jb :=
    ⟨_, rfl⟩
  rw [hjb]
  have hj : jb + sub1_bn w b cancel
      = sub1_m w a b c cancel + MPFR_LIMB_SIZE w a + sub1_cancel1 w cancel := by omega
  have hj2 : w * jb + w * sub1_bn w b cancel
      = w * sub1_m w a b c cancel + w * MPFR_LIMB_SIZE w a + w * sub1_cancel1 w cancel := by
    rw [← Nat.mul_add, hj, Nat.mul_add, Nat.mul_add]
  have e1 : w * sub1_cancel1 w cancel = cancel + sub1_shift_b w cancel := by
    rw [Nat.mul_comm]; exact hc1
  have e2 : MPFR_LIMB_SIZE w b * w = w * MPFR_LIMB_SIZE w b := Nat.mul_comm _ _
  have e3 : w * (sub1_m w a b c cancel + MPFR_LIMB_SIZE w a)
      = w * sub1_m w a b c cancel + w * MPFR_LIMB_SIZE w a := Nat.mul_add _ _ _
  have e4 : w * (MPFR_LIMB_SIZE w b + 1) = w * MPFR_LIMB_SIZE w b + w := by
    rw [Nat.mul_add, Nat.mul_one]
  rw [e2, e3]
  rcases hbn with ⟨h0, h1⟩ | ⟨h0, h0', h1⟩
  · rw [h1] at hj2 ⊢
    constructor
    · push_cast; omega
    · congr 2; omega
  · rw [h1] at hj2 ⊢
    rw [e4] at hj2 ⊢
    constructor
    · push_cast; omega
    · congr 2; omega

/-- The integer `sub1_Cs` is the magnitude of `c` over the unit `2 ^ sub1_unit`. -/
theorem sub1_Cs_eq (w : Nat) (hw : limb_width_ok w) (a b c : mpfr) (hc : mpfr_regular w c)
    (cancel : Nat) :
    sub1_unit w a b c cancel ≤ MPFR_UNIT_EXP w c ∧
    sub1_Cs w a b c cancel = mpfr_abs_in w c (sub1_unit w a b c cancel) := by
  have hm := (sub1_m_ge w a b c cancel).2
  have hc2 := cancel2_mul w hw b c cancel
  have hsc := (shift_c_of_lt w hw b c cancel).1
  obtain ⟨hlen, _, hval⟩ := sub1_cp_spec w hw b c hc cancel
  unfold sub1_Cs mpfr_abs_in
  rw [hval, Nat.mul_assoc, ← pow_add]
  unfold sub1_cnl at hm ⊢
  unfold sub1_unit MPFR_UNIT_EXP
  rw [← hlen] at hm ⊢
  have hcn : (sub1_shift_c_of w b c cancel = 0 ∧ (sub1_cp w b c cancel).length = MPFR_LIMB_SIZE w c) ∨
      (0 < sub1_shift_c_of w b c cancel ∧ (sub1_cp w b c cancel).length = MPFR_LIMB_SIZE w c + 1) := by
    have := hlen
    unfold sub1_cn at this
    by_cases h : sub1_shift_c_of w b c cancel = 0
    · left; simp only [h, if_true] at this; exact ⟨h, by exact_mod_cast this⟩
    · right; simp only [h, if_false] at this; exact ⟨by omega, by exact_mod_cast this⟩
  generalize (sub1_cp w b c cancel).length = cn at hm hcn ⊢
  obtain ⟨jc, hjc⟩ : ∃ jc : Nat, ((sub1_m w a b c cancel : Int)
      - ((cn : Int) - ((MPFR_LIMB_SIZE w a : Int) + sub1_cancel2 w b c cancel))).toNat = jc :=
    ⟨_, rfl⟩
  rw [hjc]
  have hj : (jc : Int) + cn
      = sub1_m w a b c cancel + MPFR_LIMB_SIZE w a + sub1_cancel2 w b c cancel := by omega
  have hj2 : ((w * jc : Nat) : Int) + ((w * cn : Nat) : Int)
      = ((w * sub1_m w a b c cancel : Nat) : Int) + ((w * MPFR_LIMB_SIZE w a : Nat) : Int)
        + sub1_cancel2 w b c cancel * (w : Int) := by
    have := congrArg (fun t : Int => (w : Int) * t) hj
    simp only at this
    push_cast
    linarith
  have e2 : MPFR_LIMB_SIZE w c * w = w * MPFR_LIMB_SIZE w c := Nat.mul_comm _ _
  have e3 : w * (sub1_m w a b c cancel + MPFR_LIMB_SIZE w a)
      = w * sub1_m w a b c cancel + w * MPFR_LIMB_SIZE w a := Nat.mul_add _ _ _
  have e4 : w * (MPFR_LIMB_SIZE w c + 1) = w * MPFR_LIMB_SIZE w c + w := by
    rw [Nat.mul_add, Nat.mul_one]
  rw [e2, e3]
  rw [hc2] at hj2
  rcases hcn with ⟨h0, h1⟩ | ⟨h0, h1⟩
  · rw [h1] at hj2 ⊢
    constructor
    · push_cast; omega
    · congr 2; omega
  · rw [h1] at hj2 ⊢
    rw [e4] at hj2 ⊢
    constructor
    · push_cast; omega
    · congr 2; omega

theorem sub1_unit_le (w : Nat) (hw : limb_width_ok w) (a b c : mpfr) (hb : mpfr_regular w b)
    (hc : mpfr_regular w c) (cancel : Nat) :
    sub1_unit w a b c cancel ≤ common_unit w b c := by
  unfold common_unit
  exact le_min (sub1_Bs_eq w hw.1 a b c hb cancel).1 (sub1_Cs_eq w hw a b c hc cancel).1

/-! ## The cancellation count and the size of the exact difference -/

theorem nbits_spec (n x : Nat) (hx : 0 < x) (h : x < 2 ^ n) :
    2 ^ (nbits n x - 1) ≤ x ∧ x < 2 ^ nbits n x ∧ 1 ≤ nbits n x ∧ nbits n x ≤ n := by
  induction n with
  | zero => simp at h; omega
  | succ k ih =>
    unfold nbits
    by_cases hk : x < 2 ^ k
    · rw [if_pos hk]
      obtain ⟨h1, h2, h3, h4⟩ := ih hk
      exact ⟨h1, h2, h3, by omega⟩
    · rw [if_neg hk]
      exact ⟨by simpa using Nat.le_of_not_lt hk, h, by omega, le_refl _⟩

theorem nbits_le (n x k : Nat) (h : x < 2 ^ k) : nbits n x ≤ k := by
  induction n with
  | zero => unfold nbits; omega
  | succ j ih =>
    unfold nbits
    by_cases hk : x < 2 ^ j
    · rw [if_pos hk]; exact ih
    · rw [if_neg hk]
      have hlt : 2 ^ j < 2 ^ k := Nat.lt_of_le_of_lt (Nat.le_of_not_lt hk) h
      have := (Nat.pow_lt_pow_iff_right (by norm_num : 1 < 2)).mp hlt
      omega

theorem abs_in_lt (w : Nat) (x : mpfr) (hx : mpfr_regular w x) (g : Int)
    (hg : g ≤ MPFR_UNIT_EXP w x) :
    mpfr_abs_in w x g < 2 ^ (MPFR_GET_EXP x - g).toNat := by
  have h1 := regular_lt w x hx
  unfold mpfr_abs_in
  have e : (MPFR_GET_EXP x - g).toNat
      = w * MPFR_LIMB_SIZE w x + (MPFR_UNIT_EXP w x - g).toNat := by
    unfold MPFR_UNIT_EXP at hg ⊢
    have : MPFR_LIMB_SIZE w x * w = w * MPFR_LIMB_SIZE w x := Nat.mul_comm _ _
    rw [this] at hg ⊢
    omega
  rw [e, pow_add]
  exact Nat.mul_lt_mul_of_pos_right h1 (Nat.two_pow_pos _)

theorem abs_in_pos (w : Nat) (hw : 0 < w) (x : mpfr) (hx : mpfr_regular w x) (g : Int) :
    0 < mpfr_abs_in w x g := by
  have h1 := regular_ge w hw x hx
  unfold mpfr_abs_in
  exact Nat.mul_pos (Nat.lt_of_lt_of_le (Nat.two_pow_pos _) h1) (Nat.two_pow_pos _)

/-- What `mpfr_cmp2` stores when `|b| > |c|`: `EXP (b)` minus the exponent of the exact
difference. -/
theorem cmp2_cancel (w : Nat) (b c : mpfr) (hb : mpfr_regular w b)
    (hlt : mpfr_abs_in w c (common_unit w b c) < mpfr_abs_in w b (common_unit w b c)) :
    mpfr_cmp2 w b c = (1, (mpfr_cmp2 w b c).2) ∧
    (((mpfr_cmp2 w b c).2 : Nat) : Int) = MPFR_GET_EXP b - exact_exp w b c ∧
    1 ≤ nbits (exact_bits_bound w b c) (exact_abs_diff w b c) ∧
    2 ^ (nbits (exact_bits_bound w b c) (exact_abs_diff w b c) - 1) ≤ exact_abs_diff w b c ∧
    exact_abs_diff w b c < 2 ^ nbits (exact_bits_bound w b c) (exact_abs_diff w b c) ∧
    exact_abs_diff w b c
      = mpfr_abs_in w b (common_unit w b c) - mpfr_abs_in w c (common_unit w b c) := by
  have hg : common_unit w b c ≤ MPFR_UNIT_EXP w b := by unfold common_unit; exact min_le_left _ _
  have hB := abs_in_lt w b hb _ hg
  have hD : exact_abs_diff w b c
      = mpfr_abs_in w b (common_unit w b c) - mpfr_abs_in w c (common_unit w b c) := by
    unfold exact_abs_diff; rw [if_pos hlt]
  have hDlt : exact_abs_diff w b c < 2 ^ (MPFR_GET_EXP b - common_unit w b c).toNat := by
    rw [hD]; omega
  have hn : (MPFR_GET_EXP b - common_unit w b c).toNat ≤ exact_bits_bound w b c := by
    unfold exact_bits_bound
    have := le_max_left (MPFR_GET_EXP b) (MPFR_GET_EXP c)
    omega
  have hDlt2 : exact_abs_diff w b c < 2 ^ exact_bits_bound w b c :=
    Nat.lt_of_lt_of_le hDlt (Nat.pow_le_pow_right (by norm_num) hn)
  have hpos : 0 < exact_abs_diff w b c := by rw [hD]; omega
  obtain ⟨s1, s2, s3, s4⟩ := nbits_spec _ _ hpos hDlt2
  have hle := nbits_le (exact_bits_bound w b c) _ _ hDlt
  have hcm : mpfr_cmp2 w b c = (1, (MPFR_GET_EXP b - (common_unit w b c
      + (nbits (exact_bits_bound w b c) (exact_abs_diff w b c) : Nat))).toNat) := by
    unfold mpfr_cmp2
    simp only []
    rw [if_neg (by omega), if_pos hlt, hD]
    rfl
  refine ⟨by rw [hcm], ?_, s3, s1, s2, hD⟩
  rw [hcm]
  unfold exact_exp
  simp only []
  have hu : MPFR_UNIT_EXP w b ≤ MPFR_GET_EXP b := by unfold MPFR_UNIT_EXP; omega
  omega

/-- The exact difference over the unit of the loop: it has exactly `w * (m + an)` bits. -/
theorem sub1_X_range (w : Nat) (hw : limb_width_ok w) (a b c : mpfr) (hb : mpfr_regular w b)
    (hc : mpfr_regular w c)
    (hlt : mpfr_abs_in w c (common_unit w b c) < mpfr_abs_in w b (common_unit w b c))
    (cancel : Nat) (hcancel : cancel = (mpfr_cmp2 w b c).2) :
    sub1_Cs w a b c cancel < sub1_Bs w a b c cancel ∧
    sub1_Bs w a b c cancel - sub1_Cs w a b c cancel
      = exact_abs_diff w b c * 2 ^ (common_unit w b c - sub1_unit w a b c cancel).toNat ∧
    2 ^ (w * (sub1_m w a b c cancel + MPFR_LIMB_SIZE w a) - 1)
      ≤ sub1_Bs w a b c cancel - sub1_Cs w a b c cancel ∧
    sub1_Bs w a b c cancel - sub1_Cs w a b c cancel
      < 2 ^ (w * (sub1_m w a b c cancel + MPFR_LIMB_SIZE w a)) ∧
    ((nbits (exact_bits_bound w b c) (exact_abs_diff w b c) : Nat) : Int)
        + (common_unit w b c - sub1_unit w a b c cancel)
      = ((w * (sub1_m w a b c cancel + MPFR_LIMB_SIZE w a) : Nat) : Int) := by
  obtain ⟨_, hcv, hL1, hDge, hDlt, hD⟩ := cmp2_cancel w b c hb hlt
  have hU := sub1_unit_le w hw a b c hb hc cancel
  have hgb : common_unit w b c ≤ MPFR_UNIT_EXP w b := by unfold common_unit; exact min_le_left _ _
  have hgc : common_unit w b c ≤ MPFR_UNIT_EXP w c := by unfold common_unit; exact min_le_right _ _
  rw [(sub1_Bs_eq w hw.1 a b c hb cancel).2, (sub1_Cs_eq w hw a b c hc cancel).2,
    abs_in_scale w b _ _ hU hgb, abs_in_scale w c _ _ hU hgc, ← Nat.sub_mul, ← hD]
  have hLk : ((nbits (exact_bits_bound w b c) (exact_abs_diff w b c) : Nat) : Int)
        + (common_unit w b c - sub1_unit w a b c cancel)
      = ((w * (sub1_m w a b c cancel + MPFR_LIMB_SIZE w a) : Nat) : Int) := by
    rw [← hcancel] at hcv
    unfold exact_exp at hcv
    unfold sub1_unit
    unfold sub1_unit at hU
    omega
  obtain ⟨k, hk⟩ : ∃ k : Nat, (common_unit w b c - sub1_unit w a b c cancel).toNat = k := ⟨_, rfl⟩
  rw [hk]
  have hk2 : nbits (exact_bits_bound w b c) (exact_abs_diff w b c) + k
      = w * (sub1_m w a b c cancel + MPFR_LIMB_SIZE w a) := by omega
  refine ⟨?_, rfl, ?_, ?_, hLk⟩
  · exact Nat.mul_lt_mul_of_pos_right hlt (Nat.two_pow_pos _)
  · rw [← hk2]
    have e : nbits (exact_bits_bound w b c) (exact_abs_diff w b c) + k - 1
        = (nbits (exact_bits_bound w b c) (exact_abs_diff w b c) - 1) + k := by omega
    rw [e, pow_add]
    exact Nat.mul_le_mul_right _ hDge
  · rw [← hk2, pow_add]
    exact Nat.mul_lt_mul_of_pos_right hDlt (Nat.two_pow_pos _)

/-! ## The window `ap[0..an-1]` -/

/-- Lines 230-292: the window holds `high(b) - high(c)` modulo `2 ^ (w * an)`. -/
theorem sub1_high_spec (w : Nat) (hw : limb_width_ok w) (a b c : mpfr) (hb : mpfr_regular w b)
    (hc : mpfr_regular w c) (cancel : Nat) :
    (sub1_high w a b c cancel).length = MPFR_LIMB_SIZE w a ∧
    (∀ x ∈ sub1_high w a b c cancel, x < 2 ^ w) ∧
    ∃ k : Int, ((limb_value w (sub1_high w a b c cancel) : Nat) : Int) =
      ((sub1_Bs w a b c cancel / 2 ^ (w * sub1_m w a b c cancel) : Nat) : Int)
        - ((sub1_Cs w a b c cancel / 2 ^ (w * sub1_m w a b c cancel) : Nat) : Int)
        + k * ((2 ^ (w * MPFR_LIMB_SIZE w a) : Nat) : Int) := by
  obtain ⟨hbl, hbwf, _⟩ := sub1_bp_spec w hw.1 b hb cancel
  obtain ⟨hcl, hcwf, _⟩ := sub1_cp_spec w hw b c hc cancel
  obtain ⟨h1, h2, h3⟩ := sub1_copy_high_b_spec w (MPFR_LIMB_SIZE w a) (sub1_cancel1 w cancel)
    (sub1_bp w b cancel) (sub1_bn w b cancel) hbwf hbl
  have hm := sub1_m_ge w a b c cancel
  unfold sub1_high
  rw [← hcl]
  obtain ⟨g1, g2, k, g3⟩ := sub1_sub_high_c_spec w (MPFR_LIMB_SIZE w a) hw.1
    (sub1_cancel2 w b c cancel) _ (sub1_cp w b c cancel) (sub1_cp w b c cancel).length
    h2 hcwf h1 rfl
  refine ⟨g1, g2, ?_⟩
  rw [g3, h3]
  have eB : sub1_Bs w a b c cancel / 2 ^ (w * sub1_m w a b c cancel)
      = high_part w (limb_value w (sub1_bp w b cancel))
          ((sub1_bn w b cancel : Int) - MPFR_LIMB_SIZE w a - sub1_cancel1 w cancel) := by
    unfold sub1_Bs
    have e : sub1_bnl w a b cancel
        = (sub1_bn w b cancel : Int) - MPFR_LIMB_SIZE w a - sub1_cancel1 w cancel := by
      unfold sub1_bnl; ring
    rw [high_part_eq w _ _ _ hm.1, e]
  have eC : sub1_Cs w a b c cancel / 2 ^ (w * sub1_m w a b c cancel)
      = high_part w (limb_value w (sub1_cp w b c cancel))
          (((sub1_cp w b c cancel).length : Int) - MPFR_LIMB_SIZE w a - sub1_cancel2 w b c cancel) := by
    unfold sub1_Cs
    have e : sub1_cnl w a b c cancel
        = ((sub1_cp w b c cancel).length : Int) - MPFR_LIMB_SIZE w a - sub1_cancel2 w b c cancel := by
      unfold sub1_cnl; rw [← hcl]; ring
    rw [high_part_eq w _ _ _ hm.2, e]
  rw [eB, eC]
  have hd := mod_add_div_pow (high_part w (limb_value w (sub1_bp w b cancel))
          ((sub1_bn w b cancel : Int) - MPFR_LIMB_SIZE w a - sub1_cancel1 w cancel))
      (w * MPFR_LIMB_SIZE w a)
  generalize high_part w (limb_value w (sub1_bp w b cancel))
          ((sub1_bn w b cancel : Int) - MPFR_LIMB_SIZE w a - sub1_cancel1 w cancel) = Hb at hd ⊢
  generalize Hb / 2 ^ (w * MPFR_LIMB_SIZE w a) = q at hd
  generalize Hb % 2 ^ (w * MPFR_LIMB_SIZE w a) = r at hd ⊢
  refine ⟨k - q, ?_⟩
  have hd2 : (Hb : Int) = r + ((2 ^ (w * MPFR_LIMB_SIZE w a) : Nat) : Int) * q := by
    exact_mod_cast hd
  rw [hd2]; ring

/-- Arithmetic of the window: a number of exactly the size of the window whose high part is
known modulo `T` has that high part, or is just below `P * T` with the window wrapped to 0. -/
theorem window_arith (T P W k d X : Int) (hT : 0 < T) (hP : 0 < P) (hW0 : 0 ≤ W) (hWT : W < T)
    (hd1 : -P < d) (hd2 : d < P) (hX : X = P * (W + k * T) + d) (hX1 : 0 < X) (hX2 : X < P * T) :
    k = 0 ∨ (k = 1 ∧ W = 0 ∧ d < 0) := by
  have ha0 : 0 ≤ W + k * T := by
    by_contra h
    have h1 : W + k * T ≤ -1 := by omega
    have h2 : P * (W + k * T) ≤ P * (-1) := Int.mul_le_mul_of_nonneg_left h1 (le_of_lt hP)
    omega
  have ha1 : W + k * T ≤ T := by
    by_contra h
    have h1 : T + 1 ≤ W + k * T := by omega
    have h2 : P * (T + 1) ≤ P * (W + k * T) := Int.mul_le_mul_of_nonneg_left h1 (le_of_lt hP)
    have h3 : P * (T + 1) = P * T + P := by ring
    omega
  have hk0 : 0 ≤ k := by
    by_contra h
    have h1 : k ≤ -1 := by omega
    have h2 : k * T ≤ (-1) * T := Int.mul_le_mul_of_nonneg_right h1 (le_of_lt hT)
    omega
  have hk1 : k ≤ 1 := by
    by_contra h
    have h1 : 2 ≤ k := by omega
    have h2 : 2 * T ≤ k * T := Int.mul_le_mul_of_nonneg_right h1 (le_of_lt hT)
    omega
  rcases (show k = 0 ∨ k = 1 by omega) with h | h
  · left; exact h
  · right
    subst h
    have hW : W = 0 := by omega
    subst hW
    refine ⟨rfl, rfl, ?_⟩
    simp only [one_mul, zero_add] at hX
    omega

theorem sub1_sh_lt (w : Nat) (hw : 0 < w) (a : mpfr) (hp : 1 ≤ MPFR_PREC a) :
    sub1_sh w a < w ∧ sub1_sh w a + MPFR_PREC a = w * MPFR_LIMB_SIZE w a := by
  unfold sub1_sh
  have h1 := limbs_lt_prec_add w hw a hp
  have h2 := prec_le_limbs w hw a
  rw [Nat.mul_comm w]
  omega

/-- Lines 238-292 for operands in order: the window lies in `[T / 2, T)` and the exact
difference is `window * P + (low (b) - low (c))`, or the window wrapped to 0, the difference
is `T * P + (low (b) - low (c))` and `low (b) < low (c)`. -/
theorem sub1_window (w : Nat) (hw : limb_width_ok w) (a b c : mpfr) (hb : mpfr_regular w b)
    (hc : mpfr_regular w c)
    (hlt : mpfr_abs_in w c (common_unit w b c) < mpfr_abs_in w b (common_unit w b c))
    (cancel : Nat) (hcancel : cancel = (mpfr_cmp2 w b c).2) :
    limb_value w (sub1_high w a b c cancel) < 2 ^ (w * MPFR_LIMB_SIZE w a) ∧
    sub1_LB w a b c cancel < 2 ^ (w * sub1_m w a b c cancel) ∧
    sub1_LC w a b c cancel < 2 ^ (w * sub1_m w a b c cancel) ∧
    (((sub1_Bs w a b c cancel : Int) - sub1_Cs w a b c cancel =
        (limb_value w (sub1_high w a b c cancel) : Int) * ((2 ^ (w * sub1_m w a b c cancel) : Nat) : Int)
          + ((sub1_LB w a b c cancel : Int) - sub1_LC w a b c cancel)) ∨
     (limb_value w (sub1_high w a b c cancel) = 0 ∧
      sub1_LB w a b c cancel < sub1_LC w a b c cancel ∧
      (sub1_Bs w a b c cancel : Int) - sub1_Cs w a b c cancel =
        ((2 ^ (w * MPFR_LIMB_SIZE w a) : Nat) : Int) * ((2 ^ (w * sub1_m w a b c cancel) : Nat) : Int)
          + ((sub1_LB w a b c cancel : Int) - sub1_LC w a b c cancel))) := by
  obtain ⟨hl, hwf, k, hk⟩ := sub1_high_spec w hw a b c hb hc cancel
  obtain ⟨hX0, _, hX1, hX2, _⟩ := sub1_X_range w hw a b c hb hc hlt cancel hcancel
  have hW : limb_value w (sub1_high w a b c cancel) < 2 ^ (w * MPFR_LIMB_SIZE w a) := by
    have := limb_value_lt w _ hwf; rwa [hl] at this
  have hPpos : 0 < 2 ^ (w * sub1_m w a b c cancel) := Nat.two_pow_pos _
  have hLB : sub1_LB w a b c cancel < 2 ^ (w * sub1_m w a b c cancel) := Nat.mod_lt _ hPpos
  have hLC : sub1_LC w a b c cancel < 2 ^ (w * sub1_m w a b c cancel) := Nat.mod_lt _ hPpos
  refine ⟨hW, hLB, hLC, ?_⟩
  have dB := mod_add_div_pow (sub1_Bs w a b c cancel) (w * sub1_m w a b c cancel)
  have dC := mod_add_div_pow (sub1_Cs w a b c cancel) (w * sub1_m w a b c cancel)
  rw [pow_mul_add] at hX2
  unfold sub1_LB at hLB
  unfold sub1_LC at hLC
  unfold sub1_LB sub1_LC
  generalize sub1_Bs w a b c cancel / 2 ^ (w * sub1_m w a b c cancel) = Hb at hk dB
  generalize sub1_Cs w a b c cancel / 2 ^ (w * sub1_m w a b c cancel) = Hc at hk dC
  generalize sub1_Bs w a b c cancel % 2 ^ (w * sub1_m w a b c cancel) = LB at hLB dB ⊢
  generalize sub1_Cs w a b c cancel % 2 ^ (w * sub1_m w a b c cancel) = LC at hLC dC ⊢
  generalize sub1_Bs w a b c cancel = Bs at hX0 hX1 hX2 dB ⊢
  generalize sub1_Cs w a b c cancel = Cs at hX0 hX1 hX2 dC ⊢
  generalize limb_value w (sub1_high w a b c cancel) = W at hk hW ⊢
  generalize 2 ^ (w * sub1_m w a b c cancel) = P at hPpos hLB hLC dB dC hX2 ⊢
  have hTpos : 0 < 2 ^ (w * MPFR_LIMB_SIZE w a) := Nat.two_pow_pos _
  generalize 2 ^ (w * MPFR_LIMB_SIZE w a) = T at hk hW hX2 hTpos ⊢
  have dB2 : (Bs : Int) = LB + P * Hb := by exact_mod_cast dB
  have dC2 : (Cs : Int) = LC + P * Hc := by exact_mod_cast dC
  have hX : (Bs : Int) - Cs = (P : Int) * ((W : Int) + (-k) * T) + ((LB : Int) - LC) := by
    rw [dB2, dC2]
    have : (Hb : Int) - Hc = W + (-k) * T := by rw [hk]; ring
    linear_combination (P : Int) * this
  have hX2' : (Bs : Int) - Cs < (P : Int) * T := by
    have : ((Bs - Cs : Nat) : Int) < ((P * T : Nat) : Int) := by exact_mod_cast hX2
    rw [Nat.cast_sub (le_of_lt hX0)] at this
    push_cast at this
    linarith
  rcases window_arith T P W (-k) ((LB : Int) - LC) ((Bs : Int) - Cs) (by exact_mod_cast hTpos)
      (by exact_mod_cast hPpos) (by omega) (by exact_mod_cast hW) (by omega) (by omega) hX
      (by omega) hX2' with h | ⟨h1, h2, h3⟩
  · left
    rw [hX, h]; ring
  · right
    refine ⟨by exact_mod_cast h2, by omega, ?_⟩
    rw [hX, h1, h2]; ring

/-- Lines 303-304: `carry` is the window modulo `2 ^ sh` and the masked window is the window
minus `carry`. -/
theorem sub1_masked_spec (w : Nat) (hw : limb_width_ok w) (a b c : mpfr) (ha : 1 ≤ MPFR_PREC a)
    (hb : mpfr_regular w b) (hc : mpfr_regular w c) (cancel : Nat) :
    sub1_carry w a b c cancel = limb_value w (sub1_high w a b c cancel) % 2 ^ sub1_sh w a ∧
    (sub1_masked w a b c cancel).length = MPFR_LIMB_SIZE w a ∧
    (∀ x ∈ sub1_masked w a b c cancel, x < 2 ^ w) ∧
    limb_value w (sub1_masked w a b c cancel)
      = limb_value w (sub1_high w a b c cancel) - sub1_carry w a b c cancel := by
  obtain ⟨hl, hwf, _⟩ := sub1_high_spec w hw a b c hb hc cancel
  have hsh := (sub1_sh_lt w hw.1 a ha).1
  have han := limb_size_pos w a
  have hcarry : sub1_carry w a b c cancel
      = limb_value w (sub1_high w a b c cancel) % 2 ^ sub1_sh w a := by
    unfold sub1_carry MPFR_LIMB_MASK MPFR_LIMB_ONE
    rw [Nat.shiftLeft_eq, Nat.one_mul, Nat.and_pow_two_sub_one_eq_mod, limb_getD w _ _ hwf]
    simp only [Nat.mul_zero, pow_zero, Nat.div_one]
    exact Nat.mod_mod_of_dvd _ (pow_dvd_pow 2 (le_of_lt hsh))
  have h0 : (sub1_high w a b c cancel).getD 0 0
      = limb_value w (sub1_high w a b c cancel) % 2 ^ w := by
    rw [limb_getD w _ _ hwf]; simp
  have hcle : sub1_carry w a b c cancel ≤ (sub1_high w a b c cancel).getD 0 0 := by
    rw [hcarry, h0]
    have := Nat.mod_mod_of_dvd (limb_value w (sub1_high w a b c cancel))
      (pow_dvd_pow 2 (le_of_lt hsh))
    rw [← this]
    exact Nat.mod_le _ _
  have hwf1 : ∀ x ∈ [(sub1_high w a b c cancel).getD 0 0 - sub1_carry w a b c cancel], x < 2 ^ w := by
    intro x hx
    simp only [List.mem_singleton] at hx
    rw [hx, h0]
    exact Nat.lt_of_le_of_lt (Nat.sub_le _ _) (Nat.mod_lt _ (Nat.two_pow_pos _))
  refine ⟨hcarry, ?_, ?_, ?_⟩
  · unfold sub1_masked
    rw [MPN_STORE_length _ _ _ (by simp; omega), hl]
  · unfold sub1_masked
    exact wf_MPN_STORE w _ _ _ hwf hwf1
  · unfold sub1_masked
    rw [MPN_STORE_value w _ _ _ hwf (by simp; omega)]
    simp only [Nat.mul_zero, pow_zero, Nat.mod_one, Nat.zero_add, Nat.one_mul, limb_value,
      List.length_singleton, Nat.mul_one, Nat.mul_zero, Nat.add_zero]
    have hd := mod_add_div_pow (limb_value w (sub1_high w a b c cancel)) w
    rw [h0] at hcle ⊢
    omega

/-! ## The labels `sub_one_ulp`, `add_one_ulp` and `truncate` -/

/-- The test `ap[an-1] >> (w - 1) == 0` of line 488 reads the top bit of the window. -/
theorem top_bit_test (w : Nat) (hw : 0 < w) (ap : List Nat) (an : Nat) (han : 0 < an)
    (hl : ap.length = an) (hwf : ∀ x ∈ ap, x < 2 ^ w) :
    ap.getD (an - 1) 0 >>> (w - 1) = 0 ↔ limb_value w ap < 2 ^ (w * an - 1) := by
  have hV : limb_value w ap < 2 ^ (w * an) := by
    have := limb_value_lt w ap hwf; rwa [hl] at this
  rw [limb_getD w ap _ hwf, Nat.shiftRight_eq_div_pow]
  have e1 : 2 ^ (w * an) = 2 ^ (w * (an - 1)) * 2 ^ w := pow_mul_succ_split w an han
  have h1 : limb_value w ap / 2 ^ (w * (an - 1)) % 2 ^ w = limb_value w ap / 2 ^ (w * (an - 1)) := by
    apply Nat.mod_eq_of_lt
    rw [Nat.div_lt_iff_lt_mul (Nat.two_pow_pos _), Nat.mul_comm, ← e1]
    exact hV
  rw [h1, Nat.div_eq_zero_iff (Nat.two_pow_pos _), Nat.div_lt_iff_lt_mul (Nat.two_pow_pos _),
    ← pow_add]
  have e2 : w - 1 + w * (an - 1) = w * an - 1 := by
    have := mul_pred_add w an han
    omega
  rw [e2]

/-- Bit `sh` of the lowest limb is bit `sh` of the value of the array. -/
theorem bit_sh_eq (w : Nat) (ap : List Nat) (sh : Nat) (hsh : sh < w)
    (hwf : ∀ x ∈ ap, x < 2 ^ w) :
    (ap.getD 0 0 >>> sh) &&& 1 = limb_value w ap / 2 ^ sh % 2 := by
  rw [limb_getD w ap _ hwf, Nat.shiftRight_eq_div_pow, Nat.and_one_is_mod]
  simp only [Nat.mul_zero, pow_zero, Nat.div_one]
  have hw : 2 ^ w = 2 ^ sh * 2 ^ (w - sh) := by rw [← pow_add]; congr 1; omega
  rw [hw, Nat.mod_mul_right_div_self]
  apply Nat.mod_mod_of_dvd
  exact dvd_pow_self 2 (by omega)

/-- Storing `MPFR_LIMB_HIGHBIT` in the top limb of a window whose value is below
`2 ^ (w * (an - 1))`. -/
theorem store_highbit (w : Nat) (hw : 0 < w) (ap : List Nat) (an : Nat) (han : 0 < an)
    (hl : ap.length = an) (hwf : ∀ x ∈ ap, x < 2 ^ w) :
    (MPN_STORE ap (an - 1) [MPFR_LIMB_HIGHBIT w]).length = an ∧
    (∀ x ∈ MPN_STORE ap (an - 1) [MPFR_LIMB_HIGHBIT w], x < 2 ^ w) ∧
    limb_value w (MPN_STORE ap (an - 1) [MPFR_LIMB_HIGHBIT w])
      = limb_value w ap % 2 ^ (w * (an - 1)) + 2 ^ (w * an - 1) := by
  have hV : limb_value w ap < 2 ^ (w * an) := by
    have := limb_value_lt w ap hwf; rwa [hl] at this
  have hwf1 : ∀ x ∈ [MPFR_LIMB_HIGHBIT w], x < 2 ^ w := by
    intro x hx
    simp only [List.mem_singleton] at hx
    rw [hx, highbit_eq]
    exact Nat.pow_lt_pow_right (by norm_num) (by omega)
  have hle : an - 1 + [MPFR_LIMB_HIGHBIT w].length ≤ ap.length := by simp; omega
  refine ⟨by rw [MPN_STORE_length _ _ _ hle, hl], wf_MPN_STORE w _ _ _ hwf hwf1, ?_⟩
  rw [MPN_STORE_value w _ _ _ hwf hle]
  simp only [List.length_singleton, limb_value, Nat.mul_zero, Nat.add_zero]
  have e : an - 1 + 1 = an := by omega
  rw [e, Nat.div_eq_of_lt hV, highbit_eq, ← pow_add]
  have e2 : w * (an - 1) + (w - 1) = w * an - 1 := by
    have := mul_pred_add w an han
    omega
  rw [e2]; simp

/-- Lines 487-493: the label `truncate`. -/
theorem sub1_truncate_spec (w : Nat) (hw : 0 < w) (ap : List Nat) (an : Nat) (han : 0 < an)
    (hl : ap.length = an) (hwf : ∀ x ∈ ap, x < 2 ^ w) (i : Int) (e : Nat) :
    (2 ^ (w * an - 1) ≤ limb_value w ap → sub1_truncate w an ap i e = (ap, i, e)) ∧
    (limb_value w ap < 2 ^ (w * an - 1) →
      sub1_truncate w an ap i e = (MPN_STORE ap (an - 1) [MPFR_LIMB_HIGHBIT w], i, 1)) := by
  have ht := top_bit_test w hw ap an han hl hwf
  unfold sub1_truncate
  constructor
  · intro h
    rw [if_neg (by rw [ht]; omega)]
  · intro h
    rw [if_pos (ht.mpr h)]

/-- Value of `mpn_sub_1` on the whole window. -/
theorem sub_1_value (w : Nat) (ap : List Nat) (an l : Nat) (hl : ap.length = an)
    (hwf : ∀ x ∈ ap, x < 2 ^ w) (hlt : l ≤ limb_value w ap) :
    ((mpn_sub_1 w ap an l).1).length = an ∧
    (∀ x ∈ (mpn_sub_1 w ap an l).1, x < 2 ^ w) ∧
    limb_value w (mpn_sub_1 w ap an l).1 = limb_value w ap - l := by
  have hV : limb_value w ap < 2 ^ (w * an) := by
    have := limb_value_lt w ap hwf; rwa [hl] at this
  unfold mpn_sub_1
  refine ⟨limbs_of_length _ _ _, limbs_of_lt _ _ _, ?_⟩
  simp only [limb_value_limbs_of]
  have ht : ap.take an = ap := List.take_of_length_le (by omega)
  rw [ht, Nat.mod_eq_of_lt (show l < 2 ^ (w * an) by omega)]
  rw [show limb_value w ap + 2 ^ (w * an) - l = (limb_value w ap - l) + 2 ^ (w * an) by omega,
    Nat.add_mod_right, Nat.mod_eq_of_lt (by omega)]

/-- Value of `mpn_sub_1` on a window that holds zero: the subtraction wraps. -/
theorem sub_1_value_zero (w : Nat) (ap : List Nat) (an l : Nat) (hl : ap.length = an)
    (_hwf : ∀ x ∈ ap, x < 2 ^ w) (hV : limb_value w ap = 0) (hl0 : 0 < l) (hlt : l < 2 ^ (w * an)) :
    ((mpn_sub_1 w ap an l).1).length = an ∧
    (∀ x ∈ (mpn_sub_1 w ap an l).1, x < 2 ^ w) ∧
    limb_value w (mpn_sub_1 w ap an l).1 = 2 ^ (w * an) - l := by
  unfold mpn_sub_1
  refine ⟨limbs_of_length _ _ _, limbs_of_lt _ _ _, ?_⟩
  simp only [limb_value_limbs_of]
  have ht : ap.take an = ap := List.take_of_length_le (by omega)
  rw [ht, hV, Nat.mod_eq_of_lt hlt, Nat.zero_add, Nat.mod_eq_of_lt (by omega)]

/-- Value of `mpn_add_1` on the whole window, and its carry. -/
theorem add_1_value (w : Nat) (ap : List Nat) (an l : Nat) (hl : ap.length = an)
    (_hwf : ∀ x ∈ ap, x < 2 ^ w) :
    ((mpn_add_1 w ap an l).1).length = an ∧
    (∀ x ∈ (mpn_add_1 w ap an l).1, x < 2 ^ w) ∧
    limb_value w (mpn_add_1 w ap an l).1 = (limb_value w ap + l) % 2 ^ (w * an) ∧
    ((mpn_add_1 w ap an l).2 ≠ 0 ↔ 2 ^ (w * an) ≤ limb_value w ap + l) := by
  unfold mpn_add_1
  have ht : ap.take an = ap := List.take_of_length_le (by omega)
  refine ⟨limbs_of_length _ _ _, limbs_of_lt _ _ _, ?_, ?_⟩
  · simp only [limb_value_limbs_of]; rw [ht]
  · simp only [ht]
    by_cases h : limb_value w ap + l < 2 ^ (w * an)
    · rw [if_pos h]; simp; omega
    · rw [if_neg h]; simp; omega

/-! ## The loop on the low limbs, started by `mpfr_sub1` -/

theorem sub1_rnd_mode_N (a : mpfr) (rnd0 : mp_rnd_t) :
    sub1_rnd_mode a rnd0 = GMP_RNDN ↔ rnd0 = GMP_RNDN := by
  unfold sub1_rnd_mode
  constructor
  · intro h
    by_contra hn
    split at h
    · cases h
    · exact hn h
  · intro h
    rw [if_neg (by rw [h]; simp)]
    exact h

theorem sub1_LB_eq (w : Nat) (a b c : mpfr) (cancel : Nat) :
    sub1_LB w a b c cancel
      = low_part w (sub1_bp w b cancel) (sub1_bnl w a b cancel).toNat (sub1_m w a b c cancel) := by
  unfold sub1_LB sub1_Bs
  exact low_part_eq w _ _ _ (sub1_m_ge w a b c cancel).1

theorem sub1_LC_eq (w : Nat) (a b c : mpfr) (cancel : Nat) :
    sub1_LC w a b c cancel
      = low_part w (sub1_cp w b c cancel) (sub1_cnl w a b c cancel).toNat (sub1_m w a b c cancel) := by
  unfold sub1_LC sub1_Cs
  exact low_part_eq w _ _ _ (sub1_m_ge w a b c cancel).2

/-- The loop started by `mpfr_sub1`, outside round-to-nearest with `sh = 0`: it compares the
low parts of `b` and `c`. -/
theorem sub1_low_eq (w : Nat) (hw : limb_width_ok w) (a b c : mpfr) (hb : mpfr_regular w b)
    (hc : mpfr_regular w c) (cancel : Nat) (rnd0 : mp_rnd_t)
    (hns : ¬ (rnd0 = GMP_RNDN ∧ sub1_sh w a = 0)) :
    sub1_low w a b c cancel rnd0 =
      sub1_loop_decision (sub1_rnd_mode a rnd0) (sub1_sh w a) (sub1_masked w a b c cancel)
        (if rnd0 = GMP_RNDN ∧ sub1_sh w a ≠ 0
          then decide (sub1_carry w a b c cancel < MPFR_LIMB_ONE <<< (sub1_sh w a - 1)) else false)
        (if rnd0 = GMP_RNDN ∧ sub1_sh w a ≠ 0
          then decide (sub1_carry w a b c cancel = 0) else true)
        (compare (sub1_LB w a b c cancel) (sub1_LC w a b c cancel)) := by
  obtain ⟨_, hbwf, _⟩ := sub1_bp_spec w hw.1 b hb cancel
  obtain ⟨hcl, hcwf, _⟩ := sub1_cp_spec w hw b c hc cancel
  rw [sub1_LB_eq, sub1_LC_eq]
  unfold sub1_low
  simp only []
  have h := sub1_loop_eq_decision w (sub1_rnd_mode a rnd0) (sub1_sh w a)
    (sub1_masked w a b c cancel) (sub1_bp w b cancel) (sub1_cp w b c cancel)
    (sub1_cn w b c cancel) hbwf hcwf (le_of_eq hcl)
    (max (sub1_bnl w a b cancel) (sub1_cnl w a b c cancel)).toNat
    (sub1_bnl w a b cancel) (sub1_cnl w a b c cancel) 0
    (if rnd0 = GMP_RNDN ∧ sub1_sh w a ≠ 0
          then decide (sub1_carry w a b c cancel < MPFR_LIMB_ONE <<< (sub1_sh w a - 1)) else false)
    (if rnd0 = GMP_RNDN ∧ sub1_sh w a ≠ 0
          then decide (sub1_carry w a b c cancel = 0) else true)
    (by omega) (by rw [sub1_rnd_mode_N]; tauto)
  unfold sub1_bnl sub1_cnl at h
  unfold sub1_m sub1_bnl sub1_cnl
  exact h

/-- The loop started by `mpfr_sub1` under round-to-nearest with `sh = 0`, when there is no low
limb at all. -/
theorem sub1_low_first_zero (w : Nat) (a b c : mpfr) (cancel : Nat)
    (hs : sub1_sh w a = 0) (hm : sub1_m w a b c cancel = 0) :
    sub1_low w a b c cancel GMP_RNDN = Jump.truncate 0 := by
  unfold sub1_low
  simp only []
  unfold sub1_m sub1_bnl sub1_cnl at hm
  rw [hm, hs]
  simp [sub1_loop, sub1_even_rule]

/-- The loop started by `mpfr_sub1` under round-to-nearest with `sh = 0`: the first pair of
low limbs and the comparison of the low parts below them. -/
theorem sub1_low_first (w : Nat) (hw : limb_width_ok w) (a b c : mpfr) (hb : mpfr_regular w b)
    (hc : mpfr_regular w c) (cancel : Nat)
    (hs : sub1_sh w a = 0) (hm : 0 < sub1_m w a b c cancel) :
    ∃ bb0 cc0 lb lc : Nat, bb0 < 2 ^ w ∧ cc0 < 2 ^ w ∧
      lb < 2 ^ (w * (sub1_m w a b c cancel - 1)) ∧ lc < 2 ^ (w * (sub1_m w a b c cancel - 1)) ∧
      sub1_LB w a b c cancel = bb0 * 2 ^ (w * (sub1_m w a b c cancel - 1)) + lb ∧
      sub1_LC w a b c cancel = cc0 * 2 ^ (w * (sub1_m w a b c cancel - 1)) + lc ∧
      sub1_low w a b c cancel GMP_RNDN
        = sub1_loop_decision0 w (sub1_masked w a b c cancel) bb0 cc0 (compare lb lc) := by
  obtain ⟨_, hbwf, _⟩ := sub1_bp_spec w hw.1 b hb cancel
  obtain ⟨hcl, hcwf, _⟩ := sub1_cp_spec w hw b c hc cancel
  have hmb := (sub1_m_ge w a b c cancel).1
  have hmc := (sub1_m_ge w a b c cancel).2
  have hmm : sub1_m w a b c cancel
      = (max (sub1_bnl w a b cancel) (sub1_cnl w a b c cancel)).toNat := rfl
  have h := sub1_loop_first w hw.1 (sub1_masked w a b c cancel) (sub1_bp w b cancel)
    (sub1_cp w b c cancel) (sub1_cn w b c cancel) hbwf hcwf (le_of_eq hcl)
    (max (sub1_bnl w a b cancel) (sub1_cnl w a b c cancel)).toNat
    (sub1_bnl w a b cancel) (sub1_cnl w a b c cancel) (by omega) (by omega)
  rw [← hmm] at h
  refine ⟨(if sub1_bnl w a b cancel > 0
      then (sub1_bp w b cancel).getD (sub1_bnl w a b cancel - 1).toNat 0 else 0),
    (if sub1_cnl w a b c cancel > 0
      then (sub1_cp w b c cancel).getD (sub1_cnl w a b c cancel - 1).toNat 0 else 0),
    low_part w (sub1_bp w b cancel) (sub1_bnl w a b cancel - 1).toNat (sub1_m w a b c cancel - 1),
    low_part w (sub1_cp w b c cancel) (sub1_cnl w a b c cancel - 1).toNat (sub1_m w a b c cancel - 1),
    ?_, ?_, ?_, ?_, ?_, ?_, ?_⟩
  rotate_right 1
  · unfold sub1_low
    simp only []
    rw [hs]
    simp only [ne_eq, not_true_eq_false, and_false, if_false]
    unfold sub1_bnl sub1_cnl sub1_m at h
    unfold sub1_m
    exact h
  · split
    · exact getD_lt w _ _ hbwf
    · exact Nat.two_pow_pos _
  · split
    · exact getD_lt w _ _ hcwf
    · exact Nat.two_pow_pos _
  · exact low_part_lt w _ _ _ (by omega)
  · exact low_part_lt w _ _ _ (by omega)
  · rw [sub1_LB_eq]
    by_cases h0 : sub1_bnl w a b cancel > 0
    · rw [if_pos h0, low_part_step w _ _ _ (by omega) (by omega) hbwf]
      congr 2
      · congr 1; omega
      · omega
    · rw [if_neg h0]
      have e1 : (sub1_bnl w a b cancel).toNat = 0 := by omega
      have e2 : (sub1_bnl w a b cancel - 1).toNat = 0 := by omega
      rw [e1, e2, low_part_zero, low_part_zero]; simp
  · rw [sub1_LC_eq]
    by_cases h0 : sub1_cnl w a b c cancel > 0
    · rw [if_pos h0, low_part_step w _ _ _ (by omega) (by omega) hcwf]
      congr 2
      · congr 1; omega
      · omega
    · rw [if_neg h0]
      have e1 : (sub1_cnl w a b c cancel).toNat = 0 := by omega
      have e2 : (sub1_cnl w a b c cancel - 1).toNat = 0 := by omega
      rw [e1, e2, low_part_zero, low_part_zero]; simp

/-! ## The rounding decision -/

theorem int_sign_neg_of_pos (x : Int) (h : 0 < x) : int_sign (-x) = -1 := by
  unfold int_sign; rw [if_pos (by omega)]

theorem int_sign_neg_of_neg (x : Int) (h : x < 0) : int_sign (-x) = 1 := by
  unfold int_sign; rw [if_neg (by omega), if_pos (by omega)]

theorem int_sign_zero : int_sign 0 = 0 := by
  unfold int_sign; simp

theorem int_sign_one : int_sign 1 = 1 := by
  unfold int_sign; simp

theorem int_sign_neg_one : int_sign (-1) = -1 := by
  unfold int_sign; simp

theorem spec_sub (rho q : Int) (odd nearest toward_zero : Prop) (h0 : rho ≠ 0)
    (h1 : nearest → 2 * rho ≠ q) (h2 : nearest → 2 * rho = - q → odd)
    (h3 : toward_zero → rho < 0) :
    sub1_jump_spec Jump.sub_one_ulp rho q odd nearest toward_zero := by
  refine ⟨?_, ?_, ?_, ?_, ?_, ?_⟩
  · intro i hi; cases hi
  · intro h; exact absurd h h0
  · intro hn h; exact absurd h (h1 hn)
  · intro hn h; exact ⟨fun _ => rfl, fun ho => absurd (h2 hn h) ho⟩
  · intro h; cases h
  · intro hz; exact Or.inl ⟨rfl, h3 hz⟩

theorem spec_add (rho q : Int) (odd nearest toward_zero : Prop) (h0 : 0 < rho) (hq : 0 ≤ q)
    (h1 : nearest → 2 * rho = q → odd) (h3 : ¬ toward_zero) :
    sub1_jump_spec Jump.add_one_ulp rho q odd nearest toward_zero := by
  refine ⟨?_, ?_, ?_, ?_, ?_, ?_⟩
  · intro i hi; cases hi
  · intro h; omega
  · intro hn h; exact ⟨fun _ => rfl, fun ho => absurd (h1 hn h) ho⟩
  · intro hn h; omega
  · intro _; exact h0
  · intro hz; exact absurd hz h3

theorem spec_trunc_pos (rho q : Int) (odd nearest toward_zero : Prop) (h0 : rho < 0)
    (hq : 0 ≤ q) (h2 : nearest → 2 * rho = - q → ¬ odd) (h3 : ¬ toward_zero) :
    sub1_jump_spec (Jump.truncate 1) rho q odd nearest toward_zero := by
  refine ⟨?_, ?_, ?_, ?_, ?_, ?_⟩
  · intro i hi; cases hi; rw [int_sign_neg_of_neg _ h0, int_sign_one]
  · intro h; omega
  · intro hn h; omega
  · intro hn h; exact ⟨fun ho => absurd ho (h2 hn h), fun _ => rfl⟩
  · intro h; cases h
  · intro hz; exact absurd hz h3

theorem spec_trunc_neg (rho q : Int) (odd nearest toward_zero : Prop) (h0 : 0 < rho)
    (hq : 0 ≤ q) (h1 : nearest → 2 * rho = q → ¬ odd) :
    sub1_jump_spec (Jump.truncate (-1)) rho q odd nearest toward_zero := by
  refine ⟨?_, ?_, ?_, ?_, ?_, ?_⟩
  · intro i hi; cases hi; rw [int_sign_neg_of_pos _ h0, int_sign_neg_one]
  · intro h; omega
  · intro hn h; exact ⟨fun ho => absurd ho (h1 hn h), fun _ => rfl⟩
  · intro hn h; omega
  · intro h; cases h
  · intro _; exact Or.inr ⟨-1, rfl, le_of_lt h0⟩

theorem spec_trunc_zero (rho q : Int) (odd nearest toward_zero : Prop) (h0 : rho = 0)
    (hq : 0 < q) :
    sub1_jump_spec (Jump.truncate 0) rho q odd nearest toward_zero := by
  refine ⟨?_, ?_, ?_, ?_, ?_, ?_⟩
  · intro i hi; cases hi; rw [h0]; simp [int_sign_zero]
  · intro _; rfl
  · intro hn h; omega
  · intro hn h; omega
  · intro h; cases h
  · intro _; exact Or.inr ⟨0, rfl, by omega⟩

/-- The decision of the loop in a directed mode: the mask `carry` is zero. -/
theorem dec_directed (rnd : mp_rnd_t) (sh : Nat) (ap : List Nat) (LB LC : Nat) (q : Int)
    (odd : Prop) (hq : 0 < q) (hr : rnd ≠ GMP_RNDN) :
    sub1_jump_spec (sub1_loop_decision rnd sh ap false true (compare LB LC))
      ((LB : Int) - LC) q odd False (rnd = GMP_RNDZ) := by
  rcases Nat.lt_trichotomy LB LC with h | h | h
  · rw [Nat.compare_eq_lt.mpr h]
    unfold sub1_loop_decision
    simp only []
    by_cases hz : rnd = GMP_RNDZ
    · rw [if_pos hz]
      exact spec_sub _ _ _ _ _ (by omega) (fun f => f.elim) (fun f => f.elim) (fun _ => by omega)
    · rw [if_neg hz, if_pos hr]
      exact spec_trunc_pos _ _ _ _ _ (by omega) (le_of_lt hq) (fun f => f.elim) hz
  · rw [Nat.compare_eq_eq.mpr h]
    unfold sub1_loop_decision sub1_even_rule
    simp only []
    rw [if_neg (by simp)]
    exact spec_trunc_zero _ _ _ _ _ (by omega) hq
  · rw [Nat.compare_eq_gt.mpr h]
    unfold sub1_loop_decision
    simp only []
    by_cases hz : rnd = GMP_RNDZ
    · rw [if_pos hz]
      exact spec_trunc_neg _ _ _ _ _ (by omega) (le_of_lt hq) (fun f => f.elim)
    · rw [if_neg hz, if_pos hr]
      exact spec_add _ _ _ _ _ (by omega) (le_of_lt hq) (fun f => f.elim) hz

/-- The decision of the loop under round-to-nearest with `sh > 0` when `carry = 0`. -/
theorem dec_nearest_zero (sh : Nat) (ap : List Nat) (LB LC : Nat) (P K : Int) (odd : Prop)
    (hsh : sh ≠ 0) (hLB : (LB : Int) < P) (hLC : (LC : Int) < P) (hK : P ≤ K) :
    sub1_jump_spec (sub1_loop_decision GMP_RNDN sh ap true true (compare LB LC))
      ((LB : Int) - LC) (2 * K) odd True False := by
  rcases Nat.lt_trichotomy LB LC with h | h | h
  · rw [Nat.compare_eq_lt.mpr h]
    unfold sub1_loop_decision
    simp only []
    rw [if_neg (by simp), if_neg (by simp), if_neg (by simp [hsh]), if_neg hsh]
    simp only [if_true]
    exact spec_trunc_pos _ _ _ _ _ (by omega) (by omega) (fun _ h => by omega) (fun f => f)
  · rw [Nat.compare_eq_eq.mpr h]
    unfold sub1_loop_decision sub1_even_rule
    simp only []
    rw [if_neg (by simp)]
    exact spec_trunc_zero _ _ _ _ _ (by omega) (by omega)
  · rw [Nat.compare_eq_gt.mpr h]
    unfold sub1_loop_decision
    simp only []
    rw [if_neg (by simp), if_neg (by simp)]
    simp only [if_true]
    exact spec_trunc_neg _ _ _ _ _ (by omega) (by omega) (fun _ h => by omega)

/-- The decision of the loop under round-to-nearest with `sh > 0` when `carry` is exactly
half a unit of the window. -/
theorem dec_nearest_half (sh : Nat) (ap : List Nat) (LB LC : Nat) (P K : Int)
    (hsh : sh ≠ 0) (hLB : (LB : Int) < P) (hLC : (LC : Int) < P) (hK : P ≤ K) :
    sub1_jump_spec (sub1_loop_decision GMP_RNDN sh ap false false (compare LB LC))
      (K + ((LB : Int) - LC)) (2 * K) ((ap.getD 0 0 >>> sh) &&& 1 ≠ 0) True False := by
  rcases Nat.lt_trichotomy LB LC with h | h | h
  · rw [Nat.compare_eq_lt.mpr h]
    unfold sub1_loop_decision
    simp only []
    rw [if_neg (by simp), if_neg (by simp), if_neg (by simp), if_neg hsh]
    simp only [Bool.false_eq_true, if_false]
    exact spec_trunc_neg _ _ _ _ _ (by omega) (by omega) (fun _ h => by omega)
  · rw [Nat.compare_eq_eq.mpr h]
    unfold sub1_loop_decision sub1_even_rule
    simp only []
    rw [if_pos (by simp)]
    by_cases ho : (ap.getD 0 0 >>> sh) &&& 1 ≠ 0
    · rw [if_pos ho]
      simp only [Bool.false_eq_true, if_false]
      exact spec_add _ _ _ _ _ (by omega) (by omega) (fun _ _ => ho) (fun f => f)
    · rw [if_neg ho]
      simp only [Bool.false_eq_true, if_false]
      exact spec_trunc_neg _ _ _ _ _ (by omega) (by omega) (fun _ _ => ho)
  · rw [Nat.compare_eq_gt.mpr h]
    unfold sub1_loop_decision
    simp only []
    rw [if_neg (by simp), if_neg (by simp)]
    simp only [Bool.false_eq_true, if_false]
    exact spec_add _ _ _ _ _ (by omega) (by omega) (fun _ h => by omega) (fun f => f)

/-- Round-to-nearest with `sh = 0`, first low limbs `cc0 = bb0 + half`. -/
theorem dec_sh0_down (ap : List Nat) (lb lc : Nat) (P K : Int)
    (hlb : (lb : Int) < P) (hlc : (lc : Int) < P) (hK : P ≤ K) :
    sub1_jump_spec (sub1_loop_decision GMP_RNDN 0 ap true false (compare lb lc))
      (- K + ((lb : Int) - lc)) (2 * K) ((ap.getD 0 0 >>> 0) &&& 1 ≠ 0) True False := by
  rcases Nat.lt_trichotomy lb lc with h | h | h
  · rw [Nat.compare_eq_lt.mpr h]
    unfold sub1_loop_decision
    simp only []
    rw [if_neg (by simp), if_neg (by simp), if_neg (by simp)]
    simp only [if_true]
    exact spec_sub _ _ _ _ _ (by omega) (fun _ => by omega) (fun _ h => by omega) (fun f => f.elim)
  · rw [Nat.compare_eq_eq.mpr h]
    unfold sub1_loop_decision sub1_even_rule
    simp only []
    rw [if_pos (by simp)]
    by_cases ho : (ap.getD 0 0 >>> 0) &&& 1 ≠ 0
    · rw [if_pos ho]
      simp only [if_true]
      exact spec_sub _ _ _ _ _ (by omega) (fun _ => by omega) (fun _ _ => ho) (fun f => f.elim)
    · rw [if_neg ho]
      simp only [if_true]
      exact spec_trunc_pos _ _ _ _ _ (by omega) (by omega) (fun _ _ => ho) (fun f => f)
  · rw [Nat.compare_eq_gt.mpr h]
    unfold sub1_loop_decision
    simp only []
    rw [if_neg (by simp), if_neg (by simp)]
    simp only [Bool.false_eq_true, if_false, if_true]
    exact spec_trunc_pos _ _ _ _ _ (by omega) (by omega) (fun _ h => by omega) (fun f => f)

/-- Round-to-nearest with `sh = 0`, first low limbs equal. -/
theorem dec_sh0_same (ap : List Nat) (lb lc : Nat) (P K : Int) (odd : Prop)
    (hlb : (lb : Int) < P) (hlc : (lc : Int) < P) (hK : P ≤ K) :
    sub1_jump_spec (sub1_loop_decision GMP_RNDN 0 ap false true (compare lb lc))
      ((lb : Int) - lc) (2 * K) odd True False := by
  rcases Nat.lt_trichotomy lb lc with h | h | h
  · rw [Nat.compare_eq_lt.mpr h]
    unfold sub1_loop_decision
    simp only []
    rw [if_neg (by simp), if_neg (by simp), if_pos (by simp)]
    exact spec_trunc_pos _ _ _ _ _ (by omega) (by omega) (fun _ h => by omega) (fun f => f)
  · rw [Nat.compare_eq_eq.mpr h]
    unfold sub1_loop_decision sub1_even_rule
    simp only []
    rw [if_neg (by simp)]
    exact spec_trunc_zero _ _ _ _ _ (by omega) (by omega)
  · rw [Nat.compare_eq_gt.mpr h]
    unfold sub1_loop_decision
    simp only []
    rw [if_neg (by simp), if_neg (by simp)]
    simp only [if_true]
    exact spec_trunc_neg _ _ _ _ _ (by omega) (by omega) (fun _ h => by omega)

/-- Round-to-nearest with `sh = 0`, first low limbs `bb0 = cc0 + half`.  When the lower limbs of
`b` are below those of `c` the code jumps to `sub_one_ulp`. -/
theorem dec_sh0_up (ap : List Nat) (lb lc : Nat) (P K : Int)
    (hlb : (lb : Int) < P) (hlc : (lc : Int) < P) (hK : P ≤ K) :
    sub1_jump_spec (sub1_loop_decision GMP_RNDN 0 ap false false (compare lb lc))
      (K + ((lb : Int) - lc)) (2 * K) ((ap.getD 0 0 >>> 0) &&& 1 ≠ 0) True False := by
  rcases Nat.lt_trichotomy lb lc with h | h | h
  · rw [Nat.compare_eq_lt.mpr h]
    unfold sub1_loop_decision
    simp only []
    rw [if_neg (by simp), if_neg (by simp), if_neg (by simp)]
    simp only [if_true]
    exact spec_sub _ _ _ _ _ (by omega) (fun _ => by omega) (fun _ h => by omega) (fun f => f.elim)
  · rw [Nat.compare_eq_eq.mpr h]
    unfold sub1_loop_decision sub1_even_rule
    simp only []
    rw [if_pos (by simp)]
    by_cases ho : (ap.getD 0 0 >>> 0) &&& 1 ≠ 0
    · rw [if_pos ho]
      simp only [Bool.false_eq_true, if_false]
      exact spec_add _ _ _ _ _ (by omega) (by omega) (fun _ _ => ho) (fun f => f)
    · rw [if_neg ho]
      simp only [Bool.false_eq_true, if_false]
      exact spec_trunc_neg _ _ _ _ _ (by omega) (by omega) (fun _ _ => ho)
  · rw [Nat.compare_eq_gt.mpr h]
    unfold sub1_loop_decision
    simp only []
    rw [if_neg (by simp), if_neg (by simp)]
    simp only [Bool.false_eq_true, if_false]
    exact spec_add _ _ _ _ _ (by omega) (by omega) (fun _ h => by omega) (fun f => f)

/-- The decision of the loop under round-to-nearest with `sh = 0`. -/
theorem dec_first (w : Nat) (hw : 0 < w) (ap : List Nat) (bb0 cc0 lb lc P : Nat)
    (hlb : lb < P) (hlc : lc < P) :
    sub1_jump_spec (sub1_loop_decision0 w ap bb0 cc0 (compare lb lc))
      (((bb0 * P + lb : Nat) : Int) - ((cc0 * P + lc : Nat) : Int)) ((2 ^ w * P : Nat) : Int)
      ((ap.getD 0 0 >>> 0) &&& 1 ≠ 0) True False := by
  have h2 := two_highbit w hw
  have hh : 0 < MPFR_LIMB_HIGHBIT w := by rw [highbit_eq]; exact Nat.two_pow_pos _
  have hq : ((2 ^ w * P : Nat) : Int) = 2 * ((MPFR_LIMB_HIGHBIT w * P : Nat) : Int) := by
    rw [h2]; push_cast; ring
  have hKP : P ≤ MPFR_LIMB_HIGHBIT w * P := Nat.le_mul_of_pos_left _ hh
  rw [hq]
  unfold sub1_loop_decision0
  generalize MPFR_LIMB_HIGHBIT w = half at hKP ⊢
  by_cases c1 : bb0 < cc0
  · rw [if_pos c1]
    by_cases c2 : bb0 + half < cc0
    · rw [if_pos c2]
      have hm : (bb0 + half + 1) * P ≤ cc0 * P := Nat.mul_le_mul_right _ (by omega)
      have e : (bb0 + half + 1) * P = bb0 * P + half * P + P := by ring
      rw [e] at hm
      exact spec_sub _ _ _ _ _ (by push_cast; omega) (fun _ => by push_cast; omega)
        (fun _ h => by push_cast at h; omega) (fun f => f.elim)
    · rw [if_neg c2]
      by_cases c3 : cc0 < bb0 + half
      · rw [if_pos c3]
        have hm : (cc0 + 1) * P ≤ (bb0 + half) * P := Nat.mul_le_mul_right _ (by omega)
        have hm2 : (bb0 + 1) * P ≤ cc0 * P := Nat.mul_le_mul_right _ (by omega)
        have e : (cc0 + 1) * P = cc0 * P + P := by ring
        have e2 : (bb0 + half) * P = bb0 * P + half * P := by ring
        have e3 : (bb0 + 1) * P = bb0 * P + P := by ring
        rw [e, e2] at hm
        rw [e3] at hm2
        exact spec_trunc_pos _ _ _ _ _ (by push_cast; omega) (by push_cast; omega)
          (fun _ h => by push_cast at h; omega) (fun f => f)
      · rw [if_neg c3]
        have e0 : cc0 = bb0 + half := by omega
        have e2 : cc0 * P = bb0 * P + half * P := by rw [e0]; ring
        have hr : ((bb0 * P + lb : Nat) : Int) - ((cc0 * P + lc : Nat) : Int)
            = - ((half * P : Nat) : Int) + ((lb : Int) - lc) := by
          rw [e2]; push_cast; ring
        rw [hr]
        exact dec_sh0_down ap lb lc P _ (by exact_mod_cast hlb) (by exact_mod_cast hlc)
          (by exact_mod_cast hKP)
  · rw [if_neg c1]
    by_cases c2 : bb0 = cc0
    · rw [if_pos c2]
      have hr : ((bb0 * P + lb : Nat) : Int) - ((cc0 * P + lc : Nat) : Int)
          = ((lb : Int) - lc) := by
        rw [c2]; push_cast; ring
      rw [hr]
      exact dec_sh0_same ap lb lc P _ _ (by exact_mod_cast hlb) (by exact_mod_cast hlc)
        (by exact_mod_cast hKP)
    · rw [if_neg c2]
      by_cases c3 : bb0 < cc0 + half
      · rw [if_pos c3]
        have hm : (bb0 + 1) * P ≤ (cc0 + half) * P := Nat.mul_le_mul_right _ (by omega)
        have hm2 : (cc0 + 1) * P ≤ bb0 * P := Nat.mul_le_mul_right _ (by omega)
        have e : (bb0 + 1) * P = bb0 * P + P := by ring
        have e2 : (cc0 + half) * P = cc0 * P + half * P := by ring
        have e3 : (cc0 + 1) * P = cc0 * P + P := by ring
        rw [e, e2] at hm
        rw [e3] at hm2
        exact spec_trunc_neg _ _ _ _ _ (by push_cast; omega) (by push_cast; omega)
          (fun _ h => by push_cast at h; omega)
      · rw [if_neg c3]
        by_cases c4 : cc0 + half < bb0
        · rw [if_pos c4]
          have hm : (cc0 + half + 1) * P ≤ bb0 * P := Nat.mul_le_mul_right _ (by omega)
          have e : (cc0 + half + 1) * P = cc0 * P + half * P + P := by ring
          rw [e] at hm
          exact spec_add _ _ _ _ _ (by push_cast; omega) (by push_cast; omega)
            (fun _ h => by push_cast at h; omega) (fun f => f)
        · rw [if_neg c4]
          have e0 : bb0 = cc0 + half := by omega
          have e2 : bb0 * P = cc0 * P + half * P := by rw [e0]; ring
          have hr : ((bb0 * P + lb : Nat) : Int) - ((cc0 * P + lc : Nat) : Int)
              = ((half * P : Nat) : Int) + ((lb : Int) - lc) := by
            rw [e2]; push_cast; ring
          rw [hr]
          exact dec_sh0_up ap lb lc P _ (by exact_mod_cast hlb) (by exact_mod_cast hlc)
            (by exact_mod_cast hKP)

theorem spec_congr (j : Jump) (rho q : Int) (odd nearest tz odd' nearest' tz' : Prop)
    (h1 : odd ↔ odd') (h2 : nearest ↔ nearest') (h3 : tz ↔ tz')
    (h : sub1_jump_spec j rho q odd nearest tz) : sub1_jump_spec j rho q odd' nearest' tz' := by
  unfold sub1_jump_spec at h ⊢
  rw [← h1, ← h2, ← h3]; exact h

theorem and_one_ne_zero (x : Nat) : x &&& 1 ≠ 0 ↔ x % 2 = 1 := by
  rw [Nat.and_one_is_mod]; omega

/-- Lines 306-471: the label that the rounding stage jumps to meets `sub1_jump_spec`. -/
theorem sub1_jump_ok (w : Nat) (hw : limb_width_ok w) (a b c : mpfr) (ha : 1 ≤ MPFR_PREC a)
    (hb : mpfr_regular w b) (hc : mpfr_regular w c) (cancel : Nat) (rnd0 : mp_rnd_t) :
    sub1_jump_spec (sub1_jump w a b c cancel rnd0)
      ((sub1_carry w a b c cancel : Int) * ((2 ^ (w * sub1_m w a b c cancel) : Nat) : Int)
        + ((sub1_LB w a b c cancel : Int) - sub1_LC w a b c cancel))
      ((2 ^ sub1_sh w a * 2 ^ (w * sub1_m w a b c cancel) : Nat) : Int)
      (limb_value w (sub1_masked w a b c cancel) / 2 ^ sub1_sh w a % 2 = 1)
      (rnd0 = GMP_RNDN) (sub1_rnd_mode a rnd0 = GMP_RNDZ) := by
  obtain ⟨hcarry, hml, hmwf, _⟩ := sub1_masked_spec w hw a b c ha hb hc cancel
  have hsh := (sub1_sh_lt w hw.1 a ha).1
  have hPpos : 0 < 2 ^ (w * sub1_m w a b c cancel) := Nat.two_pow_pos _
  have hLB : sub1_LB w a b c cancel < 2 ^ (w * sub1_m w a b c cancel) := Nat.mod_lt _ hPpos
  have hLC : sub1_LC w a b c cancel < 2 ^ (w * sub1_m w a b c cancel) := Nat.mod_lt _ hPpos
  have hcu : sub1_carry w a b c cancel < 2 ^ sub1_sh w a := by
    rw [hcarry]; exact Nat.mod_lt _ (Nat.two_pow_pos _)
  have hodd : ((sub1_masked w a b c cancel).getD 0 0 >>> sub1_sh w a) &&& 1 ≠ 0
      ↔ limb_value w (sub1_masked w a b c cancel) / 2 ^ sub1_sh w a % 2 = 1 := by
    rw [bit_sh_eq w _ _ hsh hmwf]; omega
  have hlow_eq := sub1_low_eq w hw a b c hb hc cancel rnd0
  have hlow0 := sub1_low_first_zero w a b c cancel
  have hlow1 := sub1_low_first w hw a b c hb hc cancel
  have hN := sub1_rnd_mode_N a rnd0
  unfold sub1_jump
  simp only []
  generalize sub1_carry w a b c cancel = carry at hcu hlow_eq ⊢
  generalize sub1_LB w a b c cancel = LB at hLB hlow_eq hlow1 ⊢
  generalize sub1_LC w a b c cancel = LC at hLC hlow_eq hlow1 ⊢
  have hcP : ∀ k : Nat, k ≤ carry → k * 2 ^ (w * sub1_m w a b c cancel)
      ≤ carry * 2 ^ (w * sub1_m w a b c cancel) := fun k hk => Nat.mul_le_mul_right _ hk
  have hcP2 : ∀ k : Nat, carry ≤ k → carry * 2 ^ (w * sub1_m w a b c cancel)
      ≤ k * 2 ^ (w * sub1_m w a b c cancel) := fun k hk => Nat.mul_le_mul_right _ hk
  by_cases hn : rnd0 = GMP_RNDN
  · rw [if_pos hn]
    have hnz : ¬ sub1_rnd_mode a rnd0 = GMP_RNDZ := by rw [hN.mpr hn]; simp
    by_cases hs : sub1_sh w a = 0
    · -- sh = 0
      rw [if_neg (by omega), if_neg (by omega)]
      have hc0 : carry = 0 := by rw [hs] at hcu; simpa using hcu
      subst hn
      rw [hs, hc0]
      simp only [pow_zero, Nat.one_mul, Nat.cast_zero, zero_mul, zero_add]
      rw [hs] at hodd
      by_cases hm : sub1_m w a b c cancel = 0
      · rw [hlow0 hs hm]
        rw [hm] at hLB hLC
        simp only [Nat.mul_zero, pow_zero] at hLB hLC
        rw [hm]
        exact spec_trunc_zero _ _ _ _ _ (by omega) (by simp)
      · obtain ⟨bb0, cc0, lb, lc, _, _, h3, h4, h5, h6, h7⟩ := hlow1 hs (by omega)
        rw [h7, h5, h6]
        have hsplit := pow_mul_succ_split w (sub1_m w a b c cancel) (by omega)
        rw [hsplit, Nat.mul_comm (2 ^ (w * (sub1_m w a b c cancel - 1)))]
        refine spec_congr _ _ _ _ _ _ _ _ _ ?_ ?_ ?_ (dec_first w hw.1 _ bb0 cc0 lb lc _ h3 h4)
        · simp only [pow_zero] at hodd; exact hodd
        · simp
        · simp [hnz]
    · -- sh > 0
      obtain ⟨s, hs1⟩ : ∃ s, sub1_sh w a = s + 1 := ⟨sub1_sh w a - 1, by omega⟩
      have hhalf : MPFR_LIMB_ONE <<< (sub1_sh w a - 1) = 2 ^ s := by
        unfold MPFR_LIMB_ONE; rw [Nat.shiftLeft_eq, Nat.one_mul, hs1]; rfl
      have hu : 2 ^ sub1_sh w a = 2 * 2 ^ s := by rw [hs1, pow_succ]; ring
      rw [hhalf] at hlow_eq ⊢
      rw [hu] at hcu hodd ⊢
      have hpos : 0 < 2 ^ s := Nat.two_pow_pos _
      generalize 2 ^ s = half at hcu hlow_eq hpos hodd ⊢
      generalize 2 ^ (w * sub1_m w a b c cancel) = P at hcP hcP2 hLB hLC hPpos ⊢
      have hKP : P ≤ half * P := Nat.le_mul_of_pos_left _ hpos
      have hq : ((2 * half * P : Nat) : Int) = 2 * ((half * P : Nat) : Int) := by
        push_cast; ring
      have hr : ∀ k : Nat, (k : Int) * (P : Int) = ((k * P : Nat) : Int) := by
        intro k; push_cast; ring
      rw [hq, hr]
      by_cases c1 : half < carry
      · rw [if_pos ⟨hs, c1⟩]
        have h1 := hcP (half + 1) (by omega)
        rw [Nat.add_mul, Nat.one_mul] at h1
        exact spec_add _ _ _ _ _ (by omega) (by omega)
          (fun _ h => by omega) hnz
      · rw [if_neg (fun h => c1 h.2)]
        by_cases c2 : 0 < carry ∧ carry < half
        · rw [if_pos ⟨hs, c2.1, c2.2⟩]
          have h1 := hcP 1 (by omega)
          have h2 := hcP2 (half - 1) (by omega)
          rw [Nat.sub_mul, Nat.one_mul] at h2
          rw [Nat.one_mul] at h1
          exact spec_trunc_neg _ _ _ _ _ (by omega) (by omega)
            (fun _ h => by omega)
        · rw [if_neg (fun h => c2 ⟨h.2.1, h.2.2⟩)]
          rw [hlow_eq (fun h => hs h.2), hN.mpr hn]
          simp only [hn, hs, ne_eq, not_false_eq_true, and_self, if_true]
          rcases (show carry = 0 ∨ carry = half by omega) with h0 | h0
          · rw [h0]
            simp only [hpos, decide_True, Nat.zero_mul, Nat.cast_zero, zero_add]
            refine spec_congr _ _ _ _ _ _ _ _ _ (Iff.refl _) (by simp) (by simp [hnz])
              (dec_nearest_zero _ _ LB LC (P : Int) _ _ hs (by exact_mod_cast hLB) (by exact_mod_cast hLC)
                (by exact_mod_cast hKP))
          · rw [h0]
            have hne : ¬ (half = 0) := by omega
            simp only [lt_self_iff_false, decide_False, hne]
            refine spec_congr _ _ _ _ _ _ _ _ _ hodd (by simp) (by simp [hnz])
              (dec_nearest_half _ _ LB LC (P : Int) _ hs (by exact_mod_cast hLB) (by exact_mod_cast hLC)
                (by exact_mod_cast hKP))
  · rw [if_neg hn]
    have hq0 : (0 : Int) < ((2 ^ sub1_sh w a * 2 ^ (w * sub1_m w a b c cancel) : Nat) : Int) := by
      exact_mod_cast (Nat.mul_pos (Nat.two_pow_pos _) (Nat.two_pow_pos _))
    generalize 2 ^ (w * sub1_m w a b c cancel) = P at hcP hcP2 hLB hLC hPpos hq0 ⊢
    have hr : ∀ k : Nat, (k : Int) * (P : Int) = ((k * P : Nat) : Int) := by
      intro k; push_cast; ring
    rw [hr]
    by_cases c1 : carry ≠ 0
    · rw [if_pos c1]
      have h1 := hcP 1 (by omega)
      rw [Nat.one_mul] at h1
      by_cases hz : sub1_rnd_mode a rnd0 = GMP_RNDZ
      · rw [if_pos hz]
        exact spec_trunc_neg _ _ _ _ _ (by omega) (le_of_lt hq0)
          (fun h => absurd h hn)
      · rw [if_neg hz]
        exact spec_add _ _ _ _ _ (by omega) (le_of_lt hq0)
          (fun h => absurd h hn) hz
    · rw [if_neg c1]
      have h0 : carry = 0 := by omega
      rw [hlow_eq (fun h => hn h.1), h0]
      simp only [hn, false_and, if_false, Nat.zero_mul, Nat.cast_zero, zero_add]
      refine spec_congr _ _ _ _ _ _ _ _ _ (Iff.refl _) (by simp [hn]) (Iff.refl _)
        (dec_directed _ _ _ LB LC _ _ hq0 (by rw [Ne, hN]; exact hn))

/-! ## The rounded window -/

theorem int_sign_of_neg (x : Int) (h : x < 0) : int_sign x = -1 := by
  unfold int_sign; rw [if_pos h]

theorem int_sign_of_pos (x : Int) (h : 0 < x) : int_sign x = 1 := by
  unfold int_sign; rw [if_neg (by omega), if_pos h]

theorem half_pow_div_mod (n sh : Nat) (h : sh + 2 ≤ n) : 2 ^ (n - 1) / 2 ^ sh % 2 = 0 := by
  rw [Nat.pow_div (by omega) (by norm_num)]
  obtain ⟨k, hk⟩ : ∃ k, n - 1 - sh = k + 1 := ⟨n - 1 - sh - 1, by omega⟩
  rw [hk, pow_succ]; simp

/-- Lines 473-493: what the labels leave in the window, in terms of the value `V` of the masked
window, the exact difference `X` and the part `rho` of `X` below the masked window. -/
theorem labels_ok (w an sh : Nat) (hw : 0 < w) (han : 0 < an) (hsh : sh < w) (ap : List Nat)
    (hl : ap.length = an) (hwf : ∀ x ∈ ap, x < 2 ^ w) (P X : Nat) (_hP : 0 < P) (rho : Int)
    (j : Jump) (N Z : Prop)
    (h1 : -(P : Int) < rho) (h2 : rho < ((2 ^ sh * P : Nat) : Int))
    (hcase : (2 ^ (w * an - 1) ≤ limb_value w ap ∧ limb_value w ap % 2 ^ sh = 0 ∧
        (X : Int) = ((limb_value w ap * P : Nat) : Int) + rho) ∨
      (limb_value w ap = 0 ∧ (X : Int) = ((2 ^ (w * an) * P : Nat) : Int) + rho ∧ rho < 0))
    (hj : sub1_jump_spec j rho ((2 ^ sh * P : Nat) : Int) (limb_value w ap / 2 ^ sh % 2 = 1) N Z) :
    (sub1_labels w an sh ap j).1.length = an ∧
    (∀ x ∈ (sub1_labels w an sh ap j).1, x < 2 ^ w) ∧
    (sub1_labels w an sh ap j).2.2 ≤ 1 ∧
    int_sign (sub1_labels w an sh ap j).2.1 =
      int_sign (((limb_value w (sub1_labels w an sh ap j).1
        * 2 ^ (sub1_labels w an sh ap j).2.2 * P : Nat) : Int) - X) ∧
    (rho = 0 → sub1_labels w an sh ap j = (ap, 0, 0)) ∧
    (N → sh + 2 ≤ w * an → (2 * rho = ((2 ^ sh * P : Nat) : Int) ∨
        2 * rho = - ((2 ^ sh * P : Nat) : Int)) →
      limb_value w (sub1_labels w an sh ap j).1 / 2 ^ sh % 2 = 0) ∧
    (Z → (sub1_labels w an sh ap j).2.2 = 0) := by
  have hV : limb_value w ap < 2 ^ (w * an) := by
    have := limb_value_lt w ap hwf; rwa [hl] at this
  have hT2 : 2 ^ (w * an) = 2 ^ (w * an - 1) * 2 := by
    rw [← pow_succ]; congr 1
    have := Nat.mul_pos hw han
    omega
  have hshn : sh ≤ w * an - 1 := by
    have : w ≤ w * an := Nat.le_mul_of_pos_right _ han
    omega
  have hu_le : 2 ^ sh ≤ 2 ^ (w * an - 1) := Nat.pow_le_pow_right (by norm_num) hshn
  have hupos : 0 < 2 ^ sh := Nat.two_pow_pos _
  have hqP : P ≤ 2 ^ sh * P := Nat.le_mul_of_pos_left _ hupos
  have hone : MPFR_LIMB_ONE <<< sh = 2 ^ sh := by
    unfold MPFR_LIMB_ONE; rw [Nat.shiftLeft_eq, Nat.one_mul]
  obtain ⟨s1, s2, s3, s4, s5, s6⟩ := hj
  have hsth := sub1_truncate_spec w hw
  have hnodd : ∀ v : Nat, ¬ (v % 2 = 1) → v % 2 = 0 := fun v h => by omega
  cases j with
  | truncate i =>
    have hs := s1 i rfl
    have hi0 : rho = 0 → i = 0 := fun h => by
      have := s2 h; injection this
    have hodd : N → (2 * rho = ((2 ^ sh * P : Nat) : Int) ∨
        2 * rho = - ((2 ^ sh * P : Nat) : Int)) → ¬ (limb_value w ap / 2 ^ sh % 2 = 1) := by
      intro hn ht ho
      rcases ht with ht | ht
      · have := (s3 hn ht).1 ho; cases this
      · have := (s4 hn ht).1 ho; cases this
    have hlab : sub1_labels w an sh ap (Jump.truncate i) = sub1_truncate w an ap i 0 := rfl
    rw [hlab]
    rcases hcase with ⟨c1, c2, c3⟩ | ⟨c1, c2, c3⟩
    · rw [(hsth ap an han hl hwf i 0).1 c1]
      refine ⟨hl, hwf, by simp, ?_, ?_, ?_, fun _ => rfl⟩
      · have : ((limb_value w ap * 2 ^ 0 * P : Nat) : Int) - X = - rho := by
          rw [pow_zero, Nat.mul_one]; omega
        simp only []
        rw [this]; exact hs
      · intro h; rw [hi0 h]
      · intro hn _ ht
        exact hnodd _ (hodd hn ht)
    · have hlt : limb_value w ap < 2 ^ (w * an - 1) := by
        rw [c1]; exact Nat.two_pow_pos _
      rw [(hsth ap an han hl hwf i 0).2 hlt]
      obtain ⟨g1, g2, g3⟩ := store_highbit w hw ap an han hl hwf
      rw [c1, Nat.zero_mod, Nat.zero_add] at g3
      refine ⟨g1, g2, le_refl _, ?_, ?_, ?_, ?_⟩
      · simp only []
        rw [g3]
        have : ((2 ^ (w * an - 1) * 2 ^ 1 * P : Nat) : Int) - X = - rho := by
          rw [pow_one, ← hT2]; omega
        rw [this]; exact hs
      · intro h; omega
      · intro _ hp _
        simp only []
        rw [g3]
        exact half_pow_div_mod _ _ hp
      · intro hz
        rcases s6 hz with ⟨h, _⟩ | ⟨i', _, h⟩
        · cases h
        · omega
  | sub_one_ulp =>
    have hlab : sub1_labels w an sh ap Jump.sub_one_ulp
        = ((mpn_sub_1 w ap an (2 ^ sh)).1, -1, 0) := by rw [← hone]; rfl
    rw [hlab]
    have hne : rho ≠ 0 := fun h => by have := s2 h; cases this
    rcases hcase with ⟨c1, c2, c3⟩ | ⟨c1, c2, c3⟩
    · obtain ⟨g1, g2, g3⟩ := sub_1_value w ap an (2 ^ sh) hl hwf (by omega)
      refine ⟨g1, g2, by simp, ?_, fun h => absurd h hne, ?_, fun _ => rfl⟩
      · simp only []
        rw [g3, pow_zero, Nat.mul_one, Nat.sub_mul, int_sign_neg_one]
        have hle : 2 ^ sh * P ≤ limb_value w ap * P := Nat.mul_le_mul_right _ (by omega)
        rw [int_sign_of_neg]
        omega
      · intro hn _ ht
        simp only []
        rw [g3]
        have hodd : limb_value w ap / 2 ^ sh % 2 = 1 := by
          by_contra ho
          rcases ht with ht | ht
          · have := (s3 hn ht).2 ho; cases this
          · have := (s4 hn ht).2 ho; cases this
        obtain ⟨v, hv⟩ : 2 ^ sh ∣ limb_value w ap := Nat.dvd_of_mod_eq_zero c2
        rw [hv, Nat.mul_div_cancel_left _ hupos] at hodd
        have hv1 : 1 ≤ v := by omega
        have : 2 ^ sh * v - 2 ^ sh = 2 ^ sh * (v - 1) := by
          rw [Nat.mul_sub, Nat.mul_one]
        rw [hv, this, Nat.mul_div_cancel_left _ hupos]
        omega
    · have hult : 2 ^ sh < 2 ^ (w * an) := by omega
      obtain ⟨g1, g2, g3⟩ := sub_1_value_zero w ap an (2 ^ sh) hl hwf c1 hupos hult
      refine ⟨g1, g2, by simp, ?_, fun h => absurd h hne, ?_, fun _ => rfl⟩
      · simp only []
        rw [g3, pow_zero, Nat.mul_one, Nat.sub_mul, int_sign_neg_one]
        have hle : 2 ^ sh * P ≤ 2 ^ (w * an) * P := Nat.mul_le_mul_right _ (by omega)
        rw [int_sign_of_neg]
        omega
      · intro hn _ ht
        exfalso
        have ho : ¬ (limb_value w ap / 2 ^ sh % 2 = 1) := by rw [c1]; simp
        rcases ht with ht | ht
        · have := (s3 hn ht).2 ho; cases this
        · have := (s4 hn ht).2 ho; cases this
  | add_one_ulp =>
    have hpos := s5 rfl
    have hne : rho ≠ 0 := by omega
    rcases hcase with ⟨c1, c2, c3⟩ | ⟨c1, c2, c3⟩
    swap
    · omega
    obtain ⟨g1, g2, g3, g4⟩ := add_1_value w ap an (2 ^ sh) hl hwf
    obtain ⟨v, hv⟩ : 2 ^ sh ∣ limb_value w ap := Nat.dvd_of_mod_eq_zero c2
    have hVu : limb_value w ap + 2 ^ sh ≤ 2 ^ (w * an) := by
      have hT : 2 ^ (w * an) = 2 ^ sh * 2 ^ (w * an - sh) := by
        rw [← pow_add]; congr 1; omega
      rw [hT, hv] at hV
      have hvv : v < 2 ^ (w * an - sh) := Nat.lt_of_mul_lt_mul_left hV
      have : 2 ^ sh * (v + 1) ≤ 2 ^ sh * 2 ^ (w * an - sh) := Nat.mul_le_mul_left _ hvv
      rw [hT, hv]
      rw [Nat.mul_add, Nat.mul_one] at this
      exact this
    have hZ : ¬ Z := by
      intro hz
      rcases s6 hz with ⟨h, _⟩ | ⟨i', h, _⟩
      · cases h
      · cases h
    have hodd : N → (2 * rho = ((2 ^ sh * P : Nat) : Int) ∨
        2 * rho = - ((2 ^ sh * P : Nat) : Int)) → limb_value w ap / 2 ^ sh % 2 = 1 := by
      intro hn ht
      by_contra ho
      rcases ht with ht | ht
      · have := (s3 hn ht).2 ho; cases this
      · have := (s4 hn ht).2 ho; cases this
    have hlab : sub1_labels w an sh ap Jump.add_one_ulp
        = (if (mpn_add_1 w ap an (2 ^ sh)).2 ≠ 0 then
            sub1_truncate w an (MPN_STORE (mpn_add_1 w ap an (2 ^ sh)).1 (an - 1)
              [MPFR_LIMB_HIGHBIT w]) 1 1
          else sub1_truncate w an (mpn_add_1 w ap an (2 ^ sh)).1 1 0) := by rw [← hone]; rfl
    rw [hlab]
    by_cases hc : (mpn_add_1 w ap an (2 ^ sh)).2 ≠ 0
    · rw [if_pos hc]
      have hTe : limb_value w ap + 2 ^ sh = 2 ^ (w * an) := by
        have := g4.mp hc; omega
      rw [hTe, Nat.mod_self] at g3
      obtain ⟨k1, k2, k3⟩ := store_highbit w hw _ an han g1 g2
      rw [g3, Nat.zero_mod, Nat.zero_add] at k3
      rw [(hsth _ an han k1 k2 1 1).1 (by rw [k3])]
      refine ⟨k1, k2, le_refl _, ?_, fun h => absurd h hne, ?_, fun hz => absurd hz hZ⟩
      · simp only []
        rw [k3, pow_one, ← hT2, ← hTe, Nat.add_mul, int_sign_one, int_sign_of_pos]
        omega
      · intro _ hp _
        simp only []
        rw [k3]
        exact half_pow_div_mod _ _ hp
    · rw [if_neg hc]
      have hlt : limb_value w ap + 2 ^ sh < 2 ^ (w * an) := by
        have := g4.not.mp hc; omega
      rw [Nat.mod_eq_of_lt hlt] at g3
      rw [(hsth _ an han g1 g2 1 0).1 (by rw [g3]; omega)]
      refine ⟨g1, g2, by simp, ?_, fun h => absurd h hne, ?_, fun _ => rfl⟩
      · simp only []
        rw [g3, pow_zero, Nat.mul_one, Nat.add_mul, int_sign_one, int_sign_of_pos]
        omega
      · intro hn _ ht
        simp only []
        rw [g3]
        have ho := hodd hn ht
        rw [hv, Nat.mul_div_cancel_left _ hupos] at ho
        have : 2 ^ sh * v + 2 ^ sh = 2 ^ sh * (v + 1) := by
          rw [Nat.mul_add, Nat.mul_one]
        rw [hv, this, Nat.mul_div_cancel_left _ hupos]
        omega

theorem small_multiple (q z rho : Int) (hq : 0 < q) (h : rho = q * z) (h1 : -q < rho)
    (h2 : rho < q) : rho = 0 := by
  have hz1 : z < 1 := by
    by_contra hc
    have : q * 1 ≤ q * z := Int.mul_le_mul_of_nonneg_left (by omega) (le_of_lt hq)
    omega
  have hz2 : -1 < z := by
    by_contra hc
    have : q * z ≤ q * (-1) := Int.mul_le_mul_of_nonneg_left (by omega) (le_of_lt hq)
    omega
  have : z = 0 := by omega
  rw [h, this]; simp

theorem half_multiple (q z h rho : Int) (hq : 0 < q) (hh : 2 * h = q) (hr : rho = q * z + h)
    (h1 : -q < rho) (h2 : rho < q) : 2 * rho = q ∨ 2 * rho = -q := by
  have hz1 : z < 1 := by
    by_contra hc
    have : q * 1 ≤ q * z := Int.mul_le_mul_of_nonneg_left (by omega) (le_of_lt hq)
    omega
  have hz2 : -2 < z := by
    by_contra hc
    have : q * z ≤ q * (-2) := Int.mul_le_mul_of_nonneg_left (by omega) (le_of_lt hq)
    omega
  rcases (show z = 0 ∨ z = -1 by omega) with hz | hz
  · left; rw [hr, hz]; omega
  · right; rw [hr, hz]; omega

/-- The state on arrival at the rounding stage, for operands in order. -/
theorem sub1_state (w : Nat) (hw : limb_width_ok w) (a b c : mpfr) (ha : 1 ≤ MPFR_PREC a)
    (hb : mpfr_regular w b) (hc : mpfr_regular w c)
    (hlt : mpfr_abs_in w c (common_unit w b c) < mpfr_abs_in w b (common_unit w b c))
    (cancel : Nat) (hcancel : cancel = (mpfr_cmp2 w b c).2) :
    -(((2 ^ (w * sub1_m w a b c cancel) : Nat) : Int))
      < (sub1_carry w a b c cancel : Int) * ((2 ^ (w * sub1_m w a b c cancel) : Nat) : Int)
        + ((sub1_LB w a b c cancel : Int) - sub1_LC w a b c cancel) ∧
    (sub1_carry w a b c cancel : Int) * ((2 ^ (w * sub1_m w a b c cancel) : Nat) : Int)
        + ((sub1_LB w a b c cancel : Int) - sub1_LC w a b c cancel)
      < ((2 ^ sub1_sh w a * 2 ^ (w * sub1_m w a b c cancel) : Nat) : Int) ∧
    ((2 ^ (w * MPFR_LIMB_SIZE w a - 1) ≤ limb_value w (sub1_masked w a b c cancel) ∧
      limb_value w (sub1_masked w a b c cancel) % 2 ^ sub1_sh w a = 0 ∧
      (sub1_X w a b c cancel : Int)
        = ((limb_value w (sub1_masked w a b c cancel) * 2 ^ (w * sub1_m w a b c cancel) : Nat) : Int)
          + ((sub1_carry w a b c cancel : Int) * ((2 ^ (w * sub1_m w a b c cancel) : Nat) : Int)
              + ((sub1_LB w a b c cancel : Int) - sub1_LC w a b c cancel))) ∨
     (limb_value w (sub1_masked w a b c cancel) = 0 ∧
      (sub1_X w a b c cancel : Int)
        = ((2 ^ (w * MPFR_LIMB_SIZE w a) * 2 ^ (w * sub1_m w a b c cancel) : Nat) : Int)
          + ((sub1_carry w a b c cancel : Int) * ((2 ^ (w * sub1_m w a b c cancel) : Nat) : Int)
              + ((sub1_LB w a b c cancel : Int) - sub1_LC w a b c cancel)) ∧
      (sub1_carry w a b c cancel : Int) * ((2 ^ (w * sub1_m w a b c cancel) : Nat) : Int)
        + ((sub1_LB w a b c cancel : Int) - sub1_LC w a b c cancel) < 0)) := by
  obtain ⟨hcarry, _, _, hval⟩ := sub1_masked_spec w hw a b c ha hb hc cancel
  obtain ⟨hW, hLB, hLC, hwin⟩ := sub1_window w hw a b c hb hc hlt cancel hcancel
  obtain ⟨hX0, _, hX1, _, _⟩ := sub1_X_range w hw a b c hb hc hlt cancel hcancel
  obtain ⟨hsh, hshp⟩ := sub1_sh_lt w hw.1 a ha
  have han := limb_size_pos w a
  have hXdef : (sub1_X w a b c cancel : Int)
      = (sub1_Bs w a b c cancel : Int) - sub1_Cs w a b c cancel := by
    unfold sub1_X; rw [Nat.cast_sub (le_of_lt hX0)]
  have hX1' : 2 ^ (w * (sub1_m w a b c cancel + MPFR_LIMB_SIZE w a) - 1)
      ≤ sub1_X w a b c cancel := hX1
  have hTP : 2 ^ (w * (sub1_m w a b c cancel + MPFR_LIMB_SIZE w a) - 1)
      = 2 ^ (w * MPFR_LIMB_SIZE w a - 1) * 2 ^ (w * sub1_m w a b c cancel) := by
    rw [← pow_add]; congr 1
    have := Nat.mul_pos hw.1 han
    rw [Nat.mul_add]; omega
  rw [hTP] at hX1'
  rw [← hXdef] at hwin
  have hupos : 0 < 2 ^ sub1_sh w a := Nat.two_pow_pos _
  have hcu : sub1_carry w a b c cancel < 2 ^ sub1_sh w a := by
    rw [hcarry]; exact Nat.mod_lt _ hupos
  have hdvd : 2 ^ sub1_sh w a ∣ 2 ^ (w * MPFR_LIMB_SIZE w a - 1) := by
    apply pow_dvd_pow
    have : w ≤ w * MPFR_LIMB_SIZE w a := Nat.le_mul_of_pos_right _ han
    omega
  have hWd := Nat.div_add_mod (limb_value w (sub1_high w a b c cancel)) (2 ^ sub1_sh w a)
  rw [← hcarry] at hWd
  generalize sub1_X w a b c cancel = X at hwin hX1' ⊢
  generalize sub1_LB w a b c cancel = LB at hLB hwin ⊢
  generalize sub1_LC w a b c cancel = LC at hLC hwin ⊢
  generalize limb_value w (sub1_masked w a b c cancel) = V at hval ⊢
  generalize sub1_carry w a b c cancel = carry at hcu hval hWd ⊢
  generalize limb_value w (sub1_high w a b c cancel) = W at hW hwin hval hWd
  generalize 2 ^ (w * sub1_m w a b c cancel) = P at hLB hLC hwin hX1' ⊢
  generalize 2 ^ (w * MPFR_LIMB_SIZE w a) = T at hW hwin ⊢
  generalize 2 ^ (w * MPFR_LIMB_SIZE w a - 1) = Th at hX1' hdvd ⊢
  generalize 2 ^ sub1_sh w a = u at hupos hcu hdvd hWd ⊢
  have hr : ∀ k : Nat, (k : Int) * (P : Int) = ((k * P : Nat) : Int) := by
    intro k; push_cast; ring
  rw [hr] at hwin ⊢
  have hc1 : (carry + 1) * P ≤ u * P := Nat.mul_le_mul_right _ (by omega)
  rw [Nat.add_mul, Nat.one_mul] at hc1
  have hVW : V + carry = W := by omega
  have hWP : W * P = V * P + carry * P := by rw [← hVW, Nat.add_mul]
  refine ⟨by omega, by omega, ?_⟩
  rcases hwin with h | ⟨h1, h2, h3⟩
  · left
    have hWge : Th ≤ W := by
      by_contra hcon
      have : (W + 1) * P ≤ Th * P := Nat.mul_le_mul_right _ (by omega)
      rw [Nat.add_mul, Nat.one_mul] at this
      omega
    have hVu : V = u * (W / u) := by omega
    refine ⟨?_, ?_, by omega⟩
    · obtain ⟨t, ht⟩ := hdvd
      rw [hVu, ht]
      apply Nat.mul_le_mul_left
      rw [Nat.le_div_iff_mul_le hupos, Nat.mul_comm]
      rw [ht] at hWge; exact hWge
    · rw [hVu]; exact Nat.mul_mod_right _ _
  · right
    have hc0 : carry = 0 := by omega
    have hV0 : V = 0 := by omega
    refine ⟨hV0, ?_, ?_⟩
    · rw [hc0] at hWP ⊢; simp only [Nat.zero_mul]; push_cast; omega
    · rw [hc0]; simp only [Nat.zero_mul]; push_cast; omega

/-- Lines 300-493 for operands in order: the rounded window against the exact difference
`sub1_X`, in units of the lowest limb examined (`P` is the weight of the window's unit limb,
`sub1_quantum` one unit in the last place of the destination). -/
theorem sub1_rounded_ok (w : Nat) (hw : limb_width_ok w) (a b c : mpfr) (ha : 1 ≤ MPFR_PREC a)
    (hb : mpfr_regular w b) (hc : mpfr_regular w c)
    (hlt : mpfr_abs_in w c (common_unit w b c) < mpfr_abs_in w b (common_unit w b c))
    (cancel : Nat) (hcancel : cancel = (mpfr_cmp2 w b c).2) (rnd0 : mp_rnd_t) :
    (sub1_rounded w a b c cancel rnd0).1.length = MPFR_LIMB_SIZE w a ∧
    (∀ x ∈ (sub1_rounded w a b c cancel rnd0).1, x < 2 ^ w) ∧
    (sub1_rounded w a b c cancel rnd0).2.2 ≤ 1 ∧
    int_sign (sub1_rounded w a b c cancel rnd0).2.1 =
      int_sign (((limb_value w (sub1_rounded w a b c cancel rnd0).1
        * 2 ^ (sub1_rounded w a b c cancel rnd0).2.2 * 2 ^ (w * sub1_m w a b c cancel) : Nat) : Int)
          - sub1_X w a b c cancel) ∧
    (sub1_X w a b c cancel % sub1_quantum w a b c cancel = 0 →
      (sub1_rounded w a b c cancel rnd0).2.1 = 0 ∧ (sub1_rounded w a b c cancel rnd0).2.2 = 0 ∧
      limb_value w (sub1_rounded w a b c cancel rnd0).1 * 2 ^ (w * sub1_m w a b c cancel)
        = sub1_X w a b c cancel ∧
      2 ^ (w * MPFR_LIMB_SIZE w a - 1) ≤ limb_value w (sub1_rounded w a b c cancel rnd0).1) ∧
    (rnd0 = GMP_RNDN → 2 ≤ MPFR_PREC a →
      2 * (sub1_X w a b c cancel % sub1_quantum w a b c cancel) = sub1_quantum w a b c cancel →
      limb_value w (sub1_rounded w a b c cancel rnd0).1 / 2 ^ sub1_sh w a % 2 = 0) ∧
    (sub1_rnd_mode a rnd0 = GMP_RNDZ → (sub1_rounded w a b c cancel rnd0).2.2 = 0) := by
  obtain ⟨_, hml, hmwf, _⟩ := sub1_masked_spec w hw a b c ha hb hc cancel
  obtain ⟨h1, h2, hcase⟩ := sub1_state w hw a b c ha hb hc hlt cancel hcancel
  obtain ⟨hsh, hshp⟩ := sub1_sh_lt w hw.1 a ha
  have han := limb_size_pos w a
  have hj := sub1_jump_ok w hw a b c ha hb hc cancel rnd0
  have hPpos : 0 < 2 ^ (w * sub1_m w a b c cancel) := Nat.two_pow_pos _
  obtain ⟨g1, g2, g3, g4, g5, g6, g7⟩ := labels_ok w (MPFR_LIMB_SIZE w a) (sub1_sh w a) hw.1 han
    hsh (sub1_masked w a b c cancel) hml hmwf (2 ^ (w * sub1_m w a b c cancel))
    (sub1_X w a b c cancel) hPpos _ (sub1_jump w a b c cancel rnd0) _ _ h1 h2 hcase hj
  have hupos : 0 < 2 ^ sub1_sh w a := Nat.two_pow_pos _
  have hqP : 2 ^ (w * sub1_m w a b c cancel)
      ≤ 2 ^ sub1_sh w a * 2 ^ (w * sub1_m w a b c cancel) := Nat.le_mul_of_pos_left _ hupos
  have hqpos : 0 < 2 ^ sub1_sh w a * 2 ^ (w * sub1_m w a b c cancel) := Nat.mul_pos hupos hPpos
  -- the exact difference is `rho` modulo one unit in the last place
  have hmod : ∃ t : Nat, (sub1_X w a b c cancel : Int)
      = ((2 ^ sub1_sh w a * 2 ^ (w * sub1_m w a b c cancel) : Nat) : Int) * t
        + ((sub1_carry w a b c cancel : Int) * ((2 ^ (w * sub1_m w a b c cancel) : Nat) : Int)
          + ((sub1_LB w a b c cancel : Int) - sub1_LC w a b c cancel)) := by
    rcases hcase with ⟨_, c2, c3⟩ | ⟨_, c3, _⟩
    · obtain ⟨v, hv⟩ : 2 ^ sub1_sh w a ∣ limb_value w (sub1_masked w a b c cancel) :=
        Nat.dvd_of_mod_eq_zero c2
      refine ⟨v, ?_⟩
      rw [c3, hv]; push_cast; ring
    · refine ⟨2 ^ (w * MPFR_LIMB_SIZE w a - sub1_sh w a), ?_⟩
      have hT : 2 ^ (w * MPFR_LIMB_SIZE w a)
          = 2 ^ sub1_sh w a * 2 ^ (w * MPFR_LIMB_SIZE w a - sub1_sh w a) := by
        rw [← pow_add]; congr 1; omega
      rw [c3, hT]; push_cast; ring
  obtain ⟨t, ht⟩ := hmod
  unfold sub1_rounded sub1_quantum
  refine ⟨g1, g2, g3, g4, ?_, ?_, g7⟩
  · intro hx
    have hrho : (sub1_carry w a b c cancel : Int) * ((2 ^ (w * sub1_m w a b c cancel) : Nat) : Int)
          + ((sub1_LB w a b c cancel : Int) - sub1_LC w a b c cancel) = 0 := by
      obtain ⟨x', hx'⟩ := Nat.dvd_of_mod_eq_zero hx
      apply small_multiple _ ((x' : Int) - t) _ (by exact_mod_cast hqpos) ?_ (by omega) h2
      rw [hx'] at ht
      push_cast at ht ⊢
      linarith
    have hr := g5 hrho
    rw [hr]
    rcases hcase with ⟨c1, _, c3⟩ | ⟨_, _, c3⟩
    · refine ⟨rfl, rfl, ?_, c1⟩
      rw [hrho] at c3
      simp only []
      exact_mod_cast (by omega : ((limb_value w (sub1_masked w a b c cancel)
        * 2 ^ (w * sub1_m w a b c cancel) : Nat) : Int) = (sub1_X w a b c cancel : Int))
    · omega
  · intro hn hp htie
    apply g6 hn (by omega)
    have hd := Nat.div_add_mod (sub1_X w a b c cancel)
      (2 ^ sub1_sh w a * 2 ^ (w * sub1_m w a b c cancel))
    generalize sub1_X w a b c cancel % (2 ^ sub1_sh w a * 2 ^ (w * sub1_m w a b c cancel)) = h
      at htie hd
    generalize sub1_X w a b c cancel / (2 ^ sub1_sh w a * 2 ^ (w * sub1_m w a b c cancel)) = x'
      at hd
    apply half_multiple _ ((x' : Int) - t) (h : Int) _ (by exact_mod_cast hqpos)
      (by exact_mod_cast htie) ?_ (by omega) h2
    rw [← hd] at ht
    push_cast at ht ⊢
    linarith

/-! ## Representable differences and ties, in units of the loop -/

/-- A difference `D` of `L` bits that is representable on `pa` bits, scaled by `2 ^ k` so that
it has `wm + sh + pa` bits, is a multiple of the unit `2 ^ sh * 2 ^ wm`, and the window that
holds it has the significand `D * 2 ^ (pa - L) / 2 ^ (L - pa)` above its `sh` unused bits. -/
theorem rep_arith (D L pa sh wm k : Nat) (h1 : L + k = wm + sh + pa)
    (hrep : D % 2 ^ (L - pa) = 0) :
    (D * 2 ^ k) % (2 ^ sh * 2 ^ wm) = 0 ∧
    ∀ V : Nat, V * 2 ^ wm = D * 2 ^ k → V / 2 ^ sh = D * 2 ^ (pa - L) / 2 ^ (L - pa) := by
  have hwm : 0 < 2 ^ wm := Nat.two_pow_pos _
  have hsh : 0 < 2 ^ sh := Nat.two_pow_pos _
  by_cases hc : L ≤ pa
  · have hk : k = (pa - L) + (sh + wm) := by omega
    have e0 : L - pa = 0 := by omega
    constructor
    · rw [hk, pow_add, pow_add, ← Nat.mul_assoc]
      exact Nat.mul_mod_left _ _
    · intro V hV
      rw [e0, pow_zero, Nat.div_one]
      rw [hk, pow_add, pow_add, ← Nat.mul_assoc, ← Nat.mul_assoc] at hV
      have := Nat.eq_of_mul_eq_mul_right hwm hV
      rw [this, Nat.mul_div_cancel _ hsh]
  · obtain ⟨d, hd⟩ := Nat.dvd_of_mod_eq_zero hrep
    have hk : (L - pa) + k = sh + wm := by omega
    have e0 : pa - L = 0 := by omega
    have hX : D * 2 ^ k = d * (2 ^ sh * 2 ^ wm) := by
      rw [hd, ← pow_add, ← hk, pow_add]; ring
    constructor
    · rw [hX]; exact Nat.mul_mod_left _ _
    · intro V hV
      rw [hX, ← Nat.mul_assoc] at hV
      have := Nat.eq_of_mul_eq_mul_right hwm hV
      rw [this, Nat.mul_div_cancel _ hsh, e0, pow_zero, Nat.mul_one, hd,
        Nat.mul_div_cancel_left _ (Nat.two_pow_pos _)]

/-- A difference `D` of `L` bits that lies halfway between two numbers of `pa` bits, scaled
by `2 ^ k`, lies halfway between two multiples of the unit `2 ^ sh * 2 ^ wm`. -/
theorem tie_arith (D L pa sh wm k : Nat) (h1 : L + k = wm + sh + pa)
    (htie : 2 * (D % 2 ^ (L - pa)) = 2 ^ (L - pa)) :
    2 * ((D * 2 ^ k) % (2 ^ sh * 2 ^ wm)) = 2 ^ sh * 2 ^ wm := by
  have hc : pa < L := by
    by_contra hc
    have e0 : L - pa = 0 := by omega
    rw [e0] at htie
    simp at htie
  have hk : (L - pa) + k = sh + wm := by omega
  have hq : 2 ^ sh * 2 ^ wm = 2 ^ (L - pa) * 2 ^ k := by
    rw [← pow_add, ← pow_add, hk]
  rw [hq, Nat.mul_mod_mul_right, ← Nat.mul_assoc, htie]

/-- The exact difference in units of the loop is the exact difference over the common unit of
the operands, scaled by a power of two that gives it `w * m + sh + PREC (a)` bits. -/
theorem sub1_X_units (w : Nat) (hw : limb_width_ok w) (a b c : mpfr) (ha : 1 ≤ MPFR_PREC a)
    (hb : mpfr_regular w b) (hc : mpfr_regular w c)
    (hlt : mpfr_abs_in w c (common_unit w b c) < mpfr_abs_in w b (common_unit w b c))
    (cancel : Nat) (hcancel : cancel = (mpfr_cmp2 w b c).2) :
    ∃ k : Nat, sub1_X w a b c cancel = exact_abs_diff w b c * 2 ^ k ∧
      nbits (exact_bits_bound w b c) (exact_abs_diff w b c) + k
        = w * sub1_m w a b c cancel + sub1_sh w a + MPFR_PREC a ∧
      (k : Int) = common_unit w b c - sub1_unit w a b c cancel := by
  obtain ⟨_, hX, _, _, hLk⟩ := sub1_X_range w hw a b c hb hc hlt cancel hcancel
  obtain ⟨_, hshp⟩ := sub1_sh_lt w hw.1 a ha
  have hU := sub1_unit_le w hw a b c hb hc cancel
  refine ⟨(common_unit w b c - sub1_unit w a b c cancel).toNat, hX, ?_, by omega⟩
  rw [Nat.mul_add] at hLk
  push_cast at hLk
  have : ((w * MPFR_LIMB_SIZE w a : Nat) : Int) = (sub1_sh w a : Int) + MPFR_PREC a := by
    rw [← hshp]; push_cast; ring
  push_cast at this
  omega

theorem sub1_general_eq (env : Env) (a b c : mpfr) (cancel : Nat) (rnd0 : mp_rnd_t) :
    sub1_general env a b c cancel rnd0 =
      sub1_end_of_sub env a b cancel (sub1_rnd_mode a rnd0)
        (sub1_rounded env.BITS_PER_MP_LIMB a b c cancel rnd0).1
        (sub1_rounded env.BITS_PER_MP_LIMB a b c cancel rnd0).2.1
        (sub1_rounded env.BITS_PER_MP_LIMB a b c cancel rnd0).2.2 := rfl

/-- Claim C8 on the general path, for operands in order. -/
theorem sub1_general_exact (env : Env) (a b c : mpfr) (rnd0 : mp_rnd_t)
    (hw : limb_width_ok env.BITS_PER_MP_LIMB) (ha : 1 ≤ MPFR_PREC a)
    (hb : mpfr_regular env.BITS_PER_MP_LIMB b) (hc : mpfr_regular env.BITS_PER_MP_LIMB c)
    (hlt : mpfr_abs_in env.BITS_PER_MP_LIMB c (common_unit env.BITS_PER_MP_LIMB b c)
      < mpfr_abs_in env.BITS_PER_MP_LIMB b (common_unit env.BITS_PER_MP_LIMB b c))
    (cancel : Nat) (hcancel : cancel = (mpfr_cmp2 env.BITS_PER_MP_LIMB b c).2)
    (hrep : exact_abs_diff env.BITS_PER_MP_LIMB b c
      % 2 ^ (nbits (exact_bits_bound env.BITS_PER_MP_LIMB b c)
          (exact_abs_diff env.BITS_PER_MP_LIMB b c) - MPFR_PREC a) = 0)
    (hmin : env.__gmpfr_emin ≤ exact_exp env.BITS_PER_MP_LIMB b c) :
    spec_value_of env.BITS_PER_MP_LIMB (sub1_general env a b c cancel rnd0).1
      = spec_value.regular (MPFR_SIGN a) (exact_exp env.BITS_PER_MP_LIMB b c)
          (exact_abs_diff env.BITS_PER_MP_LIMB b c
            * 2 ^ (MPFR_PREC a - nbits (exact_bits_bound env.BITS_PER_MP_LIMB b c)
                (exact_abs_diff env.BITS_PER_MP_LIMB b c))
            / 2 ^ (nbits (exact_bits_bound env.BITS_PER_MP_LIMB b c)
                (exact_abs_diff env.BITS_PER_MP_LIMB b c) - MPFR_PREC a)) ∧
    (sub1_general env a b c cancel rnd0).2 = 0 := by
  obtain ⟨k, hX, hk, _⟩ := sub1_X_units _ hw a b c ha hb hc hlt cancel hcancel
  obtain ⟨r1, r2⟩ := rep_arith _ _ _ (sub1_sh env.BITS_PER_MP_LIMB a)
    (env.BITS_PER_MP_LIMB * sub1_m env.BITS_PER_MP_LIMB a b c cancel) k (by omega) hrep
  obtain ⟨_, _, _, _, g5, _, _⟩ := sub1_rounded_ok _ hw a b c ha hb hc hlt cancel hcancel rnd0
  obtain ⟨e1, e2, e3, _⟩ := g5 (by unfold sub1_quantum; rw [hX]; exact r1)
  rw [hX] at e3
  have hM := r2 _ e3
  obtain ⟨_, hcv, _⟩ := cmp2_cancel _ b c hb hlt
  rw [← hcancel] at hcv
  rw [sub1_general_eq, e1, e2]
  unfold sub1_end_of_sub
  simp only []
  by_cases hc0 : cancel ≠ 0
  · rw [if_pos hc0]
    have hexp : MPFR_GET_EXP b - ((cancel - 0 : Nat) : Int) = exact_exp env.BITS_PER_MP_LIMB b c := by
      rw [Nat.sub_zero]; omega
    rw [hexp, if_neg (by omega)]
    refine ⟨?_, by simp⟩
    rw [← hM]; rfl
  · rw [if_neg hc0]
    have hexp : MPFR_GET_EXP b + ((0 : Nat) : Int) = exact_exp env.BITS_PER_MP_LIMB b c := by
      push_cast; omega
    rw [if_neg (by simp), hexp]
    refine ⟨?_, by simp⟩
    rw [← hM]; rfl

/-! ## The fast path: `c` lies entirely below the last bit of the destination -/

theorem abs_in_ge (w : Nat) (hw : 0 < w) (x : mpfr) (hx : mpfr_regular w x) (g : Int)
    (hg : g ≤ MPFR_UNIT_EXP w x) :
    2 ^ ((MPFR_GET_EXP x - g).toNat - 1) ≤ mpfr_abs_in w x g := by
  have h1 := regular_ge w hw x hx
  have hn := limb_size_pos w x
  have hwn := Nat.mul_pos hw hn
  unfold mpfr_abs_in
  have e : (MPFR_GET_EXP x - g).toNat - 1
      = (w * MPFR_LIMB_SIZE w x - 1) + (MPFR_UNIT_EXP w x - g).toNat := by
    unfold MPFR_UNIT_EXP at hg ⊢
    have : MPFR_LIMB_SIZE w x * w = w * MPFR_LIMB_SIZE w x := Nat.mul_comm _ _
    rw [this] at hg ⊢
    omega
  rw [e, pow_add]
  exact Nat.mul_le_mul_right _ h1

theorem abs_in_dvd (w : Nat) (hw : 0 < w) (x : mpfr) (hx : mpfr_regular w x) (g : Int)
    (hg : g ≤ MPFR_UNIT_EXP w x) :
    2 ^ ((MPFR_GET_EXP x - g).toNat - MPFR_PREC x) ∣ mpfr_abs_in w x g := by
  have h1 := regular_low_bits w hw x hx
  have h2 := prec_le_limbs w hw x
  obtain ⟨m, hm⟩ := Nat.dvd_of_mod_eq_zero h1
  unfold mpfr_abs_in
  rw [hm]
  have e : (MPFR_GET_EXP x - g).toNat - MPFR_PREC x
      = (MPFR_LIMB_SIZE w x * w - MPFR_PREC x) + (MPFR_UNIT_EXP w x - g).toNat := by
    unfold MPFR_UNIT_EXP at hg ⊢
    omega
  rw [e, pow_add]
  exact ⟨m, by ring⟩

/-- On the fast path the exact difference has more than `PREC (a) + 1` bits and its bits
below the rounding bit of the destination are not all zero: it is neither representable at
the precision of the destination nor halfway between two representable numbers. -/
theorem fast_not_rep (w : Nat) (hw : limb_width_ok w) (pa : Nat) (b c : mpfr)
    (hb : mpfr_regular w b) (hc : mpfr_regular w c)
    (hlt : mpfr_abs_in w c (common_unit w b c) < mpfr_abs_in w b (common_unit w b c))
    (hfast : MPFR_GET_EXP c ≤ MPFR_GET_EXP b - ((max pa (MPFR_PREC b) : Nat) : Int) - 2) :
    pa + 1 < nbits (exact_bits_bound w b c) (exact_abs_diff w b c) ∧
    exact_abs_diff w b c
      % 2 ^ (nbits (exact_bits_bound w b c) (exact_abs_diff w b c) - pa - 1) ≠ 0 := by
  obtain ⟨_, _, hL1, hDge, hDlt, hD⟩ := cmp2_cancel w b c hb hlt
  have hgb : common_unit w b c ≤ MPFR_UNIT_EXP w b := by unfold common_unit; exact min_le_left _ _
  have hgc : common_unit w b c ≤ MPFR_UNIT_EXP w c := by unfold common_unit; exact min_le_right _ _
  have hBlt := abs_in_lt w b hb _ hgb
  have hBge := abs_in_ge w hw.1 b hb _ hgb
  have hBdvd := abs_in_dvd w hw.1 b hb _ hgb
  have hClt := abs_in_lt w c hc _ hgc
  have hCpos := abs_in_pos w hw.1 c hc (common_unit w b c)
  have hub : MPFR_UNIT_EXP w b ≤ MPFR_GET_EXP b := by unfold MPFR_UNIT_EXP; omega
  have huc : MPFR_UNIT_EXP w c ≤ MPFR_GET_EXP c := by unfold MPFR_UNIT_EXP; omega
  obtain ⟨E, hE⟩ : ∃ E : Nat, (MPFR_GET_EXP b - common_unit w b c).toNat = E := ⟨_, rfl⟩
  obtain ⟨F, hF⟩ : ∃ F : Nat, (MPFR_GET_EXP c - common_unit w b c).toNat = F := ⟨_, rfl⟩
  rw [hE] at hBlt hBge hBdvd
  rw [hF] at hClt
  have hF1 : 1 ≤ F := by
    by_contra h
    have : F = 0 := by omega
    rw [this] at hClt; simp at hClt; omega
  have hpb : 1 ≤ MPFR_PREC b := hb.2.2.1
  have hmax1 := le_max_left pa (MPFR_PREC b)
  have hmax2 := le_max_right pa (MPFR_PREC b)
  have hFE1 : F + pa + 2 ≤ E := by omega
  have hFE2 : F + MPFR_PREC b + 2 ≤ E := by omega
  generalize nbits (exact_bits_bound w b c) (exact_abs_diff w b c) = L at hL1 hDge hDlt ⊢
  rw [hD] at hDlt hDge ⊢
  generalize mpfr_abs_in w b (common_unit w b c) = B0 at hlt hBlt hBge hBdvd hDlt hDge ⊢
  generalize mpfr_abs_in w c (common_unit w b c) = C0 at hlt hClt hCpos hDlt hDge ⊢
  -- the difference is at least `2 ^ (E - 2)`
  obtain ⟨E3, hE3⟩ : ∃ E3 : Nat, E = E3 + 3 := ⟨E - 3, by omega⟩
  subst hE3
  have hp1 : 2 ^ (E3 + 3 - 1) = 2 ^ E3 * 4 := by
    rw [show E3 + 3 - 1 = E3 + 2 by omega, pow_add]; norm_num
  have hp2 : 2 ^ (E3 + 1) = 2 ^ E3 * 2 := by
    rw [pow_add]; ring
  have hp3 : 2 ^ F ≤ 2 ^ E3 := Nat.pow_le_pow_right (by norm_num) (by omega)
  have hpos3 : 0 < 2 ^ E3 := Nat.two_pow_pos _
  have hDbig : 2 ^ (E3 + 1) < B0 - C0 := by omega
  have hLE : E3 + 1 < L := by
    have : 2 ^ (E3 + 1) < 2 ^ L := Nat.lt_trans hDbig hDlt
    exact (Nat.pow_lt_pow_iff_right (by norm_num : 1 < 2)).mp this
  refine ⟨by omega, ?_⟩
  intro h0
  have hd1 : 2 ^ F ∣ B0 - C0 :=
    Nat.dvd_trans (pow_dvd_pow 2 (by omega)) (Nat.dvd_of_mod_eq_zero h0)
  have hd2 : 2 ^ F ∣ B0 := Nat.dvd_trans (pow_dvd_pow 2 (by omega)) hBdvd
  have hd3 : 2 ^ F ∣ C0 := by
    have := (Nat.dvd_sub' hd2 hd1)
    rwa [show B0 - (B0 - C0) = C0 by omega] at this
  have := Nat.le_of_dvd hCpos hd3
  omega

/-! ## Symmetry of the exact difference -/

theorem common_unit_comm (w : Nat) (b c : mpfr) : common_unit w c b = common_unit w b c := by
  unfold common_unit; exact min_comm _ _

theorem exact_abs_diff_comm (w : Nat) (b c : mpfr) :
    exact_abs_diff w c b = exact_abs_diff w b c := by
  unfold exact_abs_diff
  rw [common_unit_comm]
  split <;> split <;> omega

theorem exact_bits_bound_comm (w : Nat) (b c : mpfr) :
    exact_bits_bound w c b = exact_bits_bound w b c := by
  unfold exact_bits_bound
  rw [common_unit_comm, max_comm]

theorem exact_exp_comm (w : Nat) (b c : mpfr) : exact_exp w c b = exact_exp w b c := by
  unfold exact_exp
  rw [common_unit_comm, exact_bits_bound_comm, exact_abs_diff_comm]

/-- Lines 59-81: with `|b| > |c|` the code continues with the operands as given and the sign
of `b`. -/
theorem mpfr_sub1_gt (env : Env) (a b c : mpfr) (rnd : mp_rnd_t)
    (hb : mpfr_regular env.BITS_PER_MP_LIMB b)
    (hlt : mpfr_abs_in env.BITS_PER_MP_LIMB c (common_unit env.BITS_PER_MP_LIMB b c)
      < mpfr_abs_in env.BITS_PER_MP_LIMB b (common_unit env.BITS_PER_MP_LIMB b c)) :
    mpfr_sub1 env a b c rnd
      = sub1_ordered env { a with _mpfr_sign := MPFR_SIGN b } b c
          (mpfr_cmp2 env.BITS_PER_MP_LIMB b c).2 rnd := by
  have h := (cmp2_cancel _ b c hb hlt).1
  unfold mpfr_sub1
  simp only []
  rw [h]
  simp

/-- Lines 59-79: with `|b| < |c|` the code exchanges the operands and takes the sign opposite
to the sign of `b`. -/
theorem mpfr_sub1_lt (env : Env) (a b c : mpfr) (rnd : mp_rnd_t)
    (hlt : mpfr_abs_in env.BITS_PER_MP_LIMB b (common_unit env.BITS_PER_MP_LIMB b c)
      < mpfr_abs_in env.BITS_PER_MP_LIMB c (common_unit env.BITS_PER_MP_LIMB b c)) :
    mpfr_sub1 env a b c rnd
      = sub1_ordered env { a with _mpfr_sign := - MPFR_SIGN b } c b
          (mpfr_cmp2 env.BITS_PER_MP_LIMB c b).2 rnd := by
  have h := mpfr_cmp2_sign_neg _ b c hlt
  have h2 := mpfr_cmp2_swap env.BITS_PER_MP_LIMB b c
  unfold mpfr_sub1
  simp only []
  rw [h2, h]
  simp

/-- Claim C8 for operands in order. -/
theorem sub1_ordered_exact (env : Env) (a b c : mpfr) (rnd0 : mp_rnd_t)
    (hw : limb_width_ok env.BITS_PER_MP_LIMB) (ha : 1 ≤ MPFR_PREC a)
    (hb : mpfr_regular env.BITS_PER_MP_LIMB b) (hc : mpfr_regular env.BITS_PER_MP_LIMB c)
    (hlt : mpfr_abs_in env.BITS_PER_MP_LIMB c (common_unit env.BITS_PER_MP_LIMB b c)
      < mpfr_abs_in env.BITS_PER_MP_LIMB b (common_unit env.BITS_PER_MP_LIMB b c))
    (hrep : exact_abs_diff env.BITS_PER_MP_LIMB b c
      % 2 ^ (nbits (exact_bits_bound env.BITS_PER_MP_LIMB b c)
          (exact_abs_diff env.BITS_PER_MP_LIMB b c) - MPFR_PREC a) = 0)
    (hmin : env.__gmpfr_emin ≤ exact_exp env.BITS_PER_MP_LIMB b c) :
    spec_value_of env.BITS_PER_MP_LIMB
        (sub1_ordered env a b c (mpfr_cmp2 env.BITS_PER_MP_LIMB b c).2 rnd0).1
      = spec_value.regular (MPFR_SIGN a) (exact_exp env.BITS_PER_MP_LIMB b c)
          (exact_abs_diff env.BITS_PER_MP_LIMB b c
            * 2 ^ (MPFR_PREC a - nbits (exact_bits_bound env.BITS_PER_MP_LIMB b c)
                (exact_abs_diff env.BITS_PER_MP_LIMB b c))
            / 2 ^ (nbits (exact_bits_bound env.BITS_PER_MP_LIMB b c)
                (exact_abs_diff env.BITS_PER_MP_LIMB b c) - MPFR_PREC a)) ∧
    (sub1_ordered env a b c (mpfr_cmp2 env.BITS_PER_MP_LIMB b c).2 rnd0).2 = 0 := by
  unfold sub1_ordered
  by_cases hf : MPFR_GET_EXP c ≤ MPFR_GET_EXP b - ((max (MPFR_PREC a) (MPFR_PREC b) : Nat) : Int) - 2
  · exfalso
    obtain ⟨f1, f2⟩ := fast_not_rep _ hw (MPFR_PREC a) b c hb hc hlt hf
    apply f2
    obtain ⟨d, hd⟩ := Nat.dvd_of_mod_eq_zero hrep
    apply Nat.mod_eq_zero_of_dvd
    refine Nat.dvd_trans (pow_dvd_pow 2 ?_) ⟨d, hd⟩
    omega
  · rw [if_neg hf]
    exact sub1_general_exact env a b c rnd0 hw ha hb hc hlt _ rfl hrep hmin

/-! ## Ties under round-to-nearest -/

/-- Bit `sh` of the lowest limb of the minimal significand is zero when the precision is at
least 2. -/
theorem setmin_bit (w : Nat) (hw : 0 < w) (an sh : Nat) (han : 0 < an) (hsh : sh < w)
    (hp : sh + 2 ≤ w * an) :
    ((MPN_ZERO (an - 1) ++ [MPFR_LIMB_HIGHBIT w]).getD 0 0 >>> sh) &&& 1 = 0 := by
  have hwf : ∀ x ∈ MPN_ZERO (an - 1) ++ [MPFR_LIMB_HIGHBIT w], x < 2 ^ w := by
    apply wf_append w _ _ (wf_zero w _)
    intro x hx
    simp only [List.mem_singleton] at hx
    rw [hx, highbit_eq]
    exact Nat.pow_lt_pow_right (by norm_num) (by omega)
  rw [bit_sh_eq w _ _ hsh hwf, limb_value_append]
  unfold MPN_ZERO
  rw [limb_value_replicate_zero, List.length_replicate]
  simp only [limb_value, Nat.mul_zero, Nat.add_zero, Nat.zero_add]
  rw [highbit_eq, ← pow_add]
  have e : w * (an - 1) + (w - 1) = w * an - 1 := by
    have := mul_pred_add w an han
    omega
  rw [e]
  exact half_pow_div_mod _ _ hp

theorem like_rndz_N (neg : Bool) : MPFR_IS_LIKE_RNDZ GMP_RNDN neg = false := by
  cases neg <;> rfl

/-- Claim C7 on the general path, for operands in order. -/
theorem sub1_general_tie (env : Env) (a b c : mpfr)
    (hw : limb_width_ok env.BITS_PER_MP_LIMB) (ha : 2 ≤ MPFR_PREC a)
    (hb : mpfr_regular env.BITS_PER_MP_LIMB b) (hc : mpfr_regular env.BITS_PER_MP_LIMB c)
    (hlt : mpfr_abs_in env.BITS_PER_MP_LIMB c (common_unit env.BITS_PER_MP_LIMB b c)
      < mpfr_abs_in env.BITS_PER_MP_LIMB b (common_unit env.BITS_PER_MP_LIMB b c))
    (cancel : Nat) (hcancel : cancel = (mpfr_cmp2 env.BITS_PER_MP_LIMB b c).2)
    (htie : 2 * (exact_abs_diff env.BITS_PER_MP_LIMB b c
      % 2 ^ (nbits (exact_bits_bound env.BITS_PER_MP_LIMB b c)
          (exact_abs_diff env.BITS_PER_MP_LIMB b c) - MPFR_PREC a))
      = 2 ^ (nbits (exact_bits_bound env.BITS_PER_MP_LIMB b c)
          (exact_abs_diff env.BITS_PER_MP_LIMB b c) - MPFR_PREC a)) :
    ((sub1_general env a b c cancel GMP_RNDN).1._mpfr_d.getD 0 0
      >>> sub1_sh env.BITS_PER_MP_LIMB a) &&& 1 = 0 := by
  have ha1 : 1 ≤ MPFR_PREC a := by omega
  obtain ⟨k, hX, hk, _⟩ := sub1_X_units _ hw a b c ha1 hb hc hlt cancel hcancel
  have ht := tie_arith _ _ _ (sub1_sh env.BITS_PER_MP_LIMB a)
    (env.BITS_PER_MP_LIMB * sub1_m env.BITS_PER_MP_LIMB a b c cancel) k (by omega) htie
  obtain ⟨_, gwf, _, _, _, g6, _⟩ := sub1_rounded_ok _ hw a b c ha1 hb hc hlt cancel hcancel GMP_RNDN
  obtain ⟨hsh, hshp⟩ := sub1_sh_lt _ hw.1 a ha1
  have hbit := g6 rfl ha (by unfold sub1_quantum; rw [hX]; exact ht)
  rw [← bit_sh_eq _ _ _ hsh gwf] at hbit
  have hmin := setmin_bit _ hw.1 (MPFR_LIMB_SIZE env.BITS_PER_MP_LIMB a)
    (sub1_sh env.BITS_PER_MP_LIMB a) (limb_size_pos _ a) hsh (by omega)
  have hN : sub1_rnd_mode a GMP_RNDN = GMP_RNDN := (sub1_rnd_mode_N a GMP_RNDN).mpr rfl
  rw [sub1_general_eq, hN]
  generalize sub1_rounded env.BITS_PER_MP_LIMB a b c cancel GMP_RNDN = r at hbit
  unfold sub1_end_of_sub
  simp only []
  by_cases hc0 : cancel ≠ 0
  · rw [if_pos hc0]
    split
    · unfold mpfr_underflow
      split
      · exact hbit
      · exact hmin
    · exact hbit
  · rw [if_neg hc0]
    split
    · unfold mpfr_overflow
      rw [like_rndz_N]
      exact hbit
    · exact hbit

/-- Claim C7 for operands in order. -/
theorem sub1_ordered_tie (env : Env) (a b c : mpfr)
    (hw : limb_width_ok env.BITS_PER_MP_LIMB) (ha : 2 ≤ MPFR_PREC a)
    (hb : mpfr_regular env.BITS_PER_MP_LIMB b) (hc : mpfr_regular env.BITS_PER_MP_LIMB c)
    (hlt : mpfr_abs_in env.BITS_PER_MP_LIMB c (common_unit env.BITS_PER_MP_LIMB b c)
      < mpfr_abs_in env.BITS_PER_MP_LIMB b (common_unit env.BITS_PER_MP_LIMB b c))
    (htie : 2 * (exact_abs_diff env.BITS_PER_MP_LIMB b c
      % 2 ^ (nbits (exact_bits_bound env.BITS_PER_MP_LIMB b c)
          (exact_abs_diff env.BITS_PER_MP_LIMB b c) - MPFR_PREC a))
      = 2 ^ (nbits (exact_bits_bound env.BITS_PER_MP_LIMB b c)
          (exact_abs_diff env.BITS_PER_MP_LIMB b c) - MPFR_PREC a)) :
    ((sub1_ordered env a b c (mpfr_cmp2 env.BITS_PER_MP_LIMB b c).2 GMP_RNDN).1._mpfr_d.getD 0 0
      >>> sub1_sh env.BITS_PER_MP_LIMB a) &&& 1 = 0 := by
  unfold sub1_ordered
  by_cases hf : MPFR_GET_EXP c ≤ MPFR_GET_EXP b - ((max (MPFR_PREC a) (MPFR_PREC b) : Nat) : Int) - 2
  · exfalso
    obtain ⟨f1, f2⟩ := fast_not_rep _ hw (MPFR_PREC a) b c hb hc hlt hf
    apply f2
    generalize nbits (exact_bits_bound env.BITS_PER_MP_LIMB b c)
      (exact_abs_diff env.BITS_PER_MP_LIMB b c) = L at f1 htie ⊢
    obtain ⟨j, hj⟩ : ∃ j : Nat, L - MPFR_PREC a = j + 1 := ⟨L - MPFR_PREC a - 1, by omega⟩
    have hj2 : L - MPFR_PREC a - 1 = j := by omega
    rw [hj] at htie
    rw [hj2]
    rw [pow_succ] at htie
    have hm : exact_abs_diff env.BITS_PER_MP_LIMB b c % (2 ^ j * 2) = 2 ^ j := by omega
    have hd : 2 ^ j ∣ 2 ^ j * 2 := ⟨2, rfl⟩
    rw [← Nat.mod_mod_of_dvd _ hd, hm, Nat.mod_self]
  · rw [if_neg hf]
    exact sub1_general_tie env a b c hw ha hb hc hlt _ rfl htie

/-! ## The sign of `destination - exact` -/

theorem int_sign_mul_pos (x k : Int) (hk : 0 < k) : int_sign (x * k) = int_sign x := by
  unfold int_sign
  by_cases h1 : x < 0
  · rw [if_pos h1, if_pos (Int.mul_neg_of_neg_of_pos h1 hk)]
  · by_cases h2 : 0 < x
    · rw [if_neg h1, if_pos h2, if_neg (by have := Int.mul_pos h2 hk; omega),
        if_pos (Int.mul_pos h2 hk)]
    · have : x = 0 := by omega
      rw [this]; simp

theorem int_sign_sign_mul (s x : Int) (hs : s = 1 ∨ s = -1) :
    int_sign (s * x) = s * int_sign x := by
  rcases hs with h | h
  · rw [h]; simp
  · rw [h]
    unfold int_sign
    by_cases h1 : x < 0
    · rw [if_pos h1, if_neg (by omega), if_pos (by omega)]; rfl
    · by_cases h2 : 0 < x
      · rw [if_neg h1, if_pos h2, if_pos (by omega)]; rfl
      · have : x = 0 := by omega
        rw [this]; simp

theorem int_sign_mul_sign (s x : Int) (hs : s = 1 ∨ s = -1) :
    int_sign (x * s) = s * int_sign x := by
  rw [Int.mul_comm]; exact int_sign_sign_mul s x hs

theorem int_sign_of_sign (s : Int) (hs : s = 1 ∨ s = -1) : int_sign s = s := by
  rcases hs with h | h <;> rw [h] <;> simp [int_sign]

theorem int_sign_sq (s : Int) (hs : s = 1 ∨ s = -1) : s * s = 1 := by
  rcases hs with h | h <;> rw [h] <;> simp

theorem MPFR_INT_SIGN_eq (x : mpfr) (hs : MPFR_SIGN x = 1 ∨ MPFR_SIGN x = -1) :
    MPFR_INT_SIGN x = MPFR_SIGN x := by
  unfold MPFR_INT_SIGN
  rcases hs with h | h <;> rw [h] <;> simp

/-- The sign of `destination - exact` for a regular destination, computed over any unit that
divides the unit of the destination and the common unit of the operands. -/
theorem sdm_regular (w : Nat) (s : Int) (b c dest : mpfr) (e : Int) (g : Int)
    (hs : s = 1 ∨ s = -1) (hd : dest._mpfr_exp = regular e) (hds : MPFR_SIGN dest = s)
    (hg1 : g ≤ common_unit w b c) (hg2 : g ≤ MPFR_UNIT_EXP w dest) :
    sign_dest_minus w s b c dest
      = s * int_sign ((mpfr_abs_in w dest g : Int)
          - ((mpfr_abs_in w b g : Int) - (mpfr_abs_in w c g : Int))) := by
  have hgb : common_unit w b c ≤ MPFR_UNIT_EXP w b := by unfold common_unit; exact min_le_left _ _
  have hgc : common_unit w b c ≤ MPFR_UNIT_EXP w c := by unfold common_unit; exact min_le_right _ _
  unfold sign_dest_minus
  simp only [hd, hds]
  have hm1 := min_le_left (common_unit w b c) (MPFR_UNIT_EXP w dest)
  have hm2 := min_le_right (common_unit w b c) (MPFR_UNIT_EXP w dest)
  have hgm : g ≤ min (common_unit w b c) (MPFR_UNIT_EXP w dest) := le_min hg1 hg2
  generalize min (common_unit w b c) (MPFR_UNIT_EXP w dest) = g1 at hm1 hm2 hgm ⊢
  rw [abs_in_scale w dest g1 g hgm hm2, abs_in_scale w b g1 g hgm (by omega),
    abs_in_scale w c g1 g hgm (by omega)]
  have hk : (0 : Int) < ((2 ^ (g1 - g).toNat : Nat) : Int) := by
    exact_mod_cast Nat.two_pow_pos _
  have e1 : ((mpfr_abs_in w dest g1 * 2 ^ (g1 - g).toNat : Nat) : Int)
      - (((mpfr_abs_in w b g1 * 2 ^ (g1 - g).toNat : Nat) : Int)
        - ((mpfr_abs_in w c g1 * 2 ^ (g1 - g).toNat : Nat) : Int))
      = ((mpfr_abs_in w dest g1 : Int) - ((mpfr_abs_in w b g1 : Int) - (mpfr_abs_in w c g1 : Int)))
        * ((2 ^ (g1 - g).toNat : Nat) : Int) := by
    push_cast; ring
  rw [e1, int_sign_mul_pos _ _ hk, ← int_sign_sign_mul s _ hs]
  congr 1; ring

/-- The sign of `destination - exact` for a zero destination when `|b| > |c|`. -/
theorem sdm_zero (w : Nat) (s : Int) (b c dest : mpfr) (hs : s = 1 ∨ s = -1)
    (hd : dest._mpfr_exp = MPFR_EXP_ZERO)
    (hlt : mpfr_abs_in w c (common_unit w b c) < mpfr_abs_in w b (common_unit w b c)) :
    sign_dest_minus w s b c dest = - s := by
  unfold sign_dest_minus
  simp only [hd]
  have : - (s * ((mpfr_abs_in w b (common_unit w b c) : Int) - mpfr_abs_in w c (common_unit w b c)))
      = s * (- ((mpfr_abs_in w b (common_unit w b c) : Int) - mpfr_abs_in w c (common_unit w b c))) := by
    ring
  rw [this, int_sign_sign_mul s _ hs, int_sign_of_neg _ (by omega)]
  ring

/-- The sign of `destination - exact` for an infinite destination. -/
theorem sdm_inf (w : Nat) (s : Int) (b c dest : mpfr) (hs : s = 1 ∨ s = -1)
    (hd : dest._mpfr_exp = MPFR_EXP_INF) (hds : MPFR_SIGN dest = s) :
    sign_dest_minus w s b c dest = s := by
  unfold sign_dest_minus
  simp only [hd, hds]
  rcases hs with h | h <;> rw [h] <;> simp

theorem like_rndz_reduced (a : mpfr) (rnd0 : mp_rnd_t)
    (h : MPFR_IS_LIKE_RNDZ (sub1_rnd_mode a rnd0) (MPFR_IS_NEG a) = true) :
    sub1_rnd_mode a rnd0 = GMP_RNDZ := by
  unfold sub1_rnd_mode MPFR_IS_LIKE_RNDZ MPFR_IS_RNDUTEST_OR_RNDDNOTTEST at *
  cases rnd0 <;> cases hn : MPFR_IS_NEG a <;> simp [hn] at h ⊢

/-- Value of the minimal significand. -/
theorem setmin_value (w : Nat) (hw : 0 < w) (an : Nat) (han : 0 < an) :
    limb_value w (MPN_ZERO (an - 1) ++ [MPFR_LIMB_HIGHBIT w]) = 2 ^ (w * an - 1) := by
  rw [limb_value_append]
  unfold MPN_ZERO
  rw [limb_value_replicate_zero, List.length_replicate]
  simp only [limb_value, Nat.mul_zero, Nat.add_zero, Nat.zero_add]
  rw [highbit_eq, ← pow_add]
  congr 1
  have := mul_pred_add w an han
  omega

theorem tern_neg (s : Int) (hs : s = 1 ∨ s = -1) :
    int_sign (if s > 0 then (-1 : Int) else 1) = - s := by
  rcases hs with h | h <;> rw [h] <;> simp [int_sign]

theorem tern_pos (s : Int) (hs : s = 1 ∨ s = -1) :
    int_sign (if s > 0 then (1 : Int) else -1) = s := by
  rcases hs with h | h <;> rw [h] <;> simp [int_sign]

/-- The underflow outcome has the ternary value of the sign of `destination - exact`, when
the exact difference lies below `2 ^ (emin - 1)`. -/
theorem underflow_ternary (env : Env) (x b c : mpfr) (rnd : mp_rnd_t) (s : Int)
    (hs : s = 1 ∨ s = -1) (hw : limb_width_ok env.BITS_PER_MP_LIMB)
    (hb : mpfr_regular env.BITS_PER_MP_LIMB b)
    (hlt : mpfr_abs_in env.BITS_PER_MP_LIMB c (common_unit env.BITS_PER_MP_LIMB b c)
      < mpfr_abs_in env.BITS_PER_MP_LIMB b (common_unit env.BITS_PER_MP_LIMB b c))
    (hexp : exact_exp env.BITS_PER_MP_LIMB b c < env.__gmpfr_emin) :
    int_sign (mpfr_underflow env x rnd s).2
      = sign_dest_minus env.BITS_PER_MP_LIMB s b c (mpfr_underflow env x rnd s).1 := by
  obtain ⟨w, emin, emax⟩ := env
  simp only at hw hb hlt hexp ⊢
  obtain ⟨_, _, hL1, hDge, hDlt, hD⟩ := cmp2_cancel w b c hb hlt
  have han := limb_size_pos w x
  have hgb : common_unit w b c ≤ MPFR_UNIT_EXP w b := by unfold common_unit; exact min_le_left _ _
  have hgc : common_unit w b c ≤ MPFR_UNIT_EXP w c := by unfold common_unit; exact min_le_right _ _
  unfold mpfr_underflow
  simp only []
  by_cases hl : MPFR_IS_LIKE_RNDZ rnd (decide (s < 0)) = true
  · rw [if_pos hl]
    rw [sdm_zero w _ b c _ hs rfl hlt]
    exact tern_neg _ hs
  · rw [if_neg hl]
    simp only []
    have hu2 : min (common_unit w b c) (emin - ((MPFR_LIMB_SIZE w x * w : Nat) : Int))
        ≤ MPFR_UNIT_EXP w { mpfr_setmin w x emin with _mpfr_sign := s } := by
      unfold MPFR_UNIT_EXP mpfr_setmin
      simp only [MPFR_GET_EXP, MPFR_LIMB_SIZE, MPFR_PREC]
      exact min_le_right _ _
    have hu1 := min_le_left (common_unit w b c) (emin - ((MPFR_LIMB_SIZE w x * w : Nat) : Int))
    have hu3 := min_le_right (common_unit w b c) (emin - ((MPFR_LIMB_SIZE w x * w : Nat) : Int))
    refine Eq.trans ?_ (sdm_regular w s b c
      { mpfr_setmin w x emin with _mpfr_sign := s } emin _ hs rfl rfl hu1 hu2).symm
    generalize min (common_unit w b c) (emin - ((MPFR_LIMB_SIZE w x * w : Nat) : Int)) = g
      at hu1 hu2 hu3
    rw [abs_in_scale w b _ g hu1 hgb, abs_in_scale w c _ g hu1 hgc]
    have hA : mpfr_abs_in w { mpfr_setmin w x emin with _mpfr_sign := s } g
        = 2 ^ (w * MPFR_LIMB_SIZE w x - 1)
          * 2 ^ (emin - ((MPFR_LIMB_SIZE w x * w : Nat) : Int) - g).toNat := by
      unfold mpfr_abs_in mpfr_setmin
      simp only [MPFR_MANT]
      rw [setmin_value w hw.1 _ han]
      rfl
    rw [hA]
    have hwn := Nat.mul_pos hw.1 han
    have hexp2 : nbits (exact_bits_bound w b c) (exact_abs_diff w b c)
        + (common_unit w b c - g).toNat
        ≤ w * MPFR_LIMB_SIZE w x - 1
          + (emin - ((MPFR_LIMB_SIZE w x * w : Nat) : Int) - g).toNat := by
      unfold exact_exp at hexp
      rw [Nat.mul_comm (MPFR_LIMB_SIZE w x) w] at hu3 ⊢
      omega
    have hlt2 : (mpfr_abs_in w b (common_unit w b c) - mpfr_abs_in w c (common_unit w b c))
        * 2 ^ (common_unit w b c - g).toNat
        < 2 ^ (w * MPFR_LIMB_SIZE w x - 1)
          * 2 ^ (emin - ((MPFR_LIMB_SIZE w x * w : Nat) : Int) - g).toNat := by
      rw [← hD, ← pow_add]
      refine Nat.lt_of_lt_of_le
        (Nat.mul_lt_mul_of_pos_right hDlt (Nat.two_pow_pos _)) ?_
      rw [← pow_add]
      exact Nat.pow_le_pow_right (by norm_num) hexp2
    rw [Nat.sub_mul] at hlt2
    have hle : mpfr_abs_in w c (common_unit w b c) * 2 ^ (common_unit w b c - g).toNat
        ≤ mpfr_abs_in w b (common_unit w b c) * 2 ^ (common_unit w b c - g).toNat :=
      Nat.mul_le_mul_right _ (le_of_lt hlt)
    generalize mpfr_abs_in w c (common_unit w b c) * 2 ^ (common_unit w b c - g).toNat = Cg
      at hlt2 hle ⊢
    generalize mpfr_abs_in w b (common_unit w b c) * 2 ^ (common_unit w b c - g).toNat = Bg
      at hlt2 hle ⊢
    generalize 2 ^ (w * MPFR_LIMB_SIZE w x - 1)
          * 2 ^ (emin - ((MPFR_LIMB_SIZE w x * w : Nat) : Int) - g).toNat = Ag at hlt2 ⊢
    have hpos : (0 : Int) < (Ag : Int) - ((Bg : Int) - Cg) := by omega
    rw [int_sign_of_pos _ hpos, Int.mul_one]
    exact tern_pos _ hs

/-- The overflow outcome, when it is an infinity, has the ternary value of the sign of
`destination - exact`. -/
theorem overflow_ternary (env : Env) (x b c : mpfr) (rnd : mp_rnd_t) (s : Int)
    (hs : s = 1 ∨ s = -1) (hl : MPFR_IS_LIKE_RNDZ rnd (decide (s < 0)) = false) :
    int_sign (mpfr_overflow env x rnd s).2
      = sign_dest_minus env.BITS_PER_MP_LIMB s b c (mpfr_overflow env x rnd s).1 := by
  unfold mpfr_overflow
  rw [hl]
  simp only [Bool.false_eq_true, if_false]
  refine Eq.trans ?_ (sdm_inf env.BITS_PER_MP_LIMB s b c
    { x with _mpfr_exp := MPFR_EXP_INF, _mpfr_sign := s } hs rfl rfl).symm
  exact tern_pos _ hs

/-- Claim C2 on the general path, for operands in order. -/
theorem sub1_general_ternary (env : Env) (a b c : mpfr) (rnd0 : mp_rnd_t)
    (hw : limb_width_ok env.BITS_PER_MP_LIMB) (ha : 1 ≤ MPFR_PREC a)
    (hs : MPFR_SIGN a = 1 ∨ MPFR_SIGN a = -1)
    (hb : mpfr_regular env.BITS_PER_MP_LIMB b) (hc : mpfr_regular env.BITS_PER_MP_LIMB c)
    (hlt : mpfr_abs_in env.BITS_PER_MP_LIMB c (common_unit env.BITS_PER_MP_LIMB b c)
      < mpfr_abs_in env.BITS_PER_MP_LIMB b (common_unit env.BITS_PER_MP_LIMB b c))
    (cancel : Nat) (hcancel : cancel = (mpfr_cmp2 env.BITS_PER_MP_LIMB b c).2) :
    int_sign (sub1_general env a b c cancel rnd0).2
      = sign_dest_minus env.BITS_PER_MP_LIMB (MPFR_SIGN a) b c
          (sub1_general env a b c cancel rnd0).1 := by
  obtain ⟨w, emin, emax⟩ := env
  simp only at hw hb hc hlt hcancel ⊢
  obtain ⟨g1, g2, g3, g4, _, _, g7⟩ := sub1_rounded_ok w hw a b c ha hb hc hlt cancel hcancel rnd0
  obtain ⟨_, hcv, hL1, hDge, hDlt, hD⟩ := cmp2_cancel w b c hb hlt
  rw [← hcancel] at hcv
  obtain ⟨hX0, _, _, _, _⟩ := sub1_X_range w hw a b c hb hc hlt cancel hcancel
  have hU := sub1_unit_le w hw a b c hb hc cancel
  obtain ⟨hUb, hBs⟩ := sub1_Bs_eq w hw.1 a b c hb cancel
  obtain ⟨hUc, hCs⟩ := sub1_Cs_eq w hw a b c hc cancel
  have han := limb_size_pos w a
  have hgb : common_unit w b c ≤ MPFR_UNIT_EXP w b := by unfold common_unit; exact min_le_left _ _
  have hgc : common_unit w b c ≤ MPFR_UNIT_EXP w c := by unfold common_unit; exact min_le_right _ _
  have hXdef : (sub1_X w a b c cancel : Int)
      = (mpfr_abs_in w b (sub1_unit w a b c cancel) : Int)
        - mpfr_abs_in w c (sub1_unit w a b c cancel) := by
    unfold sub1_X; rw [Nat.cast_sub (le_of_lt hX0), hBs, hCs]
  have hIS : MPFR_INT_SIGN a = MPFR_SIGN a := MPFR_INT_SIGN_eq a hs
  rw [sub1_general_eq]
  simp only []
  generalize sub1_rounded w a b c cancel rnd0 = r at g1 g2 g3 g4 g7
  obtain ⟨ap, inexact, add_exp⟩ := r
  simp only at g1 g2 g3 g4 g7
  -- a regular result with the exponent `EXP (b) - cancel + add_exp`
  have hreg : ∀ e : Int, e = MPFR_GET_EXP b - cancel + add_exp →
      int_sign (inexact * MPFR_INT_SIGN { a with _mpfr_d := ap })
        = sign_dest_minus w (MPFR_SIGN a) b c
            { a with _mpfr_d := ap, _mpfr_exp := regular e } := by
    intro e he
    have hue : MPFR_UNIT_EXP w { a with _mpfr_d := ap, _mpfr_exp := regular e }
        = e - ((MPFR_LIMB_SIZE w a * w : Nat) : Int) := rfl
    have e1 : w * (sub1_m w a b c cancel + MPFR_LIMB_SIZE w a)
        = w * sub1_m w a b c cancel + MPFR_LIMB_SIZE w a * w := by
      rw [Nat.mul_add, Nat.mul_comm w (MPFR_LIMB_SIZE w a)]
    have hdiff : MPFR_UNIT_EXP w { a with _mpfr_d := ap, _mpfr_exp := regular e }
        - sub1_unit w a b c cancel = ((add_exp + w * sub1_m w a b c cancel : Nat) : Int) := by
      rw [hue]; unfold sub1_unit; rw [e1, he]; push_cast; ring
    have hu : sub1_unit w a b c cancel
        ≤ MPFR_UNIT_EXP w { a with _mpfr_d := ap, _mpfr_exp := regular e } := by
      have : (0 : Int) ≤ ((add_exp + w * sub1_m w a b c cancel : Nat) : Int) := Int.natCast_nonneg _
      omega
    rw [sdm_regular w _ b c { a with _mpfr_d := ap, _mpfr_exp := regular e } e
      (sub1_unit w a b c cancel) hs rfl rfl hU hu, ← hXdef]
    have hA : mpfr_abs_in w { a with _mpfr_d := ap, _mpfr_exp := regular e }
        (sub1_unit w a b c cancel)
        = limb_value w ap * 2 ^ add_exp * 2 ^ (w * sub1_m w a b c cancel) := by
      unfold mpfr_abs_in
      rw [hdiff, Int.toNat_ofNat, Nat.mul_assoc, ← pow_add]
      rfl
    rw [hA, ← g4]
    have : MPFR_INT_SIGN { a with _mpfr_d := ap } = MPFR_SIGN a := hIS
    rw [this, int_sign_mul_sign _ _ hs]
  unfold sub1_end_of_sub
  simp only []
  by_cases hc0 : cancel ≠ 0
  · rw [if_pos hc0]
    have hce : ((cancel - add_exp : Nat) : Int) = (cancel : Int) - add_exp := by omega
    by_cases hu : MPFR_GET_EXP b - ((cancel - add_exp : Nat) : Int) < emin
    · rw [if_pos hu]
      -- underflow
      have hx := underflow_ternary ⟨w, emin, emax⟩ { a with _mpfr_d := ap } b c
        (if sub1_rnd_mode a rnd0 = GMP_RNDN ∧
            (MPFR_GET_EXP b - ((cancel - add_exp : Nat) : Int) < emin - 1 ∨
              (inexact ≥ 0 ∧ mpfr_powerof2_raw w { a with _mpfr_d := ap } = true))
          then GMP_RNDZ else sub1_rnd_mode a rnd0)
        (MPFR_SIGN a) hs hw hb hlt (by simp only []; omega)
      exact hx
    · rw [if_neg hu]
      exact hreg _ (by omega)
  · rw [if_neg hc0]
    have hc00 : cancel = 0 := by omega
    by_cases ho : add_exp ≠ 0 ∧ MPFR_GET_EXP b = emax
    · rw [if_pos ho]
      have hnl : MPFR_IS_LIKE_RNDZ (sub1_rnd_mode a rnd0) (decide (MPFR_SIGN a < 0)) = false := by
        by_contra hl
        have hl2 : MPFR_IS_LIKE_RNDZ (sub1_rnd_mode a rnd0) (MPFR_IS_NEG a) = true := by
          simpa [MPFR_IS_NEG] using hl
        exact ho.1 (g7 (like_rndz_reduced a rnd0 hl2))
      exact overflow_ternary ⟨w, emin, emax⟩ { a with _mpfr_d := ap } b c _ (MPFR_SIGN a) hs hnl
    · rw [if_neg ho]
      exact hreg _ (by rw [hc00]; simp)

/-! ## Helpers for the fast path -/

theorem minus_modulo_eq (w : Nat) (hw : 0 < w) (x : mpfr) (hp : 1 ≤ MPFR_PREC x) :
    MPFR_UNSIGNED_MINUS_MODULO w (MPFR_PREC x) = MPFR_LIMB_SIZE w x * w - MPFR_PREC x := by
  unfold MPFR_UNSIGNED_MINUS_MODULO MPFR_LIMB_SIZE
  obtain ⟨p, hp1⟩ : ∃ p, MPFR_PREC x = p + 1 := ⟨MPFR_PREC x - 1, by omega⟩
  rw [hp1, Nat.add_sub_cancel]
  have h1 := Nat.div_add_mod p w
  have h2 := Nat.mod_lt p hw
  have e1 : (p / w + 1) * w = w * (p / w) + w := by ring
  rw [e1]
  by_cases hc : p % w + 1 = w
  · have e2 : (p + 1) % w = 0 := by
      have : p + 1 = w * (p / w + 1) := by rw [Nat.mul_add, Nat.mul_one]; omega
      rw [this]; exact Nat.mul_mod_right _ _
    rw [e2]; simp; omega
  · have e2 : (p + 1) % w = p % w + 1 := by
      have : p + 1 = (p % w + 1) + w * (p / w) := by omega
      rw [this, Nat.add_mul_mod_self_left, Nat.mod_eq_of_lt (by omega)]
    rw [e2, Nat.mod_eq_of_lt (by omega)]
    omega

theorem limb_size_alt (w : Nat) (hw : 0 < w) (x : mpfr) (hp : 1 ≤ MPFR_PREC x) :
    (MPFR_PREC x + w - 1) / w = MPFR_LIMB_SIZE w x := by
  unfold MPFR_LIMB_SIZE
  have : MPFR_PREC x + w - 1 = (MPFR_PREC x - 1) + w := by omega
  rw [this, Nat.add_div_right _ hw]

/-- Clearing the `sh` low bits of the lowest limb of an array. -/
theorem clear_low_value (w : Nat) (p : List Nat) (sh : Nat) (hsh : sh < w) (hl : 0 < p.length)
    (hwf : ∀ x ∈ p, x < 2 ^ w) :
    (MPN_STORE p 0 [p.getD 0 0 - (p.getD 0 0 &&& (MPFR_LIMB_ONE <<< sh - 1))]).length = p.length ∧
    (∀ x ∈ MPN_STORE p 0 [p.getD 0 0 - (p.getD 0 0 &&& (MPFR_LIMB_ONE <<< sh - 1))], x < 2 ^ w) ∧
    limb_value w (MPN_STORE p 0 [p.getD 0 0 - (p.getD 0 0 &&& (MPFR_LIMB_ONE <<< sh - 1))])
      = limb_value w p - limb_value w p % 2 ^ sh ∧
    p.getD 0 0 &&& (MPFR_LIMB_ONE <<< sh - 1) = limb_value w p % 2 ^ sh := by
  have hr : p.getD 0 0 &&& (MPFR_LIMB_ONE <<< sh - 1) = limb_value w p % 2 ^ sh := by
    unfold MPFR_LIMB_ONE
    rw [Nat.shiftLeft_eq, Nat.one_mul, Nat.and_pow_two_sub_one_eq_mod, limb_getD w _ _ hwf]
    simp only [Nat.mul_zero, pow_zero, Nat.div_one]
    exact Nat.mod_mod_of_dvd _ (pow_dvd_pow 2 (le_of_lt hsh))
  have h0 : p.getD 0 0 = limb_value w p % 2 ^ w := by
    rw [limb_getD w _ _ hwf]; simp
  rw [hr]
  have hcle : limb_value w p % 2 ^ sh ≤ p.getD 0 0 := by
    rw [h0]
    have := Nat.mod_mod_of_dvd (limb_value w p) (pow_dvd_pow 2 (le_of_lt hsh))
    rw [← this]
    exact Nat.mod_le _ _
  have hwf1 : ∀ x ∈ [p.getD 0 0 - limb_value w p % 2 ^ sh], x < 2 ^ w := by
    intro x hx
    simp only [List.mem_singleton] at hx
    rw [hx, h0]
    exact Nat.lt_of_le_of_lt (Nat.sub_le _ _) (Nat.mod_lt _ (Nat.two_pow_pos _))
  refine ⟨MPN_STORE_length _ _ _ (by simp; omega), wf_MPN_STORE w _ _ _ hwf hwf1, ?_, rfl⟩
  rw [MPN_STORE_value w _ _ _ hwf (by simp; omega)]
  simp only [Nat.mul_zero, pow_zero, Nat.mod_one, Nat.zero_add, Nat.one_mul, limb_value,
    List.length_singleton, Nat.mul_one, Nat.add_zero]
  have hd := mod_add_div_pow (limb_value w p) w
  rw [h0] at hcle ⊢
  omega

theorem limb_value_replicate_max (w n : Nat) :
    limb_value w (List.replicate n (MP_LIMB_T_MAX w)) = 2 ^ (w * n) - 1 := by
  induction n with
  | zero => simp [limb_value]
  | succ k ih =>
    rw [List.replicate_succ, limb_value, ih]
    unfold MP_LIMB_T_MAX
    have h1 : 0 < 2 ^ w := Nat.two_pow_pos _
    have h2 : 0 < 2 ^ (w * k) := Nat.two_pow_pos _
    have e : 2 ^ (w * (k + 1)) = 2 ^ w * 2 ^ (w * k) := by
      rw [← pow_add]; congr 1; ring
    rw [e, Nat.mul_sub, Nat.mul_one]
    have : 2 ^ w ≤ 2 ^ w * 2 ^ (w * k) := Nat.le_mul_of_pos_right _ h2
    omega

/-- Value of the significand that `mpfr_setmax` stores. -/
theorem setmax_value (w : Nat) (hw : 0 < w) (x : mpfr) (hp : 1 ≤ MPFR_PREC x) (e : Int) :
    limb_value w (mpfr_setmax w x e)._mpfr_d
      = 2 ^ (w * MPFR_LIMB_SIZE w x) - 2 ^ (MPFR_LIMB_SIZE w x * w - MPFR_PREC x) := by
  have hn := limb_size_pos w x
  have hsh := limbs_lt_prec_add w hw x hp
  have hle := prec_le_limbs w hw x
  unfold mpfr_setmax
  simp only [limb_value]
  rw [limb_value_replicate_max, minus_modulo_eq w hw x hp]
  obtain ⟨sh, hshd⟩ : ∃ sh, MPFR_LIMB_SIZE w x * w - MPFR_PREC x = sh := ⟨_, rfl⟩
  rw [hshd]
  have hshw : sh < w := by omega
  unfold MP_LIMB_T_MAX
  rw [Nat.shiftLeft_eq]
  have hw2 : 2 ^ w = 2 ^ sh * 2 ^ (w - sh) := by rw [← pow_add]; congr 1; omega
  have h1 : (2 ^ w - 1) * 2 ^ sh % 2 ^ w = 2 ^ w - 2 ^ sh := by
    have hpos : 0 < 2 ^ (w - sh) := Nat.two_pow_pos _
    have hpos2 : 0 < 2 ^ sh := Nat.two_pow_pos _
    have e1 : (2 ^ w - 1) * 2 ^ sh = (2 ^ w - 2 ^ sh) + 2 ^ w * (2 ^ sh - 1) := by
      have ha : (2 ^ w - 1) * 2 ^ sh + 2 ^ sh = 2 ^ w * 2 ^ sh := by
        rw [Nat.sub_mul, Nat.one_mul]
        have : 2 ^ sh ≤ 2 ^ w * 2 ^ sh := Nat.le_mul_of_pos_left _ (Nat.two_pow_pos _)
        omega
      have hb : 2 ^ w * (2 ^ sh - 1) + 2 ^ w = 2 ^ w * 2 ^ sh := by
        rw [Nat.mul_sub, Nat.mul_one]
        have : 2 ^ w ≤ 2 ^ w * 2 ^ sh := Nat.le_mul_of_pos_right _ hpos2
        omega
      have hc : 2 ^ sh ≤ 2 ^ w := Nat.pow_le_pow_right (by norm_num) (by omega)
      omega
    rw [e1, Nat.add_mul_mod_self_left, Nat.mod_eq_of_lt]
    have := Nat.two_pow_pos sh
    have := Nat.two_pow_pos w
    omega
  rw [h1]
  have e : 2 ^ (w * MPFR_LIMB_SIZE w x) = 2 ^ w * 2 ^ (w * (MPFR_LIMB_SIZE w x - 1)) := by
    rw [← pow_add]; congr 1
    have := mul_pred_add w (MPFR_LIMB_SIZE w x) hn
    omega
  rw [e, Nat.mul_sub, Nat.mul_one]
  have h2 : 2 ^ sh ≤ 2 ^ w := Nat.pow_le_pow_right (by norm_num) (by omega)
  have h3 : 2 ^ w ≤ 2 ^ w * 2 ^ (w * (MPFR_LIMB_SIZE w x - 1)) :=
    Nat.le_mul_of_pos_right _ (Nat.two_pow_pos _)
  omega

/-! ## The two outcomes of `MPFR_RNDRAW_EVEN`: truncation and addition of one unit -/

theorem round_down_ge (Th u S : Nat) (hu : 0 < u) (hd : u ∣ Th) (hS : Th ≤ S) :
    Th ≤ u * (S / u) := by
  obtain ⟨t, ht⟩ := hd
  rw [ht]
  apply Nat.mul_le_mul_left
  rw [Nat.le_div_iff_mul_le hu, Nat.mul_comm]
  rw [ht] at hS; exact hS

/-- The truncated significand. -/
theorem rndraw_trunc_value (w an sh : Nat) (hw : 0 < w) (han : 0 < an) (hsh : sh < w)
    (sp : List Nat) (hl : sp.length = an) (hwf : ∀ x ∈ sp, x < 2 ^ w)
    (hS : 2 ^ (w * an - 1) ≤ limb_value w sp) :
    (MPN_STORE sp 0 [sp.getD 0 0 - (sp.getD 0 0 &&& (MPFR_LIMB_ONE <<< sh - 1))]).length = an ∧
    (∀ x ∈ MPN_STORE sp 0 [sp.getD 0 0 - (sp.getD 0 0 &&& (MPFR_LIMB_ONE <<< sh - 1))],
      x < 2 ^ w) ∧
    limb_value w (MPN_STORE sp 0 [sp.getD 0 0 - (sp.getD 0 0 &&& (MPFR_LIMB_ONE <<< sh - 1))])
      = 2 ^ sh * (limb_value w sp / 2 ^ sh) ∧
    2 ^ (w * an - 1) ≤ 2 ^ sh * (limb_value w sp / 2 ^ sh) := by
  obtain ⟨c1, c2, c3, _⟩ := clear_low_value w sp sh hsh (by omega) hwf
  have hd := Nat.div_add_mod (limb_value w sp) (2 ^ sh)
  have hdvd : 2 ^ sh ∣ 2 ^ (w * an - 1) := by
    apply pow_dvd_pow
    have : w ≤ w * an := Nat.le_mul_of_pos_right _ han
    omega
  refine ⟨by rw [c1, hl], c2, by rw [c3]; omega, round_down_ge _ _ _ (Nat.two_pow_pos _) hdvd hS⟩

/-- The significand after the addition of one unit in the last place; with a carry it is the
minimal significand and the exponent is to be increased. -/
theorem rndraw_add_value (w an sh : Nat) (hw : 0 < w) (han : 0 < an) (hsh : sh < w)
    (sp : List Nat) (hl : sp.length = an) (hwf : ∀ x ∈ sp, x < 2 ^ w)
    (hS : 2 ^ (w * an - 1) ≤ limb_value w sp) (addp ao : List Nat) (carry : Bool)
    (hcarry : carry = decide ((mpn_add_1 w sp an (MPFR_LIMB_ONE <<< sh)).2 ≠ 0))
    (haddp : addp = if (mpn_add_1 w sp an (MPFR_LIMB_ONE <<< sh)).2 ≠ 0
      then MPN_ZERO (an - 1) ++ [MPFR_LIMB_HIGHBIT w]
      else (mpn_add_1 w sp an (MPFR_LIMB_ONE <<< sh)).1)
    (hao : ao = MPN_STORE addp 0
      [addp.getD 0 0 - (addp.getD 0 0 &&& (MPFR_LIMB_ONE <<< sh - 1))]) :
    ao.length = an ∧ (∀ x ∈ ao, x < 2 ^ w) ∧
    2 ^ (w * an - 1) ≤ limb_value w ao ∧ limb_value w ao % 2 ^ sh = 0 ∧
    limb_value w ao * 2 ^ (if carry then 1 else 0) = 2 ^ sh * (limb_value w sp / 2 ^ sh + 1) ∧
    (carry = false → 2 ^ (w * an - 1) + 2 ^ sh ≤ limb_value w ao) := by
  have hone : MPFR_LIMB_ONE <<< sh = 2 ^ sh := by
    unfold MPFR_LIMB_ONE; rw [Nat.shiftLeft_eq, Nat.one_mul]
  have hV : limb_value w sp < 2 ^ (w * an) := by
    have := limb_value_lt w sp hwf; rwa [hl] at this
  obtain ⟨g1, g2, g3, g4⟩ := add_1_value w sp an (2 ^ sh) hl hwf
  have hupos : 0 < 2 ^ sh := Nat.two_pow_pos _
  have hshn : sh ≤ w * an - 1 := by
    have : w ≤ w * an := Nat.le_mul_of_pos_right _ han
    omega
  have hdvd : 2 ^ sh ∣ 2 ^ (w * an - 1) := pow_dvd_pow 2 hshn
  have hT2 : 2 ^ (w * an) = 2 ^ (w * an - 1) * 2 := by
    rw [← pow_succ]; congr 1
    have := Nat.mul_pos hw han
    omega
  have hT : 2 ^ (w * an) = 2 ^ sh * 2 ^ (w * an - sh) := by
    rw [← pow_add]; congr 1; omega
  have hd := Nat.div_add_mod (limb_value w sp) (2 ^ sh)
  have hr := Nat.mod_lt (limb_value w sp) hupos
  have hq := round_down_ge _ _ _ hupos hdvd hS
  rw [hone] at hcarry haddp
  by_cases hc : (mpn_add_1 w sp an (2 ^ sh)).2 ≠ 0
  · -- carry: the window was all ones above the unused bits
    rw [if_pos hc] at haddp
    have hcar : carry = true := by rw [hcarry]; simp [hc]
    have hwfp : ∀ x ∈ addp, x < 2 ^ w := by
      rw [haddp]
      apply wf_append w _ _ (wf_zero w _)
      intro x hx
      simp only [List.mem_singleton] at hx
      rw [hx, highbit_eq]
      exact Nat.pow_lt_pow_right (by norm_num) (by omega)
    have hlp : addp.length = an := by
      rw [haddp]; unfold MPN_ZERO; simp; omega
    have hvp : limb_value w addp = 2 ^ (w * an - 1) := by
      rw [haddp, limb_value_append]
      unfold MPN_ZERO
      rw [limb_value_replicate_zero, List.length_replicate]
      simp only [limb_value, Nat.mul_zero, Nat.add_zero, Nat.zero_add]
      rw [highbit_eq, ← pow_add]
      congr 1
      have := mul_pred_add w an han
      omega
    obtain ⟨c1, c2, c3, _⟩ := clear_low_value w addp sh hsh (by omega) hwfp
    rw [← hao] at c1 c2 c3
    have hm0 : 2 ^ (w * an - 1) % 2 ^ sh = 0 := Nat.mod_eq_zero_of_dvd hdvd
    rw [hvp, hm0, Nat.sub_zero] at c3
    refine ⟨by rw [c1, hlp], c2, by rw [c3], by rw [c3]; exact hm0, ?_, ?_⟩
    · rw [c3, hcar]
      simp only [if_true, pow_one]
      rw [← hT2]
      -- the sum reached `2 ^ (w * an)`
      have hge := g4.mp hc
      obtain ⟨q, hq'⟩ : ∃ q, limb_value w sp / 2 ^ sh = q := ⟨_, rfl⟩
      rw [hq'] at hd hq ⊢
      have h1 : 2 ^ sh * (q + 1) ≤ 2 ^ sh * 2 ^ (w * an - sh) := by
        apply Nat.mul_le_mul_left
        have : 2 ^ sh * q < 2 ^ sh * 2 ^ (w * an - sh) := by rw [← hT]; omega
        have := Nat.lt_of_mul_lt_mul_left this
        omega
      have h2 : 2 ^ sh * 2 ^ (w * an - sh) ≤ 2 ^ sh * (q + 1) := by
        apply Nat.mul_le_mul_left
        have h3 : 2 ^ sh * 2 ^ (w * an - sh) < 2 ^ sh * (q + 2) := by
          rw [← hT, Nat.mul_add]; omega
        have := Nat.lt_of_mul_lt_mul_left h3
        omega
      rw [hT]; omega
    · intro h; rw [hcar] at h; cases h
  · -- no carry
    rw [if_neg hc] at haddp
    have hcar : carry = false := by rw [hcarry]; simp [hc]
    have hlt : limb_value w sp + 2 ^ sh < 2 ^ (w * an) := by
      have := g4.not.mp hc; omega
    rw [Nat.mod_eq_of_lt hlt] at g3
    rw [← haddp] at g1 g2 g3
    obtain ⟨c1, c2, c3, _⟩ := clear_low_value w addp sh hsh (by omega) g2
    rw [← hao] at c1 c2 c3
    have hmod : (limb_value w sp + 2 ^ sh) % 2 ^ sh = limb_value w sp % 2 ^ sh := by
      rw [Nat.add_mod_right]
    rw [g3, hmod] at c3
    have hval : limb_value w ao = 2 ^ sh * (limb_value w sp / 2 ^ sh + 1) := by
      rw [c3, Nat.mul_add, Nat.mul_one]; omega
    refine ⟨by rw [c1, g1], c2, ?_, ?_, ?_, ?_⟩
    · rw [hval, Nat.mul_add, Nat.mul_one]; omega
    · rw [hval]; exact Nat.mul_mod_right _ _
    · rw [hval, hcar]; simp
    · intro _; rw [hval, Nat.mul_add, Nat.mul_one]; omega

/-! ## `MPFR_RNDRAW_EVEN` on the significand of `b` -/

theorem limb_size_mono (w : Nat) (a b : mpfr) (h : MPFR_PREC a ≤ MPFR_PREC b) :
    MPFR_LIMB_SIZE w a ≤ MPFR_LIMB_SIZE w b := by
  unfold MPFR_LIMB_SIZE
  have := Nat.div_le_div_right (c := w) (show MPFR_PREC a - 1 ≤ MPFR_PREC b - 1 by omega)
  omega

/-- The units of the fast path when `b` has at least as many limbs as the destination. -/
theorem small_unit_round (w : Nat) (hw : 0 < w) (a b : mpfr) (ha : 1 ≤ MPFR_PREC a)
    (hn : MPFR_LIMB_SIZE w a ≤ MPFR_LIMB_SIZE w b) :
    sub1_small_unit w a b = MPFR_UNIT_EXP w b ∧
    (MPFR_GET_EXP b - ((MPFR_LIMB_SIZE w a * w : Nat) : Int) - sub1_small_unit w a b).toNat
      = w * (MPFR_LIMB_SIZE w b - MPFR_LIMB_SIZE w a) ∧
    mpfr_abs_in w b (sub1_small_unit w a b) = limb_value w (MPFR_MANT b) ∧
    (MPFR_GET_EXP b - (MPFR_PREC a : Int) - sub1_small_unit w a b).toNat
      = w * (MPFR_LIMB_SIZE w b - MPFR_LIMB_SIZE w a) + sub1_sh w a := by
  have hshp := (sub1_sh_lt w hw a ha).2
  have hmul : MPFR_LIMB_SIZE w a * w ≤ MPFR_LIMB_SIZE w b * w := Nat.mul_le_mul_right _ hn
  have e1 : w * (MPFR_LIMB_SIZE w b - MPFR_LIMB_SIZE w a)
      = MPFR_LIMB_SIZE w b * w - MPFR_LIMB_SIZE w a * w := by
    rw [Nat.mul_sub, Nat.mul_comm w, Nat.mul_comm w]
  have e2 : w * MPFR_LIMB_SIZE w a = MPFR_LIMB_SIZE w a * w := Nat.mul_comm _ _
  have hu : sub1_small_unit w a b = MPFR_UNIT_EXP w b := by
    unfold sub1_small_unit MPFR_UNIT_EXP
    apply min_eq_left
    omega
  rw [hu]
  refine ⟨rfl, ?_, ?_, ?_⟩
  · unfold MPFR_UNIT_EXP; omega
  · unfold mpfr_abs_in; simp
  · unfold MPFR_UNIT_EXP; omega

/-- The units of the fast path when `b` has at most as many limbs as the destination. -/
theorem small_unit_copy (w : Nat) (a b : mpfr)
    (hn : MPFR_LIMB_SIZE w b ≤ MPFR_LIMB_SIZE w a) :
    (MPFR_GET_EXP b - ((MPFR_LIMB_SIZE w a * w : Nat) : Int) - sub1_small_unit w a b).toNat = 0 ∧
    mpfr_abs_in w b (sub1_small_unit w a b)
      = limb_value w (MPFR_MANT b) * 2 ^ (w * (MPFR_LIMB_SIZE w a - MPFR_LIMB_SIZE w b)) := by
  have hmul : MPFR_LIMB_SIZE w b * w ≤ MPFR_LIMB_SIZE w a * w := Nat.mul_le_mul_right _ hn
  have e1 : w * (MPFR_LIMB_SIZE w a - MPFR_LIMB_SIZE w b)
      = MPFR_LIMB_SIZE w a * w - MPFR_LIMB_SIZE w b * w := by
    rw [Nat.mul_sub, Nat.mul_comm w, Nat.mul_comm w]
  have hu : sub1_small_unit w a b
      = MPFR_GET_EXP b - ((MPFR_LIMB_SIZE w a * w : Nat) : Int) := by
    unfold sub1_small_unit MPFR_UNIT_EXP
    apply min_eq_right
    omega
  rw [hu]
  refine ⟨by simp, ?_⟩
  unfold mpfr_abs_in MPFR_UNIT_EXP
  congr 2
  omega

/-- A precision that is not larger: the significand of `b` is copied. -/
theorem rndraw_copy_ok (w : Nat) (hw : 0 < w) (a b : mpfr) (ha : 1 ≤ MPFR_PREC a)
    (hb : mpfr_regular w b) (rnd : mp_rnd_t) (s : Int) (hp : MPFR_PREC b ≤ MPFR_PREC a) :
    rndraw_ok w a b rnd s
      (MPN_ZERO (MPFR_LIMB_SIZE w a - MPFR_LIMB_SIZE w b)
        ++ MPN (MPFR_MANT b) 0 (MPFR_LIMB_SIZE w b), 0, false) := by
  have hn := limb_size_mono w b a hp
  obtain ⟨u1, u2⟩ := small_unit_copy w a b hn
  obtain ⟨_, _, hpb, hlen, hwf, _, _⟩ := hb
  have hlt := regular_lt w b ⟨by assumption, by assumption, hpb, hlen, hwf, by assumption, by assumption⟩
  have hge := regular_ge w hw b ⟨by assumption, by assumption, hpb, hlen, hwf, by assumption, by assumption⟩
  have hlow := regular_low_bits w hw b ⟨by assumption, by assumption, hpb, hlen, hwf, by assumption, by assumption⟩
  have hshp := (sub1_sh_lt w hw a ha).2
  have hpl := prec_le_limbs w hw b
  have hnbpos := limb_size_pos w b
  have hM : limb_value w (MPN (MPFR_MANT b) 0 (MPFR_LIMB_SIZE w b)) = limb_value w (MPFR_MANT b) := by
    rw [MPN_value w _ _ _ hwf]
    simp only [Nat.mul_zero, pow_zero, Nat.div_one]
    exact Nat.mod_eq_of_lt hlt
  have hval : limb_value w (MPN_ZERO (MPFR_LIMB_SIZE w a - MPFR_LIMB_SIZE w b)
      ++ MPN (MPFR_MANT b) 0 (MPFR_LIMB_SIZE w b))
      = limb_value w (MPFR_MANT b) * 2 ^ (w * (MPFR_LIMB_SIZE w a - MPFR_LIMB_SIZE w b)) := by
    rw [limb_value_append, hM]
    unfold MPN_ZERO
    rw [limb_value_replicate_zero, List.length_replicate, Nat.zero_add, Nat.mul_comm]
  have hmulw : MPFR_LIMB_SIZE w b * w ≤ MPFR_LIMB_SIZE w a * w := Nat.mul_le_mul_right _ hn
  have e1 : w * (MPFR_LIMB_SIZE w a - MPFR_LIMB_SIZE w b)
      = MPFR_LIMB_SIZE w a * w - MPFR_LIMB_SIZE w b * w := by
    rw [Nat.mul_sub, Nat.mul_comm w, Nat.mul_comm w]
  have hwnb : w ≤ w * MPFR_LIMB_SIZE w b := Nat.le_mul_of_pos_right _ hnbpos
  unfold rndraw_ok rndraw_abs
  simp only [u1, u2, hval, if_false, pow_zero, Nat.mul_one, Bool.false_eq_true]
  refine ⟨?_, ?_, ?_, ?_, fun h => absurd h (by simp), Or.inl ⟨trivial, trivial, trivial⟩⟩
  · rw [List.length_append, MPN_length _ _ _ (by omega)]
    unfold MPN_ZERO; rw [List.length_replicate]; omega
  · exact wf_append w _ _ (wf_zero w _) (wf_MPN w _ _ _ hwf)
  · calc 2 ^ (w * MPFR_LIMB_SIZE w a - 1)
        = 2 ^ (w * MPFR_LIMB_SIZE w b - 1) * 2 ^ (w * (MPFR_LIMB_SIZE w a - MPFR_LIMB_SIZE w b)) := by
          rw [← pow_add]; congr 1
          have := Nat.mul_comm w (MPFR_LIMB_SIZE w a)
          have := Nat.mul_comm w (MPFR_LIMB_SIZE w b)
          omega
      _ ≤ _ := Nat.mul_le_mul_right _ hge
  · apply Nat.mod_eq_zero_of_dvd
    have hd1 : 2 ^ (MPFR_LIMB_SIZE w b * w - MPFR_PREC b) ∣ limb_value w (MPFR_MANT b) :=
      Nat.dvd_of_mod_eq_zero hlow
    have hd2 : 2 ^ sub1_sh w a ∣ 2 ^ (MPFR_LIMB_SIZE w b * w - MPFR_PREC b)
        * 2 ^ (w * (MPFR_LIMB_SIZE w a - MPFR_LIMB_SIZE w b)) := by
      rw [← pow_add]
      apply pow_dvd_pow
      have := Nat.mul_comm w (MPFR_LIMB_SIZE w a)
      omega
    exact Dvd.dvd.trans hd2 (Nat.mul_dvd_mul_right hd1 _)

/-- The outcome "truncated" of `MPFR_RNDRAW_EVEN`. -/
theorem rndraw_out_trunc (w : Nat) (hw : 0 < w) (a b : mpfr) (ha : 1 ≤ MPFR_PREC a)
    (rnd : mp_rnd_t) (s : Int) (hn : MPFR_LIMB_SIZE w a ≤ MPFR_LIMB_SIZE w b)
    (tr : List Nat) (inex : Int) (h1 : tr.length = MPFR_LIMB_SIZE w a)
    (h2 : ∀ x ∈ tr, x < 2 ^ w)
    (h3 : limb_value w tr = 2 ^ sub1_sh w a
      * (limb_value w (MPFR_MANT b) / 2 ^ (w * (MPFR_LIMB_SIZE w b - MPFR_LIMB_SIZE w a))
          / 2 ^ sub1_sh w a))
    (h4 : 2 ^ (w * MPFR_LIMB_SIZE w a - 1) ≤ limb_value w tr)
    (hin : (limb_value w (MPFR_MANT b)
          % (2 ^ (w * (MPFR_LIMB_SIZE w b - MPFR_LIMB_SIZE w a)) * 2 ^ sub1_sh w a) = 0 ∧ inex = 0) ∨
      (limb_value w (MPFR_MANT b)
          % (2 ^ (w * (MPFR_LIMB_SIZE w b - MPFR_LIMB_SIZE w a)) * 2 ^ sub1_sh w a) ≠ 0 ∧
        (inex = - s ∨ inex = - (MPFR_EVEN_INEX * s)))) :
    rndraw_ok w a b rnd s (tr, inex, false) := by
  obtain ⟨_, u2, u3, _⟩ := small_unit_round w hw a b ha hn
  unfold rndraw_ok rndraw_abs
  simp only [u2, u3, if_false, pow_zero, Nat.mul_one, Bool.false_eq_true]
  have hdm := Nat.div_add_mod (limb_value w (MPFR_MANT b))
    (2 ^ (w * (MPFR_LIMB_SIZE w b - MPFR_LIMB_SIZE w a)) * 2 ^ sub1_sh w a)
  rw [← Nat.div_div_eq_div_mul] at hdm
  have hA : limb_value w tr * 2 ^ (w * (MPFR_LIMB_SIZE w b - MPFR_LIMB_SIZE w a))
      = 2 ^ (w * (MPFR_LIMB_SIZE w b - MPFR_LIMB_SIZE w a)) * 2 ^ sub1_sh w a
        * (limb_value w (MPFR_MANT b) / 2 ^ (w * (MPFR_LIMB_SIZE w b - MPFR_LIMB_SIZE w a))
          / 2 ^ sub1_sh w a) := by
    rw [h3]; ring
  refine ⟨h1, h2, h4, by rw [h3]; exact Nat.mul_mod_right _ _, fun h => absurd h (by simp), ?_⟩
  rw [hA]
  rcases hin with ⟨hz, hi⟩ | ⟨hnz, hi⟩
  · exact Or.inl ⟨hi, trivial, by omega⟩
  · exact Or.inr (Or.inl ⟨hi, trivial, by omega⟩)

/-- The outcome "one unit added" of `MPFR_RNDRAW_EVEN`. -/
theorem rndraw_out_add (w : Nat) (hw : 0 < w) (a b : mpfr) (ha : 1 ≤ MPFR_PREC a)
    (rnd : mp_rnd_t) (s : Int) (hn : MPFR_LIMB_SIZE w a ≤ MPFR_LIMB_SIZE w b)
    (ao : List Nat) (inex : Int) (carry : Bool) (h1 : ao.length = MPFR_LIMB_SIZE w a)
    (h2 : ∀ x ∈ ao, x < 2 ^ w)
    (h3 : 2 ^ (w * MPFR_LIMB_SIZE w a - 1) ≤ limb_value w ao)
    (h4 : limb_value w ao % 2 ^ sub1_sh w a = 0)
    (h5 : limb_value w ao * 2 ^ (if carry then 1 else 0) = 2 ^ sub1_sh w a
      * (limb_value w (MPFR_MANT b) / 2 ^ (w * (MPFR_LIMB_SIZE w b - MPFR_LIMB_SIZE w a))
          / 2 ^ sub1_sh w a + 1))
    (h6 : carry = false → 2 ^ (w * MPFR_LIMB_SIZE w a - 1) + 2 ^ sub1_sh w a ≤ limb_value w ao)
    (hl : MPFR_IS_LIKE_RNDZ rnd (decide (s < 0)) = false)
    (hin : inex = s ∨ (inex = MPFR_EVEN_INEX * s ∧
      2 * (limb_value w (MPFR_MANT b)
          % (2 ^ (w * (MPFR_LIMB_SIZE w b - MPFR_LIMB_SIZE w a)) * 2 ^ sub1_sh w a))
        = 2 ^ (w * (MPFR_LIMB_SIZE w b - MPFR_LIMB_SIZE w a)) * 2 ^ sub1_sh w a)) :
    rndraw_ok w a b rnd s (ao, inex, carry) := by
  obtain ⟨_, u2, u3, u4⟩ := small_unit_round w hw a b ha hn
  unfold rndraw_ok rndraw_abs
  simp only [u2, u3, u4]
  have hdm := Nat.div_add_mod (limb_value w (MPFR_MANT b))
    (2 ^ (w * (MPFR_LIMB_SIZE w b - MPFR_LIMB_SIZE w a)) * 2 ^ sub1_sh w a)
  have hml := Nat.mod_lt (limb_value w (MPFR_MANT b))
    (show 0 < 2 ^ (w * (MPFR_LIMB_SIZE w b - MPFR_LIMB_SIZE w a)) * 2 ^ sub1_sh w a from
      Nat.mul_pos (Nat.two_pow_pos _) (Nat.two_pow_pos _))
  rw [← Nat.div_div_eq_div_mul] at hdm
  have hA : limb_value w ao * 2 ^ (if carry = true then 1 else 0)
        * 2 ^ (w * (MPFR_LIMB_SIZE w b - MPFR_LIMB_SIZE w a))
      = 2 ^ (w * (MPFR_LIMB_SIZE w b - MPFR_LIMB_SIZE w a)) * 2 ^ sub1_sh w a
        * (limb_value w (MPFR_MANT b) / 2 ^ (w * (MPFR_LIMB_SIZE w b - MPFR_LIMB_SIZE w a))
          / 2 ^ sub1_sh w a) + 2 ^ (w * (MPFR_LIMB_SIZE w b - MPFR_LIMB_SIZE w a)) * 2 ^ sub1_sh w a := by
    rw [h5]; ring
  refine ⟨h1, h2, h3, h4, fun _ => hl, ?_⟩
  rw [hA, pow_add]
  rcases hin with hi | ⟨hi, ht⟩
  · exact Or.inr (Or.inr (Or.inl ⟨hi, by omega⟩))
  · exact Or.inr (Or.inr (Or.inr ⟨hi, by omega, by omega, h6⟩))

/-- The bits of `b` below the precision of the destination, as read by `MPFR_RNDRAW_EVEN`. -/
theorem rndraw_low_eq (w : Nat) (hw : 0 < w) (a b : mpfr) (ha : 1 ≤ MPFR_PREC a)
    (hb : mpfr_regular w b) (hn : MPFR_LIMB_SIZE w a ≤ MPFR_LIMB_SIZE w b) :
    (MPN (MPFR_MANT b) (MPFR_LIMB_SIZE w b - MPFR_LIMB_SIZE w a) (MPFR_LIMB_SIZE w a)).length
      = MPFR_LIMB_SIZE w a ∧
    (∀ x ∈ MPN (MPFR_MANT b) (MPFR_LIMB_SIZE w b - MPFR_LIMB_SIZE w a) (MPFR_LIMB_SIZE w a),
      x < 2 ^ w) ∧
    limb_value w (MPN (MPFR_MANT b) (MPFR_LIMB_SIZE w b - MPFR_LIMB_SIZE w a) (MPFR_LIMB_SIZE w a))
      = limb_value w (MPFR_MANT b) / 2 ^ (w * (MPFR_LIMB_SIZE w b - MPFR_LIMB_SIZE w a)) ∧
    2 ^ (w * MPFR_LIMB_SIZE w a - 1)
      ≤ limb_value w (MPFR_MANT b) / 2 ^ (w * (MPFR_LIMB_SIZE w b - MPFR_LIMB_SIZE w a)) ∧
    limb_value w (MPN (MPFR_MANT b) 0 (MPFR_LIMB_SIZE w b - MPFR_LIMB_SIZE w a)) +
        2 ^ (w * (MPFR_LIMB_SIZE w b - MPFR_LIMB_SIZE w a)) *
          ((MPN (MPFR_MANT b) (MPFR_LIMB_SIZE w b - MPFR_LIMB_SIZE w a) (MPFR_LIMB_SIZE w a)).getD 0 0
            &&& (MPFR_LIMB_ONE <<< sub1_sh w a - 1))
      = limb_value w (MPFR_MANT b)
          % (2 ^ (w * (MPFR_LIMB_SIZE w b - MPFR_LIMB_SIZE w a)) * 2 ^ sub1_sh w a) := by
  have hlt := regular_lt w b hb
  have hge := regular_ge w hw b hb
  obtain ⟨_, _, hpb, hlen, hwf, _, _⟩ := hb
  have han := limb_size_pos w a
  have hsh := (sub1_sh_lt w hw a ha).1
  have hsplit : w * MPFR_LIMB_SIZE w b
      = w * (MPFR_LIMB_SIZE w b - MPFR_LIMB_SIZE w a) + w * MPFR_LIMB_SIZE w a := by
    rw [← Nat.mul_add]; congr 1; omega
  have hwan : w ≤ w * MPFR_LIMB_SIZE w a := Nat.le_mul_of_pos_right _ han
  have hK : 2 ^ (w * MPFR_LIMB_SIZE w b)
      = 2 ^ (w * (MPFR_LIMB_SIZE w b - MPFR_LIMB_SIZE w a)) * 2 ^ (w * MPFR_LIMB_SIZE w a) := by
    rw [← pow_add, ← hsplit]
  have hK1 : 2 ^ (w * MPFR_LIMB_SIZE w b - 1)
      = 2 ^ (w * (MPFR_LIMB_SIZE w b - MPFR_LIMB_SIZE w a)) * 2 ^ (w * MPFR_LIMB_SIZE w a - 1) := by
    rw [← pow_add]; congr 1; omega
  have hK0 : 0 < 2 ^ (w * (MPFR_LIMB_SIZE w b - MPFR_LIMB_SIZE w a)) := Nat.two_pow_pos _
  have hspl : (MPN (MPFR_MANT b) (MPFR_LIMB_SIZE w b - MPFR_LIMB_SIZE w a)
      (MPFR_LIMB_SIZE w a)).length = MPFR_LIMB_SIZE w a := MPN_length _ _ _ (by omega)
  have hspwf := wf_MPN w (MPFR_MANT b) (MPFR_LIMB_SIZE w b - MPFR_LIMB_SIZE w a)
    (MPFR_LIMB_SIZE w a) hwf
  have hS : limb_value w (MPN (MPFR_MANT b) (MPFR_LIMB_SIZE w b - MPFR_LIMB_SIZE w a)
      (MPFR_LIMB_SIZE w a))
      = limb_value w (MPFR_MANT b) / 2 ^ (w * (MPFR_LIMB_SIZE w b - MPFR_LIMB_SIZE w a)) := by
    rw [MPN_value w _ _ _ hwf]
    apply Nat.mod_eq_of_lt
    rw [Nat.div_lt_iff_lt_mul hK0, Nat.mul_comm, ← hK]
    exact hlt
  have hSge : 2 ^ (w * MPFR_LIMB_SIZE w a - 1)
      ≤ limb_value w (MPFR_MANT b) / 2 ^ (w * (MPFR_LIMB_SIZE w b - MPFR_LIMB_SIZE w a)) := by
    rw [Nat.le_div_iff_mul_le hK0, Nat.mul_comm, ← hK1]
    exact hge
  refine ⟨hspl, hspwf, hS, hSge, ?_⟩
  obtain ⟨_, _, _, c4⟩ := clear_low_value w _ (sub1_sh w a) hsh (by rw [hspl]; exact han) hspwf
  rw [c4, hS, MPN_value w _ _ _ hwf, Nat.mod_mul]
  simp only [Nat.mul_zero, pow_zero, Nat.div_one]

/-- The outcome of `MPFR_RNDRAW_EVEN` on the significand of a regular `b`. -/
theorem rndraw_spec (w : Nat) (hw : 0 < w) (a b : mpfr) (ha : 1 ≤ MPFR_PREC a)
    (hb : mpfr_regular w b) (rnd : mp_rnd_t) (s : Int) :
    rndraw_ok w a b rnd s
      (MPFR_RNDRAW_EVEN w (MPFR_PREC a) (MPFR_MANT b) (MPFR_PREC b) rnd s) := by
  have hpb := hb.2.2.1
  unfold MPFR_RNDRAW_EVEN
  simp only []
  rw [limb_size_alt w hw b hpb, limb_size_alt w hw a ha, minus_modulo_eq w hw a ha]
  by_cases hp : MPFR_PREC b ≤ MPFR_PREC a
  · rw [if_pos hp]; exact rndraw_copy_ok w hw a b ha hb rnd s hp
  · rw [if_neg hp]
    have hsh : MPFR_LIMB_SIZE w a * w - MPFR_PREC a = sub1_sh w a := rfl
    rw [hsh]
    have hn := limb_size_mono w a b (by omega)
    obtain ⟨hspl, hspwf, hS, hSge, hlow⟩ := rndraw_low_eq w hw a b ha hb hn
    have han := limb_size_pos w a
    obtain ⟨hshlt, hshp⟩ := sub1_sh_lt w hw a ha
    have hpl := prec_le_limbs w hw b
    rw [← hS] at hSge
    obtain ⟨t1, t2, t3, t4⟩ := rndraw_trunc_value w _ (sub1_sh w a) hw han hshlt _ hspl hspwf hSge
    obtain ⟨a1, a2, a3, a4, a5, a6⟩ := rndraw_add_value w _ (sub1_sh w a) hw han hshlt _ hspl hspwf
      hSge _ _ _ rfl rfl rfl
    rw [← t3] at t4
    rw [hS] at t3 a5
    rw [hlow]
    have hmulw : MPFR_LIMB_SIZE w a * w ≤ MPFR_LIMB_SIZE w b * w := Nat.mul_le_mul_right _ hn
    have e1 : w * (MPFR_LIMB_SIZE w b - MPFR_LIMB_SIZE w a)
        = MPFR_LIMB_SIZE w b * w - MPFR_LIMB_SIZE w a * w := by
      rw [Nat.mul_sub, Nat.mul_comm w, Nat.mul_comm w]
    have hK2 : 2 ^ (w * (MPFR_LIMB_SIZE w b - MPFR_LIMB_SIZE w a)) * 2 ^ sub1_sh w a
        = 2 * 2 ^ (w * (MPFR_LIMB_SIZE w b - MPFR_LIMB_SIZE w a) + sub1_sh w a - 1) := by
      rw [← pow_add, ← pow_succ']
      congr 1
      have := Nat.mul_comm w (MPFR_LIMB_SIZE w a)
      omega
    have hhalf : 0 < 2 ^ (w * (MPFR_LIMB_SIZE w b - MPFR_LIMB_SIZE w a) + sub1_sh w a - 1) :=
      Nat.two_pow_pos _
    have hlowlt := Nat.mod_lt (limb_value w (MPFR_MANT b))
      (show 0 < 2 ^ (w * (MPFR_LIMB_SIZE w b - MPFR_LIMB_SIZE w a)) * 2 ^ sub1_sh w a from
        Nat.mul_pos (Nat.two_pow_pos _) (Nat.two_pow_pos _))
    obtain ⟨low, hlowdef⟩ : ∃ low, limb_value w (MPFR_MANT b)
      % (2 ^ (w * (MPFR_LIMB_SIZE w b - MPFR_LIMB_SIZE w a)) * 2 ^ sub1_sh w a) = low := ⟨_, rfl⟩
    rw [hlowdef] at hlowlt ⊢
    rw [hK2] at hlowlt
    generalize 2 ^ (w * (MPFR_LIMB_SIZE w b - MPFR_LIMB_SIZE w a) + sub1_sh w a - 1) = half
      at hK2 hhalf hlowlt ⊢
    have hdm := Nat.div_add_mod low half
    have hq2 : low / half < 2 := (Nat.div_lt_iff_lt_mul hhalf).mpr (by omega)
    by_cases hN : rnd = GMP_RNDN
    · rw [if_pos hN]
      by_cases hrb : low / half = 0
      · rw [if_pos hrb]
        rw [hrb, Nat.mul_zero, Nat.zero_add] at hdm
        apply rndraw_out_trunc w hw a b ha rnd s hn _ _ t1 t2 t3 t4
        rw [hlowdef]
        by_cases hl0 : low = 0
        · exact Or.inl ⟨hl0, by simp [hl0]⟩
        · exact Or.inr ⟨hl0, Or.inl (by simp [hl0])⟩
      · rw [if_neg hrb]
        have hq1 : low / half = 1 := by
          generalize low / half = q at hq2 hrb
          omega
        rw [hq1, Nat.mul_one] at hdm
        have hlk : MPFR_IS_LIKE_RNDZ rnd (decide (s < 0)) = false := by
          rw [hN]; exact like_rndz_N _
        by_cases hsb : low % half = 0
        · rw [if_pos hsb]
          by_cases hev : (MPN (MPFR_MANT b) (MPFR_LIMB_SIZE w b - MPFR_LIMB_SIZE w a)
              (MPFR_LIMB_SIZE w a)).getD 0 0 &&& MPFR_LIMB_ONE <<< sub1_sh w a = 0
          · rw [if_pos hev]
            apply rndraw_out_trunc w hw a b ha rnd s hn _ _ t1 t2 t3 t4
            rw [hlowdef]
            exact Or.inr ⟨by omega, Or.inr (by ring)⟩
          · rw [if_neg hev]
            apply rndraw_out_add w hw a b ha rnd s hn _ _ _ a1 a2 a3 a4 a5 a6 hlk
            rw [hlowdef, hK2]
            exact Or.inr ⟨rfl, by omega⟩
        · rw [if_neg hsb]
          apply rndraw_out_add w hw a b ha rnd s hn _ _ _ a1 a2 a3 a4 a5 a6 hlk
          exact Or.inl rfl
    · rw [if_neg hN]
      by_cases hz : MPFR_IS_LIKE_RNDZ rnd (decide (s < 0)) = true ∨ low = 0
      · rw [if_pos hz]
        apply rndraw_out_trunc w hw a b ha rnd s hn _ _ t1 t2 t3 t4
        rw [hlowdef]
        by_cases hl0 : low = 0
        · exact Or.inl ⟨hl0, by simp [hl0]⟩
        · exact Or.inr ⟨hl0, Or.inl (by simp [hl0])⟩
      · rw [if_neg hz]
        apply rndraw_out_add w hw a b ha rnd s hn _ _ _ a1 a2 a3 a4 a5 a6
        · cases h : MPFR_IS_LIKE_RNDZ rnd (decide (s < 0))
          · rfl
          · exact absurd (Or.inl h) hz
        · exact Or.inl rfl

/-! ## `mpfr_nexttozero` on a regular number -/

/-- A normalized significand that is a multiple of the unit in the last place and lies within
one unit of the minimal significand is the minimal significand. -/
theorem normalized_min (sh k V : Nat) (hk : sh ≤ k) (hV : 2 ^ k ≤ V) (hm : V % 2 ^ sh = 0)
    (hlt : V - 2 ^ sh < 2 ^ k) : V = 2 ^ k := by
  have hkk : 2 ^ k = 2 ^ sh * 2 ^ (k - sh) := by rw [← pow_add]; congr 1; omega
  obtain ⟨q, hq⟩ := Nat.dvd_of_mod_eq_zero hm
  have hpos : 0 < 2 ^ sh := Nat.two_pow_pos _
  rw [hkk, hq] at hV hlt
  rw [hkk, hq]
  have h1 : 2 ^ (k - sh) ≤ q := Nat.le_of_mul_le_mul_left hV hpos
  have h2 : 2 ^ sh * q < 2 ^ sh * (2 ^ (k - sh) + 1) := by
    rw [Nat.mul_add, Nat.mul_one]; omega
  have h3 := Nat.lt_of_mul_lt_mul_left h2
  have : q = 2 ^ (k - sh) := by omega
  rw [this]

/-- The three outcomes of `mpfr_nexttozero` on a regular number. -/
theorem ntz_regular_cases (env : Env) (x : mpfr) (e : Int) (hw : 0 < env.BITS_PER_MP_LIMB)
    (hp : 1 ≤ MPFR_PREC x) (hx : x._mpfr_exp = regular e)
    (hl : (MPFR_MANT x).length = MPFR_LIMB_SIZE env.BITS_PER_MP_LIMB x)
    (hwf : ∀ l ∈ MPFR_MANT x, l < 2 ^ env.BITS_PER_MP_LIMB)
    (hV : 2 ^ (env.BITS_PER_MP_LIMB * MPFR_LIMB_SIZE env.BITS_PER_MP_LIMB x - 1)
      ≤ limb_value env.BITS_PER_MP_LIMB (MPFR_MANT x))
    (hm : limb_value env.BITS_PER_MP_LIMB (MPFR_MANT x) % 2 ^ sub1_sh env.BITS_PER_MP_LIMB x = 0) :
    (2 ^ (env.BITS_PER_MP_LIMB * MPFR_LIMB_SIZE env.BITS_PER_MP_LIMB x - 1)
        + 2 ^ sub1_sh env.BITS_PER_MP_LIMB x ≤ limb_value env.BITS_PER_MP_LIMB (MPFR_MANT x) ∧
      ∃ xp : List Nat, mpfr_nexttozero env x = { x with _mpfr_d := xp } ∧
        limb_value env.BITS_PER_MP_LIMB xp
          = limb_value env.BITS_PER_MP_LIMB (MPFR_MANT x) - 2 ^ sub1_sh env.BITS_PER_MP_LIMB x) ∨
    (limb_value env.BITS_PER_MP_LIMB (MPFR_MANT x)
        = 2 ^ (env.BITS_PER_MP_LIMB * MPFR_LIMB_SIZE env.BITS_PER_MP_LIMB x - 1) ∧
      ((mpfr_nexttozero env x)._mpfr_exp = MPFR_EXP_ZERO ∨
        mpfr_nexttozero env x = mpfr_setmax env.BITS_PER_MP_LIMB x (e - 1))) := by
  obtain ⟨w, emin, emax⟩ := env
  simp only at hw hl hwf hV hm ⊢
  have hxn := limb_size_pos w x
  obtain ⟨hshlt, hshp⟩ := sub1_sh_lt w hw x hp
  have hwn : w ≤ w * MPFR_LIMB_SIZE w x := Nat.le_mul_of_pos_right _ hxn
  have hshk : sub1_sh w x ≤ w * MPFR_LIMB_SIZE w x - 1 := by omega
  have hle : 2 ^ sub1_sh w x ≤ 2 ^ (w * MPFR_LIMB_SIZE w x - 1) :=
    Nat.pow_le_pow_right (by norm_num) hshk
  have hone : MPFR_LIMB_ONE <<< sub1_sh w x = 2 ^ sub1_sh w x := by
    unfold MPFR_LIMB_ONE; rw [Nat.shiftLeft_eq, Nat.one_mul]
  obtain ⟨s1, s2, s3⟩ := sub_1_value w (MPFR_MANT x) (MPFR_LIMB_SIZE w x) (2 ^ sub1_sh w x) hl hwf
    (by omega)
  have htb := top_bit_test w hw _ (MPFR_LIMB_SIZE w x) hxn s1 s2
  unfold mpfr_nexttozero
  simp only [hx]
  rw [minus_modulo_eq w hw x hp]
  have hsh : MPFR_LIMB_SIZE w x * w - MPFR_PREC x = sub1_sh w x := rfl
  rw [hsh, hone]
  by_cases htop : (mpn_sub_1 w (MPFR_MANT x) (MPFR_LIMB_SIZE w x) (2 ^ sub1_sh w x)).1.getD
      (MPFR_LIMB_SIZE w x - 1) 0 >>> (w - 1) = 0
  · rw [if_pos htop]
    right
    have hlt := htb.mp htop
    rw [s3] at hlt
    refine ⟨normalized_min _ _ _ hshk hV hm hlt, ?_⟩
    by_cases he : e = emin
    · rw [if_pos he]; left; rfl
    · rw [if_neg he]; right; rfl
  · rw [if_neg htop]
    left
    have hge : ¬ limb_value w (mpn_sub_1 w (MPFR_MANT x) (MPFR_LIMB_SIZE w x)
        (2 ^ sub1_sh w x)).1 < 2 ^ (w * MPFR_LIMB_SIZE w x - 1) := fun h => htop (htb.mpr h)
    rw [s3] at hge
    exact ⟨by omega, _, rfl, s3⟩

/-- The unit of the limb array of a number whose exponent field holds `e`. -/
theorem unit_exp_regular (w : Nat) (x : mpfr) (e : Int) (hx : x._mpfr_exp = regular e) :
    MPFR_UNIT_EXP w x = e - ((MPFR_LIMB_SIZE w x * w : Nat) : Int) := by
  unfold MPFR_UNIT_EXP MPFR_GET_EXP
  rw [hx]

/-- A step toward zero that lands below the exact difference.  The hypotheses `hc1` and `hc2`
say that the neighbour toward zero (one unit below, or half a unit below a power of two) is
smaller in magnitude than `|b| - |c|`, over a unit `2 ^ g`. -/
theorem ntz_below (env : Env) (x b c : mpfr) (e s g : Int) (hs : s = 1 ∨ s = -1)
    (hw : 0 < env.BITS_PER_MP_LIMB)
    (hp : 1 ≤ MPFR_PREC x) (hx : x._mpfr_exp = regular e) (hxs : MPFR_SIGN x = s)
    (hl : (MPFR_MANT x).length = MPFR_LIMB_SIZE env.BITS_PER_MP_LIMB x)
    (hwf : ∀ l ∈ MPFR_MANT x, l < 2 ^ env.BITS_PER_MP_LIMB)
    (hV : 2 ^ (env.BITS_PER_MP_LIMB * MPFR_LIMB_SIZE env.BITS_PER_MP_LIMB x - 1)
      ≤ limb_value env.BITS_PER_MP_LIMB (MPFR_MANT x))
    (hm : limb_value env.BITS_PER_MP_LIMB (MPFR_MANT x) % 2 ^ sub1_sh env.BITS_PER_MP_LIMB x = 0)
    (hlt : mpfr_abs_in env.BITS_PER_MP_LIMB c (common_unit env.BITS_PER_MP_LIMB b c)
      < mpfr_abs_in env.BITS_PER_MP_LIMB b (common_unit env.BITS_PER_MP_LIMB b c))
    (hg1 : g ≤ common_unit env.BITS_PER_MP_LIMB b c)
    (hg2 : g ≤ e - 1
      - ((MPFR_LIMB_SIZE env.BITS_PER_MP_LIMB x * env.BITS_PER_MP_LIMB : Nat) : Int))
    (hc1 : 2 ^ (env.BITS_PER_MP_LIMB * MPFR_LIMB_SIZE env.BITS_PER_MP_LIMB x - 1)
        + 2 ^ sub1_sh env.BITS_PER_MP_LIMB x ≤ limb_value env.BITS_PER_MP_LIMB (MPFR_MANT x) →
      (limb_value env.BITS_PER_MP_LIMB (MPFR_MANT x) - 2 ^ sub1_sh env.BITS_PER_MP_LIMB x)
          * 2 ^ (e - ((MPFR_LIMB_SIZE env.BITS_PER_MP_LIMB x * env.BITS_PER_MP_LIMB : Nat) : Int)
            - g).toNat
        + mpfr_abs_in env.BITS_PER_MP_LIMB c g < mpfr_abs_in env.BITS_PER_MP_LIMB b g)
    (hc2 : limb_value env.BITS_PER_MP_LIMB (MPFR_MANT x)
        = 2 ^ (env.BITS_PER_MP_LIMB * MPFR_LIMB_SIZE env.BITS_PER_MP_LIMB x - 1) →
      (2 ^ (env.BITS_PER_MP_LIMB * MPFR_LIMB_SIZE env.BITS_PER_MP_LIMB x)
          - 2 ^ sub1_sh env.BITS_PER_MP_LIMB x)
          * 2 ^ (e - 1
            - ((MPFR_LIMB_SIZE env.BITS_PER_MP_LIMB x * env.BITS_PER_MP_LIMB : Nat) : Int)
            - g).toNat
        + mpfr_abs_in env.BITS_PER_MP_LIMB c g < mpfr_abs_in env.BITS_PER_MP_LIMB b g) :
    sign_dest_minus env.BITS_PER_MP_LIMB s b c (mpfr_nexttozero env x) = - s ∧
    MPFR_INT_SIGN (mpfr_nexttozero env x) = s := by
  have hint : ∀ y : mpfr, MPFR_SIGN y = s → MPFR_INT_SIGN y = s := by
    intro y hy
    unfold MPFR_INT_SIGN
    rw [hy]
    rcases hs with h | h <;> rw [h] <;> simp
  rcases ntz_regular_cases env x e hw hp hx hl hwf hV hm with ⟨h1, xp, h2, h3⟩ | ⟨h1, h2 | h2⟩
  · -- one unit below
    rw [h2]
    refine ⟨?_, hint _ hxs⟩
    have hu := unit_exp_regular env.BITS_PER_MP_LIMB { x with _mpfr_d := xp } e hx
    rw [sdm_regular env.BITS_PER_MP_LIMB s b c { x with _mpfr_d := xp } e g hs hx hxs hg1
      (by rw [hu]; exact le_trans hg2 (by
        show e - 1 - _ ≤ e - _
        have : MPFR_LIMB_SIZE env.BITS_PER_MP_LIMB { x with _mpfr_d := xp }
          = MPFR_LIMB_SIZE env.BITS_PER_MP_LIMB x := rfl
        rw [this]; omega))]
    have hA : mpfr_abs_in env.BITS_PER_MP_LIMB { x with _mpfr_d := xp } g
        = (limb_value env.BITS_PER_MP_LIMB (MPFR_MANT x) - 2 ^ sub1_sh env.BITS_PER_MP_LIMB x)
          * 2 ^ (e - ((MPFR_LIMB_SIZE env.BITS_PER_MP_LIMB x * env.BITS_PER_MP_LIMB : Nat) : Int)
            - g).toNat := by
      unfold mpfr_abs_in
      rw [hu, ← h3]
      rfl
    rw [hA]
    have := hc1 h1
    rw [int_sign_of_neg _ (by omega)]
    ring
  · -- zero
    have hsg : MPFR_SIGN (mpfr_nexttozero env x) = s := by
      rcases ntz_regular_cases env x e hw hp hx hl hwf hV hm with ⟨_, xp, k2, _⟩ | ⟨_, _⟩
      · rw [k2]; exact hxs
      · unfold mpfr_nexttozero
        simp only [hx]
        split
        · split
          · exact hxs
          · exact hxs
        · exact hxs
    exact ⟨sdm_zero _ s b c _ hs h2 hlt, hint _ hsg⟩
  · -- the largest significand of the exponent below
    rw [h2]
    have hsx : MPFR_SIGN (mpfr_setmax env.BITS_PER_MP_LIMB x (e - 1)) = s := hxs
    refine ⟨?_, hint _ hsx⟩
    have hu := unit_exp_regular env.BITS_PER_MP_LIMB (mpfr_setmax env.BITS_PER_MP_LIMB x (e - 1))
      (e - 1) rfl
    have hsz : MPFR_LIMB_SIZE env.BITS_PER_MP_LIMB (mpfr_setmax env.BITS_PER_MP_LIMB x (e - 1))
        = MPFR_LIMB_SIZE env.BITS_PER_MP_LIMB x := rfl
    rw [hsz] at hu
    rw [sdm_regular env.BITS_PER_MP_LIMB s b c (mpfr_setmax env.BITS_PER_MP_LIMB x (e - 1))
      (e - 1) g hs rfl hsx hg1 (by rw [hu]; exact hg2)]
    have hA : mpfr_abs_in env.BITS_PER_MP_LIMB (mpfr_setmax env.BITS_PER_MP_LIMB x (e - 1)) g
        = (2 ^ (env.BITS_PER_MP_LIMB * MPFR_LIMB_SIZE env.BITS_PER_MP_LIMB x)
            - 2 ^ sub1_sh env.BITS_PER_MP_LIMB x)
          * 2 ^ (e - 1
            - ((MPFR_LIMB_SIZE env.BITS_PER_MP_LIMB x * env.BITS_PER_MP_LIMB : Nat) : Int)
            - g).toNat := by
      unfold mpfr_abs_in
      rw [hu]
      have := setmax_value env.BITS_PER_MP_LIMB hw x hp (e - 1)
      unfold MPFR_MANT
      rw [this]
      rfl
    rw [hA]
    have := hc2 h1
    rw [int_sign_of_neg _ (by omega)]
    ring

/-! ## The fast path: the ternary value -/

theorem multiples_gap (mu x y c : Nat) (hx : mu ∣ x) (hy : mu ∣ y) (hc : c < mu) (h : x < y) :
    x + c < y := by
  obtain ⟨x1, rfl⟩ := hx
  obtain ⟨y1, rfl⟩ := hy
  have h1 : x1 < y1 := Nat.lt_of_mul_lt_mul_left h
  have h2 : mu * (x1 + 1) ≤ mu * y1 := Nat.mul_le_mul_left _ h1
  rw [Nat.mul_add, Nat.mul_one] at h2
  omega

/-- On the fast path `|c|` is less than a quarter of the unit in the last place of the
destination at the exponent of `b`, and less than the distance between two numbers of the
precisions of `a` and `b`. -/
theorem fast_c_bound (w : Nat) (hw : 0 < w) (a b c : mpfr) (ha : 1 ≤ MPFR_PREC a)
    (hb : mpfr_regular w b) (hc : mpfr_regular w c)
    (hfast : MPFR_GET_EXP c
      ≤ MPFR_GET_EXP b - ((max (MPFR_PREC a) (MPFR_PREC b) : Nat) : Int) - 2)
    (g : Int) (hg1 : g ≤ common_unit w b c)
    (hg2 : g ≤ MPFR_GET_EXP b - ((MPFR_LIMB_SIZE w a * w : Nat) : Int)) :
    0 < mpfr_abs_in w c g ∧
    4 * mpfr_abs_in w c g
      < 2 ^ sub1_sh w a
        * 2 ^ (MPFR_GET_EXP b - ((MPFR_LIMB_SIZE w a * w : Nat) : Int) - g).toNat ∧
    (∀ V K : Nat, V % 2 ^ sub1_sh w a = 0 →
      V * K * 2 ^ (MPFR_GET_EXP b - ((MPFR_LIMB_SIZE w a * w : Nat) : Int) - g).toNat
        < mpfr_abs_in w b g →
      V * K * 2 ^ (MPFR_GET_EXP b - ((MPFR_LIMB_SIZE w a * w : Nat) : Int) - g).toNat
        + mpfr_abs_in w c g < mpfr_abs_in w b g) := by
  have hgb : common_unit w b c ≤ MPFR_UNIT_EXP w b := by unfold common_unit; exact min_le_left _ _
  have hgc : common_unit w b c ≤ MPFR_UNIT_EXP w c := by unfold common_unit; exact min_le_right _ _
  have hCpos := abs_in_pos w hw c hc g
  have hClt := abs_in_lt w c hc g (by omega)
  have hBd := abs_in_dvd w hw b hb g (by omega)
  obtain ⟨hshlt, hshp⟩ := sub1_sh_lt w hw a ha
  have hplc := prec_le_limbs w hw c
  have hpla := prec_le_limbs w hw a
  have hpc : 1 ≤ MPFR_PREC c := hc.2.2.1
  have huc : MPFR_UNIT_EXP w c = MPFR_GET_EXP c - ((MPFR_LIMB_SIZE w c * w : Nat) : Int) := rfl
  have hcomm := Nat.mul_comm w (MPFR_LIMB_SIZE w a)
  have hmax1 := le_max_left (MPFR_PREC a) (MPFR_PREC b)
  have hmax2 := le_max_right (MPFR_PREC a) (MPFR_PREC b)
  generalize max (MPFR_PREC a) (MPFR_PREC b) = M at hfast hmax1 hmax2
  obtain ⟨E, hE⟩ : ∃ E : Nat, (E : Int) = MPFR_GET_EXP b - g := ⟨(MPFR_GET_EXP b - g).toNat, by omega⟩
  have hE1 : (MPFR_GET_EXP b - g).toNat = E := by omega
  have hE2 : (MPFR_GET_EXP b - ((MPFR_LIMB_SIZE w a * w : Nat) : Int) - g).toNat
      = E - MPFR_LIMB_SIZE w a * w := by omega
  have hE3 : (MPFR_GET_EXP c - g).toNat ≤ E - M - 2 := by omega
  have hEM : M + 3 ≤ E := by omega
  rw [hE1] at hBd
  rw [hE2]
  have hC2 : mpfr_abs_in w c g < 2 ^ (E - M - 2) :=
    lt_of_lt_of_le hClt (Nat.pow_le_pow_right (by norm_num) hE3)
  have hQ : 2 ^ sub1_sh w a * 2 ^ (E - MPFR_LIMB_SIZE w a * w) = 2 ^ (E - MPFR_PREC a) := by
    rw [← pow_add]; congr 1; omega
  have hmu : 2 ^ (E - M) = 4 * 2 ^ (E - M - 2) := by
    obtain ⟨k, hk⟩ : ∃ k, E - M = k + 2 := ⟨E - M - 2, by omega⟩
    have hk2 : E - M - 2 = k := by omega
    rw [hk2, hk, pow_add]; ring
  have hmule : 2 ^ (E - M) ≤ 2 ^ (E - MPFR_PREC a) :=
    Nat.pow_le_pow_right (by norm_num) (by omega)
  refine ⟨hCpos, by rw [hQ]; omega, ?_⟩
  intro V K hV hlt
  apply multiples_gap (2 ^ (E - M)) _ _ _ _ _ (by omega) hlt
  · have h1 : 2 ^ (E - M) ∣ 2 ^ (E - MPFR_PREC a) := pow_dvd_pow 2 (by omega)
    obtain ⟨v, hv⟩ := Nat.dvd_of_mod_eq_zero hV
    rw [hv]
    have : 2 ^ sub1_sh w a * v * K * 2 ^ (E - MPFR_LIMB_SIZE w a * w)
        = 2 ^ sub1_sh w a * 2 ^ (E - MPFR_LIMB_SIZE w a * w) * (v * K) := by ring
    rw [this, hQ]
    exact Dvd.dvd.mul_right h1 _
  · exact Dvd.dvd.trans (pow_dvd_pow 2 (by omega)) hBd

/-- The outcome of `MPFR_RNDRAW_EVEN` against `|b|`, over a finer unit `2 ^ g`. -/
theorem rndraw_scaled (w : Nat) (hw : 0 < w) (a b : mpfr) (rnd : mp_rnd_t) (s : Int)
    (R : List Nat × Int × Bool) (g : Int) (hg : g ≤ sub1_small_unit w a b)
    (h : rndraw_ok w a b rnd s R) :
    (R.2.1 = 0 ∧ R.2.2 = false ∧
      limb_value w R.1 * 2 ^ (if R.2.2 then 1 else 0)
          * 2 ^ (MPFR_GET_EXP b - ((MPFR_LIMB_SIZE w a * w : Nat) : Int) - g).toNat
        = mpfr_abs_in w b g) ∨
    ((R.2.1 = - s ∨ R.2.1 = - (MPFR_EVEN_INEX * s)) ∧ R.2.2 = false ∧
      limb_value w R.1 * 2 ^ (if R.2.2 then 1 else 0)
          * 2 ^ (MPFR_GET_EXP b - ((MPFR_LIMB_SIZE w a * w : Nat) : Int) - g).toNat
        < mpfr_abs_in w b g) ∨
    (R.2.1 = s ∧
      mpfr_abs_in w b g < limb_value w R.1 * 2 ^ (if R.2.2 then 1 else 0)
          * 2 ^ (MPFR_GET_EXP b - ((MPFR_LIMB_SIZE w a * w : Nat) : Int) - g).toNat) ∨
    (R.2.1 = MPFR_EVEN_INEX * s ∧
      mpfr_abs_in w b g < limb_value w R.1 * 2 ^ (if R.2.2 then 1 else 0)
          * 2 ^ (MPFR_GET_EXP b - ((MPFR_LIMB_SIZE w a * w : Nat) : Int) - g).toNat ∧
      2 * (limb_value w R.1 * 2 ^ (if R.2.2 then 1 else 0)
          * 2 ^ (MPFR_GET_EXP b - ((MPFR_LIMB_SIZE w a * w : Nat) : Int) - g).toNat
          - mpfr_abs_in w b g)
        = 2 ^ sub1_sh w a
          * 2 ^ (MPFR_GET_EXP b - ((MPFR_LIMB_SIZE w a * w : Nat) : Int) - g).toNat ∧
      (R.2.2 = false →
        2 ^ (w * MPFR_LIMB_SIZE w a - 1) + 2 ^ sub1_sh w a ≤ limb_value w R.1)) := by
  have hu1 : sub1_small_unit w a b ≤ MPFR_UNIT_EXP w b := by
    unfold sub1_small_unit; exact min_le_left _ _
  have hu2 : sub1_small_unit w a b
      ≤ MPFR_GET_EXP b - ((MPFR_LIMB_SIZE w a * w : Nat) : Int) := by
    unfold sub1_small_unit; exact min_le_right _ _
  have hpla := prec_le_limbs w hw a
  have hsh : sub1_sh w a = MPFR_LIMB_SIZE w a * w - MPFR_PREC a := rfl
  have hB := abs_in_scale w b (sub1_small_unit w a b) g hg hu1
  have hdpos : 0 < 2 ^ (sub1_small_unit w a b - g).toNat := Nat.two_pow_pos _
  have hP : 2 ^ (MPFR_GET_EXP b - ((MPFR_LIMB_SIZE w a * w : Nat) : Int) - g).toNat
      = 2 ^ (MPFR_GET_EXP b - ((MPFR_LIMB_SIZE w a * w : Nat) : Int)
          - sub1_small_unit w a b).toNat * 2 ^ (sub1_small_unit w a b - g).toNat := by
    rw [← pow_add]; congr 1; omega
  have hK : 2 ^ sub1_sh w a
        * 2 ^ (MPFR_GET_EXP b - ((MPFR_LIMB_SIZE w a * w : Nat) : Int) - g).toNat
      = 2 ^ (MPFR_GET_EXP b - (MPFR_PREC a : Int) - sub1_small_unit w a b).toNat
        * 2 ^ (sub1_small_unit w a b - g).toNat := by
    rw [← pow_add, ← pow_add]; congr 1; omega
  have hA : limb_value w R.1 * 2 ^ (if R.2.2 then 1 else 0)
        * 2 ^ (MPFR_GET_EXP b - ((MPFR_LIMB_SIZE w a * w : Nat) : Int) - g).toNat
      = rndraw_abs w a b R * 2 ^ (sub1_small_unit w a b - g).toNat := by
    unfold rndraw_abs; rw [hP]; ring
  rw [hA, hB, hK]
  obtain ⟨_, _, _, _, _, h6⟩ := h
  generalize 2 ^ (sub1_small_unit w a b - g).toNat = d at hdpos
  rcases h6 with ⟨h1, h2, h3⟩ | ⟨h1, h2, h3⟩ | ⟨h1, h3⟩ | ⟨h1, h3, h4, h5⟩
  · exact Or.inl ⟨h1, h2, by rw [h3]⟩
  · exact Or.inr (Or.inl ⟨h1, h2, Nat.mul_lt_mul_of_pos_right h3 hdpos⟩)
  · exact Or.inr (Or.inr (Or.inl ⟨h1, Nat.mul_lt_mul_of_pos_right h3 hdpos⟩))
  · refine Or.inr (Or.inr (Or.inr ⟨h1, Nat.mul_lt_mul_of_pos_right h3 hdpos, ?_, h5⟩))
    rw [← h4, ← Nat.sub_mul]; ring

/-- The sign of `destination - exact` for the rounding of `b` alone, `k` exponents above
`EXP (b)`. -/
theorem sdm_small (w : Nat) (s : Int) (a b c : mpfr) (L : List Nat) (k : Nat) (e g : Int)
    (hs : s = 1 ∨ s = -1) (has : MPFR_SIGN a = s) (he : e = MPFR_GET_EXP b + (k : Int))
    (hg1 : g ≤ common_unit w b c)
    (hg2 : g ≤ MPFR_GET_EXP b - ((MPFR_LIMB_SIZE w a * w : Nat) : Int)) :
    sign_dest_minus w s b c { a with _mpfr_exp := regular e, _mpfr_d := L }
      = s * int_sign (((limb_value w L * 2 ^ k
            * 2 ^ (MPFR_GET_EXP b - ((MPFR_LIMB_SIZE w a * w : Nat) : Int) - g).toNat : Nat) : Int)
          - ((mpfr_abs_in w b g : Int) - (mpfr_abs_in w c g : Int))) := by
  have hu := unit_exp_regular w { a with _mpfr_exp := regular e, _mpfr_d := L } e rfl
  have hsz : MPFR_LIMB_SIZE w { a with _mpfr_exp := regular e, _mpfr_d := L }
      = MPFR_LIMB_SIZE w a := rfl
  rw [hsz] at hu
  rw [sdm_regular w s b c { a with _mpfr_exp := regular e, _mpfr_d := L } e g hs rfl has hg1
    (by rw [hu]; omega)]
  have hA : mpfr_abs_in w { a with _mpfr_exp := regular e, _mpfr_d := L } g
      = limb_value w L * 2 ^ k
        * 2 ^ (MPFR_GET_EXP b - ((MPFR_LIMB_SIZE w a * w : Nat) : Int) - g).toNat := by
    unfold mpfr_abs_in
    rw [hu, Nat.mul_assoc, ← pow_add]
    have : (e - ((MPFR_LIMB_SIZE w a * w : Nat) : Int) - g).toNat
        = k + (MPFR_GET_EXP b - ((MPFR_LIMB_SIZE w a * w : Nat) : Int) - g).toNat := by omega
    rw [this]
    rfl
  rw [hA]

/-- The step toward zero of lines 111 and 136 lands below the exact difference: after an exact
rounding of `b` (`k = 0`), or after a tie rounded away. -/
theorem small_ntz (env : Env) (a b c : mpfr) (L : List Nat) (k : Nat) (e s g : Int)
    (hs : s = 1 ∨ s = -1) (hw : 0 < env.BITS_PER_MP_LIMB) (ha : 1 ≤ MPFR_PREC a)
    (has : MPFR_SIGN a = s) (he : e = MPFR_GET_EXP b + (k : Int)) (hk : k ≤ 1)
    (hL1 : L.length = MPFR_LIMB_SIZE env.BITS_PER_MP_LIMB a)
    (hL2 : ∀ l ∈ L, l < 2 ^ env.BITS_PER_MP_LIMB)
    (hL3 : 2 ^ (env.BITS_PER_MP_LIMB * MPFR_LIMB_SIZE env.BITS_PER_MP_LIMB a - 1)
      ≤ limb_value env.BITS_PER_MP_LIMB L)
    (hL4 : limb_value env.BITS_PER_MP_LIMB L % 2 ^ sub1_sh env.BITS_PER_MP_LIMB a = 0)
    (hlt : mpfr_abs_in env.BITS_PER_MP_LIMB c (common_unit env.BITS_PER_MP_LIMB b c)
      < mpfr_abs_in env.BITS_PER_MP_LIMB b (common_unit env.BITS_PER_MP_LIMB b c))
    (hg1 : g ≤ common_unit env.BITS_PER_MP_LIMB b c)
    (hg2 : g ≤ MPFR_GET_EXP b
      - ((MPFR_LIMB_SIZE env.BITS_PER_MP_LIMB a * env.BITS_PER_MP_LIMB : Nat) : Int) - 1)
    (hC : 4 * mpfr_abs_in env.BITS_PER_MP_LIMB c g
      < 2 ^ sub1_sh env.BITS_PER_MP_LIMB a
        * 2 ^ (MPFR_GET_EXP b
          - ((MPFR_LIMB_SIZE env.BITS_PER_MP_LIMB a * env.BITS_PER_MP_LIMB : Nat) : Int)
          - g).toNat)
    (hB : (limb_value env.BITS_PER_MP_LIMB L * 2 ^ k
          * 2 ^ (MPFR_GET_EXP b
            - ((MPFR_LIMB_SIZE env.BITS_PER_MP_LIMB a * env.BITS_PER_MP_LIMB : Nat) : Int)
            - g).toNat = mpfr_abs_in env.BITS_PER_MP_LIMB b g ∧ k = 0) ∨
      (mpfr_abs_in env.BITS_PER_MP_LIMB b g < limb_value env.BITS_PER_MP_LIMB L * 2 ^ k
          * 2 ^ (MPFR_GET_EXP b
            - ((MPFR_LIMB_SIZE env.BITS_PER_MP_LIMB a * env.BITS_PER_MP_LIMB : Nat) : Int)
            - g).toNat ∧
        2 * (limb_value env.BITS_PER_MP_LIMB L * 2 ^ k
          * 2 ^ (MPFR_GET_EXP b
            - ((MPFR_LIMB_SIZE env.BITS_PER_MP_LIMB a * env.BITS_PER_MP_LIMB : Nat) : Int)
            - g).toNat - mpfr_abs_in env.BITS_PER_MP_LIMB b g)
          = 2 ^ sub1_sh env.BITS_PER_MP_LIMB a
            * 2 ^ (MPFR_GET_EXP b
              - ((MPFR_LIMB_SIZE env.BITS_PER_MP_LIMB a * env.BITS_PER_MP_LIMB : Nat) : Int)
              - g).toNat ∧
        (k = 0 → 2 ^ (env.BITS_PER_MP_LIMB * MPFR_LIMB_SIZE env.BITS_PER_MP_LIMB a - 1)
          + 2 ^ sub1_sh env.BITS_PER_MP_LIMB a ≤ limb_value env.BITS_PER_MP_LIMB L))) :
    sign_dest_minus env.BITS_PER_MP_LIMB s b c
        (mpfr_nexttozero env { a with _mpfr_exp := regular e, _mpfr_d := L }) = - s ∧
    MPFR_INT_SIGN (mpfr_nexttozero env { a with _mpfr_exp := regular e, _mpfr_d := L }) = s := by
  obtain ⟨w, emin, emax⟩ := env
  simp only at hw hL1 hL2 hL3 hL4 hlt hg1 hg2 hC hB ⊢
  have han := limb_size_pos w a
  obtain ⟨hshlt, hshp⟩ := sub1_sh_lt w hw a ha
  have hwan : w ≤ w * MPFR_LIMB_SIZE w a := Nat.le_mul_of_pos_right _ han
  have hule : 2 ^ sub1_sh w a ≤ 2 ^ (w * MPFR_LIMB_SIZE w a - 1) :=
    Nat.pow_le_pow_right (by norm_num) (by omega)
  have hT : 2 ^ (w * MPFR_LIMB_SIZE w a) = 2 * 2 ^ (w * MPFR_LIMB_SIZE w a - 1) := by
    rw [← pow_succ']; congr 1; omega
  have hE1 : (e - ((MPFR_LIMB_SIZE w a * w : Nat) : Int) - g).toNat
      = k + (MPFR_GET_EXP b - ((MPFR_LIMB_SIZE w a * w : Nat) : Int) - g).toNat := by omega
  have hE2 : k + (MPFR_GET_EXP b - ((MPFR_LIMB_SIZE w a * w : Nat) : Int) - g).toNat
      = (e - 1 - ((MPFR_LIMB_SIZE w a * w : Nat) : Int) - g).toNat + 1 := by omega
  have hP2 : 2 ^ k * 2 ^ (MPFR_GET_EXP b - ((MPFR_LIMB_SIZE w a * w : Nat) : Int) - g).toNat
      = 2 * 2 ^ (e - 1 - ((MPFR_LIMB_SIZE w a * w : Nat) : Int) - g).toNat := by
    rw [← pow_add, hE2, pow_succ']
  have hk2 : 2 ^ k = 1 ∨ 2 ^ k = 2 := by
    rcases (show k = 0 ∨ k = 1 by omega) with h | h <;> rw [h] <;> simp
  refine ntz_below ⟨w, emin, emax⟩ { a with _mpfr_exp := regular e, _mpfr_d := L } b c e s g hs
    hw ha rfl has hL1 hL2 hL3 hL4 hlt hg1 ?_ ?_ ?_
  · show g ≤ e - 1 - ((MPFR_LIMB_SIZE w a * w : Nat) : Int)
    omega
  · show 2 ^ (w * MPFR_LIMB_SIZE w a - 1) + 2 ^ sub1_sh w a ≤ limb_value w L →
      (limb_value w L - 2 ^ sub1_sh w a)
          * 2 ^ (e - ((MPFR_LIMB_SIZE w a * w : Nat) : Int) - g).toNat
        + mpfr_abs_in w c g < mpfr_abs_in w b g
    intro hV
    rw [hE1, pow_add]
    obtain ⟨d, hd⟩ : ∃ d, limb_value w L = d + 2 ^ sub1_sh w a :=
      ⟨limb_value w L - 2 ^ sub1_sh w a, by omega⟩
    rw [hd] at hB
    rw [hd, Nat.add_sub_cancel]
    have hX : (d + 2 ^ sub1_sh w a) * 2 ^ k
          * 2 ^ (MPFR_GET_EXP b - ((MPFR_LIMB_SIZE w a * w : Nat) : Int) - g).toNat
        = d * (2 ^ k * 2 ^ (MPFR_GET_EXP b - ((MPFR_LIMB_SIZE w a * w : Nat) : Int) - g).toNat)
          + 2 ^ sub1_sh w a
            * 2 ^ (MPFR_GET_EXP b - ((MPFR_LIMB_SIZE w a * w : Nat) : Int) - g).toNat * 2 ^ k := by
      ring
    rw [hX] at hB
    generalize 2 ^ sub1_sh w a
      * 2 ^ (MPFR_GET_EXP b - ((MPFR_LIMB_SIZE w a * w : Nat) : Int) - g).toNat = Q at hC hB ⊢
    generalize d * (2 ^ k
      * 2 ^ (MPFR_GET_EXP b - ((MPFR_LIMB_SIZE w a * w : Nat) : Int) - g).toNat) = X at hB ⊢
    rcases hk2 with h2 | h2 <;> rw [h2] at hB <;> omega
  · show limb_value w L = 2 ^ (w * MPFR_LIMB_SIZE w a - 1) →
      (2 ^ (w * MPFR_LIMB_SIZE w a) - 2 ^ sub1_sh w a)
          * 2 ^ (e - 1 - ((MPFR_LIMB_SIZE w a * w : Nat) : Int) - g).toNat
        + mpfr_abs_in w c g < mpfr_abs_in w b g
    intro hV
    rw [hV] at hB
    have hY : 2 * ((2 ^ (w * MPFR_LIMB_SIZE w a) - 2 ^ sub1_sh w a)
          * 2 ^ (e - 1 - ((MPFR_LIMB_SIZE w a * w : Nat) : Int) - g).toNat)
        + 2 ^ sub1_sh w a
            * 2 ^ (MPFR_GET_EXP b - ((MPFR_LIMB_SIZE w a * w : Nat) : Int) - g).toNat * 2 ^ k
        = 2 * (2 ^ (w * MPFR_LIMB_SIZE w a - 1) * 2 ^ k
          * 2 ^ (MPFR_GET_EXP b - ((MPFR_LIMB_SIZE w a * w : Nat) : Int) - g).toNat) := by
      obtain ⟨d, hd⟩ : ∃ d, 2 ^ (w * MPFR_LIMB_SIZE w a) = d + 2 ^ sub1_sh w a :=
        ⟨2 ^ (w * MPFR_LIMB_SIZE w a) - 2 ^ sub1_sh w a, by omega⟩
      have hH : 2 ^ (w * MPFR_LIMB_SIZE w a - 1) * 2 = d + 2 ^ sub1_sh w a := by omega
      rw [hd, Nat.add_sub_cancel]
      calc 2 * (d * 2 ^ (e - 1 - ((MPFR_LIMB_SIZE w a * w : Nat) : Int) - g).toNat)
            + 2 ^ sub1_sh w a
              * 2 ^ (MPFR_GET_EXP b - ((MPFR_LIMB_SIZE w a * w : Nat) : Int) - g).toNat * 2 ^ k
          = (d + 2 ^ sub1_sh w a)
              * (2 ^ k * 2 ^ (MPFR_GET_EXP b
                - ((MPFR_LIMB_SIZE w a * w : Nat) : Int) - g).toNat) := by
            rw [Nat.mul_assoc (2 ^ sub1_sh w a), Nat.mul_comm _ (2 ^ k), hP2]; ring
        _ = _ := by rw [← hH]; ring
    have hupos := Nat.two_pow_pos (sub1_sh w a)
    generalize (2 ^ (w * MPFR_LIMB_SIZE w a) - 2 ^ sub1_sh w a)
      * 2 ^ (e - 1 - ((MPFR_LIMB_SIZE w a * w : Nat) : Int) - g).toNat = Y at hY ⊢
    generalize 2 ^ sub1_sh w a
      * 2 ^ (MPFR_GET_EXP b - ((MPFR_LIMB_SIZE w a * w : Nat) : Int) - g).toNat = Q at hC hB hY ⊢
    generalize 2 ^ (w * MPFR_LIMB_SIZE w a - 1) * 2 ^ k
      * 2 ^ (MPFR_GET_EXP b - ((MPFR_LIMB_SIZE w a * w : Nat) : Int) - g).toNat = A at hB hY ⊢
    rcases hB with ⟨h1, h2⟩ | ⟨h1, h2, h3⟩
    · rw [h2] at hY
      simp only [pow_zero, Nat.mul_one] at hY
      omega
    · rcases (show k = 0 ∨ k = 1 by omega) with h | h
      · have := h3 h
        omega
      · rw [h] at hY
        simp only [pow_one] at hY
        omega

/-! ## The correction of lines 101-141 -/

theorem int_sign_macro (x : mpfr) : MPFR_INT_SIGN x = 1 ∨ MPFR_INT_SIGN x = -1 := by
  unfold MPFR_INT_SIGN
  split
  · right; rfl
  · left; rfl

theorem adjust_pass (env : Env) (x : mpfr) (inex : Int) (rnd : mp_rnd_t)
    (h : inex = 1 ∨ inex = -1 ∨ inex = - (MPFR_EVEN_INEX * MPFR_INT_SIGN x)) :
    sub1_small_adjust env x inex rnd = (x, inex) := by
  have hi := int_sign_macro x
  unfold sub1_small_adjust
  have h0 : inex ≠ 0 := by
    unfold MPFR_EVEN_INEX at h; omega
  have h2 : inex ≠ MPFR_EVEN_INEX * MPFR_INT_SIGN x := by
    unfold MPFR_EVEN_INEX at h ⊢; omega
  rw [if_neg h0, if_neg h2]

theorem adjust_overflow (env : Env) (x : mpfr) (rnd : mp_rnd_t) (s : Int) :
    sub1_small_adjust env (mpfr_overflow env x rnd s).1 (mpfr_overflow env x rnd s).2 rnd
      = mpfr_overflow env x rnd s := by
  apply adjust_pass
  unfold mpfr_overflow
  split <;> split <;> simp

theorem adjust_even (env : Env) (x : mpfr) (rnd : mp_rnd_t) :
    sub1_small_adjust env x (MPFR_EVEN_INEX * MPFR_INT_SIGN x) rnd
      = (mpfr_nexttozero env x, - MPFR_INT_SIGN (mpfr_nexttozero env x)) := by
  have hi := int_sign_macro x
  unfold sub1_small_adjust
  have h0 : MPFR_EVEN_INEX * MPFR_INT_SIGN x ≠ 0 := by
    unfold MPFR_EVEN_INEX; omega
  rw [if_neg h0, if_pos rfl]

theorem adjust_zero (env : Env) (x : mpfr) (rnd : mp_rnd_t) :
    sub1_small_adjust env x 0 rnd
      = if MPFR_IS_LIKE_RNDZ rnd (MPFR_IS_NEG x) then
          (mpfr_nexttozero env x, - MPFR_INT_SIGN (mpfr_nexttozero env x))
        else (x, MPFR_INT_SIGN x) := by
  unfold sub1_small_adjust
  rw [if_pos rfl]

/-- Lines 83-142: on the fast path the ternary value has the sign of `destination - exact`. -/
theorem sub1_small_ternary (env : Env) (a b c : mpfr) (rnd : mp_rnd_t)
    (hw : limb_width_ok env.BITS_PER_MP_LIMB) (ha : 1 ≤ MPFR_PREC a)
    (hs : MPFR_SIGN a = 1 ∨ MPFR_SIGN a = -1)
    (hb : mpfr_regular env.BITS_PER_MP_LIMB b) (hc : mpfr_regular env.BITS_PER_MP_LIMB c)
    (hlt : mpfr_abs_in env.BITS_PER_MP_LIMB c (common_unit env.BITS_PER_MP_LIMB b c)
      < mpfr_abs_in env.BITS_PER_MP_LIMB b (common_unit env.BITS_PER_MP_LIMB b c))
    (hfast : MPFR_GET_EXP c
      ≤ MPFR_GET_EXP b - ((max (MPFR_PREC a) (MPFR_PREC b) : Nat) : Int) - 2) :
    int_sign (sub1_small env a b rnd).2
      = sign_dest_minus env.BITS_PER_MP_LIMB (MPFR_SIGN a) b c (sub1_small env a b rnd).1 := by
  obtain ⟨w, emin, emax⟩ := env
  simp only at hw hb hc hlt ⊢
  have hR := rndraw_spec w hw.1 a b ha hb rnd (MPFR_SIGN a)
  have hu2 : sub1_small_unit w a b
      ≤ MPFR_GET_EXP b - ((MPFR_LIMB_SIZE w a * w : Nat) : Int) := by
    unfold sub1_small_unit; exact min_le_right _ _
  obtain ⟨g, hgd⟩ : ∃ g, g = min (common_unit w b c) (sub1_small_unit w a b - 1) := ⟨_, rfl⟩
  have hg1 : g ≤ common_unit w b c := by rw [hgd]; exact min_le_left _ _
  have hg3 : g ≤ sub1_small_unit w a b - 1 := by rw [hgd]; exact min_le_right _ _
  have hg2 : g ≤ MPFR_GET_EXP b - ((MPFR_LIMB_SIZE w a * w : Nat) : Int) - 1 := by omega
  obtain ⟨hCpos, hC4, hgap⟩ := fast_c_bound w hw.1 a b c ha hb hc hfast g hg1 (by omega)
  have hsc := rndraw_scaled w hw.1 a b rnd (MPFR_SIGN a) _ g (by omega) hR
  obtain ⟨r1, r2, r3, r4, r5, _⟩ := hR
  have hint : ∀ (e : Int) (L : List Nat),
      MPFR_INT_SIGN { a with _mpfr_exp := regular e, _mpfr_d := L } = MPFR_SIGN a := by
    intro e L
    exact MPFR_INT_SIGN_eq { a with _mpfr_exp := regular e, _mpfr_d := L } hs
  unfold sub1_small sub1_small_round
  simp only []
  generalize MPFR_RNDRAW_EVEN w (MPFR_PREC a) (MPFR_MANT b) (MPFR_PREC b) rnd (MPFR_SIGN a) = R
    at r1 r2 r3 r4 r5 hsc ⊢
  obtain ⟨L, inex, carry⟩ := R
  simp only at r1 r2 r3 r4 r5 hsc ⊢
  cases carry
  · -- no carry
    simp only [Bool.false_eq_true, if_false, pow_zero, Nat.mul_one, forall_true_left] at hsc ⊢
    have hsd := sdm_small w (MPFR_SIGN a) a b c L 0 (MPFR_GET_EXP b) g hs rfl (by simp) hg1
      (by omega)
    simp only [pow_zero, Nat.mul_one] at hsd
    rcases hsc with ⟨h1, _, h3⟩ | ⟨h1, _, h3⟩ | ⟨h1, h3⟩ | ⟨h1, h3, h4, h5⟩
    · -- the rounding of `b` alone is exact
      rw [h1, adjust_zero]
      by_cases hl : MPFR_IS_LIKE_RNDZ rnd
          (MPFR_IS_NEG { a with _mpfr_exp := regular (MPFR_GET_EXP b), _mpfr_d := L }) = true
      · rw [if_pos hl]
        obtain ⟨n1, n2⟩ := small_ntz ⟨w, emin, emax⟩ a b c L 0 (MPFR_GET_EXP b) (MPFR_SIGN a) g hs
          hw.1 ha rfl (by simp) (by omega) r1 r2 r3 r4 hlt hg1 hg2 hC4
          (Or.inl ⟨by simpa using h3, rfl⟩)
        simp only at n1 n2 ⊢
        rw [n1, n2]
        rcases hs with h | h <;> rw [h] <;> rfl
      · rw [if_neg hl]
        simp only
        have hpos : (0 : Int) < ((limb_value w L
            * 2 ^ (MPFR_GET_EXP b - ((MPFR_LIMB_SIZE w a * w : Nat) : Int) - g).toNat : Nat) : Int)
            - ((mpfr_abs_in w b g : Int) - (mpfr_abs_in w c g : Int)) := by
          rw [h3]; omega
        rw [hint, hsd, int_sign_of_sign _ hs, int_sign_of_pos _ hpos]
        ring
    · -- truncated
      rw [adjust_pass _ _ _ _ (by
        rw [hint]
        rcases h1 with h | h
        · rcases hs with h' | h' <;> rw [h, h'] <;> simp
        · exact Or.inr (Or.inr h))]
      simp only
      have := hgap (limb_value w L) 1 r4 (by simpa using h3)
      simp only [Nat.mul_one] at this
      have hneg : ((limb_value w L
          * 2 ^ (MPFR_GET_EXP b - ((MPFR_LIMB_SIZE w a * w : Nat) : Int) - g).toNat : Nat) : Int)
          - ((mpfr_abs_in w b g : Int) - (mpfr_abs_in w c g : Int)) < 0 := by
        omega
      rw [hsd, int_sign_of_neg _ hneg]
      unfold MPFR_EVEN_INEX at h1
      rcases h1 with h | h <;> rcases hs with h' | h' <;> rw [h, h'] <;> rfl
    · -- rounded away
      rw [adjust_pass _ _ _ _ (by rcases hs with h' | h' <;> rw [h1, h'] <;> simp)]
      simp only
      have hpos : (0 : Int) < ((limb_value w L
          * 2 ^ (MPFR_GET_EXP b - ((MPFR_LIMB_SIZE w a * w : Nat) : Int) - g).toNat : Nat) : Int)
          - ((mpfr_abs_in w b g : Int) - (mpfr_abs_in w c g : Int)) := by
        omega
      rw [hsd, int_sign_of_pos _ hpos, h1, int_sign_of_sign _ hs]
      ring
    · -- a tie rounded away
      have hx := adjust_even ⟨w, emin, emax⟩
        { a with _mpfr_exp := regular (MPFR_GET_EXP b), _mpfr_d := L } rnd
      rw [hint] at hx
      rw [h1, hx]
      obtain ⟨n1, n2⟩ := small_ntz ⟨w, emin, emax⟩ a b c L 0 (MPFR_GET_EXP b) (MPFR_SIGN a) g hs
        hw.1 ha rfl (by simp) (by omega) r1 r2 r3 r4 hlt hg1 hg2 hC4
        (Or.inr ⟨by simpa using h3, by simpa using h4, fun _ => h5⟩)
      simp only at n1 n2 ⊢
      rw [n1, n2]
      rcases hs with h | h <;> rw [h] <;> rfl
  · -- carry
    simp only [if_true, pow_one, forall_true_left] at hsc r5 ⊢
    by_cases hov : MPFR_GET_EXP b + 1 > emax
    · rw [if_pos hov, adjust_overflow]
      exact overflow_ternary ⟨w, emin, emax⟩ _ b c rnd (MPFR_SIGN a) hs r5
    · rw [if_neg hov]
      simp only
      have hsd := sdm_small w (MPFR_SIGN a) a b c L 1 (MPFR_GET_EXP b + 1) g hs rfl (by simp) hg1
        (by omega)
      simp only [pow_one] at hsd
      rcases hsc with ⟨_, h2, _⟩ | ⟨_, h2, _⟩ | ⟨h1, h3⟩ | ⟨h1, h3, h4, _⟩
      · cases h2
      · cases h2
      · -- rounded away
        rw [adjust_pass _ _ _ _ (by rcases hs with h' | h' <;> rw [h1, h'] <;> simp)]
        simp only
        have hpos : (0 : Int) < ((limb_value w L * 2
            * 2 ^ (MPFR_GET_EXP b - ((MPFR_LIMB_SIZE w a * w : Nat) : Int) - g).toNat : Nat) : Int)
            - ((mpfr_abs_in w b g : Int) - (mpfr_abs_in w c g : Int)) := by
          omega
        rw [hsd, int_sign_of_pos _ hpos, h1, int_sign_of_sign _ hs]
        ring
      · -- a tie rounded away
        have hx := adjust_even ⟨w, emin, emax⟩
          { a with _mpfr_exp := regular (MPFR_GET_EXP b + 1), _mpfr_d := L } rnd
        rw [hint] at hx
        rw [h1, hx]
        obtain ⟨n1, n2⟩ := small_ntz ⟨w, emin, emax⟩ a b c L 1 (MPFR_GET_EXP b + 1) (MPFR_SIGN a)
          g hs hw.1 ha rfl (by simp) (by omega) r1 r2 r3 r4 hlt hg1 hg2 hC4
          (Or.inr ⟨by simpa using h3, by simpa using h4, fun h => absurd h (by omega)⟩)
        simp only at n1 n2 ⊢
        rw [n1, n2]
        rcases hs with h | h <;> rw [h] <;> rfl

/-! ## The ternary value on both paths -/

/-- Exchanging the operands and negating the sign leaves `destination - exact` unchanged. -/
theorem sdm_swap (w : Nat) (s : Int) (b c dest : mpfr) :
    sign_dest_minus w (- s) c b dest = sign_dest_minus w s b c dest := by
  unfold sign_dest_minus
  simp only []
  rw [common_unit_comm w b c]
  split
  · rfl
  · rfl
  · congr 1; ring
  · congr 1; ring

/-- The ternary value for operands in order. -/
theorem sub1_ordered_ternary (env : Env) (a b c : mpfr) (rnd : mp_rnd_t)
    (hw : limb_width_ok env.BITS_PER_MP_LIMB) (ha : 1 ≤ MPFR_PREC a)
    (hs : MPFR_SIGN a = 1 ∨ MPFR_SIGN a = -1)
    (hb : mpfr_regular env.BITS_PER_MP_LIMB b) (hc : mpfr_regular env.BITS_PER_MP_LIMB c)
    (hlt : mpfr_abs_in env.BITS_PER_MP_LIMB c (common_unit env.BITS_PER_MP_LIMB b c)
      < mpfr_abs_in env.BITS_PER_MP_LIMB b (common_unit env.BITS_PER_MP_LIMB b c)) :
    int_sign (sub1_ordered env a b c (mpfr_cmp2 env.BITS_PER_MP_LIMB b c).2 rnd).2
      = sign_dest_minus env.BITS_PER_MP_LIMB (MPFR_SIGN a) b c
          (sub1_ordered env a b c (mpfr_cmp2 env.BITS_PER_MP_LIMB b c).2 rnd).1 := by
  unfold sub1_ordered
  by_cases hf : MPFR_GET_EXP c ≤ MPFR_GET_EXP b - ((max (MPFR_PREC a) (MPFR_PREC b) : Nat) : Int) - 2
  · rw [if_pos hf]
    exact sub1_small_ternary env a b c rnd hw ha hs hb hc hlt hf
  · rw [if_neg hf]
    exact sub1_general_ternary env a b c rnd hw ha hs hb hc hlt _ rfl

/-! ## Claim C2: the ternary value -/

/-- The sign of the ternary value of `mpfr_sub1` is the sign of `destination - exact`. -/
theorem sub1_ternary_int_sign (env : Env) (a b c : mpfr) (rnd_mode : mp_rnd_t)
    (hw : limb_width_ok env.BITS_PER_MP_LIMB) (ha : 1 ≤ MPFR_PREC a)
    (hb : mpfr_regular env.BITS_PER_MP_LIMB b) (hc : mpfr_regular env.BITS_PER_MP_LIMB c) :
    int_sign (mpfr_sub1 env a b c rnd_mode).2
      = sign_dest_minus_exact env.BITS_PER_MP_LIMB b c (mpfr_sub1 env a b c rnd_mode).1 := by
  have hsb : MPFR_SIGN b = 1 ∨ MPFR_SIGN b = -1 := hb.2.1
  unfold sign_dest_minus_exact
  rcases Nat.lt_trichotomy (mpfr_abs_in env.BITS_PER_MP_LIMB c (common_unit env.BITS_PER_MP_LIMB b c))
      (mpfr_abs_in env.BITS_PER_MP_LIMB b (common_unit env.BITS_PER_MP_LIMB b c)) with h | h | h
  · rw [mpfr_sub1_gt env a b c rnd_mode hb h]
    exact sub1_ordered_ternary env { a with _mpfr_sign := MPFR_SIGN b } b c rnd_mode hw ha hsb
      hb hc h
  · -- equal magnitudes: a zero and the ternary value 0
    have hcmp : (mpfr_cmp2 env.BITS_PER_MP_LIMB b c).1 = 0 := by
      unfold mpfr_cmp2
      simp only []
      rw [if_pos h.symm]
    unfold mpfr_sub1
    simp only []
    rw [if_pos hcmp]
    unfold sign_dest_minus
    simp only [h, sub_self, mul_zero, neg_zero]
  · rw [mpfr_sub1_lt env a b c rnd_mode h]
    rw [common_unit_comm _ c b] at h
    have hsa : MPFR_SIGN { a with _mpfr_sign := - MPFR_SIGN b } = 1
        ∨ MPFR_SIGN { a with _mpfr_sign := - MPFR_SIGN b } = -1 := by
      show - MPFR_SIGN b = 1 ∨ - MPFR_SIGN b = -1
      omega
    have := sub1_ordered_ternary env { a with _mpfr_sign := - MPFR_SIGN b } c b rnd_mode hw ha
      hsa hc hb h
    rw [this]
    exact sdm_swap _ (MPFR_SIGN b) b c _

/-- C7: for regular operands `b` and `c` and every precision that a destination can have
(at least `MPFR_PREC_MIN = 2` bits), under round-to-nearest, whenever the exact difference
`|b| - |c|` lies exactly halfway between two consecutive numbers representable at the
precision of the destination, the significand that `mpfr_sub1` stores has its least
significant retained bit (bit `sh` of `ap[0]`) equal to 0, for `sh > 0` and for `sh = 0`
alike. -/
theorem sub1_ties_to_even (env : Env) (a b c : mpfr)
    (hw : limb_width_ok env.BITS_PER_MP_LIMB) (ha : 2 ≤ MPFR_PREC a)
    (hb : mpfr_regular env.BITS_PER_MP_LIMB b) (hc : mpfr_regular env.BITS_PER_MP_LIMB c)
    (htie : halfway_at (MPFR_PREC a) env.BITS_PER_MP_LIMB b c) :
    ((mpfr_sub1 env a b c GMP_RNDN).1._mpfr_d.getD 0 0
      >>> sub1_sh env.BITS_PER_MP_LIMB a) &&& 1 = 0 := by
  unfold halfway_at exact_bits at htie
  rcases Nat.lt_trichotomy (mpfr_abs_in env.BITS_PER_MP_LIMB c (common_unit env.BITS_PER_MP_LIMB b c))
      (mpfr_abs_in env.BITS_PER_MP_LIMB b (common_unit env.BITS_PER_MP_LIMB b c)) with h | h | h
  · rw [mpfr_sub1_gt env a b c GMP_RNDN hb h]
    exact sub1_ordered_tie env { a with _mpfr_sign := MPFR_SIGN b } b c hw ha hb hc h htie
  · exfalso
    have h0 : exact_abs_diff env.BITS_PER_MP_LIMB b c = 0 := by
      unfold exact_abs_diff; rw [h]; simp
    rw [h0] at htie
    simp only [Nat.zero_mod, Nat.mul_zero] at htie
    have := Nat.two_pow_pos (nbits (exact_bits_bound env.BITS_PER_MP_LIMB b c) 0 - MPFR_PREC a)
    omega
  · rw [mpfr_sub1_lt env a b c GMP_RNDN h]
    rw [exact_abs_diff_comm _ c b, exact_bits_bound_comm _ c b] at htie
    rw [common_unit_comm _ c b] at h
    exact sub1_ordered_tie env { a with _mpfr_sign := - MPFR_SIGN b } c b hw ha hc hb h htie

set_option maxRecDepth 8000 in
/-- Witness of C7: `1.5 - 0.25 = 1.25` lies halfway between `1.0` and `1.5` at precision 2. -/
theorem sub1_ties_to_even_witness :
    halfway_at 2 64 three_halves_prec2 quarter_prec2 ∧
    ((mpfr_sub1 env64 (dest64 2) three_halves_prec2 quarter_prec2 GMP_RNDN).1._mpfr_d.getD 0 0
      >>> sub1_sh 64 (dest64 2)) &&& 1 = 0 :=
  ⟨by decide, sub1_ties_to_even env64 (dest64 2) three_halves_prec2 quarter_prec2
    (by decide) (by decide) (by decide) (by decide) (by decide)⟩

set_option maxRecDepth 8000 in
/-- Why the precision is taken from `MPFR_PREC_MIN = 2` on: on a single bit, a precision that
the library does not admit, no neighbour is even.  `1.0 - 0.25 = 0.75` lies halfway between
`0.5` and `1.0`, the two neighbours representable on one bit, and the significand stored (that
of `1.0`) has its only retained bit, bit 63 of `ap[0]`, equal to 1. -/
theorem sub1_ties_to_even_fails_at_prec1 :
    mpfr_regular 64 one_prec1 ∧ mpfr_regular 64 quarter_prec1 ∧
    halfway_at 1 64 one_prec1 quarter_prec1 ∧
    ((mpfr_sub1 env64 (dest64 1) one_prec1 quarter_prec1 GMP_RNDN).1._mpfr_d.getD 0 0
      >>> sub1_sh 64 (dest64 1)) &&& 1 = 1 := by
  decide

/-! ## Claim C8: a representable difference is stored exactly -/

/-- C8: for regular operands `b` and `c` with `|b| ≠ |c|` whose exact difference is
representable at the precision of the destination, with its exponent inside `[emin, emax]`,
and for every rounding mode, `mpfr_sub1` stores exactly that difference (the sign of
`sign(b) * (|b| - |c|)`, the exponent of the exact difference and its significand) and
returns 0. -/
theorem sub1_exact_when_representable (env : Env) (a b c : mpfr) (rnd_mode : mp_rnd_t)
    (hw : limb_width_ok env.BITS_PER_MP_LIMB) (ha : 1 ≤ MPFR_PREC a)
    (hb : mpfr_regular env.BITS_PER_MP_LIMB b) (hc : mpfr_regular env.BITS_PER_MP_LIMB c)
    (hne : exact_abs_diff env.BITS_PER_MP_LIMB b c ≠ 0)
    (hrep : representable_at (MPFR_PREC a) env.BITS_PER_MP_LIMB b c)
    (hmin : env.__gmpfr_emin ≤ exact_exp env.BITS_PER_MP_LIMB b c)
    (_hmax : exact_exp env.BITS_PER_MP_LIMB b c ≤ env.__gmpfr_emax) :
    spec_value_of env.BITS_PER_MP_LIMB (mpfr_sub1 env a b c rnd_mode).1
      = spec_value.regular (exact_sign env.BITS_PER_MP_LIMB b c)
          (exact_exp env.BITS_PER_MP_LIMB b c)
          (exact_significand (MPFR_PREC a) env.BITS_PER_MP_LIMB b c) ∧
    (mpfr_sub1 env a b c rnd_mode).2 = 0 := by
  unfold representable_at exact_bits at hrep
  unfold exact_significand exact_bits
  rcases Nat.lt_trichotomy (mpfr_abs_in env.BITS_PER_MP_LIMB c (common_unit env.BITS_PER_MP_LIMB b c))
      (mpfr_abs_in env.BITS_PER_MP_LIMB b (common_unit env.BITS_PER_MP_LIMB b c)) with h | h | h
  · rw [mpfr_sub1_gt env a b c rnd_mode hb h]
    have hs : exact_sign env.BITS_PER_MP_LIMB b c = MPFR_SIGN b := by
      unfold exact_sign; rw [if_pos h]
    rw [hs]
    exact sub1_ordered_exact env { a with _mpfr_sign := MPFR_SIGN b } b c rnd_mode hw ha hb hc h
      hrep hmin
  · exfalso; apply hne
    unfold exact_abs_diff; rw [h]; simp
  · rw [mpfr_sub1_lt env a b c rnd_mode h]
    have hs : exact_sign env.BITS_PER_MP_LIMB b c = - MPFR_SIGN b := by
      unfold exact_sign; rw [if_neg (by omega)]
    rw [hs, exact_exp_comm _ c b, exact_abs_diff_comm _ c b, exact_bits_bound_comm _ c b]
    rw [exact_exp_comm _ c b] at hmin
    rw [exact_abs_diff_comm _ c b, exact_bits_bound_comm _ c b] at hrep
    rw [common_unit_comm _ c b] at h
    exact sub1_ordered_exact env { a with _mpfr_sign := - MPFR_SIGN b } c b rnd_mode hw ha hc hb h
      hrep hmin

/-- Witness of C8: `1.0 - 0.5` at precision 2 is `0.5`, with the ternary value 0, under
round-toward-positive-infinity. -/
theorem sub1_exact_when_representable_witness :
    spec_value_of 64 (mpfr_sub1 env64 (dest64 2) one_prec2 half_prec2 GMP_RNDU).1
      = spec_value.regular 1 0 2 ∧
    (mpfr_sub1 env64 (dest64 2) one_prec2 half_prec2 GMP_RNDU).2 = 0 :=
  sub1_exact_when_representable env64 (dest64 2) one_prec2 half_prec2 GMP_RNDU
    (by decide) (by decide) (by decide) (by decide) (by decide) (by decide) (by decide)
    (by decide)

/-! ## The fast path condition -/

/-- The fast path condition puts `c` below `b` in magnitude. -/
theorem fast_lt (w : Nat) (hw : 0 < w) (M : Nat) (b c : mpfr) (hb : mpfr_regular w b)
    (hc : mpfr_regular w c)
    (hfast : MPFR_GET_EXP c ≤ MPFR_GET_EXP b - (M : Int) - 2) :
    mpfr_abs_in w c (common_unit w b c) < mpfr_abs_in w b (common_unit w b c) := by
  have hgb : common_unit w b c ≤ MPFR_UNIT_EXP w b := by unfold common_unit; exact min_le_left _ _
  have hgc : common_unit w b c ≤ MPFR_UNIT_EXP w c := by unfold common_unit; exact min_le_right _ _
  have h1 := abs_in_lt w c hc (common_unit w b c) hgc
  have h2 := abs_in_ge w hw b hb (common_unit w b c) hgb
  have hplc := prec_le_limbs w hw c
  have hpc : 1 ≤ MPFR_PREC c := hc.2.2.1
  have huc : MPFR_UNIT_EXP w c = MPFR_GET_EXP c - ((MPFR_LIMB_SIZE w c * w : Nat) : Int) := rfl
  have h3 : 2 ^ (MPFR_GET_EXP c - common_unit w b c).toNat
      ≤ 2 ^ ((MPFR_GET_EXP b - common_unit w b c).toNat - 1) :=
    Nat.pow_le_pow_right (by norm_num) (by omega)
  omega

/-- Lines 101-141: the fast path never returns 0. -/
theorem sub1_small_ne_zero (env : Env) (a b : mpfr) (rnd : mp_rnd_t) :
    (sub1_small env a b rnd).2 ≠ 0 := by
  unfold sub1_small sub1_small_adjust
  have h1 := MPFR_INT_SIGN_cases (mpfr_nexttozero env (sub1_small_round env a b rnd).1)
  have h2 := MPFR_INT_SIGN_cases (sub1_small_round env a b rnd).1
  split
  · split
    · show - MPFR_INT_SIGN _ ≠ 0
      omega
    · show MPFR_INT_SIGN _ ≠ 0
      omega
  · split
    · show - MPFR_INT_SIGN _ ≠ 0
      omega
    · assumption

/-- On the fast path the exact difference is not representable at the precision of the
destination. -/
theorem fast_not_representable (w : Nat) (hw : limb_width_ok w) (a b c : mpfr)
    (hb : mpfr_regular w b) (hc : mpfr_regular w c)
    (hfast : MPFR_GET_EXP c
      ≤ MPFR_GET_EXP b - ((max (MPFR_PREC a) (MPFR_PREC b) : Nat) : Int) - 2) :
    ¬ representable_at (MPFR_PREC a) w b c := by
  have hlt := fast_lt w hw.1 _ b c hb hc hfast
  obtain ⟨f1, f2⟩ := fast_not_rep w hw (MPFR_PREC a) b c hb hc hlt hfast
  unfold representable_at exact_bits
  intro hrep
  apply f2
  obtain ⟨d, hd⟩ := Nat.dvd_of_mod_eq_zero hrep
  apply Nat.mod_eq_zero_of_dvd
  exact Nat.dvd_trans (pow_dvd_pow 2 (by omega)) ⟨d, hd⟩

/-- Line 87: the fast path is taken. -/
theorem sub1_ordered_fast (env : Env) (a b c : mpfr) (cancel : Nat) (rnd : mp_rnd_t)
    (h : MPFR_GET_EXP c ≤ MPFR_GET_EXP b - ((max (MPFR_PREC a) (MPFR_PREC b) : Nat) : Int) - 2) :
    sub1_ordered env a b c cancel rnd = sub1_small env a b rnd := by
  unfold sub1_ordered
  rw [if_pos h]

/-- Line 87: the general path is taken. -/
theorem sub1_ordered_general (env : Env) (a b c : mpfr) (cancel : Nat) (rnd : mp_rnd_t)
    (h : ¬ MPFR_GET_EXP c
      ≤ MPFR_GET_EXP b - ((max (MPFR_PREC a) (MPFR_PREC b) : Nat) : Int) - 2) :
    sub1_ordered env a b c cancel rnd = sub1_general env a b c cancel rnd := by
  unfold sub1_ordered
  rw [if_neg h]

/-! ## `MPFR_RNDRAW_EVEN` on a significand that needs no rounding -/

/-- When the bits of `b` below the precision of the destination are zero, the macro reports an
exact rounding. -/
theorem rndraw_inex_zero (w : Nat) (hw : 0 < w) (a b : mpfr) (ha : 1 ≤ MPFR_PREC a)
    (hb : mpfr_regular w b) (rnd : mp_rnd_t) (s : Int)
    (hrep : MPFR_PREC a < MPFR_PREC b →
      limb_value w (MPFR_MANT b)
        % (2 ^ (w * (MPFR_LIMB_SIZE w b - MPFR_LIMB_SIZE w a)) * 2 ^ sub1_sh w a) = 0) :
    (MPFR_RNDRAW_EVEN w (MPFR_PREC a) (MPFR_MANT b) (MPFR_PREC b) rnd s).2.1 = 0 := by
  have hpb := hb.2.2.1
  unfold MPFR_RNDRAW_EVEN
  simp only []
  rw [limb_size_alt w hw b hpb, limb_size_alt w hw a ha, minus_modulo_eq w hw a ha]
  by_cases hp : MPFR_PREC b ≤ MPFR_PREC a
  · rw [if_pos hp]
  · rw [if_neg hp]
    have hsh : MPFR_LIMB_SIZE w a * w - MPFR_PREC a = sub1_sh w a := rfl
    rw [hsh]
    have hn := limb_size_mono w a b (by omega)
    obtain ⟨_, _, _, _, hlow⟩ := rndraw_low_eq w hw a b ha hb hn
    rw [hlow, hrep (by omega)]
    by_cases hN : rnd = GMP_RNDN
    · rw [if_pos hN]
      simp
    · rw [if_neg hN]
      simp

/-- An exact rounding of `b` alone: no carry, and the significand stored has the value of
`|b|`. -/
theorem rndraw_exact (w : Nat) (hw : 0 < w) (a b : mpfr) (ha : 1 ≤ MPFR_PREC a)
    (hb : mpfr_regular w b) (rnd : mp_rnd_t) (s : Int) (hs : s = 1 ∨ s = -1)
    (h0 : (MPFR_RNDRAW_EVEN w (MPFR_PREC a) (MPFR_MANT b) (MPFR_PREC b) rnd s).2.1 = 0) :
    (MPFR_RNDRAW_EVEN w (MPFR_PREC a) (MPFR_MANT b) (MPFR_PREC b) rnd s).2.2 = false ∧
    rndraw_abs w a b (MPFR_RNDRAW_EVEN w (MPFR_PREC a) (MPFR_MANT b) (MPFR_PREC b) rnd s)
      = mpfr_abs_in w b (sub1_small_unit w a b) := by
  obtain ⟨_, _, _, _, _, h6⟩ := rndraw_spec w hw a b ha hb rnd s
  rw [h0] at h6
  unfold MPFR_EVEN_INEX at h6
  rcases h6 with ⟨_, h2, h3⟩ | ⟨h1, _⟩ | ⟨h1, _⟩ | ⟨h1, _⟩
  · exact ⟨h2, h3⟩
  · exfalso; omega
  · exfalso; omega
  · exfalso; omega

/-- The rounding of a power of two: the minimal normalized significand, exactly. -/
theorem rndraw_power_of_two (w : Nat) (hw : 0 < w) (a b : mpfr) (ha : 1 ≤ MPFR_PREC a)
    (hb : mpfr_regular w b) (rnd : mp_rnd_t) (s : Int) (hs : s = 1 ∨ s = -1)
    (hv : limb_value w (MPFR_MANT b) = 2 ^ (w * MPFR_LIMB_SIZE w b - 1)) :
    (MPFR_RNDRAW_EVEN w (MPFR_PREC a) (MPFR_MANT b) (MPFR_PREC b) rnd s).2.1 = 0 ∧
    (MPFR_RNDRAW_EVEN w (MPFR_PREC a) (MPFR_MANT b) (MPFR_PREC b) rnd s).2.2 = false ∧
    limb_value w (MPFR_RNDRAW_EVEN w (MPFR_PREC a) (MPFR_MANT b) (MPFR_PREC b) rnd s).1
      = 2 ^ (w * MPFR_LIMB_SIZE w a - 1) := by
  have han := limb_size_pos w a
  have hnb := limb_size_pos w b
  obtain ⟨hshlt, hshp⟩ := sub1_sh_lt w hw a ha
  have hwan : w ≤ w * MPFR_LIMB_SIZE w a := Nat.le_mul_of_pos_right _ han
  have hwnb : w ≤ w * MPFR_LIMB_SIZE w b := Nat.le_mul_of_pos_right _ hnb
  have h0 : (MPFR_RNDRAW_EVEN w (MPFR_PREC a) (MPFR_MANT b) (MPFR_PREC b) rnd s).2.1 = 0 := by
    apply rndraw_inex_zero w hw a b ha hb rnd s
    intro hp
    have hn := limb_size_mono w a b (le_of_lt hp)
    rw [hv, ← pow_add]
    apply Nat.mod_eq_zero_of_dvd
    apply pow_dvd_pow
    have e1 : w * (MPFR_LIMB_SIZE w b - MPFR_LIMB_SIZE w a)
        = w * MPFR_LIMB_SIZE w b - w * MPFR_LIMB_SIZE w a := Nat.mul_sub _ _ _
    have := Nat.mul_le_mul_left w hn
    omega
  obtain ⟨h1, h2⟩ := rndraw_exact w hw a b ha hb rnd s hs h0
  refine ⟨h0, h1, ?_⟩
  unfold rndraw_abs mpfr_abs_in at h2
  rw [h1, hv] at h2
  simp only [Bool.false_eq_true, if_false, pow_zero, Nat.mul_one] at h2
  have hu1 : sub1_small_unit w a b ≤ MPFR_UNIT_EXP w b := by
    unfold sub1_small_unit; exact min_le_left _ _
  have hu2 : sub1_small_unit w a b
      ≤ MPFR_GET_EXP b - ((MPFR_LIMB_SIZE w a * w : Nat) : Int) := by
    unfold sub1_small_unit; exact min_le_right _ _
  have hub : MPFR_UNIT_EXP w b = MPFR_GET_EXP b - ((MPFR_LIMB_SIZE w b * w : Nat) : Int) := rfl
  have hca := Nat.mul_comm w (MPFR_LIMB_SIZE w a)
  have hcb := Nat.mul_comm w (MPFR_LIMB_SIZE w b)
  rw [← pow_add] at h2
  have e : w * MPFR_LIMB_SIZE w b - 1 + (MPFR_UNIT_EXP w b - sub1_small_unit w a b).toNat
      = (w * MPFR_LIMB_SIZE w a - 1)
        + (MPFR_GET_EXP b - ((MPFR_LIMB_SIZE w a * w : Nat) : Int)
            - sub1_small_unit w a b).toNat := by
    omega
  rw [e, pow_add] at h2
  exact Nat.eq_of_mul_eq_mul_right (Nat.two_pow_pos _) h2

/-! ## The label `truncate` -/

/-- A limb array of value zero holds only zero limbs. -/
theorem limb_value_eq_zero (w : Nat) (l : List Nat) (h : limb_value w l = 0) :
    l = List.replicate l.length 0 := by
  induction l with
  | nil => rfl
  | cons x xs ih =>
    simp only [limb_value] at h
    have hpos : 0 < 2 ^ w := Nat.two_pow_pos _
    have hx : x = 0 := by omega
    have hxs : limb_value w xs = 0 := by
      rcases Nat.eq_zero_or_pos (limb_value w xs) with h0 | h0
      · exact h0
      · have := Nat.mul_pos hpos h0
        omega
    rw [List.length_cons, List.replicate_succ, hx, ← ih hxs]

/-- Storing `MPFR_LIMB_HIGHBIT` on top of a window of value zero gives the minimal normalized
significand. -/
theorem store_highbit_zero (w an : Nat) (han : 0 < an) (ap : List Nat) (hl : ap.length = an)
    (h : limb_value w ap = 0) :
    MPN_STORE ap (an - 1) [MPFR_LIMB_HIGHBIT w] = MPN_ZERO (an - 1) ++ [MPFR_LIMB_HIGHBIT w] := by
  have hz := limb_value_eq_zero w ap h
  rw [hl] at hz
  rw [hz]
  unfold MPN_STORE MPN_ZERO
  rw [List.take_replicate, List.drop_replicate, List.length_singleton]
  have e1 : min (an - 1) an = an - 1 := by omega
  have e2 : an - (an - 1 + 1) = 0 := by omega
  rw [e1, e2]
  simp

/-- Lines 487-493: `add_exp` after the label `truncate`. -/
theorem sub1_truncate_add (w an : Nat) (ap : List Nat) (i : Int) (e : Nat) :
    (sub1_truncate w an ap i e).2.2 = if ap.getD (an - 1) 0 >>> (w - 1) = 0 then 1 else e := by
  unfold sub1_truncate
  split <;> rfl

/-- The minimal normalized significand is a well-formed window with its top bit set. -/
theorem setmin_window (w an : Nat) (hw : 0 < w) (han : 0 < an) :
    (MPN_ZERO (an - 1) ++ [MPFR_LIMB_HIGHBIT w]).length = an ∧
    (∀ x ∈ MPN_ZERO (an - 1) ++ [MPFR_LIMB_HIGHBIT w], x < 2 ^ w) := by
  constructor
  · unfold MPN_ZERO
    rw [List.length_append, List.length_replicate, List.length_singleton]
    omega
  · intro x hx
    rw [List.mem_append] at hx
    rcases hx with hx | hx
    · unfold MPN_ZERO at hx
      rw [List.eq_of_mem_replicate hx]
      exact Nat.two_pow_pos _
    · rw [List.mem_singleton] at hx
      rw [hx, highbit_eq]
      exact Nat.pow_lt_pow_right (by norm_num) (by omega)

/-- A property of both branches holds of the conditional. -/
theorem ite_pred {α : Type} (P : α → Prop) (c : Prop) [Decidable c] (x y : α) (hx : P x)
    (hy : P y) : P (if c then x else y) := by
  split
  · exact hx
  · exact hy

theorem truncate_ok_sub : truncate_inexact_ok Jump.sub_one_ulp := by
  intro i h; exact Jump.noConfusion h

theorem truncate_ok_add : truncate_inexact_ok Jump.add_one_ulp := by
  intro i h; exact Jump.noConfusion h

theorem truncate_ok_of (v : Int) (hv : v = -1 ∨ v = 0 ∨ v = 1) :
    truncate_inexact_ok (Jump.truncate v) := by
  intro i h
  injection h with h
  rw [← h]; exact hv

theorem truncate_ok_bool (e : Bool) (x y : Int) (hx : x = -1 ∨ x = 0 ∨ x = 1)
    (hy : y = -1 ∨ y = 0 ∨ y = 1) : truncate_inexact_ok (Jump.truncate (if e then x else y)) := by
  cases e
  · exact truncate_ok_of _ hy
  · exact truncate_ok_of _ hx

/-- Lines 456-471: the even rounding rule jumps to `truncate` with `inexact` in `{-1, 0, 1}`. -/
theorem sub1_even_rule_truncate (rnd : mp_rnd_t) (sh : Nat) (ap : List Nat) (down is_exact : Bool) :
    truncate_inexact_ok (sub1_even_rule rnd sh ap down is_exact) := by
  unfold sub1_even_rule
  refine ite_pred _ _ _ _ (ite_pred _ _ _ _ (ite_pred _ _ _ _ truncate_ok_sub truncate_ok_add) ?_)
    (truncate_ok_of 0 (by omega))
  exact truncate_ok_bool _ _ _ (by omega) (by omega)

/-- Lines 351-471: the loop jumps to `truncate` with `inexact` in `{-1, 0, 1}`. -/
theorem sub1_loop_truncate (w : Nat) (rnd : mp_rnd_t) (sh : Nat) (ap bp cp : List Nat) (cn0 : Int)
    (fuel : Nat) : ∀ (bn cn : Int) (k : Nat) (down is_exact : Bool),
    truncate_inexact_ok (sub1_loop w rnd sh ap bp cp cn0 fuel bn cn k down is_exact) := by
  induction fuel with
  | zero =>
    intro bn cn k down is_exact
    rw [sub1_loop]
    exact sub1_even_rule_truncate _ _ _ _ _
  | succ n ih =>
    intro bn cn k down is_exact
    rw [sub1_loop]
    simp only []
    have t1 := truncate_ok_of 1 (by omega)
    have tm := truncate_ok_of (-1) (by omega)
    refine ite_pred _ _ _ _ ?_ (sub1_even_rule_truncate _ _ _ _ _)
    refine ite_pred _ _ _ _ ?_ (ite_pred _ _ _ _ ?_ (ih _ _ _ _ _))
    · refine ite_pred _ _ _ _ truncate_ok_sub (ite_pred _ _ _ _ t1 (ite_pred _ _ _ _
        (ite_pred _ _ _ _ t1 (ih _ _ _ _ _)) (ite_pred _ _ _ _ truncate_ok_sub ?_)))
      exact truncate_ok_bool _ _ _ (by omega) (by omega)
    · exact ite_pred _ _ _ _ tm (ite_pred _ _ _ _ truncate_ok_add (ite_pred _ _ _ _ tm
        (ite_pred _ _ _ _ t1 truncate_ok_add)))

/-- Lines 306-471: every jump to `truncate` carries `inexact` in `{-1, 0, 1}`. -/
theorem sub1_jump_truncate (w : Nat) (a b c : mpfr) (cancel : Nat) (rnd0 : mp_rnd_t) :
    truncate_inexact_ok (sub1_jump w a b c cancel rnd0) := by
  have hlow : truncate_inexact_ok (sub1_low w a b c cancel rnd0) := by
    unfold sub1_low
    exact sub1_loop_truncate _ _ _ _ _ _ _ _ _ _ _ _ _
  have tm := truncate_ok_of (-1) (by omega)
  unfold sub1_jump
  simp only []
  exact ite_pred _ _ _ _ (ite_pred _ _ _ _ truncate_ok_add (ite_pred _ _ _ _ tm hlow))
    (ite_pred _ _ _ _ (ite_pred _ _ _ _ tm truncate_ok_add) hlow)

/-! ## The outcome of the rounding labels on the truncated window -/

/-- The truncated window value against the exact difference: the window is normalized and is
its own value, or it has wrapped to zero, stands for `2 ^ (an * BITS_PER_MP_LIMB)`, and the
part of the exact difference below it is negative. -/
theorem sub1_window_cases (w : Nat) (hw : limb_width_ok w) (a b c : mpfr) (ha : 1 ≤ MPFR_PREC a)
    (hb : mpfr_regular w b) (hc : mpfr_regular w c)
    (hlt : mpfr_abs_in w c (common_unit w b c) < mpfr_abs_in w b (common_unit w b c))
    (cancel : Nat) (hcancel : cancel = (mpfr_cmp2 w b c).2) :
    (sub1_X w a b c cancel : Int)
      = ((sub1_window_value w a b c cancel * 2 ^ (w * sub1_m w a b c cancel) : Nat) : Int)
        + ((sub1_carry w a b c cancel : Int) * ((2 ^ (w * sub1_m w a b c cancel) : Nat) : Int)
          + ((sub1_LB w a b c cancel : Int) - sub1_LC w a b c cancel)) ∧
    ((2 ^ (w * MPFR_LIMB_SIZE w a - 1) ≤ limb_value w (sub1_masked w a b c cancel) ∧
        limb_value w (sub1_masked w a b c cancel) % 2 ^ sub1_sh w a = 0 ∧
        sub1_window_value w a b c cancel = limb_value w (sub1_masked w a b c cancel)) ∨
      (limb_value w (sub1_masked w a b c cancel) = 0 ∧
        sub1_window_value w a b c cancel = 2 ^ (w * MPFR_LIMB_SIZE w a) ∧
        (sub1_carry w a b c cancel : Int) * ((2 ^ (w * sub1_m w a b c cancel) : Nat) : Int)
          + ((sub1_LB w a b c cancel : Int) - sub1_LC w a b c cancel) < 0)) := by
  obtain ⟨_, _, hcase⟩ := sub1_state w hw a b c ha hb hc hlt cancel hcancel
  have hpos : 0 < 2 ^ (w * MPFR_LIMB_SIZE w a - 1) := Nat.two_pow_pos _
  unfold sub1_window_value
  rcases hcase with ⟨c1, c2, c3⟩ | ⟨c1, c2, c3⟩
  · have hne : limb_value w (sub1_masked w a b c cancel) ≠ 0 := by omega
    rw [if_neg hne]
    exact ⟨c3, Or.inl ⟨c1, c2, rfl⟩⟩
  · rw [if_pos c1]
    exact ⟨c2, Or.inr ⟨c1, rfl, c3⟩⟩

/-- Lines 473-493 on the truncated window: `truncate` hands the window value over with the
flag of the jump (and leaves a normalized window untouched), `add_one_ulp` the window value
plus one unit in the last place with the flag 1, `sub_one_ulp` the window value minus one unit
with the flag -1. -/
theorem sub1_rounded_by_label (w : Nat) (hw : limb_width_ok w) (a b c : mpfr)
    (ha : 1 ≤ MPFR_PREC a) (hb : mpfr_regular w b) (hc : mpfr_regular w c)
    (hlt : mpfr_abs_in w c (common_unit w b c) < mpfr_abs_in w b (common_unit w b c))
    (cancel : Nat) (hcancel : cancel = (mpfr_cmp2 w b c).2) (rnd0 : mp_rnd_t) :
    (∀ i, sub1_jump w a b c cancel rnd0 = Jump.truncate i →
      sub1_rounded_value w a b c cancel rnd0 = sub1_window_value w a b c cancel ∧
      (sub1_rounded w a b c cancel rnd0).2.1 = i ∧
      (limb_value w (sub1_masked w a b c cancel) ≠ 0 →
        sub1_rounded w a b c cancel rnd0 = (sub1_masked w a b c cancel, i, 0))) ∧
    (sub1_jump w a b c cancel rnd0 = Jump.add_one_ulp →
      sub1_rounded_value w a b c cancel rnd0
        = sub1_window_value w a b c cancel + 2 ^ sub1_sh w a ∧
      (sub1_rounded w a b c cancel rnd0).2.1 = 1) ∧
    (sub1_jump w a b c cancel rnd0 = Jump.sub_one_ulp →
      sub1_rounded_value w a b c cancel rnd0 + 2 ^ sub1_sh w a
        = sub1_window_value w a b c cancel ∧
      (sub1_rounded w a b c cancel rnd0).2.1 = -1 ∧
      (sub1_rounded w a b c cancel rnd0).2.2 = 0) := by
  obtain ⟨_, hml, hmwf, _⟩ := sub1_masked_spec w hw a b c ha hb hc cancel
  obtain ⟨_, hcase⟩ := sub1_window_cases w hw a b c ha hb hc hlt cancel hcancel
  obtain ⟨hsh, hshp⟩ := sub1_sh_lt w hw.1 a ha
  have han := limb_size_pos w a
  obtain ⟨s1, s2, s3, s4, s5, s6⟩ := sub1_jump_ok w hw a b c ha hb hc cancel rnd0
  have hV : limb_value w (sub1_masked w a b c cancel) < 2 ^ (w * MPFR_LIMB_SIZE w a) := by
    have := limb_value_lt w _ hmwf; rwa [hml] at this
  have hT2 : 2 ^ (w * MPFR_LIMB_SIZE w a) = 2 ^ (w * MPFR_LIMB_SIZE w a - 1) * 2 := by
    rw [← pow_succ]; congr 1
    have := Nat.mul_pos hw.1 han
    omega
  have hshn : sub1_sh w a ≤ w * MPFR_LIMB_SIZE w a - 1 := by
    have : w ≤ w * MPFR_LIMB_SIZE w a := Nat.le_mul_of_pos_right _ han
    omega
  have hu_le : 2 ^ sub1_sh w a ≤ 2 ^ (w * MPFR_LIMB_SIZE w a - 1) :=
    Nat.pow_le_pow_right (by norm_num) hshn
  have hone : MPFR_LIMB_ONE <<< sub1_sh w a = 2 ^ sub1_sh w a := by
    unfold MPFR_LIMB_ONE; rw [Nat.shiftLeft_eq, Nat.one_mul]
  have hupos : 0 < 2 ^ sub1_sh w a := Nat.two_pow_pos _
  have hsth := sub1_truncate_spec w hw.1
  obtain ⟨z1, z2⟩ := setmin_window w (MPFR_LIMB_SIZE w a) hw.1 han
  have zv := setmin_value w hw.1 (MPFR_LIMB_SIZE w a) han
  unfold sub1_rounded_value sub1_rounded
  generalize sub1_jump w a b c cancel rnd0 = j at s1 s2 s3 s4 s5 s6 ⊢
  generalize sub1_window_value w a b c cancel = W at hcase ⊢
  generalize sub1_masked w a b c cancel = M at hml hmwf hcase hV ⊢
  generalize (sub1_carry w a b c cancel : Int) * ((2 ^ (w * sub1_m w a b c cancel) : Nat) : Int)
    + ((sub1_LB w a b c cancel : Int) - sub1_LC w a b c cancel) = rho at hcase s1 s2 s3 s4 s5 s6
  refine ⟨?_, ?_, ?_⟩
  · intro i hj
    rw [hj]
    simp only [sub1_labels]
    rcases hcase with ⟨c1, _, c3⟩ | ⟨c1, c2, _⟩
    · rw [(hsth M _ han hml hmwf i 0).1 c1]
      refine ⟨?_, rfl, fun _ => rfl⟩
      simp only [pow_zero, Nat.mul_one]
      exact c3.symm
    · rw [(hsth M _ han hml hmwf i 0).2 (by omega), store_highbit_zero w _ han M hml c1]
      refine ⟨?_, rfl, fun h => absurd c1 h⟩
      simp only [pow_one]
      rw [zv, c2, ← hT2]
  · intro hj
    have hrho := s5 hj
    rw [hj]
    simp only [sub1_labels]
    obtain ⟨a1, a2, a3, a4⟩ := add_1_value w M (MPFR_LIMB_SIZE w a) (MPFR_LIMB_ONE <<< sub1_sh w a)
      hml hmwf
    replace a3 : limb_value w
        (mpn_add_1 w M (MPFR_LIMB_SIZE w a) (MPFR_LIMB_ONE <<< sub1_sh w a)).1
        = (limb_value w M + 2 ^ sub1_sh w a) % 2 ^ (w * MPFR_LIMB_SIZE w a) := by
      rw [a3, hone]
    replace a4 : (mpn_add_1 w M (MPFR_LIMB_SIZE w a) (MPFR_LIMB_ONE <<< sub1_sh w a)).2 ≠ 0
        ↔ 2 ^ (w * MPFR_LIMB_SIZE w a) ≤ limb_value w M + 2 ^ sub1_sh w a := by
      rw [a4, hone]
    rcases hcase with ⟨c1, c2, c3⟩ | ⟨_, _, c3⟩
    · by_cases hcy : (mpn_add_1 w M (MPFR_LIMB_SIZE w a) (MPFR_LIMB_ONE <<< sub1_sh w a)).2 ≠ 0
      · rw [if_pos hcy]
        have hge := a4.mp hcy
        obtain ⟨v, hv⟩ : 2 ^ sub1_sh w a ∣ limb_value w M := Nat.dvd_of_mod_eq_zero c2
        have hTs : 2 ^ (w * MPFR_LIMB_SIZE w a)
            = 2 ^ sub1_sh w a * 2 ^ (w * MPFR_LIMB_SIZE w a - sub1_sh w a) := by
          rw [← pow_add]; congr 1; omega
        have hvlt : v < 2 ^ (w * MPFR_LIMB_SIZE w a - sub1_sh w a) := by
          rw [hv, hTs] at hV
          exact Nat.lt_of_mul_lt_mul_left hV
        have hle : limb_value w M + 2 ^ sub1_sh w a ≤ 2 ^ (w * MPFR_LIMB_SIZE w a) := by
          rw [hv, hTs]
          have : 2 ^ sub1_sh w a * (v + 1)
              ≤ 2 ^ sub1_sh w a * 2 ^ (w * MPFR_LIMB_SIZE w a - sub1_sh w a) :=
            Nat.mul_le_mul_left _ hvlt
          rw [Nat.mul_add, Nat.mul_one] at this
          exact this
        have hsum0 : limb_value w
            (mpn_add_1 w M (MPFR_LIMB_SIZE w a) (MPFR_LIMB_ONE <<< sub1_sh w a)).1 = 0 := by
          rw [a3, show limb_value w M + 2 ^ sub1_sh w a = 2 ^ (w * MPFR_LIMB_SIZE w a) by omega,
            Nat.mod_self]
        rw [store_highbit_zero w _ han _ a1 hsum0, (hsth _ _ han z1 z2 1 1).1 (by rw [zv])]
        refine ⟨?_, rfl⟩
        simp only [pow_one]
        rw [zv, ← hT2, c3]
        omega
      · rw [if_neg hcy]
        have hlt2 : limb_value w M + 2 ^ sub1_sh w a < 2 ^ (w * MPFR_LIMB_SIZE w a) := by
          by_contra hcon
          exact hcy (a4.mpr (by omega))
        rw [Nat.mod_eq_of_lt hlt2] at a3
        rw [(hsth _ _ han a1 a2 1 0).1 (by rw [a3]; omega)]
        refine ⟨?_, rfl⟩
        simp only [pow_zero, Nat.mul_one]
        rw [a3, c3]
    · omega
  · intro hj
    rw [hj]
    rw [sub1_labels]
    refine ⟨?_, rfl, rfl⟩
    simp only [pow_zero, Nat.mul_one]
    rw [hone]
    rcases hcase with ⟨c1, _, c3⟩ | ⟨c1, c2, _⟩
    · obtain ⟨_, _, hv⟩ := sub_1_value w M (MPFR_LIMB_SIZE w a) (2 ^ sub1_sh w a) hml hmwf
        (by omega)
      rw [hv, c3]
      omega
    · obtain ⟨_, _, hv⟩ := sub_1_value_zero w M (MPFR_LIMB_SIZE w a) (2 ^ sub1_sh w a) hml hmwf
        c1 hupos (by omega)
      rw [hv, c2]
      omega

/-- Lines 495-537 without underflow or overflow: the destination stores the exponent
`EXP (b) - cancel + add_exp` and the rounded window, and the value returned is `inexact` times
the sign of the result. -/
theorem sub1_general_stored (env : Env) (a b c : mpfr) (cancel : Nat) (rnd0 : mp_rnd_t)
    (h1 : env.__gmpfr_emin ≤ MPFR_GET_EXP b - (cancel : Int)
      + ((sub1_rounded env.BITS_PER_MP_LIMB a b c cancel rnd0).2.2 : Int))
    (h2 : MPFR_GET_EXP b - (cancel : Int)
      + ((sub1_rounded env.BITS_PER_MP_LIMB a b c cancel rnd0).2.2 : Int) ≤ env.__gmpfr_emax) :
    sub1_general env a b c cancel rnd0
      = ({ a with
            _mpfr_exp := regular (MPFR_GET_EXP b - (cancel : Int)
              + ((sub1_rounded env.BITS_PER_MP_LIMB a b c cancel rnd0).2.2 : Int))
            _mpfr_d := (sub1_rounded env.BITS_PER_MP_LIMB a b c cancel rnd0).1 },
          (sub1_rounded env.BITS_PER_MP_LIMB a b c cancel rnd0).2.1 * MPFR_INT_SIGN a) := by
  have hle : (sub1_rounded env.BITS_PER_MP_LIMB a b c cancel rnd0).2.2 ≤ 1 :=
    sub1_labels_add_exp _ _ _ _ _
  rw [sub1_general_eq]
  generalize sub1_rounded env.BITS_PER_MP_LIMB a b c cancel rnd0 = R at hle h1 h2 ⊢
  unfold sub1_end_of_sub
  simp only []
  by_cases hc0 : cancel ≠ 0
  · have hsub : ((cancel - R.2.2 : Nat) : Int) = (cancel : Int) - (R.2.2 : Int) := by omega
    rw [if_pos hc0, if_neg (by rw [hsub]; omega)]
    have e : MPFR_GET_EXP b - ((cancel - R.2.2 : Nat) : Int)
        = MPFR_GET_EXP b - (cancel : Int) + (R.2.2 : Int) := by omega
    rw [e]
    rfl
  · have hc1 : cancel = 0 := by omega
    rw [if_neg hc0, if_neg (by rw [hc1] at h2; omega)]
    have e : MPFR_GET_EXP b + (R.2.2 : Int)
        = MPFR_GET_EXP b - (cancel : Int) + (R.2.2 : Int) := by rw [hc1]; simp
    rw [e]
    rfl

/-! ## Claim C11: the fast path is never exact -/

/-- C11: for regular operands that satisfy the fast path condition
`EXP (c) ≤ EXP (b) - max (PREC (a), PREC (b)) - 2` and every rounding mode, `mpfr_sub1` never
returns 0, the exact difference is not representable at the precision of the destination, and
the sign of the returned value is the sign of `destination - exact`. -/
theorem sub1_fast_path_inexact (env : Env) (a b c : mpfr) (rnd_mode : mp_rnd_t)
    (hw : limb_width_ok env.BITS_PER_MP_LIMB) (ha : 1 ≤ MPFR_PREC a)
    (hb : mpfr_regular env.BITS_PER_MP_LIMB b) (hc : mpfr_regular env.BITS_PER_MP_LIMB c)
    (hfast : MPFR_GET_EXP c
      ≤ MPFR_GET_EXP b - ((max (MPFR_PREC a) (MPFR_PREC b) : Nat) : Int) - 2) :
    (mpfr_sub1 env a b c rnd_mode).2 ≠ 0 ∧
    ¬ representable_at (MPFR_PREC a) env.BITS_PER_MP_LIMB b c ∧
    int_sign (mpfr_sub1 env a b c rnd_mode).2
      = sign_dest_minus_exact env.BITS_PER_MP_LIMB b c (mpfr_sub1 env a b c rnd_mode).1 := by
  have hlt := fast_lt env.BITS_PER_MP_LIMB hw.1 _ b c hb hc hfast
  refine ⟨?_, fast_not_representable _ hw a b c hb hc hfast,
    sub1_ternary_int_sign env a b c rnd_mode hw ha hb hc⟩
  rw [mpfr_sub1_gt env a b c rnd_mode hb hlt,
    sub1_ordered_fast env { a with _mpfr_sign := MPFR_SIGN b } b c _ rnd_mode hfast]
  exact sub1_small_ne_zero env _ b rnd_mode

set_option maxRecDepth 8000 in
/-- Witness of C11: `1.0 - 2 ^ (-11)` at precision 2, rounded to nearest. -/
theorem sub1_fast_path_inexact_witness :
    MPFR_GET_EXP tiny_prec2
      ≤ MPFR_GET_EXP one_prec2 - ((max (MPFR_PREC (dest64 2)) (MPFR_PREC one_prec2) : Nat) : Int)
        - 2 ∧
    (mpfr_sub1 env64 (dest64 2) one_prec2 tiny_prec2 GMP_RNDN).2 ≠ 0 ∧
    ¬ representable_at (MPFR_PREC (dest64 2)) 64 one_prec2 tiny_prec2 ∧
    int_sign (mpfr_sub1 env64 (dest64 2) one_prec2 tiny_prec2 GMP_RNDN).2
      = sign_dest_minus_exact 64 one_prec2 tiny_prec2
          (mpfr_sub1 env64 (dest64 2) one_prec2 tiny_prec2 GMP_RNDN).1 :=
  ⟨by decide, sub1_fast_path_inexact env64 (dest64 2) one_prec2 tiny_prec2 GMP_RNDN
    (by decide) (by decide) (by decide) (by decide) (by decide)⟩

/-! ## Claim C12: boundary scenario A, `1.0 - tiny` -/

/-- The step toward zero from a power of two above `emin`: the largest significand with the
exponent below. -/
theorem ntz_power_of_two (env : Env) (x : mpfr) (e : Int) (hw : 0 < env.BITS_PER_MP_LIMB)
    (hp : 1 ≤ MPFR_PREC x) (hx : x._mpfr_exp = regular e)
    (hl : (MPFR_MANT x).length = MPFR_LIMB_SIZE env.BITS_PER_MP_LIMB x)
    (hwf : ∀ l ∈ MPFR_MANT x, l < 2 ^ env.BITS_PER_MP_LIMB)
    (hV : limb_value env.BITS_PER_MP_LIMB (MPFR_MANT x)
      = 2 ^ (env.BITS_PER_MP_LIMB * MPFR_LIMB_SIZE env.BITS_PER_MP_LIMB x - 1))
    (he : e ≠ env.__gmpfr_emin) :
    mpfr_nexttozero env x = mpfr_setmax env.BITS_PER_MP_LIMB x (e - 1) := by
  have hxn := limb_size_pos env.BITS_PER_MP_LIMB x
  obtain ⟨hshlt, hshp⟩ := sub1_sh_lt env.BITS_PER_MP_LIMB hw x hp
  have hwn : env.BITS_PER_MP_LIMB ≤ env.BITS_PER_MP_LIMB * MPFR_LIMB_SIZE env.BITS_PER_MP_LIMB x :=
    Nat.le_mul_of_pos_right _ hxn
  have hm : limb_value env.BITS_PER_MP_LIMB (MPFR_MANT x) % 2 ^ sub1_sh env.BITS_PER_MP_LIMB x = 0 := by
    rw [hV]
    apply Nat.mod_eq_zero_of_dvd
    apply pow_dvd_pow
    omega
  have hpos : 0 < 2 ^ sub1_sh env.BITS_PER_MP_LIMB x := Nat.two_pow_pos _
  rcases ntz_regular_cases env x e hw hp hx hl hwf (le_of_eq hV.symm) hm with ⟨h1, _⟩ | ⟨_, h | h⟩
  · exfalso; omega
  · exfalso
    revert h
    unfold mpfr_nexttozero
    rw [hx]
    simp only
    split_ifs <;> simp [mpfr_setmax]
  · exact h

/-- The value that `mpfr_setmax` stores, read at the precision of the number. -/
theorem setmax_spec_value (w : Nat) (hw : 0 < w) (x : mpfr) (hp : 1 ≤ MPFR_PREC x) (e : Int) :
    spec_value_of w (mpfr_setmax w x e)
      = spec_value.regular (MPFR_SIGN x) e (2 ^ MPFR_PREC x - 1) := by
  have hv := setmax_value w hw x hp e
  have hle := prec_le_limbs w hw x
  have h1 : spec_value_of w (mpfr_setmax w x e)
      = spec_value.regular (MPFR_SIGN x) e
        (limb_value w (mpfr_setmax w x e)._mpfr_d / 2 ^ (MPFR_LIMB_SIZE w x * w - MPFR_PREC x)) :=
    rfl
  rw [h1, hv]
  congr 1
  obtain ⟨sh, hsh⟩ : ∃ sh, MPFR_LIMB_SIZE w x * w - MPFR_PREC x = sh := ⟨_, rfl⟩
  rw [hsh]
  have e2 : 2 ^ (w * MPFR_LIMB_SIZE w x) = 2 ^ MPFR_PREC x * 2 ^ sh := by
    rw [← pow_add]; congr 1
    have := Nat.mul_comm w (MPFR_LIMB_SIZE w x)
    omega
  rw [e2]
  have hpos : 0 < 2 ^ sh := Nat.two_pow_pos _
  have hpp : 0 < 2 ^ MPFR_PREC x := Nat.two_pow_pos _
  have e3 : 2 ^ MPFR_PREC x * 2 ^ sh - 2 ^ sh = (2 ^ MPFR_PREC x - 1) * 2 ^ sh := by
    rw [Nat.sub_mul, Nat.one_mul]
  rw [e3, Nat.mul_div_cancel _ hpos]

/-- The fast path on a positive power of two `b`: in a mode that does not round toward zero
the result is `b` itself with a positive ternary value, in a mode that does it is the number
just below `b` with a negative ternary value. -/
theorem sub1_small_power_of_two (env : Env) (a b : mpfr) (rnd : mp_rnd_t)
    (hw : 0 < env.BITS_PER_MP_LIMB) (ha : 1 ≤ MPFR_PREC a) (hs : MPFR_SIGN a = 1)
    (hb : mpfr_regular env.BITS_PER_MP_LIMB b)
    (hv : limb_value env.BITS_PER_MP_LIMB (MPFR_MANT b)
      = 2 ^ (env.BITS_PER_MP_LIMB * MPFR_LIMB_SIZE env.BITS_PER_MP_LIMB b - 1))
    (he : MPFR_GET_EXP b ≠ env.__gmpfr_emin) :
    (MPFR_IS_LIKE_RNDZ rnd false = false →
      spec_value_of env.BITS_PER_MP_LIMB (sub1_small env a b rnd).1
        = spec_value.regular 1 (MPFR_GET_EXP b) (2 ^ (MPFR_PREC a - 1)) ∧
      (sub1_small env a b rnd).2 = 1) ∧
    (MPFR_IS_LIKE_RNDZ rnd false = true →
      spec_value_of env.BITS_PER_MP_LIMB (sub1_small env a b rnd).1
        = spec_value.regular 1 (MPFR_GET_EXP b - 1) (2 ^ MPFR_PREC a - 1) ∧
      (sub1_small env a b rnd).2 = -1) := by
  obtain ⟨w, emin, emax⟩ := env
  simp only at hw hb hv he ⊢
  obtain ⟨r1, r2, _, _, _, _⟩ := rndraw_spec w hw a b ha hb rnd (MPFR_SIGN a)
  obtain ⟨p1, p2, p3⟩ := rndraw_power_of_two w hw a b ha hb rnd (MPFR_SIGN a) (Or.inl hs) hv
  have han := limb_size_pos w a
  have hle := prec_le_limbs w hw a
  have hwan : w ≤ w * MPFR_LIMB_SIZE w a := Nat.le_mul_of_pos_right _ han
  have hca := Nat.mul_comm w (MPFR_LIMB_SIZE w a)
  have hneg : ∀ (e : Int) (L : List Nat),
      MPFR_IS_NEG { a with _mpfr_exp := regular e, _mpfr_d := L } = false := by
    intro e L
    unfold MPFR_IS_NEG MPFR_SIGN
    simp only
    have : a._mpfr_sign = 1 := hs
    rw [this]; rfl
  have hint : ∀ (e : Int) (L : List Nat),
      MPFR_INT_SIGN { a with _mpfr_exp := regular e, _mpfr_d := L } = 1 := by
    intro e L
    unfold MPFR_INT_SIGN MPFR_SIGN
    simp only
    have : a._mpfr_sign = 1 := hs
    rw [this]; rfl
  unfold sub1_small sub1_small_round
  simp only []
  generalize MPFR_RNDRAW_EVEN w (MPFR_PREC a) (MPFR_MANT b) (MPFR_PREC b) rnd (MPFR_SIGN a) = R
    at r1 r2 p1 p2 p3 ⊢
  obtain ⟨L, inex, carry⟩ := R
  simp only at r1 r2 p1 p2 p3 ⊢
  subst p1 p2
  simp only [Bool.false_eq_true, if_false]
  rw [adjust_zero, hneg]
  constructor
  · intro hz
    rw [hz]
    simp only [Bool.false_eq_true, if_false]
    refine ⟨?_, hint _ _⟩
    have h1 : spec_value_of w { a with _mpfr_exp := regular (MPFR_GET_EXP b), _mpfr_d := L }
        = spec_value.regular (MPFR_SIGN a) (MPFR_GET_EXP b)
          (limb_value w L / 2 ^ (MPFR_LIMB_SIZE w a * w - MPFR_PREC a)) := rfl
    rw [h1, hs, p3]
    congr 1
    rw [Nat.pow_div (by omega) (by norm_num)]
    congr 1
    omega
  · intro hz
    rw [hz]
    simp only [if_true]
    have hn := ntz_power_of_two ⟨w, emin, emax⟩
      { a with _mpfr_exp := regular (MPFR_GET_EXP b), _mpfr_d := L } (MPFR_GET_EXP b) hw ha rfl r1 r2
      p3 he
    simp only at hn
    rw [hn]
    have hsv := setmax_spec_value w hw
      { a with _mpfr_exp := regular (MPFR_GET_EXP b), _mpfr_d := L } ha (MPFR_GET_EXP b - 1)
    rw [hsv]
    refine ⟨?_, ?_⟩
    · have : MPFR_SIGN { a with _mpfr_exp := regular (MPFR_GET_EXP b), _mpfr_d := L } = 1 := hs
      rw [this]; rfl
    · have : MPFR_INT_SIGN (mpfr_setmax w
          { a with _mpfr_exp := regular (MPFR_GET_EXP b), _mpfr_d := L } (MPFR_GET_EXP b - 1)) = 1 := by
        unfold MPFR_INT_SIGN MPFR_SIGN mpfr_setmax
        simp only
        have : a._mpfr_sign = 1 := hs
        rw [this]; rfl
      rw [this]

/-- C12 (amended): for `b = 1.0` held at precision 2 (positive, exponent 1, significand the
top bit alone) and a regular `c` that takes the fast path, with the exponent 0 in range:
under round-to-nearest (and every mode that does not round a positive result toward zero)
`mpfr_sub1` stores exactly `1.0` and returns `+1`; the number one unit in the last place below
`1.0`, with the return value `-1`, is the result of the modes that round a positive result
toward zero (`GMP_RNDZ`, `GMP_RNDD`). -/
theorem sub1_one_minus_tiny (env : Env) (a b c : mpfr) (rnd_mode : mp_rnd_t)
    (hw : limb_width_ok env.BITS_PER_MP_LIMB) (ha : 1 ≤ MPFR_PREC a)
    (hb : mpfr_regular env.BITS_PER_MP_LIMB b) (hc : mpfr_regular env.BITS_PER_MP_LIMB c)
    (_hpb : MPFR_PREC b = 2) (hsb : MPFR_SIGN b = 1) (heb : MPFR_GET_EXP b = 1)
    (hvb : limb_value env.BITS_PER_MP_LIMB (MPFR_MANT b)
      = 2 ^ (env.BITS_PER_MP_LIMB * MPFR_LIMB_SIZE env.BITS_PER_MP_LIMB b - 1))
    (hemin : env.__gmpfr_emin ≤ 0)
    (hfast : MPFR_GET_EXP c
      ≤ MPFR_GET_EXP b - ((max (MPFR_PREC a) (MPFR_PREC b) : Nat) : Int) - 2) :
    (rnd_mode = GMP_RNDN ∨ rnd_mode = GMP_RNDU ∨ rnd_mode = GMP_RNDA →
      spec_value_of env.BITS_PER_MP_LIMB (mpfr_sub1 env a b c rnd_mode).1
        = spec_value.regular 1 1 (2 ^ (MPFR_PREC a - 1)) ∧
      (mpfr_sub1 env a b c rnd_mode).2 = 1) ∧
    (rnd_mode = GMP_RNDZ ∨ rnd_mode = GMP_RNDD →
      spec_value_of env.BITS_PER_MP_LIMB (mpfr_sub1 env a b c rnd_mode).1
        = spec_value.regular 1 0 (2 ^ MPFR_PREC a - 1) ∧
      (mpfr_sub1 env a b c rnd_mode).2 = -1) := by
  have hlt := fast_lt env.BITS_PER_MP_LIMB hw.1 _ b c hb hc hfast
  rw [mpfr_sub1_gt env a b c rnd_mode hb hlt,
    sub1_ordered_fast env { a with _mpfr_sign := MPFR_SIGN b } b c _ rnd_mode hfast]
  obtain ⟨h1, h2⟩ := sub1_small_power_of_two env { a with _mpfr_sign := MPFR_SIGN b } b rnd_mode
    hw.1 ha hsb hb hvb (by omega)
  rw [heb] at h1 h2
  constructor
  · intro hm
    apply h1
    rcases hm with h | h | h <;> rw [h] <;> rfl
  · intro hm
    apply h2
    rcases hm with h | h <;> rw [h] <;> rfl

set_option maxRecDepth 8000 in
/-- Witness of C12 (amended): `1.0 - 2 ^ (-11)` at precision 2, rounded to nearest. -/
theorem sub1_one_minus_tiny_witness :
    spec_value_of 64 (mpfr_sub1 env64 (dest64 2) one_prec2 tiny_prec2 GMP_RNDN).1
        = spec_value.regular 1 1 2 ∧
      (mpfr_sub1 env64 (dest64 2) one_prec2 tiny_prec2 GMP_RNDN).2 = 1 :=
  (sub1_one_minus_tiny env64 (dest64 2) one_prec2 tiny_prec2 GMP_RNDN (by decide) (by decide)
    (by decide) (by decide) (by decide) (by decide) (by decide) (by decide) (by decide)
    (by decide)).1 (Or.inl rfl)

set_option maxRecDepth 8000 in
/-- C12 as stated fails: `1.0 - 2 ^ (-11)` at precision 2 under round-to-nearest takes the
fast path and yields `1.0` itself with the return value `+1`, not the number one unit in the
last place below `1.0` with a negative return value; that number is what `GMP_RNDZ` yields. -/
theorem sub1_one_minus_tiny_nearest_is_one :
    mpfr_regular 64 one_prec2 ∧ mpfr_regular 64 tiny_prec2 ∧
    MPFR_GET_EXP tiny_prec2
      ≤ MPFR_GET_EXP one_prec2 - ((max (MPFR_PREC (dest64 2)) (MPFR_PREC one_prec2) : Nat) : Int)
        - 2 ∧
    mpfr_sub1 env64 (dest64 2) one_prec2 tiny_prec2 GMP_RNDN
      = ({ _mpfr_prec := 2, _mpfr_sign := 1, _mpfr_exp := regular 1, _mpfr_d := [2 ^ 63] }, 1) ∧
    mpfr_sub1 env64 (dest64 2) one_prec2 tiny_prec2 GMP_RNDZ
      = ({ _mpfr_prec := 2, _mpfr_sign := 1, _mpfr_exp := regular 0, _mpfr_d := [3 * 2 ^ 62] },
          -1) := by
  decide

/-! ## Claim C13: the overflow exits -/

/-- Lines 323-326: a mode that rounds toward zero for the sign of the result is reduced to
`GMP_RNDZ`. -/
theorem rnd_mode_of_like_rndz (a : mpfr) (rnd0 : mp_rnd_t)
    (h : MPFR_IS_LIKE_RNDZ rnd0 (MPFR_IS_NEG a) = true) : sub1_rnd_mode a rnd0 = GMP_RNDZ := by
  unfold sub1_rnd_mode MPFR_IS_LIKE_RNDZ MPFR_IS_RNDUTEST_OR_RNDDNOTTEST at *
  cases rnd0 <;> cases hn : MPFR_IS_NEG a <;> simp [hn] at h ⊢

/-- The overflow outcome in a mode that does not round toward zero for the sign. -/
theorem overflow_inf (env : Env) (x : mpfr) (rnd : mp_rnd_t) (s : Int) (hs : s = 1 ∨ s = -1)
    (hl : MPFR_IS_LIKE_RNDZ rnd (decide (s < 0)) = false) :
    mpfr_overflow env x rnd s = ({ x with _mpfr_exp := MPFR_EXP_INF, _mpfr_sign := s }, s) := by
  unfold mpfr_overflow
  rw [hl]
  simp only [Bool.false_eq_true, if_false]
  rcases hs with h | h <;> rw [h] <;> rfl

/-- The overflow exits for operands in order: the destination is an infinity with the sign
held by `a`, the value returned is that sign, and the mode does not round toward zero for that
sign. -/
theorem sub1_ordered_overflow (env : Env) (a b c : mpfr) (rnd : mp_rnd_t)
    (hw : limb_width_ok env.BITS_PER_MP_LIMB) (ha : 1 ≤ MPFR_PREC a)
    (hs : MPFR_SIGN a = 1 ∨ MPFR_SIGN a = -1)
    (hb : mpfr_regular env.BITS_PER_MP_LIMB b) (hc : mpfr_regular env.BITS_PER_MP_LIMB c)
    (hlt : mpfr_abs_in env.BITS_PER_MP_LIMB c (common_unit env.BITS_PER_MP_LIMB b c)
      < mpfr_abs_in env.BITS_PER_MP_LIMB b (common_unit env.BITS_PER_MP_LIMB b c))
    (hov : sub1_carry_past_emax env a b c rnd) :
    (sub1_ordered env a b c (mpfr_cmp2 env.BITS_PER_MP_LIMB b c).2 rnd).1._mpfr_exp
      = MPFR_EXP_INF ∧
    MPFR_SIGN (sub1_ordered env a b c (mpfr_cmp2 env.BITS_PER_MP_LIMB b c).2 rnd).1
      = MPFR_SIGN a ∧
    (sub1_ordered env a b c (mpfr_cmp2 env.BITS_PER_MP_LIMB b c).2 rnd).2 = MPFR_SIGN a ∧
    MPFR_IS_LIKE_RNDZ rnd (decide (MPFR_SIGN a < 0)) = false ∧
    (¬ MPFR_GET_EXP c ≤ MPFR_GET_EXP b - ((max (MPFR_PREC a) (MPFR_PREC b) : Nat) : Int) - 2 →
      sub1_rnd_mode a rnd ≠ GMP_RNDZ) := by
  obtain ⟨hemax, hov⟩ := hov
  by_cases hfast : MPFR_GET_EXP c
      ≤ MPFR_GET_EXP b - ((max (MPFR_PREC a) (MPFR_PREC b) : Nat) : Int) - 2
  · rw [if_pos hfast] at hov
    rw [sub1_ordered_fast env a b c _ rnd hfast]
    obtain ⟨_, _, _, _, r5, _⟩ := rndraw_spec env.BITS_PER_MP_LIMB hw.1 a b ha hb rnd (MPFR_SIGN a)
    have hl := r5 hov
    have hsr : sub1_small_round env a b rnd
        = mpfr_overflow env
            { a with
              _mpfr_exp := regular (MPFR_GET_EXP b + 1)
              _mpfr_d := (MPFR_RNDRAW_EVEN env.BITS_PER_MP_LIMB (MPFR_PREC a) (MPFR_MANT b)
                (MPFR_PREC b) rnd (MPFR_SIGN a)).1 } rnd (MPFR_SIGN a) := by
      unfold sub1_small_round
      simp only []
      rw [if_pos hov, if_pos (by omega)]
    unfold sub1_small
    rw [hsr, adjust_overflow, overflow_inf env _ rnd _ hs hl]
    exact ⟨rfl, rfl, rfl, hl, fun h => absurd hfast h⟩
  · rw [if_neg hfast] at hov
    obtain ⟨hc0, hadd⟩ := hov
    rw [sub1_ordered_general env a b c _ rnd hfast, sub1_general_eq, hc0]
    rw [hc0] at hadd
    obtain ⟨_, _, _, _, _, _, g7⟩ := sub1_rounded_ok env.BITS_PER_MP_LIMB hw a b c ha hb hc hlt 0
      hc0.symm rnd
    have hnz : sub1_rnd_mode a rnd ≠ GMP_RNDZ := by
      intro h
      have := g7 h
      omega
    have hl : MPFR_IS_LIKE_RNDZ (sub1_rnd_mode a rnd) (decide (MPFR_SIGN a < 0)) = false := by
      cases h : MPFR_IS_LIKE_RNDZ (sub1_rnd_mode a rnd) (decide (MPFR_SIGN a < 0))
      · rfl
      · exact absurd (like_rndz_reduced a rnd h) hnz
    have hl0 : MPFR_IS_LIKE_RNDZ rnd (decide (MPFR_SIGN a < 0)) = false := by
      cases h : MPFR_IS_LIKE_RNDZ rnd (decide (MPFR_SIGN a < 0))
      · rfl
      · exact absurd (rnd_mode_of_like_rndz a rnd h) hnz
    unfold sub1_end_of_sub
    simp only []
    rw [if_neg (by simp), if_pos ⟨by omega, hemax⟩]
    have hsa : ∀ L : List Nat, MPFR_SIGN { a with _mpfr_d := L } = MPFR_SIGN a := fun _ => rfl
    rw [hsa, overflow_inf env _ _ _ hs hl]
    exact ⟨rfl, rfl, rfl, hl0, fun _ => hnz⟩

/-- C13 (amended): whenever a rounding carry would raise the exponent of the result above
`__gmpfr_emax` (general path: `cancel = 0`, `add_exp = 1` and `EXP (b) = emax`; fast path: the
rounding of `b` alone carries into a new top bit while `EXP (b) = emax`, `b` being the operand
of larger magnitude), the destination is an infinity carrying the sign of the result, which is
the sign of the exact difference: the sign of the first operand when it has the larger
magnitude and the opposite sign when the operands were exchanged; the value returned is
non-zero with the sign of that infinity, and the mode does not round toward zero for that
sign (on the general path the mode after the reduction of lines 323-326 is not
`GMP_RNDZ`). -/
theorem sub1_overflow_exit (env : Env) (a b c : mpfr) (rnd_mode : mp_rnd_t)
    (hw : limb_width_ok env.BITS_PER_MP_LIMB) (ha : 1 ≤ MPFR_PREC a)
    (hb : mpfr_regular env.BITS_PER_MP_LIMB b) (hc : mpfr_regular env.BITS_PER_MP_LIMB c)
    (hne : (mpfr_cmp2 env.BITS_PER_MP_LIMB b c).1 ≠ 0)
    (hov : sub1_carry_past_emax env (sub1_signed env.BITS_PER_MP_LIMB a b c)
      (sub1_larger env.BITS_PER_MP_LIMB b c) (sub1_smaller env.BITS_PER_MP_LIMB b c) rnd_mode) :
    (mpfr_sub1 env a b c rnd_mode).1._mpfr_exp = MPFR_EXP_INF ∧
    MPFR_SIGN (mpfr_sub1 env a b c rnd_mode).1 = exact_sign env.BITS_PER_MP_LIMB b c ∧
    MPFR_SIGN (mpfr_sub1 env a b c rnd_mode).1
      = (if (mpfr_cmp2 env.BITS_PER_MP_LIMB b c).1 < 0 then - MPFR_SIGN b else MPFR_SIGN b) ∧
    (mpfr_sub1 env a b c rnd_mode).2 ≠ 0 ∧
    (mpfr_sub1 env a b c rnd_mode).2 = MPFR_SIGN (mpfr_sub1 env a b c rnd_mode).1 ∧
    MPFR_IS_LIKE_RNDZ rnd_mode (MPFR_IS_NEG (mpfr_sub1 env a b c rnd_mode).1) = false ∧
    (¬ MPFR_GET_EXP (sub1_smaller env.BITS_PER_MP_LIMB b c)
        ≤ MPFR_GET_EXP (sub1_larger env.BITS_PER_MP_LIMB b c)
          - ((max (MPFR_PREC a) (MPFR_PREC (sub1_larger env.BITS_PER_MP_LIMB b c)) : Nat) : Int)
          - 2 →
      sub1_rnd_mode (sub1_signed env.BITS_PER_MP_LIMB a b c) rnd_mode ≠ GMP_RNDZ) := by
  have hsb : MPFR_SIGN b = 1 ∨ MPFR_SIGN b = -1 := hb.2.1
  have hsn : - MPFR_SIGN b = 1 ∨ - MPFR_SIGN b = -1 := by omega
  rcases Nat.lt_trichotomy (mpfr_abs_in env.BITS_PER_MP_LIMB c (common_unit env.BITS_PER_MP_LIMB b c))
      (mpfr_abs_in env.BITS_PER_MP_LIMB b (common_unit env.BITS_PER_MP_LIMB b c)) with h | h | h
  · have hcmp := mpfr_cmp2_sign_pos _ b c h
    have h1 : sub1_larger env.BITS_PER_MP_LIMB b c = b := by
      unfold sub1_larger; rw [hcmp]; rfl
    have h2 : sub1_smaller env.BITS_PER_MP_LIMB b c = c := by
      unfold sub1_smaller; rw [hcmp]; rfl
    have h3 : sub1_signed env.BITS_PER_MP_LIMB a b c = { a with _mpfr_sign := MPFR_SIGN b } := by
      unfold sub1_signed; rw [hcmp]; rfl
    have hes : exact_sign env.BITS_PER_MP_LIMB b c = MPFR_SIGN b := by
      unfold exact_sign; rw [if_pos h]
    rw [h1, h2, h3] at hov
    rw [h1, h2, h3, hcmp, hes, mpfr_sub1_gt env a b c rnd_mode hb h]
    obtain ⟨o1, o2, o3, o4, o5⟩ := sub1_ordered_overflow env { a with _mpfr_sign := MPFR_SIGN b }
      b c rnd_mode hw ha hsb hb hc h hov
    have o2b : MPFR_SIGN (sub1_ordered env { a with _mpfr_sign := MPFR_SIGN b } b c
        (mpfr_cmp2 env.BITS_PER_MP_LIMB b c).2 rnd_mode).1 = MPFR_SIGN b := o2
    have o3b : (sub1_ordered env { a with _mpfr_sign := MPFR_SIGN b } b c
        (mpfr_cmp2 env.BITS_PER_MP_LIMB b c).2 rnd_mode).2 = MPFR_SIGN b := o3
    have o4b : MPFR_IS_LIKE_RNDZ rnd_mode (decide (MPFR_SIGN b < 0)) = false := o4
    refine ⟨o1, o2b, by rw [o2b]; rfl, by rw [o3b]; omega, by rw [o3b, o2b], ?_, o5⟩
    unfold MPFR_IS_NEG
    rw [o2b]; exact o4b
  · exfalso
    apply hne
    unfold mpfr_cmp2
    simp only []
    rw [if_pos h.symm]
  · have hcmp := mpfr_cmp2_sign_neg _ b c h
    have h1 : sub1_larger env.BITS_PER_MP_LIMB b c = c := by
      unfold sub1_larger; rw [hcmp]; rfl
    have h2 : sub1_smaller env.BITS_PER_MP_LIMB b c = b := by
      unfold sub1_smaller; rw [hcmp]; rfl
    have h3 : sub1_signed env.BITS_PER_MP_LIMB a b c
        = { a with _mpfr_sign := - MPFR_SIGN b } := by
      unfold sub1_signed; rw [hcmp]; rfl
    have hes : exact_sign env.BITS_PER_MP_LIMB b c = - MPFR_SIGN b := by
      unfold exact_sign; rw [if_neg (by omega)]
    have hcu : common_unit env.BITS_PER_MP_LIMB c b = common_unit env.BITS_PER_MP_LIMB b c := by
      unfold common_unit; exact min_comm _ _
    rw [h1, h2, h3] at hov
    rw [h1, h2, h3, hcmp, hes, mpfr_sub1_lt env a b c rnd_mode h]
    obtain ⟨o1, o2, o3, o4, o5⟩ := sub1_ordered_overflow env
      { a with _mpfr_sign := - MPFR_SIGN b } c b rnd_mode hw ha hsn hc hb (by rw [hcu]; exact h) hov
    have o2b : MPFR_SIGN (sub1_ordered env { a with _mpfr_sign := - MPFR_SIGN b } c b
        (mpfr_cmp2 env.BITS_PER_MP_LIMB c b).2 rnd_mode).1 = - MPFR_SIGN b := o2
    have o3b : (sub1_ordered env { a with _mpfr_sign := - MPFR_SIGN b } c b
        (mpfr_cmp2 env.BITS_PER_MP_LIMB c b).2 rnd_mode).2 = - MPFR_SIGN b := o3
    have o4b : MPFR_IS_LIKE_RNDZ rnd_mode (decide (- MPFR_SIGN b < 0)) = false := o4
    refine ⟨o1, o2b, by rw [o2b]; rfl, by rw [o3b]; omega, by rw [o3b, o2b], ?_, o5⟩
    unfold MPFR_IS_NEG
    rw [o2b]; exact o4b

set_option maxRecDepth 8000 in
/-- Witness of C13 (amended): `0.111b * 2 ^ emax - 0.10b * 2 ^ (emax - 5)` at precision 2
rounded toward plus infinity, on the fast path. -/
theorem sub1_overflow_exit_witness :
    sub1_carry_past_emax env64 (sub1_signed 64 (dest64 2) overflow_tie_b overflow_tie_c)
      (sub1_larger 64 overflow_tie_b overflow_tie_c)
      (sub1_smaller 64 overflow_tie_b overflow_tie_c) GMP_RNDU ∧
    (mpfr_sub1 env64 (dest64 2) overflow_tie_b overflow_tie_c GMP_RNDU).1._mpfr_exp
      = MPFR_EXP_INF ∧
    (mpfr_sub1 env64 (dest64 2) overflow_tie_b overflow_tie_c GMP_RNDU).2 = 1 :=
  have h := sub1_overflow_exit env64 (dest64 2) overflow_tie_b overflow_tie_c GMP_RNDU
    (by decide) (by decide) (by decide) (by decide) (by decide) (by decide)
  ⟨by decide, h.1, by decide⟩

set_option maxRecDepth 8000 in
/-- C13 as stated fails in its gloss of the result sign: for
`0.10b * 2 ^ (emax - 5) - 0.111b * 2 ^ emax` at precision 2 rounded toward minus infinity the
operands are exchanged, the rounding of the larger operand carries past `emax`, and the
destination is the negative infinity with the value `-1` returned, while the operand of larger
magnitude is positive. -/
theorem sub1_overflow_sign_not_of_larger :
    mpfr_regular 64 overflow_tie_c ∧ mpfr_regular 64 overflow_tie_b ∧
    sub1_carry_past_emax env64 (sub1_signed 64 (dest64 2) overflow_tie_c overflow_tie_b)
      (sub1_larger 64 overflow_tie_c overflow_tie_b)
      (sub1_smaller 64 overflow_tie_c overflow_tie_b) GMP_RNDD ∧
    sub1_larger 64 overflow_tie_c overflow_tie_b = overflow_tie_b ∧
    MPFR_SIGN (sub1_larger 64 overflow_tie_c overflow_tie_b) = 1 ∧
    mpfr_sub1 env64 (dest64 2) overflow_tie_c overflow_tie_b GMP_RNDD
      = ({ _mpfr_prec := 2, _mpfr_sign := -1, _mpfr_exp := MPFR_EXP_INF, _mpfr_d := [2 ^ 63] },
          -1) := by
  decide

/-! ## Claim C14: the underflow exit of the general path -/

/-- The value of the underflow outcome: it depends on the mode and on the sign only, not on
the significand held by the destination. -/
theorem underflow_spec_value (env : Env) (x : mpfr) (rnd : mp_rnd_t) (s : Int)
    (hw : 0 < env.BITS_PER_MP_LIMB) (hp : 1 ≤ MPFR_PREC x) :
    spec_value_of env.BITS_PER_MP_LIMB (mpfr_underflow env x rnd s).1
      = if MPFR_IS_LIKE_RNDZ rnd (decide (s < 0)) = true then spec_value.zero s
        else spec_value.regular s env.__gmpfr_emin (2 ^ (MPFR_PREC x - 1)) := by
  obtain ⟨w, emin, emax⟩ := env
  simp only at hw ⊢
  unfold mpfr_underflow
  by_cases h : MPFR_IS_LIKE_RNDZ rnd (decide (s < 0)) = true
  · rw [if_pos h, if_pos h]; rfl
  · rw [if_neg h, if_neg h]
    simp only
    have han := limb_size_pos w x
    have hle := prec_le_limbs w hw x
    have hwan : w ≤ w * MPFR_LIMB_SIZE w x := Nat.le_mul_of_pos_right _ han
    have hca := Nat.mul_comm w (MPFR_LIMB_SIZE w x)
    have h1 : spec_value_of w { mpfr_setmin w x emin with _mpfr_sign := s }
        = spec_value.regular s emin
          (limb_value w (MPN_ZERO (MPFR_LIMB_SIZE w x - 1) ++ [MPFR_LIMB_HIGHBIT w])
            / 2 ^ (MPFR_LIMB_SIZE w x * w - MPFR_PREC x)) := rfl
    rw [h1, setmin_value w hw _ han]
    congr 1
    rw [Nat.pow_div (by omega) (by norm_num)]
    congr 1
    omega

/-- C14: on the general path (`a` carrying the sign of the result, `b` the operand of larger
magnitude, within the exponent range), when the computed exponent
`EXP (b) - cancel + add_exp` is below `emin` the result is the outcome of `mpfr_underflow`
called with the sign of the result, and its value (a signed zero or the smallest magnitude)
does not depend on the computed significand.  The mode handed over is `GMP_RNDZ` under
round-to-nearest exactly when the exponent is below `emin - 1`, or equals `emin - 1` while
the rounded significand is a power of two and `inexact ≥ 0`; in the complementary
round-to-nearest case it stays `GMP_RNDN`; a directed mode is handed over as reduced by lines
323-326. -/
theorem sub1_underflow_exit (env : Env) (a b c : mpfr) (cancel : Nat) (rnd0 : mp_rnd_t)
    (hw : 0 < env.BITS_PER_MP_LIMB) (ha : 1 ≤ MPFR_PREC a)
    (hemin : env.__gmpfr_emin ≤ MPFR_GET_EXP b)
    (hund : MPFR_GET_EXP b - (cancel : Int)
        + ((sub1_rounded env.BITS_PER_MP_LIMB a b c cancel rnd0).2.2 : Int)
      < env.__gmpfr_emin) :
    sub1_general env a b c cancel rnd0
      = mpfr_underflow env
          { a with _mpfr_d := (sub1_rounded env.BITS_PER_MP_LIMB a b c cancel rnd0).1 }
          (if rnd0 = GMP_RNDN ∧
              (MPFR_GET_EXP b - (cancel : Int)
                  + ((sub1_rounded env.BITS_PER_MP_LIMB a b c cancel rnd0).2.2 : Int)
                < env.__gmpfr_emin - 1 ∨
               (MPFR_GET_EXP b - (cancel : Int)
                  + ((sub1_rounded env.BITS_PER_MP_LIMB a b c cancel rnd0).2.2 : Int)
                  = env.__gmpfr_emin - 1 ∧
                mpfr_powerof2_raw env.BITS_PER_MP_LIMB
                  { a with _mpfr_d := (sub1_rounded env.BITS_PER_MP_LIMB a b c cancel rnd0).1 }
                  = true ∧
                0 ≤ (sub1_rounded env.BITS_PER_MP_LIMB a b c cancel rnd0).2.1))
            then GMP_RNDZ else sub1_rnd_mode a rnd0)
          (MPFR_SIGN a) ∧
    (rnd0 = GMP_RNDN →
      MPFR_GET_EXP b - (cancel : Int)
          + ((sub1_rounded env.BITS_PER_MP_LIMB a b c cancel rnd0).2.2 : Int)
        = env.__gmpfr_emin - 1 →
      (mpfr_powerof2_raw env.BITS_PER_MP_LIMB
          { a with _mpfr_d := (sub1_rounded env.BITS_PER_MP_LIMB a b c cancel rnd0).1 } = false ∨
        (sub1_rounded env.BITS_PER_MP_LIMB a b c cancel rnd0).2.1 < 0) →
      sub1_general env a b c cancel rnd0
        = mpfr_underflow env
            { a with _mpfr_d := (sub1_rounded env.BITS_PER_MP_LIMB a b c cancel rnd0).1 }
            GMP_RNDN (MPFR_SIGN a)) ∧
    (∃ rnd1, spec_value_of env.BITS_PER_MP_LIMB (sub1_general env a b c cancel rnd0).1
      = spec_value_of env.BITS_PER_MP_LIMB (mpfr_underflow env a rnd1 (MPFR_SIGN a)).1) ∧
    (spec_value_of env.BITS_PER_MP_LIMB (sub1_general env a b c cancel rnd0).1
        = spec_value.zero (MPFR_SIGN a) ∨
      spec_value_of env.BITS_PER_MP_LIMB (sub1_general env a b c cancel rnd0).1
        = spec_value.regular (MPFR_SIGN a) env.__gmpfr_emin (2 ^ (MPFR_PREC a - 1))) := by
  have hadd : (sub1_rounded env.BITS_PER_MP_LIMB a b c cancel rnd0).2.2 ≤ 1 :=
    sub1_labels_add_exp _ _ _ _ _
  have hN := sub1_rnd_mode_N a rnd0
  have hc0 : cancel ≠ 0 := by
    intro h
    rw [h] at hund
    omega
  obtain ⟨R, hR⟩ : ∃ R, sub1_rounded env.BITS_PER_MP_LIMB a b c cancel rnd0 = R := ⟨_, rfl⟩
  rw [hR] at hund hadd ⊢
  have hsub : ((cancel - R.2.2 : Nat) : Int) = (cancel : Int) - (R.2.2 : Int) := by omega
  have hgen : ∀ rnd1 : mp_rnd_t,
      rnd1 = (if sub1_rnd_mode a rnd0 = GMP_RNDN ∧
          (MPFR_GET_EXP b - ((cancel - R.2.2 : Nat) : Int) < env.__gmpfr_emin - 1 ∨
            (R.2.1 ≥ 0 ∧ mpfr_powerof2_raw env.BITS_PER_MP_LIMB { a with _mpfr_d := R.1 } = true))
        then GMP_RNDZ else sub1_rnd_mode a rnd0) →
      sub1_general env a b c cancel rnd0
        = mpfr_underflow env { a with _mpfr_d := R.1 } rnd1 (MPFR_SIGN a) := by
    intro rnd1 h1
    rw [sub1_general_eq, hR]
    unfold sub1_end_of_sub
    simp only []
    rw [if_pos hc0, if_pos (by rw [hsub]; omega), h1]
    rfl
  have hfirst : sub1_general env a b c cancel rnd0
      = mpfr_underflow env { a with _mpfr_d := R.1 }
          (if rnd0 = GMP_RNDN ∧
              (MPFR_GET_EXP b - (cancel : Int) + (R.2.2 : Int) < env.__gmpfr_emin - 1 ∨
               (MPFR_GET_EXP b - (cancel : Int) + (R.2.2 : Int) = env.__gmpfr_emin - 1 ∧
                mpfr_powerof2_raw env.BITS_PER_MP_LIMB { a with _mpfr_d := R.1 } = true ∧
                0 ≤ R.2.1))
            then GMP_RNDZ else sub1_rnd_mode a rnd0)
          (MPFR_SIGN a) := by
    apply hgen
    rw [hsub]
    apply if_congr _ rfl rfl
    rw [hN]
    constructor
    · rintro ⟨h1, h2 | ⟨_, h3, h4⟩⟩
      · exact ⟨h1, Or.inl (by omega)⟩
      · exact ⟨h1, Or.inr ⟨h4, h3⟩⟩
    · rintro ⟨h1, h2 | ⟨h2, h3⟩⟩
      · exact ⟨h1, Or.inl (by omega)⟩
      · by_cases h4 : MPFR_GET_EXP b - (cancel : Int) + (R.2.2 : Int) < env.__gmpfr_emin - 1
        · exact ⟨h1, Or.inl (by omega)⟩
        · exact ⟨h1, Or.inr ⟨by omega, h3, h2⟩⟩
  have hval : ∀ rnd1 : mp_rnd_t,
      spec_value_of env.BITS_PER_MP_LIMB
          (mpfr_underflow env { a with _mpfr_d := R.1 } rnd1 (MPFR_SIGN a)).1
        = spec_value_of env.BITS_PER_MP_LIMB (mpfr_underflow env a rnd1 (MPFR_SIGN a)).1 := by
    intro rnd1
    rw [underflow_spec_value env _ rnd1 _ hw (show 1 ≤ MPFR_PREC { a with _mpfr_d := R.1 } from ha),
      underflow_spec_value env a rnd1 _ hw ha]
    rfl
  refine ⟨hfirst, ?_, ?_, ?_⟩
  · intro hn he hcomp
    apply hgen
    have hneg : ¬ (sub1_rnd_mode a rnd0 = GMP_RNDN ∧
        (MPFR_GET_EXP b - ((cancel - R.2.2 : Nat) : Int) < env.__gmpfr_emin - 1 ∨
          (R.2.1 ≥ 0 ∧
            mpfr_powerof2_raw env.BITS_PER_MP_LIMB { a with _mpfr_d := R.1 } = true))) := by
      rintro ⟨_, h2 | ⟨h2, h3⟩⟩
      · omega
      · rcases hcomp with h | h
        · rw [h] at h3; exact absurd h3 (by decide)
        · omega
    rw [if_neg hneg]
    exact (hN.mpr hn).symm
  · exact ⟨_, by rw [hfirst, hval]⟩
  · have hcases : ∀ rnd1 : mp_rnd_t,
        spec_value_of env.BITS_PER_MP_LIMB (mpfr_underflow env a rnd1 (MPFR_SIGN a)).1
          = spec_value.zero (MPFR_SIGN a) ∨
        spec_value_of env.BITS_PER_MP_LIMB (mpfr_underflow env a rnd1 (MPFR_SIGN a)).1
          = spec_value.regular (MPFR_SIGN a) env.__gmpfr_emin (2 ^ (MPFR_PREC a - 1)) := by
      intro rnd1
      rw [underflow_spec_value env a rnd1 _ hw ha]
      by_cases h : MPFR_IS_LIKE_RNDZ rnd1 (decide (MPFR_SIGN a < 0)) = true
      · left; rw [if_pos h]
      · right; rw [if_neg h]
    rw [hfirst, hval]
    exact hcases _

set_option maxRecDepth 8000 in
/-- Witness of C14, both branches at the exponent `emin - 1` under round-to-nearest.  Forced:
`0.11b * 2 ^ emin - 0.10b * 2 ^ emin` at precision 2; the difference `0.10b * 2 ^ (emin - 1)`
is a power of two with `inexact = 0`, the mode is forced to `GMP_RNDZ` and the result is `+0`
with the value `-1` returned.  Complement: `0.111b * 2 ^ emin - 0.100b * 2 ^ emin` at
precision 3; the difference `0.110b * 2 ^ (emin - 1)` is not a power of two, the mode stays
`GMP_RNDN` and the result is the smallest positive number with the value `+1` returned. -/
theorem sub1_underflow_exit_witness :
    MPFR_GET_EXP underflow_b2 - ((1 : Nat) : Int)
        + ((sub1_rounded 64 (dest64 2) underflow_b2 underflow_c2 1 GMP_RNDN).2.2 : Int)
      = env64.__gmpfr_emin - 1 ∧
    sub1_general env64 (dest64 2) underflow_b2 underflow_c2 1 GMP_RNDN
      = mpfr_underflow env64 { dest64 2 with _mpfr_d := [2 ^ 63] } GMP_RNDZ 1 ∧
    spec_value_of 64 (sub1_general env64 (dest64 2) underflow_b2 underflow_c2 1 GMP_RNDN).1
      = spec_value.zero 1 ∧
    (sub1_general env64 (dest64 2) underflow_b2 underflow_c2 1 GMP_RNDN).2 = -1 ∧
    MPFR_GET_EXP underflow_b3 - ((1 : Nat) : Int)
        + ((sub1_rounded 64 (dest64 3) underflow_b3 underflow_c3 1 GMP_RNDN).2.2 : Int)
      = env64.__gmpfr_emin - 1 ∧
    sub1_general env64 (dest64 3) underflow_b3 underflow_c3 1 GMP_RNDN
      = mpfr_underflow env64 { dest64 3 with _mpfr_d := [3 * 2 ^ 62] } GMP_RNDN 1 ∧
    spec_value_of 64 (sub1_general env64 (dest64 3) underflow_b3 underflow_c3 1 GMP_RNDN).1
      = spec_value.regular 1 env64.__gmpfr_emin 4 ∧
    (sub1_general env64 (dest64 3) underflow_b3 underflow_c3 1 GMP_RNDN).2 = 1 :=
  ⟨by decide,
    (sub1_underflow_exit env64 (dest64 2) underflow_b2 underflow_c2 1 GMP_RNDN (by decide)
      (by decide) (by decide) (by decide)).1.trans (by decide),
    by decide, by decide, by decide,
    ((sub1_underflow_exit env64 (dest64 3) underflow_b3 underflow_c3 1 GMP_RNDN (by decide)
      (by decide) (by decide) (by decide)).2.1 rfl (by decide) (by decide)).trans (by decide),
    by decide, by decide⟩

/-! ## Claim C15: `__gmpfr_int_ceil_log2` -/

/-- The leading zeros and the significant bits of a limb add up to the width of the limb. -/
theorem count_leading_zeros_add_nbits (w x : Nat) (hx : x < 2 ^ w) :
    count_leading_zeros w x + nbits w x = w := by
  induction w with
  | zero => rfl
  | succ k ih =>
    unfold count_leading_zeros nbits
    have hdiv : x / 2 ^ k < 2 := by
      rw [Nat.div_lt_iff_lt_mul (Nat.two_pow_pos k), Nat.mul_comm, ← pow_succ]
      exact hx
    by_cases h : x < 2 ^ k
    · have h0 : x / 2 ^ k = 0 := Nat.div_eq_of_lt h
      rw [if_pos h, h0]
      simp only [Nat.zero_mod, zero_ne_one, if_false]
      have := ih h
      omega
    · have h1 : x / 2 ^ k = 1 := by
        have : 0 < x / 2 ^ k := Nat.div_pos (by omega) (Nat.two_pow_pos k)
        omega
      rw [if_neg h, h1]
      simp

/-- C15: for every `n ≥ 1` such that `n - 1` fits in a limb (which line 37 asserts, and which
holds for every `unsigned long` when a limb is at least as wide), `__gmpfr_int_ceil_log2 (n)`
returns the least `k ≥ 0` with `2 ^ k ≥ n`, that is `⌈log2 n⌉`: `0` for `n = 1` and
`BITS_PER_MP_LIMB - count_leading_zeros (n - 1)` for `n > 1`. -/
theorem int_ceil_log2_spec (w n : Nat) (hn : 1 ≤ n) (hfit : n - 1 < 2 ^ w) :
    ∃ k, __gmpfr_int_ceil_log2 w n = some k ∧ n ≤ 2 ^ k ∧ (∀ j, n ≤ 2 ^ j → k ≤ j) ∧
      (n = 1 → k = 0) ∧ (1 < n → k = w - count_leading_zeros w (n - 1)) := by
  have hsum := count_leading_zeros_add_nbits w (n - 1) hfit
  by_cases h1 : n = 1
  · refine ⟨0, ?_, by omega, fun j _ => Nat.zero_le j, fun _ => rfl, fun h => absurd h1 (by omega)⟩
    unfold __gmpfr_int_ceil_log2
    rw [if_pos h1]
  · have hgt : 1 < n := by omega
    have hmod : (n - 1) % 2 ^ w = n - 1 := Nat.mod_eq_of_lt hfit
    have hk : w - count_leading_zeros w (n - 1) = nbits w (n - 1) := by omega
    refine ⟨w - count_leading_zeros w (n - 1), ?_, ?_, ?_, fun h => absurd h h1, fun _ => rfl⟩
    · unfold __gmpfr_int_ceil_log2
      rw [if_neg h1, if_neg (by omega)]
      simp only [hmod, ne_eq, not_true_eq_false, if_false]
    · rw [hk]
      have := (nbits_spec w (n - 1) (by omega) hfit).2
      omega
    · intro j hj
      rw [hk]
      exact nbits_le w (n - 1) j (by omega)

/-- Witness of C15: `⌈log2 5⌉ = 3` with limbs of 64 bits. -/
theorem int_ceil_log2_spec_witness :
    ∃ k, __gmpfr_int_ceil_log2 64 5 = some k ∧ 5 ≤ 2 ^ k ∧ (∀ j, 5 ≤ 2 ^ j → k ≤ j) ∧
      (5 = 1 → k = 0) ∧ (1 < 5 → k = 64 - count_leading_zeros 64 (5 - 1)) :=
  int_ceil_log2_spec 64 5 (by decide) (by decide)

/-! ## Claim C16: the exponent stored by the general path -/

/-- Lines 478-493 on the window of operands in order: when `add_exp = 1` the window is the
minimal normalized significand. -/
theorem sub1_rounded_minimal (w : Nat) (hw : limb_width_ok w) (a b c : mpfr)
    (ha : 1 ≤ MPFR_PREC a) (hb : mpfr_regular w b) (hc : mpfr_regular w c)
    (hlt : mpfr_abs_in w c (common_unit w b c) < mpfr_abs_in w b (common_unit w b c))
    (cancel : Nat) (hcancel : cancel = (mpfr_cmp2 w b c).2) (rnd0 : mp_rnd_t)
    (hadd : (sub1_rounded w a b c cancel rnd0).2.2 = 1) :
    (sub1_rounded w a b c cancel rnd0).1
      = MPN_ZERO (MPFR_LIMB_SIZE w a - 1) ++ [MPFR_LIMB_HIGHBIT w] := by
  obtain ⟨_, hml, hmwf, _⟩ := sub1_masked_spec w hw a b c ha hb hc cancel
  obtain ⟨h1, h2, hcase⟩ := sub1_state w hw a b c ha hb hc hlt cancel hcancel
  obtain ⟨hsh, hshp⟩ := sub1_sh_lt w hw.1 a ha
  have han := limb_size_pos w a
  obtain ⟨s1, s2, s3, s4, s5, s6⟩ := sub1_jump_ok w hw a b c ha hb hc cancel rnd0
  have hV : limb_value w (sub1_masked w a b c cancel) < 2 ^ (w * MPFR_LIMB_SIZE w a) := by
    have := limb_value_lt w _ hmwf; rwa [hml] at this
  have hT2 : 2 ^ (w * MPFR_LIMB_SIZE w a) = 2 ^ (w * MPFR_LIMB_SIZE w a - 1) * 2 := by
    rw [← pow_succ]; congr 1
    have := Nat.mul_pos hw.1 han
    omega
  have hone : MPFR_LIMB_ONE <<< sub1_sh w a = 2 ^ sub1_sh w a := by
    unfold MPFR_LIMB_ONE; rw [Nat.shiftLeft_eq, Nat.one_mul]
  have hupos : 0 < 2 ^ sub1_sh w a := Nat.two_pow_pos _
  have hsth := sub1_truncate_spec w hw.1
  obtain ⟨z1, z2⟩ := setmin_window w (MPFR_LIMB_SIZE w a) hw.1 han
  have zv := setmin_value w hw.1 (MPFR_LIMB_SIZE w a) han
  unfold sub1_rounded at hadd ⊢
  generalize sub1_jump w a b c cancel rnd0 = j at s1 s2 s3 s4 s5 s6 hadd ⊢
  generalize sub1_masked w a b c cancel = M at hml hmwf hcase hV hadd ⊢
  generalize (sub1_carry w a b c cancel : Int) * ((2 ^ (w * sub1_m w a b c cancel) : Nat) : Int)
    + ((sub1_LB w a b c cancel : Int) - sub1_LC w a b c cancel) = rho at h1 h2 hcase s1 s2 s3 s4 s5 s6
  cases j with
  | sub_one_ulp =>
    simp only [sub1_labels] at hadd
    omega
  | truncate i =>
    simp only [sub1_labels] at hadd ⊢
    rcases Nat.lt_or_ge (limb_value w M) (2 ^ (w * MPFR_LIMB_SIZE w a - 1)) with hlow | hhigh
    · rw [(hsth M _ han hml hmwf i 0).2 hlow]
      simp only
      rcases hcase with ⟨c1, _, _⟩ | ⟨c1, _, _⟩
      · omega
      · exact store_highbit_zero w _ han M hml c1
    · rw [(hsth M _ han hml hmwf i 0).1 hhigh] at hadd
      simp only at hadd
      omega
  | add_one_ulp =>
    have hrho := s5 rfl
    obtain ⟨a1, a2, a3, a4⟩ := add_1_value w M (MPFR_LIMB_SIZE w a) (MPFR_LIMB_ONE <<< sub1_sh w a)
      hml hmwf
    replace a3 : limb_value w
        (mpn_add_1 w M (MPFR_LIMB_SIZE w a) (MPFR_LIMB_ONE <<< sub1_sh w a)).1
        = (limb_value w M + 2 ^ sub1_sh w a) % 2 ^ (w * MPFR_LIMB_SIZE w a) := by
      rw [a3, hone]
    replace a4 : (mpn_add_1 w M (MPFR_LIMB_SIZE w a) (MPFR_LIMB_ONE <<< sub1_sh w a)).2 ≠ 0
        ↔ 2 ^ (w * MPFR_LIMB_SIZE w a) ≤ limb_value w M + 2 ^ sub1_sh w a := by
      rw [a4, hone]
    rcases hcase with ⟨c1, c2, _⟩ | ⟨_, _, c3⟩
    · simp only [sub1_labels] at hadd ⊢
      by_cases hcy : (mpn_add_1 w M (MPFR_LIMB_SIZE w a) (MPFR_LIMB_ONE <<< sub1_sh w a)).2 ≠ 0
      · rw [if_pos hcy]
        have hge := a4.mp hcy
        -- the window is a multiple of one unit below `T`, so the sum is `T` exactly
        obtain ⟨v, hv⟩ : 2 ^ sub1_sh w a ∣ limb_value w M := Nat.dvd_of_mod_eq_zero c2
        have hTs : 2 ^ (w * MPFR_LIMB_SIZE w a)
            = 2 ^ sub1_sh w a * 2 ^ (w * MPFR_LIMB_SIZE w a - sub1_sh w a) := by
          rw [← pow_add]; congr 1; omega
        have hvlt : v < 2 ^ (w * MPFR_LIMB_SIZE w a - sub1_sh w a) := by
          rw [hv, hTs] at hV
          exact Nat.lt_of_mul_lt_mul_left hV
        have hle : limb_value w M + 2 ^ sub1_sh w a ≤ 2 ^ (w * MPFR_LIMB_SIZE w a) := by
          rw [hv, hTs]
          have : 2 ^ sub1_sh w a * (v + 1)
              ≤ 2 ^ sub1_sh w a * 2 ^ (w * MPFR_LIMB_SIZE w a - sub1_sh w a) :=
            Nat.mul_le_mul_left _ hvlt
          rw [Nat.mul_add, Nat.mul_one] at this
          exact this
        have hsum0 : limb_value w
            (mpn_add_1 w M (MPFR_LIMB_SIZE w a) (MPFR_LIMB_ONE <<< sub1_sh w a)).1 = 0 := by
          rw [a3, show limb_value w M + 2 ^ sub1_sh w a = 2 ^ (w * MPFR_LIMB_SIZE w a) by omega,
            Nat.mod_self]
        rw [store_highbit_zero w _ han _ a1 hsum0,
          (hsth _ _ han z1 z2 1 1).1 (by rw [zv])]
      · rw [if_neg hcy] at hadd
        have hlt2 : limb_value w M + 2 ^ sub1_sh w a < 2 ^ (w * MPFR_LIMB_SIZE w a) := by
          by_contra hcon
          exact hcy (a4.mpr (by omega))
        rw [Nat.mod_eq_of_lt hlt2] at a3
        rw [(hsth _ _ han a1 a2 1 0).1 (by rw [a3]; omega)] at hadd
        simp only at hadd
        omega
    · omega

/-- C16: on the general path, for regular operands in order with `cancel` as stored by
`mpfr_cmp2`, and writing `add_exp` for the increment on arrival at `end_of_sub`: `add_exp` is
0 or 1, and it is 1 exactly when `mpn_add_1` carried out of the top limb at `add_one_ulp` or
the label `truncate` (entered directly, or by falling through from `add_one_ulp`) found the
top bit clear; when the exponent `EXP (b) - cancel + add_exp` lies in `[emin, emax]` the
destination stores that exponent and the rounded window; when `add_exp = 1` the window is the
minimal normalized significand; and `cancel -= add_exp`, executed only when `cancel ≠ 0`, does
not wrap. -/
theorem sub1_general_exponent (env : Env) (a b c : mpfr) (cancel : Nat) (rnd0 : mp_rnd_t)
    (hw : limb_width_ok env.BITS_PER_MP_LIMB) (ha : 1 ≤ MPFR_PREC a)
    (hb : mpfr_regular env.BITS_PER_MP_LIMB b) (hc : mpfr_regular env.BITS_PER_MP_LIMB c)
    (hlt : mpfr_abs_in env.BITS_PER_MP_LIMB c (common_unit env.BITS_PER_MP_LIMB b c)
      < mpfr_abs_in env.BITS_PER_MP_LIMB b (common_unit env.BITS_PER_MP_LIMB b c))
    (hcancel : cancel = (mpfr_cmp2 env.BITS_PER_MP_LIMB b c).2) :
    ((sub1_rounded env.BITS_PER_MP_LIMB a b c cancel rnd0).2.2 = 0 ∨
      (sub1_rounded env.BITS_PER_MP_LIMB a b c cancel rnd0).2.2 = 1) ∧
    ((sub1_rounded env.BITS_PER_MP_LIMB a b c cancel rnd0).2.2 = 1 ↔
      (sub1_jump env.BITS_PER_MP_LIMB a b c cancel rnd0 = Jump.add_one_ulp ∧
        (mpn_add_1 env.BITS_PER_MP_LIMB (sub1_masked env.BITS_PER_MP_LIMB a b c cancel)
          (MPFR_LIMB_SIZE env.BITS_PER_MP_LIMB a)
          (MPFR_LIMB_ONE <<< sub1_sh env.BITS_PER_MP_LIMB a)).2 ≠ 0) ∨
      (sub1_jump env.BITS_PER_MP_LIMB a b c cancel rnd0 = Jump.add_one_ulp ∧
        (mpn_add_1 env.BITS_PER_MP_LIMB (sub1_masked env.BITS_PER_MP_LIMB a b c cancel)
          (MPFR_LIMB_SIZE env.BITS_PER_MP_LIMB a)
          (MPFR_LIMB_ONE <<< sub1_sh env.BITS_PER_MP_LIMB a)).2 = 0 ∧
        (mpn_add_1 env.BITS_PER_MP_LIMB (sub1_masked env.BITS_PER_MP_LIMB a b c cancel)
          (MPFR_LIMB_SIZE env.BITS_PER_MP_LIMB a)
          (MPFR_LIMB_ONE <<< sub1_sh env.BITS_PER_MP_LIMB a)).1.getD
            (MPFR_LIMB_SIZE env.BITS_PER_MP_LIMB a - 1) 0 >>> (env.BITS_PER_MP_LIMB - 1) = 0) ∨
      (∃ i, sub1_jump env.BITS_PER_MP_LIMB a b c cancel rnd0 = Jump.truncate i ∧
        (sub1_masked env.BITS_PER_MP_LIMB a b c cancel).getD
            (MPFR_LIMB_SIZE env.BITS_PER_MP_LIMB a - 1) 0 >>> (env.BITS_PER_MP_LIMB - 1) = 0)) ∧
    (env.__gmpfr_emin ≤ MPFR_GET_EXP b - (cancel : Int)
        + ((sub1_rounded env.BITS_PER_MP_LIMB a b c cancel rnd0).2.2 : Int) →
      MPFR_GET_EXP b - (cancel : Int)
        + ((sub1_rounded env.BITS_PER_MP_LIMB a b c cancel rnd0).2.2 : Int) ≤ env.__gmpfr_emax →
      (sub1_general env a b c cancel rnd0).1._mpfr_exp
        = regular (MPFR_GET_EXP b - (cancel : Int)
            + ((sub1_rounded env.BITS_PER_MP_LIMB a b c cancel rnd0).2.2 : Int)) ∧
      (sub1_general env a b c cancel rnd0).1._mpfr_d
        = (sub1_rounded env.BITS_PER_MP_LIMB a b c cancel rnd0).1) ∧
    ((sub1_rounded env.BITS_PER_MP_LIMB a b c cancel rnd0).2.2 = 1 →
      (sub1_rounded env.BITS_PER_MP_LIMB a b c cancel rnd0).1
        = MPN_ZERO (MPFR_LIMB_SIZE env.BITS_PER_MP_LIMB a - 1)
          ++ [MPFR_LIMB_HIGHBIT env.BITS_PER_MP_LIMB]) ∧
    (cancel ≠ 0 → (sub1_rounded env.BITS_PER_MP_LIMB a b c cancel rnd0).2.2 ≤ cancel) := by
  have hle : (sub1_rounded env.BITS_PER_MP_LIMB a b c cancel rnd0).2.2 ≤ 1 :=
    sub1_labels_add_exp _ _ _ _ _
  refine ⟨by omega, ?_, ?_,
    sub1_rounded_minimal env.BITS_PER_MP_LIMB hw a b c ha hb hc hlt cancel hcancel rnd0,
    fun h => by omega⟩
  · unfold sub1_rounded
    cases sub1_jump env.BITS_PER_MP_LIMB a b c cancel rnd0 with
    | sub_one_ulp => simp [sub1_labels]
    | truncate i =>
      simp only [sub1_labels, sub1_truncate_add]
      constructor
      · intro h
        right; right
        refine ⟨i, rfl, ?_⟩
        by_contra hn
        rw [if_neg hn] at h
        omega
      · rintro (⟨h, _⟩ | ⟨h, _⟩ | ⟨_, _, h⟩)
        · exact absurd h (by simp)
        · exact absurd h (by simp)
        · rw [if_pos h]
    | add_one_ulp =>
      simp only [sub1_labels]
      by_cases hcy : (mpn_add_1 env.BITS_PER_MP_LIMB (sub1_masked env.BITS_PER_MP_LIMB a b c cancel)
          (MPFR_LIMB_SIZE env.BITS_PER_MP_LIMB a)
          (MPFR_LIMB_ONE <<< sub1_sh env.BITS_PER_MP_LIMB a)).2 ≠ 0
      · rw [if_pos hcy, sub1_truncate_add]
        constructor
        · intro _
          exact Or.inl ⟨trivial, hcy⟩
        · intro _
          split <;> rfl
      · rw [if_neg hcy, sub1_truncate_add]
        constructor
        · intro h
          right; left
          refine ⟨trivial, by omega, ?_⟩
          by_contra hn
          rw [if_neg hn] at h
          omega
        · rintro (⟨_, h⟩ | ⟨_, _, h⟩ | ⟨i, h, _⟩)
          · exact absurd h hcy
          · rw [if_pos h]
          · exact absurd h (by simp)
  · intro h1 h2
    rw [sub1_general_eq]
    generalize sub1_rounded env.BITS_PER_MP_LIMB a b c cancel rnd0 = R at hle h1 h2 ⊢
    unfold sub1_end_of_sub
    simp only []
    by_cases hc0 : cancel ≠ 0
    · have hsub : ((cancel - R.2.2 : Nat) : Int) = (cancel : Int) - (R.2.2 : Int) := by omega
      rw [if_pos hc0, if_neg (by rw [hsub]; omega)]
      refine ⟨?_, rfl⟩
      simp only
      congr 1
      omega
    · have hc1 : cancel = 0 := by omega
      rw [if_neg hc0, if_neg (by rw [hc1] at h2; omega)]
      refine ⟨?_, rfl⟩
      simp only
      congr 1
      rw [hc1]
      simp

set_option maxRecDepth 8000 in
/-- Witness of C16: `1.0 - 2 ^ (-65)` at precision 64 rounded toward plus infinity.  With
`cancel = 1` the window wraps to zero, the decision is `truncate` with `inexact = 1`, the label
finds the top bit clear, and the destination is the minimal significand at the exponent
`EXP (b) - cancel + 1 = 1`. -/
theorem sub1_general_exponent_witness :
    sub1_jump 64 (dest64 64) one_prec64 half_ulp_below_one 1 GMP_RNDU = Jump.truncate 1 ∧
    sub1_masked 64 (dest64 64) one_prec64 half_ulp_below_one 1 = [0] ∧
    (sub1_rounded 64 (dest64 64) one_prec64 half_ulp_below_one 1 GMP_RNDU).2.2 = 1 ∧
    (sub1_general env64 (dest64 64) one_prec64 half_ulp_below_one 1 GMP_RNDU).1._mpfr_exp
      = regular 1 ∧
    (sub1_general env64 (dest64 64) one_prec64 half_ulp_below_one 1 GMP_RNDU).1._mpfr_d
      = [2 ^ 63] :=
  have h := sub1_general_exponent env64 (dest64 64) one_prec64 half_ulp_below_one 1 GMP_RNDU
    (by decide) (by decide) (by decide) (by decide) (by decide) (by decide)
  ⟨by decide, by decide, by decide,
    (h.2.2.1 (by decide) (by decide)).1.trans (by decide),
    (h.2.2.1 (by decide) (by decide)).2.trans (h.2.2.2.1 (by decide))⟩

/-! ## Claim C17: the rounding decision in a directed mode -/

/-- Lines 323-337 and 397-452 under a directed mode: the label that the code jumps to, by
`carry` and by the sign of the residue `low(b) - low(c)`. -/
theorem sub1_directed_jump (w : Nat) (a b c : mpfr) (cancel : Nat) (rnd0 : mp_rnd_t)
    (hw : limb_width_ok w) (hb : mpfr_regular w b) (hc : mpfr_regular w c)
    (hdir : rnd0 ≠ GMP_RNDN) :
    (sub1_carry w a b c cancel ≠ 0 ∨ sub1_LC w a b c cancel < sub1_LB w a b c cancel →
      sub1_jump w a b c cancel rnd0 =
        if sub1_rnd_mode a rnd0 = GMP_RNDZ then Jump.truncate (-1) else Jump.add_one_ulp) ∧
    (sub1_carry w a b c cancel = 0 → sub1_LB w a b c cancel < sub1_LC w a b c cancel →
      sub1_jump w a b c cancel rnd0 =
        if sub1_rnd_mode a rnd0 = GMP_RNDZ then Jump.sub_one_ulp else Jump.truncate 1) ∧
    (sub1_carry w a b c cancel = 0 → sub1_LB w a b c cancel = sub1_LC w a b c cancel →
      sub1_jump w a b c cancel rnd0 = Jump.truncate 0) := by
  have hlow := sub1_low_eq w hw a b c hb hc cancel rnd0 (fun h => hdir h.1)
  have hN : sub1_rnd_mode a rnd0 ≠ GMP_RNDN := fun h => hdir ((sub1_rnd_mode_N a rnd0).mp h)
  have hj : sub1_jump w a b c cancel rnd0 =
      if sub1_carry w a b c cancel ≠ 0 then
        if sub1_rnd_mode a rnd0 = GMP_RNDZ then Jump.truncate (-1) else Jump.add_one_ulp
      else sub1_low w a b c cancel rnd0 := by
    unfold sub1_jump
    simp only []
    rw [if_neg hdir]
  rw [hj, hlow]
  simp only [hdir, false_and, if_false]
  refine ⟨?_, ?_, ?_⟩
  · rintro (h | h)
    · rw [if_pos h]
    · by_cases hc0 : sub1_carry w a b c cancel ≠ 0
      · rw [if_pos hc0]
      · rw [if_neg hc0, compare_gt_iff_gt.mpr h]
        unfold sub1_loop_decision
        by_cases hz : sub1_rnd_mode a rnd0 = GMP_RNDZ
        · simp only [hz, if_true]
        · simp only [hz, if_false, hN, ne_eq, not_false_eq_true, if_true]
  · intro h0 h
    rw [if_neg (by simpa using h0), compare_lt_iff_lt.mpr h]
    unfold sub1_loop_decision
    by_cases hz : sub1_rnd_mode a rnd0 = GMP_RNDZ
    · simp only [hz, if_true]
    · simp only [hz, if_false, hN, ne_eq, not_false_eq_true, if_true]
  · intro h0 h
    rw [if_neg (by simpa using h0), compare_eq_iff_eq.mpr h]
    unfold sub1_loop_decision sub1_even_rule
    simp only [hN, false_and, if_false]

/-- C17 (amended): on the general path under a directed mode, reduced to toward-zero
(`sub1_rnd_mode = GMP_RNDZ`) or away-from-zero by the sign of the result, for regular operands
in order and `cancel` as stored by `mpfr_cmp2`.  The exact difference is the truncated window
value plus `carry` plus the residue `low(b) - low(c)`, the window value being read as
`2 ^ (an * BITS_PER_MP_LIMB)` when the window wrapped to zero.  If `carry` is non-zero or the
residue is positive, away-from-zero hands the window value plus one unit in the last place to
`end_of_sub` with `inexact = 1`, and toward-zero keeps the window with `inexact = -1`.  If
`carry` is zero and the residue is negative, away-from-zero hands over the window value with
`inexact = 1` and toward-zero the window value minus one unit with `inexact = -1`.  If `carry`
and the residue are both zero the window is kept with `inexact = 0`.  When the exponent
`EXP (b) - cancel + add_exp` is in range, the destination stores the rounded window with that
exponent and the value returned is `inexact` times the sign of the result. -/
theorem sub1_directed_decision (w : Nat) (emin emax : Int) (a b c : mpfr) (cancel : Nat)
    (rnd0 : mp_rnd_t) (hw : limb_width_ok w) (ha : 1 ≤ MPFR_PREC a)
    (hb : mpfr_regular w b) (hc : mpfr_regular w c)
    (hlt : mpfr_abs_in w c (common_unit w b c) < mpfr_abs_in w b (common_unit w b c))
    (hcancel : cancel = (mpfr_cmp2 w b c).2) (hdir : rnd0 ≠ GMP_RNDN) :
    (sub1_X w a b c cancel : Int)
      = ((sub1_window_value w a b c cancel * 2 ^ (w * sub1_m w a b c cancel) : Nat) : Int)
        + ((sub1_carry w a b c cancel : Int) * ((2 ^ (w * sub1_m w a b c cancel) : Nat) : Int)
          + ((sub1_LB w a b c cancel : Int) - sub1_LC w a b c cancel)) ∧
    (sub1_carry w a b c cancel ≠ 0 ∨ sub1_LC w a b c cancel < sub1_LB w a b c cancel →
      sub1_window_value w a b c cancel = limb_value w (sub1_masked w a b c cancel) ∧
      if sub1_rnd_mode a rnd0 = GMP_RNDZ then
        sub1_rounded w a b c cancel rnd0 = (sub1_masked w a b c cancel, -1, 0)
      else
        sub1_rounded_value w a b c cancel rnd0
          = sub1_window_value w a b c cancel + 2 ^ sub1_sh w a ∧
        (sub1_rounded w a b c cancel rnd0).2.1 = 1) ∧
    (sub1_carry w a b c cancel = 0 → sub1_LB w a b c cancel < sub1_LC w a b c cancel →
      if sub1_rnd_mode a rnd0 = GMP_RNDZ then
        sub1_rounded_value w a b c cancel rnd0 + 2 ^ sub1_sh w a
          = sub1_window_value w a b c cancel ∧
        (sub1_rounded w a b c cancel rnd0).2.1 = -1
      else
        sub1_rounded_value w a b c cancel rnd0 = sub1_window_value w a b c cancel ∧
        (sub1_rounded w a b c cancel rnd0).2.1 = 1) ∧
    (sub1_carry w a b c cancel = 0 → sub1_LB w a b c cancel = sub1_LC w a b c cancel →
      sub1_window_value w a b c cancel = limb_value w (sub1_masked w a b c cancel) ∧
      sub1_rounded w a b c cancel rnd0 = (sub1_masked w a b c cancel, 0, 0)) ∧
    (emin ≤ MPFR_GET_EXP b - (cancel : Int) + ((sub1_rounded w a b c cancel rnd0).2.2 : Int) →
      MPFR_GET_EXP b - (cancel : Int) + ((sub1_rounded w a b c cancel rnd0).2.2 : Int) ≤ emax →
      sub1_general ⟨w, emin, emax⟩ a b c cancel rnd0
        = ({ a with
              _mpfr_exp := regular (MPFR_GET_EXP b - (cancel : Int)
                + ((sub1_rounded w a b c cancel rnd0).2.2 : Int))
              _mpfr_d := (sub1_rounded w a b c cancel rnd0).1 },
            (sub1_rounded w a b c cancel rnd0).2.1 * MPFR_INT_SIGN a)) := by
  obtain ⟨j1, j2, j3⟩ := sub1_directed_jump w a b c cancel rnd0 hw hb hc hdir
  obtain ⟨l1, l2, l3⟩ := sub1_rounded_by_label w hw a b c ha hb hc hlt cancel hcancel rnd0
  obtain ⟨hX, hcase⟩ := sub1_window_cases w hw a b c ha hb hc hlt cancel hcancel
  have hPpos : 0 < 2 ^ (w * sub1_m w a b c cancel) := Nat.two_pow_pos _
  have hLB : sub1_LB w a b c cancel < 2 ^ (w * sub1_m w a b c cancel) := Nat.mod_lt _ hPpos
  have hLC : sub1_LC w a b c cancel < 2 ^ (w * sub1_m w a b c cancel) := Nat.mod_lt _ hPpos
  have hhalf : 0 < 2 ^ (w * MPFR_LIMB_SIZE w a - 1) := Nat.two_pow_pos _
  -- a normalized window is not zero
  have hnz : sub1_window_value w a b c cancel = limb_value w (sub1_masked w a b c cancel) →
      2 ^ (w * MPFR_LIMB_SIZE w a - 1) ≤ limb_value w (sub1_masked w a b c cancel) →
      limb_value w (sub1_masked w a b c cancel) ≠ 0 := fun _ h => by omega
  refine ⟨hX, ?_, ?_, ?_, fun h1 h2 => sub1_general_stored ⟨w, emin, emax⟩ a b c cancel rnd0 h1 h2⟩
  · intro h
    have hj := j1 h
    -- the part below the window is positive, so the window did not wrap
    have hrho : 0 < (sub1_carry w a b c cancel : Int)
        * ((2 ^ (w * sub1_m w a b c cancel) : Nat) : Int)
        + ((sub1_LB w a b c cancel : Int) - sub1_LC w a b c cancel) := by
      generalize 2 ^ (w * sub1_m w a b c cancel) = P at hPpos hLB hLC
      rcases h with h | h
      · have h1 : (1 : Int) ≤ (sub1_carry w a b c cancel : Int) := by omega
        have h2 : (1 : Int) * (P : Int) ≤ (sub1_carry w a b c cancel : Int) * (P : Int) :=
          Int.mul_le_mul_of_nonneg_right h1 (by omega)
        omega
      · have h2 : (0 : Int) ≤ (sub1_carry w a b c cancel : Int) * (P : Int) :=
          Int.mul_nonneg (by omega) (by omega)
        omega
    rcases hcase with ⟨c1, _, c3⟩ | ⟨_, _, c3⟩
    · refine ⟨c3, ?_⟩
      by_cases hz : sub1_rnd_mode a rnd0 = GMP_RNDZ
      · rw [if_pos hz] at hj ⊢
        exact (l1 (-1) hj).2.2 (by omega)
      · rw [if_neg hz] at hj ⊢
        exact l2 hj
    · omega
  · intro h0 h
    have hj := j2 h0 h
    by_cases hz : sub1_rnd_mode a rnd0 = GMP_RNDZ
    · rw [if_pos hz] at hj ⊢
      exact ⟨(l3 hj).1, (l3 hj).2.1⟩
    · rw [if_neg hz] at hj ⊢
      exact ⟨(l1 1 hj).1, (l1 1 hj).2.1⟩
  · intro h0 h
    have hj := j3 h0 h
    rcases hcase with ⟨c1, _, c3⟩ | ⟨_, _, c3⟩
    · exact ⟨c3, (l1 0 hj).2.2 (by omega)⟩
    · rw [h0, h] at c3
      simp at c3

set_option maxRecDepth 8000 in
/-- Witness of C17: `1.5 - 2 ^ (-64)` at precision 64 toward zero: `carry` is zero, the
residue is negative, and the window `1.5` minus one unit in the last place is stored with the
value `-1` returned. -/
theorem sub1_directed_decision_witness :
    sub1_carry 64 (dest64 64) three_halves_prec64 below_window_c 0 = 0 ∧
    sub1_LB 64 (dest64 64) three_halves_prec64 below_window_c 0
      < sub1_LC 64 (dest64 64) three_halves_prec64 below_window_c 0 ∧
    sub1_window_value 64 (dest64 64) three_halves_prec64 below_window_c 0 = 3 * 2 ^ 62 ∧
    sub1_rounded_value 64 (dest64 64) three_halves_prec64 below_window_c 0 GMP_RNDZ
        + 2 ^ sub1_sh 64 (dest64 64)
      = sub1_window_value 64 (dest64 64) three_halves_prec64 below_window_c 0 ∧
    (sub1_rounded 64 (dest64 64) three_halves_prec64 below_window_c 0 GMP_RNDZ).2.1 = -1 ∧
    sub1_general env64 (dest64 64) three_halves_prec64 below_window_c 0 GMP_RNDZ
      = ({ _mpfr_prec := 64, _mpfr_sign := 1, _mpfr_exp := regular 1,
           _mpfr_d := [3 * 2 ^ 62 - 1] }, -1) :=
  have h := sub1_directed_decision 64 (1 - 2 ^ 62) (2 ^ 62 - 1) (dest64 64) three_halves_prec64
    below_window_c 0 GMP_RNDZ (by decide) (by decide) (by decide) (by decide) (by decide)
    (by decide) (by decide)
  have h2 := h.2.2.1 (by decide) (by decide)
  ⟨by decide, by decide, by decide, h2.1, h2.2,
    (h.2.2.2.2 (by decide) (by decide)).trans (by decide)⟩

set_option maxRecDepth 8000 in
/-- C17 as stated fails when `carry` is zero and the residue is negative.  For
`b = 1.5` at precision 64 and `c = 2 ^ (-64)` the general path is taken with `cancel = 0`, the
window holds `1.5`, `carry = 0` and `low(b) = 0 < low(c)`.  Toward zero the code jumps to
`sub_one_ulp` and stores the window value minus one unit (it does not keep the window value);
away from zero it jumps to `truncate` and stores the window value with a positive ternary
value (it does not add one unit). -/
theorem sub1_directed_fails_on_negative_residue :
    mpfr_regular 64 three_halves_prec64 ∧ mpfr_regular 64 below_window_c ∧
    mpfr_cmp2 64 three_halves_prec64 below_window_c = (1, 0) ∧
    ¬ (MPFR_GET_EXP below_window_c
      ≤ MPFR_GET_EXP three_halves_prec64 - ((max 64 64 : Nat) : Int) - 2) ∧
    sub1_carry 64 (dest64 64) three_halves_prec64 below_window_c 0 = 0 ∧
    sub1_LB 64 (dest64 64) three_halves_prec64 below_window_c 0
      < sub1_LC 64 (dest64 64) three_halves_prec64 below_window_c 0 ∧
    sub1_masked 64 (dest64 64) three_halves_prec64 below_window_c 0 = [3 * 2 ^ 62] ∧
    sub1_jump 64 (dest64 64) three_halves_prec64 below_window_c 0 GMP_RNDZ = Jump.sub_one_ulp ∧
    mpfr_sub1 env64 (dest64 64) three_halves_prec64 below_window_c GMP_RNDZ
      = ({ _mpfr_prec := 64, _mpfr_sign := 1, _mpfr_exp := regular 1,
           _mpfr_d := [3 * 2 ^ 62 - 1] }, -1) ∧
    sub1_jump 64 (dest64 64) three_halves_prec64 below_window_c 0 GMP_RNDA = Jump.truncate 1 ∧
    mpfr_sub1 env64 (dest64 64) three_halves_prec64 below_window_c GMP_RNDA
      = ({ _mpfr_prec := 64, _mpfr_sign := 1, _mpfr_exp := regular 1,
           _mpfr_d := [3 * 2 ^ 62] }, 1) := by
  decide

/-! ## Claim C18: the rounding decision under round-to-nearest with `sh > 0` -/

/-- Lines 306-321 and 397-471 under round-to-nearest with `sh > 0`: the label that the code
jumps to, by `carry` against `half = 2 ^ (sh - 1)` and by the sign of the residue
`low(b) - low(c)`. -/
theorem sub1_nearest_jump (w : Nat) (a b c : mpfr) (cancel : Nat)
    (hw : limb_width_ok w) (hb : mpfr_regular w b) (hc : mpfr_regular w c)
    (hsh : sub1_sh w a ≠ 0) :
    (MPFR_LIMB_ONE <<< (sub1_sh w a - 1) < sub1_carry w a b c cancel →
      sub1_jump w a b c cancel GMP_RNDN = Jump.add_one_ulp) ∧
    (0 < sub1_carry w a b c cancel →
      sub1_carry w a b c cancel < MPFR_LIMB_ONE <<< (sub1_sh w a - 1) →
      sub1_jump w a b c cancel GMP_RNDN = Jump.truncate (-1)) ∧
    (sub1_carry w a b c cancel = 0 →
      (sub1_LC w a b c cancel < sub1_LB w a b c cancel →
        sub1_jump w a b c cancel GMP_RNDN = Jump.truncate (-1)) ∧
      (sub1_LB w a b c cancel < sub1_LC w a b c cancel →
        sub1_jump w a b c cancel GMP_RNDN = Jump.truncate 1) ∧
      (sub1_LB w a b c cancel = sub1_LC w a b c cancel →
        sub1_jump w a b c cancel GMP_RNDN = Jump.truncate 0)) ∧
    (sub1_carry w a b c cancel = MPFR_LIMB_ONE <<< (sub1_sh w a - 1) →
      (sub1_LC w a b c cancel < sub1_LB w a b c cancel →
        sub1_jump w a b c cancel GMP_RNDN = Jump.add_one_ulp) ∧
      (sub1_LB w a b c cancel < sub1_LC w a b c cancel →
        sub1_jump w a b c cancel GMP_RNDN = Jump.truncate (-1)) ∧
      (sub1_LB w a b c cancel = sub1_LC w a b c cancel →
        sub1_jump w a b c cancel GMP_RNDN =
          if ((sub1_masked w a b c cancel).getD 0 0 >>> sub1_sh w a) &&& 1 ≠ 0
          then Jump.add_one_ulp else Jump.truncate (-1))) := by
  have hlow := sub1_low_eq w hw a b c hb hc cancel GMP_RNDN (fun h => hsh h.2)
  have hN : sub1_rnd_mode a GMP_RNDN = GMP_RNDN := (sub1_rnd_mode_N a GMP_RNDN).mpr rfl
  have hhalf : 0 < MPFR_LIMB_ONE <<< (sub1_sh w a - 1) := by
    unfold MPFR_LIMB_ONE; rw [Nat.shiftLeft_eq, Nat.one_mul]; exact Nat.two_pow_pos _
  have hj : sub1_jump w a b c cancel GMP_RNDN =
      if sub1_carry w a b c cancel > MPFR_LIMB_ONE <<< (sub1_sh w a - 1) then Jump.add_one_ulp
      else if 0 < sub1_carry w a b c cancel
          ∧ sub1_carry w a b c cancel < MPFR_LIMB_ONE <<< (sub1_sh w a - 1)
        then Jump.truncate (-1)
      else sub1_low w a b c cancel GMP_RNDN := by
    unfold sub1_jump
    simp only [hsh, ne_eq, not_false_eq_true, true_and, if_true]
  rw [hj, hlow, hN]
  simp only [hsh, ne_eq, not_false_eq_true, and_self, if_true]
  generalize sub1_carry w a b c cancel = carry
  generalize MPFR_LIMB_ONE <<< (sub1_sh w a - 1) = half at hhalf
  refine ⟨?_, ?_, ?_, ?_⟩
  · intro h
    rw [if_pos h]
  · intro h1 h2
    rw [if_neg (by omega), if_pos ⟨h1, h2⟩]
  · intro h0
    subst h0
    rw [if_neg (by omega), if_neg (by omega)]
    refine ⟨?_, ?_, ?_⟩
    · intro h
      rw [compare_gt_iff_gt.mpr h]
      unfold sub1_loop_decision
      simp [hhalf]
    · intro h
      rw [compare_lt_iff_lt.mpr h]
      unfold sub1_loop_decision
      simp [hhalf, hsh]
    · intro h
      rw [compare_eq_iff_eq.mpr h]
      unfold sub1_loop_decision sub1_even_rule
      simp
  · intro h0
    subst h0
    rw [if_neg (by omega), if_neg (by omega)]
    have hne : ¬ (carry = 0) := by omega
    refine ⟨?_, ?_, ?_⟩
    · intro h
      rw [compare_gt_iff_gt.mpr h]
      unfold sub1_loop_decision
      simp [hne]
    · intro h
      rw [compare_lt_iff_lt.mpr h]
      unfold sub1_loop_decision
      simp [hne, hsh]
    · intro h
      rw [compare_eq_iff_eq.mpr h]
      unfold sub1_loop_decision sub1_even_rule
      simp [hne]

/-- One unit in the last place is twice `half`. -/
theorem pow_half_double (sh : Nat) (hsh : sh ≠ 0) : 2 ^ sh = 2 * 2 ^ (sh - 1) := by
  rw [← pow_succ']
  congr 1
  omega

/-- An exact difference that is a multiple of the unit `u * P` plus `half * P` lies halfway
between two multiples of the unit. -/
theorem tie_mod_arith (u h P v X W carry LB LC : Nat) (hu : u = 2 * h) (hP : 0 < P) (hh : 0 < h)
    (hW : W = u * v) (hc : carry = h) (hL : LB = LC)
    (hX : (X : Int) = ((W * P : Nat) : Int)
      + ((carry : Int) * ((P : Nat) : Int) + ((LB : Int) - LC))) :
    2 * (X % (u * P)) = u * P := by
  subst hW hc hL hu
  have e : X = 2 * carry * P * v + carry * P := by
    have : (X : Int) = ((2 * carry * P * v + carry * P : Nat) : Int) := by
      rw [hX]; push_cast; ring
    exact_mod_cast this
  have hlt : carry * P < 2 * carry * P := by
    have := Nat.mul_pos hh hP
    rw [Nat.mul_assoc]
    omega
  rw [e, Nat.mul_add_mod, Nat.mod_eq_of_lt hlt]
  ring

/-- C18 (amended): on the general path under round-to-nearest with `sh > 0` and
`half = 2 ^ (sh - 1)`, for regular operands in order and `cancel` as stored by `mpfr_cmp2`.
The exact difference is the truncated window value plus `carry` plus the residue
`low(b) - low(c)`, the window value being read as `2 ^ (an * BITS_PER_MP_LIMB)` when the
window wrapped to zero.  If `carry > half` the window value plus one unit in the last place
is handed to `end_of_sub` with `inexact = 1`.  If `0 < carry < half` the window is kept with
`inexact = -1`, whatever the residue.  If `carry = 0` the window value is kept, with
`inexact = -1` when the residue is positive, `inexact = 1` when it is negative and
`inexact = 0` when it is zero.  If `carry = half`, a positive residue hands over the window
value plus one unit with `inexact = 1`, a negative residue keeps the window with
`inexact = -1`, and a zero residue is a tie: one unit is added when the lowest retained bit of
the window is odd, the window is kept with `inexact = -1` when it is even, and for a precision
of at least `MPFR_PREC_MIN = 2` bits the lowest retained bit of the rounded window is 0.
When the exponent `EXP (b) - cancel + add_exp` is in range, the destination stores the rounded
window with that exponent and the value returned is `inexact` times the sign of the
result. -/
theorem sub1_nearest_decision (w : Nat) (emin emax : Int) (a b c : mpfr) (cancel : Nat)
    (hw : limb_width_ok w) (ha : 1 ≤ MPFR_PREC a)
    (hb : mpfr_regular w b) (hc : mpfr_regular w c)
    (hlt : mpfr_abs_in w c (common_unit w b c) < mpfr_abs_in w b (common_unit w b c))
    (hcancel : cancel = (mpfr_cmp2 w b c).2) (hsh : sub1_sh w a ≠ 0) :
    (sub1_X w a b c cancel : Int)
      = ((sub1_window_value w a b c cancel * 2 ^ (w * sub1_m w a b c cancel) : Nat) : Int)
        + ((sub1_carry w a b c cancel : Int) * ((2 ^ (w * sub1_m w a b c cancel) : Nat) : Int)
          + ((sub1_LB w a b c cancel : Int) - sub1_LC w a b c cancel)) ∧
    (MPFR_LIMB_ONE <<< (sub1_sh w a - 1) < sub1_carry w a b c cancel →
      sub1_rounded_value w a b c cancel GMP_RNDN
        = sub1_window_value w a b c cancel + 2 ^ sub1_sh w a ∧
      (sub1_rounded w a b c cancel GMP_RNDN).2.1 = 1) ∧
    (0 < sub1_carry w a b c cancel →
      sub1_carry w a b c cancel < MPFR_LIMB_ONE <<< (sub1_sh w a - 1) →
      sub1_window_value w a b c cancel = limb_value w (sub1_masked w a b c cancel) ∧
      sub1_rounded w a b c cancel GMP_RNDN = (sub1_masked w a b c cancel, -1, 0)) ∧
    (sub1_carry w a b c cancel = 0 →
      (sub1_LC w a b c cancel < sub1_LB w a b c cancel →
        sub1_window_value w a b c cancel = limb_value w (sub1_masked w a b c cancel) ∧
        sub1_rounded w a b c cancel GMP_RNDN = (sub1_masked w a b c cancel, -1, 0)) ∧
      (sub1_LB w a b c cancel < sub1_LC w a b c cancel →
        sub1_rounded_value w a b c cancel GMP_RNDN = sub1_window_value w a b c cancel ∧
        (sub1_rounded w a b c cancel GMP_RNDN).2.1 = 1) ∧
      (sub1_LB w a b c cancel = sub1_LC w a b c cancel →
        sub1_window_value w a b c cancel = limb_value w (sub1_masked w a b c cancel) ∧
        sub1_rounded w a b c cancel GMP_RNDN = (sub1_masked w a b c cancel, 0, 0))) ∧
    (sub1_carry w a b c cancel = MPFR_LIMB_ONE <<< (sub1_sh w a - 1) →
      sub1_window_value w a b c cancel = limb_value w (sub1_masked w a b c cancel) ∧
      (sub1_LC w a b c cancel < sub1_LB w a b c cancel →
        sub1_rounded_value w a b c cancel GMP_RNDN
          = sub1_window_value w a b c cancel + 2 ^ sub1_sh w a ∧
        (sub1_rounded w a b c cancel GMP_RNDN).2.1 = 1) ∧
      (sub1_LB w a b c cancel < sub1_LC w a b c cancel →
        sub1_rounded w a b c cancel GMP_RNDN = (sub1_masked w a b c cancel, -1, 0)) ∧
      (sub1_LB w a b c cancel = sub1_LC w a b c cancel →
        (if ((sub1_masked w a b c cancel).getD 0 0 >>> sub1_sh w a) &&& 1 ≠ 0 then
          sub1_rounded_value w a b c cancel GMP_RNDN
            = sub1_window_value w a b c cancel + 2 ^ sub1_sh w a ∧
          (sub1_rounded w a b c cancel GMP_RNDN).2.1 = 1
        else sub1_rounded w a b c cancel GMP_RNDN = (sub1_masked w a b c cancel, -1, 0)) ∧
        (2 ≤ MPFR_PREC a →
          limb_value w (sub1_rounded w a b c cancel GMP_RNDN).1 / 2 ^ sub1_sh w a % 2 = 0))) ∧
    (emin ≤ MPFR_GET_EXP b - (cancel : Int)
        + ((sub1_rounded w a b c cancel GMP_RNDN).2.2 : Int) →
      MPFR_GET_EXP b - (cancel : Int)
        + ((sub1_rounded w a b c cancel GMP_RNDN).2.2 : Int) ≤ emax →
      sub1_general ⟨w, emin, emax⟩ a b c cancel GMP_RNDN
        = ({ a with
              _mpfr_exp := regular (MPFR_GET_EXP b - (cancel : Int)
                + ((sub1_rounded w a b c cancel GMP_RNDN).2.2 : Int))
              _mpfr_d := (sub1_rounded w a b c cancel GMP_RNDN).1 },
            (sub1_rounded w a b c cancel GMP_RNDN).2.1 * MPFR_INT_SIGN a)) := by
  obtain ⟨j1, j2, j3, j4⟩ := sub1_nearest_jump w a b c cancel hw hb hc hsh
  obtain ⟨l1, l2, l3⟩ := sub1_rounded_by_label w hw a b c ha hb hc hlt cancel hcancel GMP_RNDN
  obtain ⟨hX, hcase⟩ := sub1_window_cases w hw a b c ha hb hc hlt cancel hcancel
  obtain ⟨_, _, _, _, _, g6, _⟩ := sub1_rounded_ok w hw a b c ha hb hc hlt cancel hcancel GMP_RNDN
  obtain ⟨_, _, hmwf, _⟩ := sub1_masked_spec w hw a b c ha hb hc cancel
  obtain ⟨hshlt, _⟩ := sub1_sh_lt w hw.1 a ha
  have hPpos : 0 < 2 ^ (w * sub1_m w a b c cancel) := Nat.two_pow_pos _
  have hLB : sub1_LB w a b c cancel < 2 ^ (w * sub1_m w a b c cancel) := Nat.mod_lt _ hPpos
  have hLC : sub1_LC w a b c cancel < 2 ^ (w * sub1_m w a b c cancel) := Nat.mod_lt _ hPpos
  have hhalf : 0 < 2 ^ (w * MPFR_LIMB_SIZE w a - 1) := Nat.two_pow_pos _
  have hhalfe : MPFR_LIMB_ONE <<< (sub1_sh w a - 1) = 2 ^ (sub1_sh w a - 1) := by
    unfold MPFR_LIMB_ONE; rw [Nat.shiftLeft_eq, Nat.one_mul]
  have hhpos : 0 < MPFR_LIMB_ONE <<< (sub1_sh w a - 1) := by
    rw [hhalfe]; exact Nat.two_pow_pos _
  -- the window did not wrap when the part of the exact difference below it is not negative
  have hnorm : 0 ≤ (sub1_carry w a b c cancel : Int)
        * ((2 ^ (w * sub1_m w a b c cancel) : Nat) : Int)
        + ((sub1_LB w a b c cancel : Int) - sub1_LC w a b c cancel) →
      sub1_window_value w a b c cancel = limb_value w (sub1_masked w a b c cancel) ∧
      limb_value w (sub1_masked w a b c cancel) ≠ 0 := by
    intro h
    rcases hcase with ⟨c1, _, c3⟩ | ⟨_, _, c3⟩
    · exact ⟨c3, by omega⟩
    · omega
  have hcpos : 0 < sub1_carry w a b c cancel →
      0 ≤ (sub1_carry w a b c cancel : Int) * ((2 ^ (w * sub1_m w a b c cancel) : Nat) : Int)
        + ((sub1_LB w a b c cancel : Int) - sub1_LC w a b c cancel) := by
    intro h
    generalize 2 ^ (w * sub1_m w a b c cancel) = P at hPpos hLB hLC
    have h1 : (1 : Int) ≤ (sub1_carry w a b c cancel : Int) := by omega
    have h2 : (1 : Int) * (P : Int) ≤ (sub1_carry w a b c cancel : Int) * (P : Int) :=
      Int.mul_le_mul_of_nonneg_right h1 (by omega)
    omega
  have hc0 : sub1_carry w a b c cancel = 0 → sub1_LC w a b c cancel ≤ sub1_LB w a b c cancel →
      0 ≤ (sub1_carry w a b c cancel : Int) * ((2 ^ (w * sub1_m w a b c cancel) : Nat) : Int)
        + ((sub1_LB w a b c cancel : Int) - sub1_LC w a b c cancel) := by
    intro h0 h
    rw [h0]
    simp only [Nat.cast_zero, Int.zero_mul, Int.zero_add]
    omega
  refine ⟨hX, ?_, ?_, ?_, ?_,
    fun h1 h2 => sub1_general_stored ⟨w, emin, emax⟩ a b c cancel GMP_RNDN h1 h2⟩
  · intro h
    exact l2 (j1 h)
  · intro h1 h2
    obtain ⟨n1, n2⟩ := hnorm (hcpos h1)
    exact ⟨n1, (l1 (-1) (j2 h1 h2)).2.2 n2⟩
  · intro h0
    obtain ⟨k1, k2, k3⟩ := j3 h0
    refine ⟨?_, ?_, ?_⟩
    · intro h
      obtain ⟨n1, n2⟩ := hnorm (hc0 h0 (le_of_lt h))
      exact ⟨n1, (l1 (-1) (k1 h)).2.2 n2⟩
    · intro h
      exact ⟨(l1 1 (k2 h)).1, (l1 1 (k2 h)).2.1⟩
    · intro h
      obtain ⟨n1, n2⟩ := hnorm (hc0 h0 (le_of_eq h.symm))
      exact ⟨n1, (l1 0 (k3 h)).2.2 n2⟩
  · intro hch
    obtain ⟨k1, k2, k3⟩ := j4 hch
    obtain ⟨n1, n2⟩ := hnorm (hcpos (by omega))
    refine ⟨n1, ?_, ?_, ?_⟩
    · intro h
      exact l2 (k1 h)
    · intro h
      exact (l1 (-1) (k2 h)).2.2 n2
    · intro h
      have hj := k3 h
      refine ⟨?_, ?_⟩
      · by_cases hodd : ((sub1_masked w a b c cancel).getD 0 0 >>> sub1_sh w a) &&& 1 ≠ 0
        · rw [if_pos hodd] at hj ⊢
          exact l2 hj
        · rw [if_neg hodd] at hj ⊢
          exact (l1 (-1) hj).2.2 n2
      · intro hp
        apply g6 rfl hp
        -- the exact difference is half a unit above a multiple of the unit
        rcases hcase with ⟨_, c2, c3⟩ | ⟨c1, _, _⟩
        · obtain ⟨v, hv⟩ : 2 ^ sub1_sh w a ∣ limb_value w (sub1_masked w a b c cancel) :=
            Nat.dvd_of_mod_eq_zero c2
          exact tie_mod_arith _ _ _ v _ _ _ _ _ (pow_half_double _ hsh) hPpos
            (Nat.two_pow_pos _) (c3.trans hv) (hch.trans hhalfe) h hX
        · exact absurd c1 n2

set_option maxRecDepth 8000 in
/-- Witness of C18.  `(1 + 2 ^ (-10)) - 0.25` at precision 2 (`sh = 62`): `0 < carry < half`,
the window `0.75` is kept and `-1` is returned.  `1.5 - 0.25 = 1.25` at precision 2: a tie
with an even window, which is kept (`1.0`, `-1` returned). -/
theorem sub1_nearest_decision_witness :
    (0 < sub1_carry 64 (dest64 2) one_and_bit_prec64 quarter_prec2 1 ∧
      sub1_carry 64 (dest64 2) one_and_bit_prec64 quarter_prec2 1
        < MPFR_LIMB_ONE <<< (sub1_sh 64 (dest64 2) - 1) ∧
      sub1_rounded 64 (dest64 2) one_and_bit_prec64 quarter_prec2 1 GMP_RNDN
        = ([3 * 2 ^ 62], -1, 0) ∧
      sub1_general env64 (dest64 2) one_and_bit_prec64 quarter_prec2 1 GMP_RNDN
        = ({ _mpfr_prec := 2, _mpfr_sign := 1, _mpfr_exp := regular 0,
             _mpfr_d := [3 * 2 ^ 62] }, -1)) ∧
    (sub1_carry 64 (dest64 2) three_halves_prec2 quarter_prec2 0
        = MPFR_LIMB_ONE <<< (sub1_sh 64 (dest64 2) - 1) ∧
      sub1_LB 64 (dest64 2) three_halves_prec2 quarter_prec2 0
        = sub1_LC 64 (dest64 2) three_halves_prec2 quarter_prec2 0 ∧
      limb_value 64 (sub1_rounded 64 (dest64 2) three_halves_prec2 quarter_prec2 0 GMP_RNDN).1
        / 2 ^ sub1_sh 64 (dest64 2) % 2 = 0) :=
  have h := sub1_nearest_decision 64 (1 - 2 ^ 62) (2 ^ 62 - 1) (dest64 2) one_and_bit_prec64
    quarter_prec2 1 (by decide) (by decide) (by decide) (by decide) (by decide) (by decide)
    (by decide)
  have t := sub1_nearest_decision 64 (1 - 2 ^ 62) (2 ^ 62 - 1) (dest64 2) three_halves_prec2
    quarter_prec2 0 (by decide) (by decide) (by decide) (by decide) (by decide) (by decide)
    (by decide)
  ⟨⟨by decide, by decide, ((h.2.2.1 (by decide) (by decide)).2).trans (by decide),
      (h.2.2.2.2.2 (by decide) (by decide)).trans (by decide)⟩,
    by decide, by decide, ((t.2.2.2.2.1 (by decide)).2.2.2 (by decide)).2 (by decide)⟩

set_option maxRecDepth 8000 in
/-- C18 as stated fails in three places, all at precision 2 (`sh = 62`, `half = 2 ^ 61`) on
the general path.  (1) `(1 + 2 ^ (-10)) - 0.25`: `0 < carry < half` and the residue is zero,
yet the result `0.75` is reported inexact (`-1`), not exact.  (2) `1.625 - (2 ^ (-3) +
2 ^ (-70))`: `carry = 0` and the residue is negative; the window value `1.5` is reported with
a positive ternary value, not inexact-below.  (3) `1.375 - (2 ^ (-3) + 2 ^ (-70))`:
`carry = half` and the residue is negative; the code truncates to `1.0` with `inexact = -1`,
it does not round up. -/
theorem sub1_nearest_fails :
    (mpfr_regular 64 one_and_bit_prec64 ∧ mpfr_regular 64 quarter_prec2 ∧
      mpfr_cmp2 64 one_and_bit_prec64 quarter_prec2 = (1, 1) ∧
      ¬ (MPFR_GET_EXP quarter_prec2
        ≤ MPFR_GET_EXP one_and_bit_prec64 - ((max 2 64 : Nat) : Int) - 2) ∧
      0 < sub1_carry 64 (dest64 2) one_and_bit_prec64 quarter_prec2 1 ∧
      sub1_carry 64 (dest64 2) one_and_bit_prec64 quarter_prec2 1
        < MPFR_LIMB_ONE <<< (sub1_sh 64 (dest64 2) - 1) ∧
      sub1_LB 64 (dest64 2) one_and_bit_prec64 quarter_prec2 1
        = sub1_LC 64 (dest64 2) one_and_bit_prec64 quarter_prec2 1 ∧
      mpfr_sub1 env64 (dest64 2) one_and_bit_prec64 quarter_prec2 GMP_RNDN
        = ({ _mpfr_prec := 2, _mpfr_sign := 1, _mpfr_exp := regular 0,
             _mpfr_d := [3 * 2 ^ 62] }, -1)) ∧
    (mpfr_regular 64 thirteen_eighths_prec4 ∧ mpfr_regular 64 straddling_c ∧
      mpfr_cmp2 64 thirteen_eighths_prec4 straddling_c = (1, 0) ∧
      ¬ (MPFR_GET_EXP straddling_c
        ≤ MPFR_GET_EXP thirteen_eighths_prec4 - ((max 2 4 : Nat) : Int) - 2) ∧
      sub1_carry 64 (dest64 2) thirteen_eighths_prec4 straddling_c 0 = 0 ∧
      sub1_LB 64 (dest64 2) thirteen_eighths_prec4 straddling_c 0
        < sub1_LC 64 (dest64 2) thirteen_eighths_prec4 straddling_c 0 ∧
      mpfr_sub1 env64 (dest64 2) thirteen_eighths_prec4 straddling_c GMP_RNDN
        = ({ _mpfr_prec := 2, _mpfr_sign := 1, _mpfr_exp := regular 1,
             _mpfr_d := [3 * 2 ^ 62] }, 1)) ∧
    (mpfr_regular 64 eleven_eighths_prec4 ∧
      mpfr_cmp2 64 eleven_eighths_prec4 straddling_c = (1, 0) ∧
      ¬ (MPFR_GET_EXP straddling_c
        ≤ MPFR_GET_EXP eleven_eighths_prec4 - ((max 2 4 : Nat) : Int) - 2) ∧
      sub1_carry 64 (dest64 2) eleven_eighths_prec4 straddling_c 0
        = MPFR_LIMB_ONE <<< (sub1_sh 64 (dest64 2) - 1) ∧
      sub1_LB 64 (dest64 2) eleven_eighths_prec4 straddling_c 0
        < sub1_LC 64 (dest64 2) eleven_eighths_prec4 straddling_c 0 ∧
      sub1_jump 64 (dest64 2) eleven_eighths_prec4 straddling_c 0 GMP_RNDN
        = Jump.truncate (-1) ∧
      mpfr_sub1 env64 (dest64 2) eleven_eighths_prec4 straddling_c GMP_RNDN
        = ({ _mpfr_prec := 2, _mpfr_sign := 1, _mpfr_exp := regular 1,
             _mpfr_d := [2 ^ 63] }, -1)) := by
  decide

/-! ## Claim C19: the two formulas for `shift_c` -/

/-- The code selects one of the two formulas (lines 172-179). -/
theorem sub1_shift_c_select (w : Nat) (d : Int) (cancel : Nat) :
    sub1_shift_c w d cancel =
      if (2 ^ 32 - 1) % w = w - 1 ∧ (2 ^ 32 - 1) % w > 0 then sub1_shift_c_unsigned w d cancel
      else sub1_shift_c_fallback w d cancel := rfl

/-- Line 174 is right when the limb width divides `2 ^ 32`. -/
theorem shift_c_unsigned_eq (w : Nat) (hw : limb_width_ok w) (d : Int) (cancel : Nat) :
    sub1_shift_c_unsigned w d cancel = (d - (cancel : Int)) % (w : Int) := by
  unfold sub1_shift_c_unsigned
  apply Int.emod_emod_of_dvd
  have : (2 : Int) ^ 64 = ((2 ^ 32 : Nat) : Int) * ((2 ^ 32 : Nat) : Int) := by norm_num
  rw [this]
  exact Dvd.dvd.mul_right (Int.natCast_dvd_natCast.mpr hw.2) _

/-- Lines 177-178 are right as long as `diff_exp + BITS_PER_MP_LIMB` fits in an `int`. -/
theorem shift_c_fallback_eq (w : Nat) (hw : 0 < w) (d : Int) (cancel : Nat) (hd : 0 ≤ d)
    (hdw : d + (w : Int) < 2 ^ 31) :
    sub1_shift_c_fallback w d cancel = (d - (cancel : Int)) % (w : Int) := by
  unfold sub1_shift_c_fallback
  simp only []
  have hr : cancel % w < w := Nat.mod_lt _ hw
  have hc := Nat.div_add_mod cancel w
  have hs : ((d - ((cancel % w : Nat) : Int)) % 2 ^ 64 + 2 ^ 31) % 2 ^ 32 - 2 ^ 31
      = d - ((cancel % w : Nat) : Int) := by
    omega
  rw [hs, Int.tmod_eq_emod (by omega) (by omega), Int.add_emod_self]
  have hcz : (cancel : Int) = ((cancel % w : Nat) : Int) + (w : Int) * ((cancel / w : Nat) : Int) := by
    exact_mod_cast (by omega : cancel = cancel % w + w * (cancel / w))
  have : d - (cancel : Int)
      = d - ((cancel % w : Nat) : Int) + (w : Int) * (- ((cancel / w : Nat) : Int)) := by
    rw [hcz]; ring
  rw [this, Int.add_mul_emod_self_left]

/-- C19 (amended): for a limb width that divides `2 ^ 32`, every exponent difference
`diff_exp ≥ 0` with `diff_exp + BITS_PER_MP_LIMB < 2 ^ 31` and every `cancel ≥ 0`, the two
formulas that `mpfr_sub1` may use for `shift_c` agree: the unsigned
`(diff_exp - cancel) % BITS_PER_MP_LIMB` equals the fallback
`((int) (diff_exp - cancel % BITS_PER_MP_LIMB) + BITS_PER_MP_LIMB) % BITS_PER_MP_LIMB`, both
equal `(diff_exp - cancel) mod BITS_PER_MP_LIMB`, and the value that the code stores satisfies
the assertion `0 ≤ shift_c < BITS_PER_MP_LIMB`. -/
theorem sub1_shift_c_formulas (w : Nat) (d : Int) (cancel : Nat) (hw : limb_width_ok w)
    (hd : 0 ≤ d) (hdw : d + (w : Int) < 2 ^ 31) :
    sub1_shift_c_unsigned w d cancel = sub1_shift_c_fallback w d cancel ∧
    sub1_shift_c_unsigned w d cancel = (d - (cancel : Int)) % (w : Int) ∧
    sub1_shift_c w d cancel = (d - (cancel : Int)) % (w : Int) ∧
    0 ≤ sub1_shift_c w d cancel ∧ sub1_shift_c w d cancel < (w : Int) := by
  have h1 := shift_c_unsigned_eq w hw d cancel
  have h2 := shift_c_fallback_eq w hw.1 d cancel hd hdw
  have h3 := shift_c_eq w hw d cancel
  have hw0 : (0 : Int) < w := by exact_mod_cast hw.1
  refine ⟨by rw [h1, h2], h1, h3, ?_, ?_⟩
  · rw [h3]; exact Int.emod_nonneg _ (ne_of_gt hw0)
  · rw [h3]; exact Int.emod_lt_of_pos _ hw0

/-- Witness of C19: limbs of 64 bits, `diff_exp = 5`, `cancel = 70`. -/
theorem sub1_shift_c_formulas_witness :
    sub1_shift_c_unsigned 64 5 70 = sub1_shift_c_fallback 64 5 70 ∧
    sub1_shift_c_unsigned 64 5 70 = (5 - ((70 : Nat) : Int)) % ((64 : Nat) : Int) ∧
    sub1_shift_c 64 5 70 = (5 - ((70 : Nat) : Int)) % ((64 : Nat) : Int) ∧
    0 ≤ sub1_shift_c 64 5 70 ∧ sub1_shift_c 64 5 70 < ((64 : Nat) : Int) :=
  sub1_shift_c_formulas 64 5 70 (by decide) (by decide) (by decide)

/-- C19 as stated fails.  With limbs of 64 bits, `diff_exp = 2 ^ 31 + 1` and `cancel = 0` the
unsigned formula gives 1 and the fallback gives -63, which also breaks the assertion of line
180: the `int` of line 177 cannot hold `diff_exp`.  With limbs of 48 bits, `diff_exp = 0` and
`cancel = 1` the unsigned formula gives 15 and the fallback 47, which is `-1 mod 48`: the
difference wraps modulo `2 ^ 64`, which 48 does not divide; this is the case in which the code
selects the fallback. -/
theorem sub1_shift_c_formulas_differ :
    sub1_shift_c_unsigned 64 (2 ^ 31 + 1) 0 = 1 ∧ sub1_shift_c_fallback 64 (2 ^ 31 + 1) 0 = -63 ∧
    sub1_shift_c_unsigned 48 0 1 = 15 ∧ sub1_shift_c_fallback 48 0 1 = 47 ∧
    sub1_shift_c 48 0 1 = 47 := by
  decide

/-! ## Claim C20: the alignment quantities -/

/-- Line 149: `shift_b = (-cancel) mod BITS_PER_MP_LIMB`. -/
theorem shift_b_eq (w cancel : Nat) (hw : 0 < w) :
    ((sub1_shift_b w cancel : Nat) : Int) = (- (cancel : Int)) % (w : Int) := by
  unfold sub1_shift_b MPFR_UNSIGNED_MINUS_MODULO
  have h1 := Nat.div_add_mod cancel w
  have h2 := Nat.mod_lt cancel hw
  have hcz : (cancel : Int) = ((cancel % w : Nat) : Int) + (w : Int) * ((cancel / w : Nat) : Int) := by
    exact_mod_cast (by omega : cancel = cancel % w + w * (cancel / w))
  have hw0 : (0 : Int) < w := by exact_mod_cast hw
  by_cases h0 : cancel % w = 0
  · rw [h0, Nat.sub_zero, Nat.mod_self]
    have : - (cancel : Int) = (w : Int) * (- ((cancel / w : Nat) : Int)) := by
      rw [hcz, h0]; push_cast; ring
    rw [this, Int.mul_emod_right]
    rfl
  · rw [Nat.mod_eq_of_lt (by omega)]
    have : - (cancel : Int)
        = ((w - cancel % w : Nat) : Int) + (w : Int) * (- ((cancel / w : Nat) : Int) - 1) := by
      rw [Nat.cast_sub (le_of_lt h2)]
      conv_lhs => rw [hcz]
      ring
    rw [this, Int.add_mul_emod_self_left, Int.emod_eq_of_lt (by omega) (by omega)]

/-- C20: in the alignment step, for a limb width that divides `2 ^ 32`, every `cancel ≥ 0` and
every `diff_exp = EXP (b) - EXP (c) ≥ 0`: `shift_b = (-cancel) mod BITS_PER_MP_LIMB`;
`cancel1 = ⌈cancel / BITS_PER_MP_LIMB⌉` (the integer `k` with
`cancel ≤ k * BITS_PER_MP_LIMB < cancel + BITS_PER_MP_LIMB`); `cancel - diff_exp + shift_c` is
a multiple of `BITS_PER_MP_LIMB`; and `cancel2 = ⌈(cancel - diff_exp) / BITS_PER_MP_LIMB⌉` as
a signed integer, negative exactly when the top of `c` lies at least one limb below the top of
the window (`diff_exp ≥ cancel + BITS_PER_MP_LIMB`). -/
theorem sub1_alignment (w : Nat) (b c : mpfr) (cancel : Nat) (hw : limb_width_ok w)
    (_hd : 0 ≤ MPFR_GET_EXP b - MPFR_GET_EXP c) :
    ((sub1_shift_b w cancel : Nat) : Int) = (- (cancel : Int)) % (w : Int) ∧
    (cancel ≤ sub1_cancel1 w cancel * w ∧ sub1_cancel1 w cancel * w < cancel + w) ∧
    (w : Int) ∣ (cancel : Int) - (MPFR_GET_EXP b - MPFR_GET_EXP c)
      + (sub1_shift_c_of w b c cancel : Int) ∧
    ((cancel : Int) - (MPFR_GET_EXP b - MPFR_GET_EXP c) ≤ sub1_cancel2 w b c cancel * (w : Int) ∧
      sub1_cancel2 w b c cancel * (w : Int)
        < (cancel : Int) - (MPFR_GET_EXP b - MPFR_GET_EXP c) + (w : Int)) ∧
    (sub1_cancel2 w b c cancel < 0
      ↔ (cancel : Int) + (w : Int) ≤ MPFR_GET_EXP b - MPFR_GET_EXP c) := by
  have hw0 : (0 : Int) < w := by exact_mod_cast hw.1
  have h1 := cancel1_mul w cancel hw.1
  have h2 := shift_b_lt w cancel hw.1
  have h3 := cancel2_mul w hw b c cancel
  obtain ⟨h4, _⟩ := shift_c_of_lt w hw b c cancel
  have h5 : (0 : Int) ≤ (sub1_shift_c_of w b c cancel : Int) := Int.natCast_nonneg _
  have h6 : ((sub1_shift_c_of w b c cancel : Nat) : Int) < (w : Int) := by exact_mod_cast h4
  refine ⟨shift_b_eq w cancel hw.1, ⟨by omega, by omega⟩, ?_, ⟨by omega, by omega⟩, ?_⟩
  · exact ⟨sub1_cancel2 w b c cancel, by rw [Int.mul_comm, h3]; ring⟩
  · constructor
    · intro hneg
      have : sub1_cancel2 w b c cancel * (w : Int) ≤ - (w : Int) := by
        have h7 : sub1_cancel2 w b c cancel ≤ -1 := by omega
        have := Int.mul_le_mul_of_nonneg_right h7 (le_of_lt hw0)
        linarith
      omega
    · intro hle
      by_contra hge
      have h7 : 0 ≤ sub1_cancel2 w b c cancel := by omega
      have := Int.mul_nonneg h7 (le_of_lt hw0)
      omega

/-- Witness of C20: limbs of 64 bits, `b = 1.375` and `c = 2 ^ (-3) + 2 ^ (-70)`
(`diff_exp = 3`), `cancel = 0`. -/
theorem sub1_alignment_witness :
    ((sub1_shift_b 64 0 : Nat) : Int) = (- ((0 : Nat) : Int)) % ((64 : Nat) : Int) ∧
    (0 ≤ sub1_cancel1 64 0 * 64 ∧ sub1_cancel1 64 0 * 64 < 0 + 64) ∧
    ((64 : Nat) : Int) ∣ ((0 : Nat) : Int)
      - (MPFR_GET_EXP eleven_eighths_prec4 - MPFR_GET_EXP straddling_c)
      + (sub1_shift_c_of 64 eleven_eighths_prec4 straddling_c 0 : Int) ∧
    (((0 : Nat) : Int) - (MPFR_GET_EXP eleven_eighths_prec4 - MPFR_GET_EXP straddling_c)
        ≤ sub1_cancel2 64 eleven_eighths_prec4 straddling_c 0 * ((64 : Nat) : Int) ∧
      sub1_cancel2 64 eleven_eighths_prec4 straddling_c 0 * ((64 : Nat) : Int)
        < ((0 : Nat) : Int) - (MPFR_GET_EXP eleven_eighths_prec4 - MPFR_GET_EXP straddling_c)
          + ((64 : Nat) : Int)) ∧
    (sub1_cancel2 64 eleven_eighths_prec4 straddling_c 0 < 0
      ↔ ((0 : Nat) : Int) + ((64 : Nat) : Int)
        ≤ MPFR_GET_EXP eleven_eighths_prec4 - MPFR_GET_EXP straddling_c) :=
  sub1_alignment 64 eleven_eighths_prec4 straddling_c 0 (by decide) (by decide)

/-! ## Claim C21: the limb accesses of the general path are in bounds -/

/-- Lines 235-249: the copy of `high(b)` stays inside `ap[0..an-1]` and `bp[0..bn-1]`. -/
theorem sub1_copy_high_b_accesses_ok (an cancel1 bn cn : Nat) :
    ∀ x ∈ sub1_copy_high_b_accesses an cancel1 bn, limb_access_ok an bn cn x := by
  intro x hx
  unfold sub1_copy_high_b_accesses at hx
  split_ifs at hx with h1 h2
  · simp only [List.mem_cons, List.mem_singleton, List.not_mem_nil, or_false] at hx
    rcases hx with rfl | rfl <;> (unfold limb_access_ok; simp only; omega)
  · simp only [List.mem_cons, List.mem_singleton, List.not_mem_nil, or_false] at hx
    rcases hx with rfl | rfl | rfl <;> (unfold limb_access_ok; simp only; omega)
  · simp only [List.mem_singleton] at hx
    rw [hx]
    unfold limb_access_ok; simp only; omega

/-- Lines 255-292: the subtraction of `high(c)` stays inside `ap[0..an-1]` and
`cp[0..cn-1]`. -/
theorem sub1_sub_high_c_accesses_ok (an bn cn : Nat) (cancel2 : Int) :
    ∀ x ∈ sub1_sub_high_c_accesses an cancel2 cn, limb_access_ok an bn cn x := by
  intro x hx
  unfold sub1_sub_high_c_accesses at hx
  split_ifs at hx with h1 h2 h3 h4 h5
  · simp only [List.mem_cons, List.mem_singleton, List.not_mem_nil, or_false] at hx
    rcases hx with rfl | rfl <;> (unfold limb_access_ok; simp only; omega)
  · simp only [List.mem_cons, List.mem_singleton, List.not_mem_nil, or_false] at hx
    rcases hx with rfl | rfl <;> (unfold limb_access_ok; simp only; omega)
  · exact absurd hx (List.not_mem_nil _)
  · simp only [List.mem_append, List.mem_cons, List.mem_singleton, List.not_mem_nil,
      or_false] at hx
    rcases hx with (rfl | rfl) | rfl <;> (unfold limb_access_ok; simp only; omega)
  · simp only [List.mem_append, List.mem_cons, List.mem_singleton, List.not_mem_nil,
      or_false] at hx
    rcases hx with (rfl | rfl) | rfl <;> (unfold limb_access_ok; simp only; omega)
  · exact absurd hx (List.not_mem_nil _)

/-- Lines 351-358: every read of the loop is a read of one limb of `bp` or `cp` at an index
inside the array, whatever the number of iterations. -/
theorem sub1_loop_trace_ok (w : Nat) (rnd : mp_rnd_t) (sh : Nat) (ap bp cp : List Nat) (cn0 : Int)
    (an : Nat) (hcn0 : cn0 ≤ (cp.length : Int)) (fuel : Nat) :
    ∀ (bn cn : Int) (k : Nat) (down is_exact : Bool), bn ≤ (bp.length : Int) →
      ∀ x ∈ (sub1_loop_trace w rnd sh ap bp cp cn0 fuel bn cn k down is_exact).1,
        x.length = 1 ∧ x.array ≠ limb_array.ap ∧ limb_access_ok an bp.length cp.length x := by
  induction fuel with
  | zero =>
    intro bn cn k down is_exact _ x hx
    rw [sub1_loop_trace] at hx
    exact absurd hx (List.not_mem_nil _)
  | succ n ih =>
    intro bn cn k down is_exact hbn
    rw [sub1_loop_trace]
    simp only []
    have key : ∀ (c : Prop) [Decidable c] (r s : List limb_access × Jump),
        (∀ x ∈ r.1, x.length = 1 ∧ x.array ≠ limb_array.ap
          ∧ limb_access_ok an bp.length cp.length x) →
        (∀ x ∈ s.1, x.length = 1 ∧ x.array ≠ limb_array.ap
          ∧ limb_access_ok an bp.length cp.length x) →
        ∀ x ∈ (if c then r else s).1, x.length = 1 ∧ x.array ≠ limb_array.ap
          ∧ limb_access_ok an bp.length cp.length x := by
      intro c _ r s hr hs
      split
      · exact hr
      · exact hs
    have hreads : ∀ x ∈ (if bn > 0 then [(⟨limb_array.bp, bn - 1, 1⟩ : limb_access)] else [])
        ++ (if cn > 0 ∧ cn ≤ cn0 then [(⟨limb_array.cp, cn - 1, 1⟩ : limb_access)] else []),
        x.length = 1 ∧ x.array ≠ limb_array.ap ∧ limb_access_ok an bp.length cp.length x := by
      intro x hx
      rw [List.mem_append] at hx
      rcases hx with hx | hx
      · split_ifs at hx with h
        · rw [List.mem_singleton] at hx
          rw [hx]
          refine ⟨rfl, fun h => limb_array.noConfusion h, ?_⟩
          unfold limb_access_ok; simp only; omega
        · exact absurd hx (List.not_mem_nil _)
      · split_ifs at hx with h
        · rw [List.mem_singleton] at hx
          rw [hx]
          refine ⟨rfl, fun h => limb_array.noConfusion h, ?_⟩
          unfold limb_access_ok; simp only; omega
        · exact absurd hx (List.not_mem_nil _)
    have hbn1 : (if bn > 0 then bn - 1 else bn) ≤ (bp.length : Int) := by
      split <;> omega
    have hnext : ∀ (d e : Bool), ∀ x ∈ ((if bn > 0 then [(⟨limb_array.bp, bn - 1, 1⟩ : limb_access)]
          else [])
        ++ (if cn > 0 ∧ cn ≤ cn0 then [(⟨limb_array.cp, cn - 1, 1⟩ : limb_access)] else []))
        ++ (sub1_loop_trace w rnd sh ap bp cp cn0 n (if bn > 0 then bn - 1 else bn)
          (if cn > 0 then cn - 1 else cn) 1 d e).1,
        x.length = 1 ∧ x.array ≠ limb_array.ap ∧ limb_access_ok an bp.length cp.length x := by
      intro d e x hx
      rw [List.mem_append] at hx
      rcases hx with hx | hx
      · exact hreads x hx
      · exact ih _ _ _ _ _ hbn1 x hx
    refine key _ _ _ ?_ (fun x hx => absurd hx (List.not_mem_nil _))
    refine key _ _ _ ?_ (key _ _ _ ?_ (hnext _ _))
    · exact key _ _ _ hreads (key _ _ _ hreads (key _ _ _ (key _ _ _ hreads (hnext _ _))
        (key _ _ _ hreads hreads)))
    · exact key _ _ _ hreads (key _ _ _ hreads (key _ _ _ hreads (key _ _ _ hreads hreads)))

/-- The second component of the trace is the label that `sub1_loop` jumps to. -/
theorem sub1_loop_trace_jump (w : Nat) (rnd : mp_rnd_t) (sh : Nat) (ap bp cp : List Nat)
    (cn0 : Int) (fuel : Nat) : ∀ (bn cn : Int) (k : Nat) (down is_exact : Bool),
    (sub1_loop_trace w rnd sh ap bp cp cn0 fuel bn cn k down is_exact).2
      = sub1_loop w rnd sh ap bp cp cn0 fuel bn cn k down is_exact := by
  induction fuel with
  | zero =>
    intro bn cn k down is_exact
    rw [sub1_loop_trace, sub1_loop]
  | succ n ih =>
    intro bn cn k down is_exact
    rw [sub1_loop_trace, sub1_loop]
    simp only [apply_ite Prod.snd, ih]

/-- The loop ends by itself within `max bn cn` iterations: more fuel changes nothing. -/
theorem sub1_loop_trace_fuel (w : Nat) (rnd : mp_rnd_t) (sh : Nat) (ap bp cp : List Nat)
    (cn0 : Int) (extra fuel : Nat) : ∀ (bn cn : Int) (k : Nat) (down is_exact : Bool),
    max bn cn ≤ (fuel : Int) →
    sub1_loop_trace w rnd sh ap bp cp cn0 (fuel + extra) bn cn k down is_exact
      = sub1_loop_trace w rnd sh ap bp cp cn0 fuel bn cn k down is_exact := by
  induction fuel with
  | zero =>
    intro bn cn k down is_exact hf
    have hneg : ¬ (bn > 0 ∨ cn > 0) := by omega
    cases extra with
    | zero => rfl
    | succ m =>
      rw [Nat.zero_add, sub1_loop_trace, sub1_loop_trace, if_neg hneg]
  | succ n ih =>
    intro bn cn k down is_exact hf
    have e : n + 1 + extra = (n + extra) + 1 := by omega
    rw [e, sub1_loop_trace, sub1_loop_trace]
    have hf1 : max (if bn > 0 then bn - 1 else bn) (if cn > 0 then cn - 1 else cn)
        ≤ (n : Int) := by
      split <;> split <;> omega
    have key : ∀ (d e : Bool),
        sub1_loop_trace w rnd sh ap bp cp cn0 (n + extra) (if bn > 0 then bn - 1 else bn)
          (if cn > 0 then cn - 1 else cn) 1 d e
        = sub1_loop_trace w rnd sh ap bp cp cn0 n (if bn > 0 then bn - 1 else bn)
          (if cn > 0 then cn - 1 else cn) 1 d e := fun d e => ih _ _ _ _ _ hf1
    simp only [key]

/-- C21: for regular operands and every `cancel`, every limb access of the general path
before the rounding labels is in bounds.  The ranges of the copy of `high(b)` (lines 235-249)
and of each `mpn_sub_n` and `mpn_sub_1` of the subtraction of `high(c)` (lines 255-292) have a
non-negative offset and length and lie inside `ap[0..an-1]`, inside `bp` (of `bn` limbs, one
more than `b` when it was shifted) and inside `cp` (likewise).  In the loop on the low limbs
`bp[--bn]` and `cp[cn]` are reads of one limb at an index `0 ≤ i <` the length of the array,
`cp` being read only when the running count is at most `cn0`.  The trace whose reads are
bounded jumps to the label of `sub1_low`, and the loop ends within the `max (bn, cn)`
iterations that the model grants it. -/
theorem sub1_accesses_in_bounds (w : Nat) (a b c : mpfr) (cancel : Nat) (rnd0 : mp_rnd_t)
    (hw : limb_width_ok w) (hb : mpfr_regular w b) (hc : mpfr_regular w c) :
    (∀ x ∈ sub1_accesses w a b c cancel rnd0,
      limb_access_ok (MPFR_LIMB_SIZE w a) (sub1_bp w b cancel).length
        (sub1_cp w b c cancel).length x) ∧
    (∀ x ∈ (sub1_low_trace w a b c cancel rnd0).1,
      x.length = 1 ∧ x.array ≠ limb_array.ap ∧ 0 ≤ x.offset ∧
      (x.array = limb_array.bp → x.offset < ((sub1_bp w b cancel).length : Int)) ∧
      (x.array = limb_array.cp → x.offset < ((sub1_cp w b c cancel).length : Int))) ∧
    (sub1_low_trace w a b c cancel rnd0).2 = sub1_low w a b c cancel rnd0 ∧
    (∀ extra : Nat,
      sub1_loop_trace w (sub1_rnd_mode a rnd0) (sub1_sh w a) (sub1_masked w a b c cancel)
        (sub1_bp w b cancel) (sub1_cp w b c cancel) (sub1_cn w b c cancel)
        ((max (sub1_bnl w a b cancel) (sub1_cnl w a b c cancel)).toNat + extra)
        (sub1_bnl w a b cancel) (sub1_cnl w a b c cancel) 0
        (if rnd0 = GMP_RNDN ∧ sub1_sh w a ≠ 0
          then decide (sub1_carry w a b c cancel < MPFR_LIMB_ONE <<< (sub1_sh w a - 1))
          else false)
        (if rnd0 = GMP_RNDN ∧ sub1_sh w a ≠ 0 then decide (sub1_carry w a b c cancel = 0)
          else true)
      = sub1_low_trace w a b c cancel rnd0) := by
  obtain ⟨hbl, _, _⟩ := sub1_bp_spec w hw.1 b hb cancel
  obtain ⟨hcl, _, _⟩ := sub1_cp_spec w hw b c hc cancel
  have hloop : ∀ x ∈ (sub1_low_trace w a b c cancel rnd0).1,
      x.length = 1 ∧ x.array ≠ limb_array.ap ∧
      limb_access_ok (MPFR_LIMB_SIZE w a) (sub1_bp w b cancel).length
        (sub1_cp w b c cancel).length x := by
    unfold sub1_low_trace
    simp only []
    apply sub1_loop_trace_ok
    · rw [hcl]
    · rw [hbl]; omega
  refine ⟨?_, ?_, ?_, ?_⟩
  · intro x hx
    unfold sub1_accesses at hx
    rw [List.mem_append, List.mem_append] at hx
    rcases hx with (hx | hx) | hx
    · rw [hbl]
      exact sub1_copy_high_b_accesses_ok _ _ _ _ x hx
    · have hcn : sub1_cn w b c cancel = (((sub1_cp w b c cancel).length : Nat) : Int) := hcl.symm
      rw [hcn] at hx
      exact sub1_sub_high_c_accesses_ok _ _ _ _ x hx
    · exact (hloop x hx).2.2
  · intro x hx
    obtain ⟨h1, h2, h3, h4, h5⟩ := hloop x hx
    refine ⟨h1, h2, h3, ?_, ?_⟩
    · intro hbp
      rw [hbp] at h5
      simp only at h5
      omega
    · intro hcp
      rw [hcp] at h5
      simp only at h5
      omega
  · unfold sub1_low_trace sub1_low
    simp only []
    exact sub1_loop_trace_jump _ _ _ _ _ _ _ _ _ _ _ _ _
  · intro extra
    unfold sub1_low_trace
    simp only []
    exact sub1_loop_trace_fuel _ _ _ _ _ _ _ _ _ _ _ _ _ _ (by
      unfold sub1_bnl sub1_cnl
      omega)

set_option maxRecDepth 8000 in
/-- Witness of C21: `1.375 - (2 ^ (-3) + 2 ^ (-70))` at precision 4 under round-to-nearest:
`c` has two limbs and is shifted, the window has one limb, and the loop reads one limb of
`cp`. -/
theorem sub1_accesses_in_bounds_witness :
    sub1_accesses 64 (dest64 4) eleven_eighths_prec4 straddling_c 0 GMP_RNDN
      = [⟨limb_array.ap, 0, 1⟩, ⟨limb_array.bp, 0, 1⟩, ⟨limb_array.ap, 0, 1⟩,
         ⟨limb_array.cp, 2, 1⟩, ⟨limb_array.cp, 1, 1⟩] ∧
    (sub1_cp 64 eleven_eighths_prec4 straddling_c 0).length = 3 ∧
    ∀ x ∈ sub1_accesses 64 (dest64 4) eleven_eighths_prec4 straddling_c 0 GMP_RNDN,
      limb_access_ok (MPFR_LIMB_SIZE 64 (dest64 4))
        (sub1_bp 64 eleven_eighths_prec4 0).length
        (sub1_cp 64 eleven_eighths_prec4 straddling_c 0).length x :=
  ⟨by decide, by decide,
    (sub1_accesses_in_bounds 64 (dest64 4) eleven_eighths_prec4 straddling_c 0 GMP_RNDN
      (by decide) (by decide) (by decide)).1⟩

/-! ## Claim C22: the case `1 - epsilon` at the label `truncate` -/

/-- C22: on the general path, for regular operands in order with `cancel` as stored by
`mpfr_cmp2`.  When the code jumps to `truncate` and the label finds the top bit of `ap[an-1]`
clear, every limb of the window is zero, the exact difference lies strictly between
`2 ^ (an * BITS_PER_MP_LIMB) - 1` and `2 ^ (an * BITS_PER_MP_LIMB)` units of the window (the
window wrapped), and `inexact` is `+1`: it is never 0 or negative.  The label then stores the
minimal significand with `add_exp = 1`, which is strictly above the exact difference.  When the
code falls into `truncate` from `add_one_ulp` the top bit is set, so the branch is not
entered. -/
theorem sub1_one_minus_epsilon (w : Nat) (hw : limb_width_ok w) (a b c : mpfr)
    (ha : 1 ≤ MPFR_PREC a) (hb : mpfr_regular w b) (hc : mpfr_regular w c)
    (hlt : mpfr_abs_in w c (common_unit w b c) < mpfr_abs_in w b (common_unit w b c))
    (cancel : Nat) (hcancel : cancel = (mpfr_cmp2 w b c).2) (rnd0 : mp_rnd_t) :
    (∀ i, sub1_jump w a b c cancel rnd0 = Jump.truncate i →
      (sub1_masked w a b c cancel).getD (MPFR_LIMB_SIZE w a - 1) 0 >>> (w - 1) = 0 →
      sub1_masked w a b c cancel = MPN_ZERO (MPFR_LIMB_SIZE w a) ∧
      i = 1 ∧
      (2 ^ (w * MPFR_LIMB_SIZE w a) - 1) * 2 ^ (w * sub1_m w a b c cancel)
        < sub1_X w a b c cancel ∧
      sub1_X w a b c cancel
        < 2 ^ (w * MPFR_LIMB_SIZE w a) * 2 ^ (w * sub1_m w a b c cancel) ∧
      sub1_rounded w a b c cancel rnd0
        = (MPN_ZERO (MPFR_LIMB_SIZE w a - 1) ++ [MPFR_LIMB_HIGHBIT w], 1, 1) ∧
      sub1_X w a b c cancel
        < limb_value w (sub1_rounded w a b c cancel rnd0).1
          * 2 ^ (sub1_rounded w a b c cancel rnd0).2.2 * 2 ^ (w * sub1_m w a b c cancel)) ∧
    (sub1_jump w a b c cancel rnd0 = Jump.add_one_ulp →
      (if (mpn_add_1 w (sub1_masked w a b c cancel) (MPFR_LIMB_SIZE w a)
            (MPFR_LIMB_ONE <<< sub1_sh w a)).2 ≠ 0
        then MPN_STORE (mpn_add_1 w (sub1_masked w a b c cancel) (MPFR_LIMB_SIZE w a)
            (MPFR_LIMB_ONE <<< sub1_sh w a)).1 (MPFR_LIMB_SIZE w a - 1) [MPFR_LIMB_HIGHBIT w]
        else (mpn_add_1 w (sub1_masked w a b c cancel) (MPFR_LIMB_SIZE w a)
            (MPFR_LIMB_ONE <<< sub1_sh w a)).1).getD (MPFR_LIMB_SIZE w a - 1) 0 >>> (w - 1)
        ≠ 0) := by
  obtain ⟨_, hml, hmwf, _⟩ := sub1_masked_spec w hw a b c ha hb hc cancel
  obtain ⟨h1, h2, hcase⟩ := sub1_state w hw a b c ha hb hc hlt cancel hcancel
  obtain ⟨hsh, hshp⟩ := sub1_sh_lt w hw.1 a ha
  have han := limb_size_pos w a
  obtain ⟨s1, s2, s3, s4, s5, s6⟩ := sub1_jump_ok w hw a b c ha hb hc cancel rnd0
  have htr := sub1_jump_truncate w a b c cancel rnd0
  have hV : limb_value w (sub1_masked w a b c cancel) < 2 ^ (w * MPFR_LIMB_SIZE w a) := by
    have := limb_value_lt w _ hmwf; rwa [hml] at this
  have hT2 : 2 ^ (w * MPFR_LIMB_SIZE w a) = 2 ^ (w * MPFR_LIMB_SIZE w a - 1) * 2 := by
    rw [← pow_succ]; congr 1
    have := Nat.mul_pos hw.1 han
    omega
  have hone : MPFR_LIMB_ONE <<< sub1_sh w a = 2 ^ sub1_sh w a := by
    unfold MPFR_LIMB_ONE; rw [Nat.shiftLeft_eq, Nat.one_mul]
  have hupos : 0 < 2 ^ sub1_sh w a := Nat.two_pow_pos _
  have hPpos : 0 < 2 ^ (w * sub1_m w a b c cancel) := Nat.two_pow_pos _
  have hTpos : 0 < 2 ^ (w * MPFR_LIMB_SIZE w a) := Nat.two_pow_pos _
  have hsth := sub1_truncate_spec w hw.1
  have htop := top_bit_test w hw.1
  obtain ⟨z1, z2⟩ := setmin_window w (MPFR_LIMB_SIZE w a) hw.1 han
  have zv := setmin_value w hw.1 (MPFR_LIMB_SIZE w a) han
  unfold sub1_rounded
  generalize sub1_jump w a b c cancel rnd0 = j at s1 s2 s3 s4 s5 s6 htr ⊢
  generalize sub1_masked w a b c cancel = M at hml hmwf hcase hV ⊢
  generalize (sub1_carry w a b c cancel : Int) * ((2 ^ (w * sub1_m w a b c cancel) : Nat) : Int)
    + ((sub1_LB w a b c cancel : Int) - sub1_LC w a b c cancel) = rho at h1 h2 hcase s1 s2 s3 s4 s5 s6
  generalize sub1_X w a b c cancel = X at hcase ⊢
  generalize 2 ^ (w * sub1_m w a b c cancel) = P at h1 h2 hcase hPpos ⊢
  constructor
  · intro i hj hbit
    have hlow : limb_value w M < 2 ^ (w * MPFR_LIMB_SIZE w a - 1) :=
      (htop M _ han hml hmwf).mp hbit
    rcases hcase with ⟨c1, _, _⟩ | ⟨c1, c2, c3⟩
    · omega
    · have hM : M = MPN_ZERO (MPFR_LIMB_SIZE w a) := by
        have := limb_value_eq_zero w M c1
        rw [hml] at this
        exact this
      have hi : i = 1 := by
        have hsgn := s1 i hj
        have hr : int_sign (-rho) = 1 := int_sign_of_pos _ (by omega)
        rw [hr] at hsgn
        rcases htr i hj with h | h | h
        · rw [h] at hsgn; exact absurd hsgn (by decide)
        · rw [h] at hsgn; exact absurd hsgn (by decide)
        · exact h
      have hXlt : X < 2 ^ (w * MPFR_LIMB_SIZE w a) * P := by
        have : (X : Int) < ((2 ^ (w * MPFR_LIMB_SIZE w a) * P : Nat) : Int) := by omega
        exact_mod_cast this
      have hXgt : (2 ^ (w * MPFR_LIMB_SIZE w a) - 1) * P < X := by
        have e : ((2 ^ (w * MPFR_LIMB_SIZE w a) - 1) * P : Nat)
            = 2 ^ (w * MPFR_LIMB_SIZE w a) * P - P := by
          rw [Nat.sub_mul, Nat.one_mul]
        have hle : P ≤ 2 ^ (w * MPFR_LIMB_SIZE w a) * P := Nat.le_mul_of_pos_left _ hTpos
        have : ((2 ^ (w * MPFR_LIMB_SIZE w a) * P - P : Nat) : Int) < (X : Int) := by
          rw [Nat.cast_sub hle]; omega
        rw [e]
        exact_mod_cast this
      have hR : sub1_labels w (MPFR_LIMB_SIZE w a) (sub1_sh w a) M j
          = (MPN_ZERO (MPFR_LIMB_SIZE w a - 1) ++ [MPFR_LIMB_HIGHBIT w], 1, 1) := by
        rw [hj, hi]
        simp only [sub1_labels]
        rw [(hsth M _ han hml hmwf 1 0).2 hlow, store_highbit_zero w _ han M hml c1]
      refine ⟨hM, hi, hXgt, hXlt, hR, ?_⟩
      rw [hR]
      simp only
      rw [zv, pow_one, ← hT2]
      exact hXlt
  · intro hj
    have hrho := s5 hj
    obtain ⟨a1, a2, a3, a4⟩ := add_1_value w M (MPFR_LIMB_SIZE w a) (MPFR_LIMB_ONE <<< sub1_sh w a)
      hml hmwf
    replace a3 : limb_value w
        (mpn_add_1 w M (MPFR_LIMB_SIZE w a) (MPFR_LIMB_ONE <<< sub1_sh w a)).1
        = (limb_value w M + 2 ^ sub1_sh w a) % 2 ^ (w * MPFR_LIMB_SIZE w a) := by
      rw [a3, hone]
    replace a4 : (mpn_add_1 w M (MPFR_LIMB_SIZE w a) (MPFR_LIMB_ONE <<< sub1_sh w a)).2 ≠ 0
        ↔ 2 ^ (w * MPFR_LIMB_SIZE w a) ≤ limb_value w M + 2 ^ sub1_sh w a := by
      rw [a4, hone]
    rcases hcase with ⟨c1, c2, _⟩ | ⟨_, _, c3⟩
    · by_cases hcy : (mpn_add_1 w M (MPFR_LIMB_SIZE w a) (MPFR_LIMB_ONE <<< sub1_sh w a)).2 ≠ 0
      · rw [if_pos hcy]
        intro hbit
        have hsl : (MPN_STORE (mpn_add_1 w M (MPFR_LIMB_SIZE w a)
            (MPFR_LIMB_ONE <<< sub1_sh w a)).1 (MPFR_LIMB_SIZE w a - 1)
            [MPFR_LIMB_HIGHBIT w]).length = MPFR_LIMB_SIZE w a := by
          rw [MPN_STORE_length _ _ _ (by rw [a1, List.length_singleton]; omega), a1]
        have hswf : ∀ x ∈ MPN_STORE (mpn_add_1 w M (MPFR_LIMB_SIZE w a)
            (MPFR_LIMB_ONE <<< sub1_sh w a)).1 (MPFR_LIMB_SIZE w a - 1)
            [MPFR_LIMB_HIGHBIT w], x < 2 ^ w := by
          apply wf_MPN_STORE w _ _ _ a2
          intro x hx
          rw [List.mem_singleton] at hx
          rw [hx, highbit_eq]
          exact Nat.pow_lt_pow_right (by norm_num) (by have := hw.1; omega)
        have hlow := (htop _ _ han hsl hswf).mp hbit
        have hge := a4.mp hcy
        obtain ⟨v, hv⟩ : 2 ^ sub1_sh w a ∣ limb_value w M := Nat.dvd_of_mod_eq_zero c2
        have hTs : 2 ^ (w * MPFR_LIMB_SIZE w a)
            = 2 ^ sub1_sh w a * 2 ^ (w * MPFR_LIMB_SIZE w a - sub1_sh w a) := by
          rw [← pow_add]; congr 1; omega
        have hvlt : v < 2 ^ (w * MPFR_LIMB_SIZE w a - sub1_sh w a) := by
          rw [hv, hTs] at hV
          exact Nat.lt_of_mul_lt_mul_left hV
        have hle : limb_value w M + 2 ^ sub1_sh w a ≤ 2 ^ (w * MPFR_LIMB_SIZE w a) := by
          rw [hv, hTs]
          have : 2 ^ sub1_sh w a * (v + 1)
              ≤ 2 ^ sub1_sh w a * 2 ^ (w * MPFR_LIMB_SIZE w a - sub1_sh w a) :=
            Nat.mul_le_mul_left _ hvlt
          rw [Nat.mul_add, Nat.mul_one] at this
          exact this
        have hsum0 : limb_value w
            (mpn_add_1 w M (MPFR_LIMB_SIZE w a) (MPFR_LIMB_ONE <<< sub1_sh w a)).1 = 0 := by
          rw [a3, show limb_value w M + 2 ^ sub1_sh w a = 2 ^ (w * MPFR_LIMB_SIZE w a) by omega,
            Nat.mod_self]
        rw [store_highbit_zero w _ han _ a1 hsum0, zv] at hlow
        omega
      · rw [if_neg hcy]
        intro hbit
        have hlow := (htop _ _ han a1 a2).mp hbit
        have hlt2 : limb_value w M + 2 ^ sub1_sh w a < 2 ^ (w * MPFR_LIMB_SIZE w a) := by
          by_contra hcon
          exact hcy (a4.mpr (by omega))
        rw [a3, Nat.mod_eq_of_lt hlt2] at hlow
        omega
    · omega

set_option maxRecDepth 8000 in
/-- Witness of C22: `1.0 - 2 ^ (-65)` at precision 64 rounded toward plus infinity: the jump
is `truncate` with `inexact = 1`, the window is zero and the label stores the minimal
significand with `add_exp = 1`. -/
theorem sub1_one_minus_epsilon_witness :
    sub1_jump 64 (dest64 64) one_prec64 half_ulp_below_one 1 GMP_RNDU = Jump.truncate 1 ∧
    (sub1_masked 64 (dest64 64) one_prec64 half_ulp_below_one 1).getD
        (MPFR_LIMB_SIZE 64 (dest64 64) - 1) 0 >>> (64 - 1) = 0 ∧
    sub1_masked 64 (dest64 64) one_prec64 half_ulp_below_one 1
      = MPN_ZERO (MPFR_LIMB_SIZE 64 (dest64 64)) ∧
    sub1_rounded 64 (dest64 64) one_prec64 half_ulp_below_one 1 GMP_RNDU = ([2 ^ 63], 1, 1) :=
  have h := (sub1_one_minus_epsilon 64 (by decide) (dest64 64) one_prec64 half_ulp_below_one
    (by decide) (by decide) (by decide) (by decide) 1 (by decide) GMP_RNDU).1 1 (by decide)
    (by decide)
  ⟨by decide, by decide, h.1, h.2.2.2.2.1.trans (by decide)⟩

end MPFR
